import Mathlib

/-!
# gbalzss: the GBA LZSS (LZ10 / LZ11) encoder and decoder

A shallow embedding of `src/src/gbalzss.cpp` and theorems about it.

* A `Buffer` (`std::vector<uint8_t>`) is a list of bytes, a byte is a `Fin 256`.
* Iterators into a buffer are natural-number indices; `source.cend()` is
  `source.length`.
* `size_t` values are natural numbers (no computation of the program comes near
  the 64-bit range); a value stored into a buffer is truncated by `u8`.
* Every `while`/`for` loop is a function recursive on a fuel argument that is
  instantiated with a bound on the number of iterations of the loop.
-/

namespace GbaLzss

/-- One `uint8_t`. -/
abbrev Byte := Fin 256

/-- The type `Buffer` of the source: `std::vector<uint8_t>`. -/
abbrev Buffer := List Byte

/-- Conversion of an integer value to `uint8_t` (what `push_back` and `|=` on a
buffer element do to a wider value). -/
def u8 (n : Nat) : Byte := ⟨n % 256, Nat.mod_lt n (by decide)⟩

/-- Value of `LZSS_MAX_ENCODE_LEN`. -/
def LZSS_MAX_ENCODE_LEN : Nat := 0x00FFFFFF

/-- Value of `LZSS_MAX_DECODE_LEN`. -/
def LZSS_MAX_DECODE_LEN : Nat := 0x01B00003

/-- Value of `LZ10_MAX_LEN`. -/
def LZ10_MAX_LEN : Nat := 18

/-- Value of `LZ10_MAX_DISP`. -/
def LZ10_MAX_DISP : Nat := 4096

/-- Value of `LZ11_MAX_LEN`. -/
def LZ11_MAX_LEN : Nat := 65808

/-- Value of `LZ11_MAX_DISP`. -/
def LZ11_MAX_DISP : Nat := 4096

/-- The enumeration `LZSS_t`. -/
inductive LZSS_t where
  | LZ10
  | LZ11
  deriving DecidableEq, Repr

/-- Numeric value of an `LZSS_t` enumerator (`LZ10 = 0x10`, `LZ11 = 0x11`). -/
def LZSS_t.tag : LZSS_t → Nat
  | .LZ10 => 0x10
  | .LZ11 => 0x11

/-! ## Match finder -/

/-- The loop of `rfind`: `while(--it >= first) { if(*it == val) return it; }
return last;`.  The last argument is the value of `it` before the decrement. -/
def rfind_loop (source : Buffer) (first last : Nat) (val : Byte) : Nat → Nat
  | 0 => last
  | it + 1 =>
    if first ≤ it then
      if source.getD it 0 = val then it
      else rfind_loop source first last val it
    else last

/-- The function `rfind(first, last, val)`: index of the last occurrence of
`val` in `[first, last)`, or `last` when there is none. -/
def rfind (source : Buffer) (first last : Nat) (val : Byte) : Nat :=
  rfind_loop source first last val last

/-- The inner `for(size_t i = 1; i < len; ++i)` loop of `find_best_match`
(lines 129-136); arguments after the fuel are `i` and `test_len`. -/
def test_len_loop (source : Buffer) (p it len : Nat) : Nat → Nat → Nat → Nat
  | 0, _, test_len => test_len
  | fuel + 1, i, test_len =>
    if i < len then
      if source.getD (p + i) 0 = source.getD (it + i) 0 then
        test_len_loop source p it len fuel (i + 1) (test_len + 1)
      else test_len
    else test_len

/-- The `while(p != last_p)` loop of `find_best_match` (lines 126-156);
arguments after the fuel are `p`, `last_p`, `best_start`, `best_len`. -/
def fbm_loop (source : Buffer) (begin it len : Nat) (vram : Bool) :
    Nat → Nat → Nat → Nat → Nat → Nat × Nat
  | 0, _, _, best_start, best_len => (best_start, best_len)
  | fuel + 1, p, last_p, best_start, best_len =>
    if p = last_p then (best_start, best_len)
    else
      let test_len := test_len_loop source p it len len 1 1
      let test_len := if vram = true ∧ it - p = 1 then 0 else test_len
      let best_start' := if test_len ≥ best_len then p else best_start
      let best_len' := if test_len ≥ best_len then test_len else best_len
      if best_len' = len then (best_start', best_len')
      else
        fbm_loop source begin it len vram fuel
          (rfind source begin p (source.getD it 0)) p best_start' best_len'

/-- The function `find_best_match(source, it, len, max_disp, vram, outlen)`.
Returns the iterator and `outlen`; `source.length` stands for `source.cend()`.
The candidates `p` are strictly decreasing and below `it`, so `it` bounds the
number of iterations of the loop. -/
def find_best_match (source : Buffer) (it len max_disp : Nat) (vram : Bool) : Nat × Nat :=
  let begin := if it > max_disp then it - max_disp else 0
  let len := if source.length - it < len then source.length - it else len
  let r := fbm_loop source begin it len vram it
    (rfind source begin it (source.getD it 0)) it it 0
  if r.2 ≠ 0 then (r.1, r.2) else (source.length, 0)

/-! ## Encoder -/

/-- The function `header(buffer, type, size)`. -/
def header (buffer : Buffer) (type : Nat) (size : Nat) : Buffer :=
  buffer ++ [u8 type, u8 (size >>> 0), u8 (size >>> 8), u8 (size >>> 16)]

/-- The local variables of `lzss_encode` that live across loop iterations. -/
structure EncState where
  /-- The cursor `it` into the source. -/
  it : Nat
  /-- The output buffer `result`. -/
  result : Buffer
  /-- Index of the current code byte. -/
  code_pos : Nat
  /-- Bit position in the current code byte. -/
  shift : Nat
  deriving DecidableEq, Repr

/-- Maximum match length of a mode (line 194). -/
def max_len (mode : LZSS_t) : Nat :=
  if mode = .LZ10 then LZ10_MAX_LEN else LZ11_MAX_LEN

/-- Maximum displacement of a mode (line 197). -/
def max_disp (mode : LZSS_t) : Nat :=
  if mode = .LZ10 then LZ10_MAX_DISP else LZ11_MAX_DISP

/-- Lines 231-285 of `lzss_encode`: the choice of `(tmp, tmplen)` at the cursor
`it`, including the look-ahead that turns a match into a copy of one byte. -/
def lzss_select (source : Buffer) (mode : LZSS_t) (vram : Bool) (it : Nat) : Nat × Nat :=
  let len := source.length - it
  let found :=
    if it = 0 then (source.length, 1)
    else find_best_match source it (min len (max_len mode)) (max_disp mode) vram
  let tmp := found.1
  let tmplen := found.2
  if tmplen > 2 ∧ tmplen < len then
    let skip_len :=
      (find_best_match source (it + 1) (min (len - 1) (max_len mode)) (max_disp mode) vram).2
    let skip_len := if skip_len < 3 then 1 else skip_len
    let next_len :=
      (find_best_match source (it + tmplen) (min (len - tmplen) (max_len mode))
        (max_disp mode) vram).2
    let next_len := if next_len < 3 then 1 else next_len
    if tmplen + next_len ≤ skip_len + 1 then (tmp, 1) else (tmp, tmplen)
  else (tmp, tmplen)

/-- The statement `result[code_pos] |= (1 << shift)`. -/
def mark_code (result : Buffer) (code_pos shift : Nat) : Buffer :=
  result.set code_pos (u8 ((result.getD code_pos 0).val ||| (1 <<< shift)))

/-- The bytes `lzss_encode` pushes for a compressed chunk of length `tmplen`
with `disp = it - tmp - 1` (lines 305-306, 319-320, 333-335, 348-351). -/
def match_payload (mode : LZSS_t) (tmplen disp : Nat) : Buffer :=
  if mode = .LZ10 then
    [u8 (((tmplen - 3) <<< 4) ||| (disp >>> 8)), u8 disp]
  else if tmplen ≤ 0x10 then
    [u8 (((tmplen - 1) <<< 4) ||| (disp >>> 8)), u8 disp]
  else if tmplen ≤ 0x110 then
    [u8 ((tmplen - 0x11) >>> 4), u8 (((tmplen - 0x11) <<< 4) ||| (disp >>> 8)), u8 disp]
  else
    [u8 ((1 <<< 4) ||| ((tmplen - 0x111) >>> 12)), u8 ((tmplen - 0x111) >>> 4),
      u8 (((tmplen - 0x111) <<< 4) ||| (disp >>> 8)), u8 disp]

/-- Lines 219-229 of `lzss_encode`: a new code byte is started when the current
one is full, and the bit position advances. -/
def next_code_bit (st : EncState) : EncState :=
  let st1 : EncState :=
    if st.shift = 0 then
      { st with shift := 8, code_pos := st.result.length, result := st.result ++ [0] }
    else st
  if st1.shift ≠ 0 then { st1 with shift := st1.shift - 1 } else st1

/-- One iteration of the `while(it < end)` loop of `lzss_encode`
(lines 219-355). -/
def lzss_iter (source : Buffer) (mode : LZSS_t) (vram : Bool) (st : EncState) : EncState :=
  -- lines 219-229
  let st1 := next_code_bit st
  -- lines 231-285
  let sel := lzss_select source mode vram st.it
  let tmp := sel.1
  let tmplen := sel.2
  if tmplen < 3 then
    -- lines 287-294: a copy chunk
    { st1 with it := st.it + 1, result := st1.result ++ [source.getD st.it 0] }
  else
    -- lines 295-352: a compressed chunk
    { st1 with
      it := st.it + tmplen,
      result := mark_code st1.result st1.code_pos st1.shift ++
        match_payload mode tmplen (st.it - tmp - 1) }

/-- The `while(it < end)` loop of `lzss_encode`.  Every iteration advances the
cursor, so `source.length` bounds the number of iterations. -/
def lzss_loop (source : Buffer) (mode : LZSS_t) (vram : Bool) : Nat → EncState → EncState
  | 0, st => st
  | fuel + 1, st =>
    if st.it < source.length then
      lzss_loop source mode vram fuel (lzss_iter source mode vram st)
    else st

/-- The method `resize(n)` of `std::vector<uint8_t>`: new elements are zero. -/
def resize (buffer : Buffer) (n : Nat) : Buffer :=
  buffer.take n ++ List.replicate (n - buffer.length) 0

/-- Lines 358-360: `if(result.size() & 0x3) result.resize((result.size()+3) & ~0x3);`.
On natural numbers `x & ~0x3` is written `x - (x & 0x3)`. -/
def pad4 (result : Buffer) : Buffer :=
  if result.length &&& 0x3 ≠ 0 then
    resize result ((result.length + 3) - ((result.length + 3) &&& 0x3))
  else result

/-- The state of `lzss_encode` on entry to its loop (lines 201-216). -/
def lzss_init (source : Buffer) (mode : LZSS_t) : EncState :=
  let result := header [] mode.tag source.length
  { it := 0, result := result ++ [0], code_pos := result.length, shift := 8 }

/-- The buffer `result` of `lzss_encode` when its loop ends, before padding. -/
def lzss_body (source : Buffer) (mode : LZSS_t) (vram : Bool) : Buffer :=
  (lzss_loop source mode vram source.length (lzss_init source mode)).result

/-- The function `lzss_encode(source, mode, vram)`. -/
def lzss_encode (source : Buffer) (mode : LZSS_t) (vram : Bool) : Buffer :=
  pad4 (lzss_body source mode vram)

/-- The function `lz10_encode(source, vram)`. -/
def lz10_encode (source : Buffer) (vram : Bool) : Buffer :=
  lzss_encode source .LZ10 vram

/-- The function `lz11_encode(source, vram)`. -/
def lz11_encode (source : Buffer) (vram : Bool) : Buffer :=
  lzss_encode source .LZ11 vram

/-! ## Decoder -/

deriving instance DecidableEq for Except

/-- How a call of `lz10_decode` / `lz11_decode` can end without returning.
The first two are the `std::runtime_error`s the functions throw.  The third is
not raised by the code: it marks a run in which the iterator `src` is
dereferenced at or beyond `source.cend()`, which the code does without any
check. -/
inductive DecodeError where
  | invalidHeader
  | readPriorToStart
  | srcPastEnd
  deriving DecidableEq, Repr

/-- The two warnings the decoders print on `stderr`. -/
inductive Warning where
  | exceedsOutputLength
  | notVramSafe
  deriving DecidableEq, Repr

/-- The local variables of `lz10_decode` / `lz11_decode`, and what has been
printed on `stderr`. -/
structure DecState where
  /-- The iterator `src` into the input. -/
  src : Nat
  /-- The current flags byte. -/
  flags : Nat
  /-- The current mask. -/
  mask : Nat
  /-- The number of bytes still to produce. -/
  size : Nat
  /-- The output buffer. -/
  result : Buffer
  /-- The variable `printed_error`. -/
  printed_error : Bool
  /-- The variable `printed_vram_error`. -/
  printed_vram_error : Bool
  /-- The warnings printed so far, oldest first. -/
  stderr : List Warning
  deriving DecidableEq, Repr

/-- The dereference `*src` of the input iterator. -/
def deref (source : Buffer) (src : Nat) : Except DecodeError Byte :=
  match source[src]? with
  | some b => .ok b
  | none => .error .srcPastEnd

/-- Lines 424-427 of `lz10_decode`: the fields `(len, disp)` of a compressed
block and the iterator after them. -/
def lz10_fields (source : Buffer) (src : Nat) : Except DecodeError (Nat × Nat × Nat) :=
  match deref source src with
  | .error e => .error e
  | .ok b0 =>
    let len := ((b0.val &&& 0xF0) >>> 4) + 3
    let disp := (b0.val &&& 0x0F) <<< 8
    match deref source (src + 1) with
    | .error e => .error e
    | .ok b1 => .ok (len, (disp ||| b1.val) + 1, src + 2)

/-- Lines 513-536 of `lz11_decode`: the fields `(len, disp)` of a compressed
block and the iterator after them. -/
def lz11_fields (source : Buffer) (src : Nat) : Except DecodeError (Nat × Nat × Nat) :=
  match deref source src with
  | .error e => .error e
  | .ok b0 =>
    if b0.val >>> 4 = 0 then
      -- extended block
      match deref source (src + 1) with
      | .error e => .error e
      | .ok b1 =>
        let len := ((b0.val <<< 4) ||| (b1.val >>> 4)) + 0x11
        let disp := (b1.val &&& 0x0F) <<< 8
        match deref source (src + 2) with
        | .error e => .error e
        | .ok b2 => .ok (len, (disp ||| b2.val) + 1, src + 3)
    else if b0.val >>> 4 = 1 then
      -- extra extended block
      match deref source (src + 1) with
      | .error e => .error e
      | .ok b1 =>
        match deref source (src + 2) with
        | .error e => .error e
        | .ok b2 =>
          let len := ((((b0.val &&& 0x0F) <<< 12) ||| (b1.val <<< 4)) ||| (b2.val >>> 4)) + 0x111
          let disp := (b2.val &&& 0x0F) <<< 8
          match deref source (src + 3) with
          | .error e => .error e
          | .ok b3 => .ok (len, (disp ||| b3.val) + 1, src + 4)
    else
      -- normal block
      let len := (b0.val >>> 4) + 1
      let disp := (b0.val &&& 0x0F) <<< 8
      match deref source (src + 1) with
      | .error e => .error e
      | .ok b1 => .ok (len, (disp ||| b1.val) + 1, src + 2)

/-- The fields of a compressed block in the given mode. -/
def match_fields (mode : LZSS_t) (source : Buffer) (src : Nat) :
    Except DecodeError (Nat × Nat × Nat) :=
  match mode with
  | .LZ10 => lz10_fields source src
  | .LZ11 => lz11_fields source src

/-- The loop `while(len-- > 0) result.push_back(*(std::end(result)-disp));`. -/
def copy_loop (disp : Nat) : Nat → Buffer → Buffer
  | 0, result => result
  | len + 1, result =>
    copy_loop disp len (result ++ [result.getD (result.length - disp) 0])

/-- Lines 429-462 of `lz10_decode` (538-571 of `lz11_decode`): what is done
with a compressed block whose fields are `len` and `disp`, `src` being the
iterator after the block. -/
def copy_block (vram : Bool) (st : DecState) (src len disp : Nat) :
    Except DecodeError DecState :=
  -- lines 429-441
  let warn := decide (len > st.size) && !st.printed_error
  let stderr := if warn then st.stderr ++ [Warning.exceedsOutputLength] else st.stderr
  let printed_error := if len > st.size then true else st.printed_error
  let len := if len > st.size then st.size else len
  -- lines 443-446
  if st.result.length < disp then .error .readPriorToStart
  else
    -- lines 448-455
    let vwarn := vram && !st.printed_vram_error && decide (disp = 1)
    let stderr := if vwarn then stderr ++ [Warning.notVramSafe] else stderr
    let printed_vram_error := if vwarn then true else st.printed_vram_error
    -- lines 457-462
    .ok { src := src, flags := st.flags, mask := st.mask, size := st.size - len,
          result := copy_loop disp len st.result,
          printed_error := printed_error, printed_vram_error := printed_vram_error,
          stderr := stderr }

/-- Lines 412-420: a new flags byte is read when the mask is exhausted. -/
def load_flags (source : Buffer) (st : DecState) : Except DecodeError DecState :=
  if st.mask = 0 then
    match deref source st.src with
    | .error e => .error e
    | .ok b => .ok { st with flags := b.val, mask := 0x80, src := st.src + 1 }
  else .ok st

/-- One iteration of the `while(size > 0)` loop of `lz10_decode`
(lines 412-471) or `lz11_decode` (lines 501-580); the two bodies differ in the
parsing of the fields of a compressed block only. -/
def decode_iter (mode : LZSS_t) (source : Buffer) (vram : Bool) (st : DecState) :
    Except DecodeError DecState :=
  match load_flags source st with
  | .error e => .error e
  | .ok st1 =>
    if st1.flags &&& st1.mask ≠ 0 then
      -- compressed block
      match match_fields mode source st1.src with
      | .error e => .error e
      | .ok (len, disp, src) =>
        match copy_block vram st1 src len disp with
        | .error e => .error e
        | .ok st2 => .ok { st2 with mask := st2.mask >>> 1 }
    else
      -- uncompressed block
      match deref source st1.src with
      | .error e => .error e
      | .ok b =>
        .ok { st1 with result := st1.result ++ [b], src := st1.src + 1,
                       size := st1.size - 1, mask := st1.mask >>> 1 }

/-- The `while(size > 0)` loop of the decoders.  Every iteration decreases
`size`, so the initial `size` bounds the number of iterations. -/
def decode_loop (mode : LZSS_t) (source : Buffer) (vram : Bool) :
    Nat → DecState → Except DecodeError DecState
  | 0, st => .ok st
  | fuel + 1, st =>
    if st.size > 0 then
      match decode_iter mode source vram st with
      | .error e => .error e
      | .ok st1 => decode_loop mode source vram fuel st1
    else .ok st

/-- The header test of the decoders (lines 396 and 485). -/
def bad_header (mode : LZSS_t) (source : Buffer) : Prop :=
  source.length < 4 ∨ (source.getD 0 0).val ≠ mode.tag

instance (mode : LZSS_t) (source : Buffer) : Decidable (bad_header mode source) := by
  unfold bad_header; infer_instance

/-- The declared size (lines 399 and 488):
`source[1] | (source[2] << 8) | (source[3] << 16)`. -/
def declared_size (source : Buffer) : Nat :=
  (source.getD 1 0).val ||| ((source.getD 2 0).val <<< 8) ||| ((source.getD 3 0).val <<< 16)

/-- The state of a decoder on entry to its loop (lines 399-408). -/
def decode_init (source : Buffer) : DecState :=
  { src := 4, flags := 0, mask := 0, size := declared_size source, result := [],
    printed_error := false, printed_vram_error := false, stderr := [] }

/-- A whole run of `lz10_decode` (mode LZ10) or `lz11_decode` (mode LZ11): the
thrown error, or the final values of the local variables. -/
def decode_run (mode : LZSS_t) (source : Buffer) (vram : Bool) : Except DecodeError DecState :=
  if bad_header mode source then .error .invalidHeader
  else decode_loop mode source vram (declared_size source) (decode_init source)

/-- The function `lz10_decode(source, vram)`: the thrown error or the returned buffer. -/
def lz10_decode (source : Buffer) (vram : Bool) : Except DecodeError Buffer :=
  match decode_run .LZ10 source vram with
  | .error e => .error e
  | .ok st => .ok st.result

/-- The function `lz11_decode(source, vram)`: the thrown error or the returned buffer. -/
def lz11_decode (source : Buffer) (vram : Bool) : Except DecodeError Buffer :=
  match decode_run .LZ11 source vram with
  | .error e => .error e
  | .ok st => .ok st.result

/-- The decoder of a mode: `main` (line 758) calls `lz11_decode` or
`lz10_decode` according to the option `--lz11`. -/
def lzss_decode (mode : LZSS_t) (source : Buffer) (vram : Bool) : Except DecodeError Buffer :=
  match mode with
  | .LZ10 => lz10_decode source vram
  | .LZ11 => lz11_decode source vram

/-! ## Reading the input file -/

/-- How a run of the tool on an input file can fail: `read_file` refuses the
file, or the decoder throws. -/
inductive ToolError where
  | inputTooLarge
  | decode (e : DecodeError)
  deriving DecidableEq, Repr

/-- The `do ... while(rc > 0)` loop of `read_file` (lines 597-609).  The first
buffer argument is what the stream `fp` still holds; `fread` delivers its next
bytes, at most 4096 of them (the size of `tmp`).  A call that delivers bytes
consumes at least one, so one more than the length of the stream bounds the
number of iterations.  `fread` returns a `size_t`, so the test `rc < 0` of line
611 never holds. -/
def read_file_loop (limit : Nat) : Nat → Buffer → Buffer → Except ToolError Buffer
  | 0, _, buffer => .ok buffer
  | fuel + 1, fp, buffer =>
    let rc := (fp.take 4096).length
    if rc > 0 then
      let buffer1 := buffer ++ fp.take 4096
      if buffer1.length > limit then .error .inputTooLarge
      else read_file_loop limit fuel (fp.drop 4096) buffer1
    else .ok buffer

/-- The function `read_file(fp, limit)`, `fp` being the content of the file. -/
def read_file (fp : Buffer) (limit : Nat) : Except ToolError Buffer :=
  read_file_loop limit (fp.length + 1) fp []

/-- Lines 731-759 of `main`: the input file is read with the limit of the
requested operation, then handed to the encoder or the decoder selected by the
options. -/
def process_file (encode lz11 vram : Bool) (fp : Buffer) : Except ToolError Buffer :=
  match read_file fp (if encode then LZSS_MAX_ENCODE_LEN else LZSS_MAX_DECODE_LEN) with
  | .error e => .error e
  | .ok buffer =>
    if encode then
      .ok (if lz11 then lz11_encode buffer vram else lz10_encode buffer vram)
    else
      match (if lz11 then lz11_decode buffer vram else lz10_decode buffer vram) with
      | .error e => .error (.decode e)
      | .ok out => .ok out


/-! ## The units emitted by the encoder -/

/-- A unit of a group: a literal byte, or a compressed block with its length
and its displacement. -/
inductive LzUnit where
  | literal (b : Byte)
  | block (len disp : Nat)
  deriving DecidableEq, Repr

/-- The unit emitted by the iteration of the loop of `lzss_encode` at the
cursor `it` (lines 287-352): a copy chunk when `tmplen < 3`, else a compressed
chunk of length `tmplen` and displacement `it - tmp`. -/
def lzss_unit (source : Buffer) (mode : LZSS_t) (vram : Bool) (it : Nat) : LzUnit :=
  let sel := lzss_select source mode vram it
  if sel.2 < 3 then .literal (source.getD it 0) else .block sel.2 (it - sel.1)

/-- The units emitted by the iterations of the loop of `lzss_encode` from the
state `st` on, in order. -/
def lzss_units_loop (source : Buffer) (mode : LZSS_t) (vram : Bool) :
    Nat → EncState → List LzUnit
  | 0, _ => []
  | fuel + 1, st =>
    if st.it < source.length then
      lzss_unit source mode vram st.it ::
        lzss_units_loop source mode vram fuel (lzss_iter source mode vram st)
    else []

/-- The sequence of units that `lzss_encode` emits for a source. -/
def lzss_units (source : Buffer) (mode : LZSS_t) (vram : Bool) : List LzUnit :=
  lzss_units_loop source mode vram source.length (lzss_init source mode)

/-! ## The match finder according to the specification -/

/-- Length of the common prefix of `source[q..]` and `source[p..]`, capped at
the last argument (the wording of the specification of the match finder). -/
def common_prefix_len (source : Buffer) (q p : Nat) : Nat → Nat
  | 0 => 0
  | cap + 1 =>
    if source.getD q 0 = source.getD p 0 then common_prefix_len source (q + 1) (p + 1) cap + 1
    else 0

/-- The start positions the specification lets the match finder consider at
the cursor `p`: those of the window `[max(0, p - D), p)`, without `p - 1` when
the VRAM-safe flag is set. -/
def spec_candidates (p D : Nat) (vram : Bool) : List Nat :=
  (List.range p).filter (fun q => decide (p - D ≤ q) && !(vram && decide (p - q = 1)))

/-- The best length according to the specification: the maximum, over the
candidates, of the common prefix length capped at `min(L, len(source) - p)`. -/
def spec_best_len (source : Buffer) (p L D : Nat) (vram : Bool) : Nat :=
  ((spec_candidates p D vram).map
    (fun q => common_prefix_len source q p (min L (source.length - p)))).foldr max 0

/-! ## The tree-based encoder of gbalzss.c

A shallow embedding of `src/src/gbalzss.c`.

* The global arrays `text_buf`, `lson`, `rson`, `dad` are functions from the
  index to the stored value, an assignment `a[i] = v` is `store a i v`; objects of
  static storage start at zero.
* `int` values are natural numbers where the program keeps them non-negative;
  the differences that can be negative (`cmp`, `r - p`, `r - match_position - 1`
  and `r - j - 1`) are computed in `Int`, where `x & (2 ^ k - 1)` is `x % 2 ^ k`
  and `x >> 8` is `x >>> 8` (two's complement, arithmetic shift).
* `u32` is `unsigned long` (`typedef unsigned long u32;`), little endian and at
  least 32 bits wide.  `Encode` writes the first four bytes of its `gbaheader`.
  `Decode` stores four bytes into the first four bytes of a `gbaheader` that it
  does not initialise; the value of the bytes it leaves as they are (there are
  none where `unsigned long` has 32 bits, four where it has 64) is the
  argument `upper` of `Decode`.
* `infile` is the list of the bytes not yet read, `getc` takes its head and
  returns `EOF` on the empty list; `outfile` is the list of the bytes written.
* The counters `textsize` and `printcount` and the calls of `printf` only
  report progress and are left out.
-/

/-- Size of the ring buffer (`#define N 4096`). -/
def N : Nat := 4096

/-- Upper limit for `match_length` (`#define F 18`). -/
def F : Nat := 18

/-- A string is encoded as a position and length pair if `match_length` is
greater than this (`#define THRESHOLD 2`). -/
def THRESHOLD : Nat := 2

/-- Index for the root of the binary search trees (`#define NIL N`). -/
def NIL : Nat := N

/-- The assignment `a[i] = v` to an array. -/
def store (a : Nat → Nat) (i v : Nat) : Nat → Nat :=
  fun k => if k = i then v else a k

/-- The global variables of gbalzss.c that the tree routines use (lines
143-155): `text_buf[N + F - 1]`, `match_position`, `match_length`,
`lson[N + 1]`, `rson[N + 257]`, `dad[N + 1]`. -/
structure Globals where
  /-- Ring buffer of size `N` with `F - 1` extra bytes. -/
  text_buf : Nat → Nat
  /-- Position of the longest match, set by `InsertNode`. -/
  match_position : Nat
  /-- Length of the longest match, set by `InsertNode`. -/
  match_length : Nat
  /-- Left children. -/
  lson : Nat → Nat
  /-- Right children; `rson[N + 1 + c]` is the root of the tree of the strings
  that begin with `c`. -/
  rson : Nat → Nat
  /-- Parents; `NIL` stands for not used. -/
  dad : Nat → Nat

/-- The globals when the program starts: static storage is zero. -/
def Globals.start : Globals :=
  { text_buf := fun _ => 0, match_position := 0, match_length := 0,
    lson := fun _ => 0, rson := fun _ => 0, dad := fun _ => 0 }

/-- The function `InitTree` (lines 161-189):
`for (i = N + 1; i <= N + 256; i++) rson[i] = NIL;` and
`for (i = 0; i < N; i++) dad[i] = NIL;`, each loop written as the array it
leaves. -/
def InitTree (g : Globals) : Globals :=
  { g with
    rson := fun k => if N + 1 ≤ k ∧ k ≤ N + 256 then NIL else g.rson k
    dad := fun k => if k < N then NIL else g.dad k }

/-- The comparison loop of `InsertNode` (lines 235-237):
`for (i = 1; i < F; i++) if ((cmp = key[i] - text_buf[p + i]) != 0) break;`
with `key = &text_buf[r]`.  Returns `i` and `cmp` after the loop; the first
argument is the fuel. -/
def compare_loop (text_buf : Nat → Nat) (r p : Nat) : Nat → Nat → Int → Nat × Int
  | 0, i, cmp => (i, cmp)
  | fuel + 1, i, cmp =>
    if i < F then
      if (text_buf (r + i) : Int) - (text_buf (p + i) : Int) ≠ 0 then
        (i, (text_buf (r + i) : Int) - (text_buf (p + i) : Int))
      else
        compare_loop text_buf r p fuel (i + 1)
          ((text_buf (r + i) : Int) - (text_buf (p + i) : Int))
    else (i, cmp)

/-- The test `VRAMSafe && (((r-p) & (N-1)) <= 1)` of `InsertNode` (line 239). -/
def vram_near (VRAMSafe : Bool) (r p : Nat) : Bool :=
  VRAMSafe && decide (((r : Int) - (p : Int)) % (N : Int) ≤ 1)

/-- The loop `for ( ; ; )` of `InsertNode` (lines 219-247), entered with the
node `p` and the last comparison `cmp`.  The result is `none` when the fuel
runs out, `some (g, none)` when the loop ends in one of its `return`
statements (the string `r` was added as a leaf) and `some (g, some p)` when it
ends in `break` at the node `p` (a match of length `F`). -/
def InsertNode_loop (VRAMSafe : Bool) (r : Nat) :
    Nat → Globals → Nat → Int → Option (Globals × Option Nat)
  | 0, _, _, _ => none
  | fuel + 1, g, p, cmp =>
    if (if cmp ≥ 0 then g.rson p else g.lson p) = NIL then
      if cmp ≥ 0 then
        some ({ g with rson := store g.rson p r, dad := store g.dad r p }, none)
      else
        some ({ g with lson := store g.lson p r, dad := store g.dad r p }, none)
    else
      let p1 := if cmp ≥ 0 then g.rson p else g.lson p
      let ic := compare_loop g.text_buf r p1 F 1 cmp
      if ic.1 > g.match_length ∧ vram_near VRAMSafe r p1 = false then
        if ic.1 ≥ F then
          some ({ g with match_position := p1, match_length := ic.1 }, some p1)
        else
          InsertNode_loop VRAMSafe r fuel
            { g with match_position := p1, match_length := ic.1 } p1 ic.2
      else
        InsertNode_loop VRAMSafe r fuel g p1 ic.2

/-- The end of `InsertNode` (lines 249-257), reached by `break`: the node `r`
takes the place of the node `p`.
`dad[r] = dad[p]; lson[r] = lson[p]; rson[r] = rson[p];`
`dad[lson[p]] = r; dad[rson[p]] = r;`
`if (rson[dad[p]] == p) rson[dad[p]] = r; else lson[dad[p]] = r;`
`dad[p] = NIL;` -/
def replace_node (g : Globals) (r p : Nat) : Globals :=
  let dad1 := store g.dad r (g.dad p)
  let lson1 := store g.lson r (g.lson p)
  let rson1 := store g.rson r (g.rson p)
  let dad2 := store dad1 (lson1 p) r
  let dad3 := store dad2 (rson1 p) r
  let rson2 := if rson1 (dad3 p) = p then store rson1 (dad3 p) r else rson1
  let lson2 := if rson1 (dad3 p) = p then lson1 else store lson1 (dad3 p) r
  { g with lson := lson2, rson := rson2, dad := store dad3 p NIL }

/-- The function `InsertNode` (lines 193-259): inserts the string
`text_buf[r..r+F-1]` into the tree of its first byte and sets `match_position`
and `match_length`.  `none` when the descent does not end within `N + 1`
steps. -/
def InsertNode (g : Globals) (r : Nat) (VRAMSafe : Bool) : Option Globals :=
  match InsertNode_loop VRAMSafe r (N + 1)
      { g with rson := store g.rson r NIL, lson := store g.lson r NIL, match_length := 0 }
      (N + 1 + g.text_buf r) 1 with
  | none => none
  | some (g1, none) => some g1
  | some (g1, some p) => some (replace_node g1 r p)

/-- The loop `do { q = rson[q]; } while (rson[q] != NIL);` of `DeleteNode`
(line 283); `none` when the fuel runs out. -/
def rightmost (rson : Nat → Nat) : Nat → Nat → Option Nat
  | 0, _ => none
  | fuel + 1, q => if rson (rson q) ≠ NIL then rightmost rson fuel (rson q) else some (rson q)

/-- The last statements of `DeleteNode` (lines 299-303): `dad[q] = dad[p];`
`if (rson[dad[p]] == p) rson[dad[p]] = q; else lson[dad[p]] = q;`
`dad[p] = NIL;` -/
def unlink_node (g : Globals) (p q : Nat) : Globals :=
  let dad1 := store g.dad q (g.dad p)
  { g with
    rson := if g.rson (dad1 p) = p then store g.rson (dad1 p) q else g.rson
    lson := if g.rson (dad1 p) = p then g.lson else store g.lson (dad1 p) q
    dad := store dad1 p NIL }

/-- The function `DeleteNode` (lines 263-305): deletes the node `p` from its
tree.  `none` when the search of the rightmost node of the left subtree does
not end within `N + 1` steps. -/
def DeleteNode (g : Globals) (p : Nat) : Option Globals :=
  if g.dad p = NIL then some g
  else if g.rson p = NIL then some (unlink_node g p (g.lson p))
  else if g.lson p = NIL then some (unlink_node g p (g.rson p))
  else
    if g.rson (g.lson p) ≠ NIL then
      match rightmost g.rson (N + 1) (g.lson p) with
      | none => none
      | some q =>
        let rson1 := store g.rson (g.dad q) (g.lson q)
        let dad1 := store g.dad (g.lson q) (g.dad q)
        let lson1 := store g.lson q (g.lson p)
        let dad2 := store dad1 (lson1 p) q
        let rson2 := store rson1 q (rson1 p)
        let dad3 := store dad2 (rson2 p) q
        some (unlink_node { g with lson := lson1, rson := rson2, dad := dad3 } p q)
    else
      let rson2 := store g.rson (g.lson p) (g.rson p)
      let dad3 := store g.dad (rson2 p) (g.lson p)
      some (unlink_node { g with rson := rson2, dad := dad3 } p (g.lson p))

/-- The local variables of `Encode` together with the globals and the two
files.  `code_buf` holds the entries `code_buf[0 .. code_buf_ptr - 1]`, so
`code_buf_ptr` is its length. -/
structure EncodeState where
  /-- The global variables. -/
  g : Globals
  /-- Number of bytes of the input in the look-ahead part of the buffer. -/
  len : Nat
  /-- Position of the cursor in the ring buffer. -/
  r : Nat
  /-- Position that the next byte read is stored at. -/
  s : Nat
  /-- The flag byte and the units of the group being assembled. -/
  code_buf : List Byte
  /-- The flag bit of the next unit. -/
  mask : Nat
  /-- The bytes of the input file not yet read. -/
  infile : List Byte
  /-- The bytes written to the output file. -/
  outfile : List Byte
  /-- The global `codesize`. -/
  codesize : Nat

/-- The first four bytes of a `u32` in memory (`tmp[0..3]`, little endian); they
are the same for every width of `unsigned long` of at least 32 bits. -/
def u32_bytes (x : Nat) : List Byte :=
  [u8 (x % 2 ^ 32), u8 (x % 2 ^ 32 / 2 ^ 8), u8 (x % 2 ^ 32 / 2 ^ 16), u8 (x % 2 ^ 32 / 2 ^ 24)]

/-- The header that `Encode` writes (lines 333-339):
`u32 gbaheader = 0x10 + (finfo.st_size<<8);` and its four bytes. -/
def gba_header (st_size : Nat) : List Byte :=
  u32_bytes (0x10 + st_size * 2 ^ 8)

/-- Storing the bytes `cs` at `text_buf[i], text_buf[i + 1], ...`: the loop
`for (len = 0; len < F && (c = getc(infile)) != EOF; len++) text_buf[r + len] = c;`
(lines 367-369) stores the first `F` bytes of the input this way. -/
def store_list (a : Nat → Nat) (i : Nat) : List Byte → Nat → Nat
  | [] => a
  | c :: cs => store_list (store a i c.val) (i + 1) cs

/-- The loop `for (i = 1; i <= F; i++) InsertNode(r - i, VRAMSafe);` (line
375), from `i` on; the first argument counts the remaining iterations. -/
def insert_initial (VRAMSafe : Bool) (r : Nat) : Nat → Nat → Globals → Option Globals
  | 0, _, g => some g
  | n + 1, i, g =>
    match InsertNode g (r - i) VRAMSafe with
    | none => none
    | some g1 => insert_initial VRAMSafe r n (i + 1) g1

/-- The unit that one pass of the `do` loop of `Encode` adds to `code_buf`
(lines 397-439), after `match_length` was limited to `len`: the byte
`text_buf[r]`, or the flag and the two bytes of a position and length pair,
`(((r-match_position-1)>>8) & 0x0f) | ((match_length - (THRESHOLD + 1))<<4)` and
`(r-match_position-1) & 0xff`. -/
def emit_unit (st : EncodeState) (match_length : Nat) : EncodeState :=
  if match_length ≤ THRESHOLD then
    { st with
      g := { st.g with match_length := 1 }
      code_buf := st.code_buf ++ [u8 (st.g.text_buf st.r)] }
  else
    { st with
      g := { st.g with match_length := match_length }
      code_buf :=
        (st.code_buf.set 0 (u8 ((st.code_buf.getD 0 0).val ||| st.mask)))
          ++ [u8 (Int.toNat ((((st.r : Int) - (st.g.match_position : Int) - 1) >>> (8 : Nat)) % 16)
                  ||| ((match_length - (THRESHOLD + 1)) <<< 4)),
              u8 (Int.toNat (((st.r : Int) - (st.g.match_position : Int) - 1) % 256))] }

/-- The mask shift of `Encode` (lines 443-455): `if ((mask >>= 1) == 0)` the
group in `code_buf` is written and a new group starts. -/
def shift_mask (st : EncodeState) : EncodeState :=
  if st.mask / 2 = 0 then
    { st with
      outfile := st.outfile ++ st.code_buf
      codesize := st.codesize + st.code_buf.length
      code_buf := [0]
      mask := 0x80 }
  else
    { st with mask := st.mask / 2 }

/-- The loop that reads the bytes the last unit covered (lines 459-489):
`for (i = 0; i < last_match_length && (c = getc(infile)) != EOF; i++)` with the
body `DeleteNode(s); text_buf[s] = c; if (s < F - 1) text_buf[s + N] = c;`
`s = (s + 1) & (N - 1); r = (r + 1) & (N - 1); InsertNode(r, VRAMSafe);`.
The first argument is `last_match_length - i`; the result holds the final
`i`. -/
def read_loop (VRAMSafe : Bool) : Nat → Nat → EncodeState → Option (EncodeState × Nat)
  | 0, i, st => some (st, i)
  | n + 1, i, st =>
    match st.infile with
    | [] => some (st, i)
    | c :: rest =>
      match DeleteNode st.g st.s with
      | none => none
      | some g1 =>
        let tb1 := store g1.text_buf st.s c.val
        let tb2 := if st.s < F - 1 then store tb1 (st.s + N) c.val else tb1
        match InsertNode { g1 with text_buf := tb2 } ((st.r + 1) % N) VRAMSafe with
        | none => none
        | some g2 =>
          read_loop VRAMSafe n (i + 1)
            { st with g := g2, s := (st.s + 1) % N, r := (st.r + 1) % N, infile := rest }

/-- The loop after the end of the text (lines 501-509):
`while (i++ < last_match_length) { DeleteNode(s); s = (s + 1) & (N - 1);`
`r = (r + 1) & (N - 1); if (--len) InsertNode(r, VRAMSafe); }`.  The first
argument is `last_match_length - i`.  (`len` is at least 1 when it is
decremented: the unit was limited to `len` bytes.) -/
def drain_loop (VRAMSafe : Bool) : Nat → EncodeState → Option EncodeState
  | 0, st => some st
  | n + 1, st =>
    match DeleteNode st.g st.s with
    | none => none
    | some g1 =>
      if st.len - 1 ≠ 0 then
        match InsertNode g1 ((st.r + 1) % N) VRAMSafe with
        | none => none
        | some g2 =>
          drain_loop VRAMSafe n
            { st with g := g2, s := (st.s + 1) % N, r := (st.r + 1) % N, len := st.len - 1 }
      else
        drain_loop VRAMSafe n
          { st with g := g1, s := (st.s + 1) % N, r := (st.r + 1) % N, len := st.len - 1 }

/-- One pass of the `do` loop of `Encode` (lines 395-509). -/
def encode_pass (VRAMSafe : Bool) (st : EncodeState) : Option EncodeState :=
  let st1 := shift_mask (emit_unit st (min st.g.match_length st.len))
  match read_loop VRAMSafe st1.g.match_length 0 st1 with
  | none => none
  | some (st2, i) => drain_loop VRAMSafe (st1.g.match_length - i) st2

/-- The loop `do { ... } while (len > 0);` of `Encode` (lines 395-511); the
first argument is the fuel. -/
def encode_loop (VRAMSafe : Bool) : Nat → EncodeState → Option EncodeState
  | 0, _ => none
  | fuel + 1, st =>
    match encode_pass VRAMSafe st with
    | none => none
    | some st1 => if st1.len > 0 then encode_loop VRAMSafe fuel st1 else some st1

/-- The end of `Encode` (lines 513-533): the group in `code_buf` is written if
it holds a unit, and the output is padded with zeros to a multiple of 4:
`if(codesize%4) for(i=0; i<4-(codesize%4); i++) putc(0x00, outfile);`. -/
def encode_finish (st : EncodeState) : List Byte :=
  let out := if st.code_buf.length > 1 then st.outfile ++ st.code_buf else st.outfile
  let codesize := if st.code_buf.length > 1 then st.codesize + st.code_buf.length
    else st.codesize
  if codesize % 4 ≠ 0 then out ++ List.replicate (4 - codesize % 4) 0 else out

/-- The state of `Encode` before its first call of `InsertNode` (lines
333-371): the header is written, the trees are initialised, the buffer holds
`0xff` at `0 .. N - F - 1` and the first `F` bytes of the input from `N - F`
on. -/
def encode_start (infile : List Byte) : EncodeState :=
  { g := { InitTree Globals.start with
            text_buf := store_list
              (fun k => if k < N - F then 0xff else Globals.start.text_buf k)
              (N - F) (infile.take F) }
    len := (infile.take F).length
    r := N - F
    s := 0
    code_buf := [0]
    mask := 0x80
    infile := infile.drop F
    outfile := gba_header infile.length
    codesize := 0 }

/-- The function `Encode` (lines 313-547) on the input file `infile` (whose
size `stat` reports in `finfo.st_size`): the bytes written to `outfile`, or
`none` when a loop of the model runs out of fuel. -/
def Encode (infile : List Byte) (VRAMSafe : Bool) : Option (List Byte) :=
  if (encode_start infile).len = 0 then some (encode_start infile).outfile
  else
    match insert_initial VRAMSafe (N - F) F 1 (encode_start infile).g with
    | none => none
    | some g1 =>
      match InsertNode g1 (N - F) VRAMSafe with
      | none => none
      | some g2 =>
        match encode_loop VRAMSafe (infile.length + 1) { encode_start infile with g := g2 } with
        | none => none
        | some st => some (encode_finish st)

/-- The value of `static int VRAMSafe = 1;` that `main` passes to `Encode`
(lines 637, 661). -/
def VRAMSafe : Bool := true

/-! ## The decoder of gbalzss.c -/

/-- The local variables of `Decode` with the buffer and the two files. -/
structure DecodeState where
  /-- The global `text_buf`. -/
  text_buf : Nat → Nat
  /-- Position in the ring buffer. -/
  r : Nat
  /-- The flag byte, shifted left once per unit. -/
  flags : Nat
  /-- Number of units read of the current group. -/
  z : Nat
  /-- Number of bytes decoded. -/
  cur_size : Nat
  /-- The bytes of the input file not yet read. -/
  infile : List Byte
  /-- The bytes written to the output file. -/
  outfile : List Byte

/-- The statements `if(cur_size<decomp_size) putc(c, outfile);`
`text_buf[r++] = c; r &= (N - 1); cur_size++;` of `Decode` (lines 609, 625). -/
def put_byte (decomp_size : Nat) (st : DecodeState) (c : Nat) : DecodeState :=
  { st with
    outfile := if st.cur_size < decomp_size then st.outfile ++ [u8 c] else st.outfile
    text_buf := store st.text_buf st.r c
    r := (st.r + 1) % N
    cur_size := st.cur_size + 1 }

/-- The loop `for (k = 0; k <= i; k++)` of `Decode` (lines 621-627) with the
body `c = text_buf[(r-j-1) & (N - 1)];` and the statements of `put_byte`; the
first argument counts the remaining iterations. -/
def copy_bytes (decomp_size j : Nat) : Nat → DecodeState → DecodeState
  | 0, st => st
  | n + 1, st =>
    copy_bytes decomp_size j n
      (put_byte decomp_size st
        (st.text_buf (Int.toNat (((st.r : Int) - (j : Int) - 1) % (N : Int)))))

/-- The start of one pass of the loop of `Decode` (lines 591-603):
`flags <<= 1; z++; if (z == 8) { if ((c = getc(infile)) == EOF) break;`
`flags = c; z = 0; }`.  `none` stands for the `break`. -/
def next_flags (st : DecodeState) : Option DecodeState :=
  if st.z + 1 = 8 then
    match st.infile with
    | [] => none
    | c :: rest => some { st with flags := c.val, z := 0, infile := rest }
  else some { st with flags := st.flags * 2, z := st.z + 1 }

/-- The unit of one pass of the loop of `Decode` (lines 605-629): a byte of the
input when the flag bit `flags & 0x80` is zero, else the two bytes `i` and `j` of
a pair, `j = j | ((i<<8)&0xf00); i = ((i>>4)&0x0f)+THRESHOLD;` and `i + 1` bytes
copied.  `none` stands for a `break` at `EOF`. -/
def decode_unit (decomp_size : Nat) (st : DecodeState) : Option DecodeState :=
  if st.flags &&& 0x80 = 0 then
    match st.infile with
    | [] => none
    | c :: rest => some (put_byte decomp_size { st with infile := rest } c.val)
  else
    match st.infile with
    | [] => none
    | [_] => none
    | i :: j :: rest =>
      some (copy_bytes decomp_size (j.val ||| ((i.val <<< 8) &&& 0xf00))
        (((i.val >>> 4) &&& 0x0f) + THRESHOLD + 1) { st with infile := rest })

/-- The loop `for ( ; ; )` of `Decode` (lines 589-631); it ends by `break`
when `getc` returns `EOF`, and only `outfile` is of interest then.  The first
argument is the fuel, `none` when it runs out. -/
def decode_units (decomp_size : Nat) : Nat → DecodeState → Option DecodeState
  | 0, _ => none
  | fuel + 1, st =>
    match next_flags st with
    | none => some st
    | some st1 =>
      match decode_unit decomp_size st1 with
      | none => some st1
      | some st2 => decode_units decomp_size fuel st2

/-- The function `Decode` (lines 555-633) on the input file `infile`: the bytes
written to `outfile`, or `none` when the loop of the model runs out of fuel.
The four header bytes are read with `tmp[i] = getc(infile)` (a missing byte is
`EOF` stored into an `unsigned char`, `0xff`) into the first four bytes of the
local `u32 gbaheader`, which has no initialiser; `upper` is the value of its
remaining bytes (0 where `unsigned long` has 32 bits).  Then
`decomp_size = gbaheader>>8`. -/
def Decode (upper : Nat) (infile : List Byte) : Option (List Byte) :=
  let tmp : Nat → Nat := fun i => (infile[i]?.map Fin.val).getD 0xff
  let decomp_size := tmp 1 + tmp 2 * 2 ^ 8 + tmp 3 * 2 ^ 16 + upper * 2 ^ 24
  match decode_units decomp_size ((infile.drop 4).length + 1)
      { text_buf := fun k => if k < N - F then 0xff else Globals.start.text_buf k
        r := N - F, flags := 7, z := 7, cur_size := 0
        infile := infile.drop 4, outfile := [] } with
  | none => none
  | some st => some st.outfile

/-! ## The signature search of insgbfs.c

A shallow embedding of `find_signature` of `src/insgbfs.c`.  The file `fp` is
the list of its bytes from the file position on; `fgetc` takes the head of the
list and returns `EOF` on the empty list.
-/

/-- Length of the signature (`#define SIG_LEN 18`). -/
def SIG_LEN : Nat := 18

/-- The signature, `const char sig[SIG_LEN] = "PinEightGBFSSpace-";` (line 43),
as character codes. -/
def sig : List Byte :=
  [0x50, 0x69, 0x6E, 0x45, 0x69, 0x67, 0x68, 0x74, 0x47,
   0x42, 0x46, 0x53, 0x53, 0x70, 0x61, 0x63, 0x65, 0x2D]

/-- The value of the macro `EOF`. -/
def EOF : Int := -1

/-- The loop of `find_signature` (lines 77-90):
`while(src_offset < SIG_LEN) { int c = fgetc(fp); if(c == EOF) return EOF;`
`else if(c == sig[src_offset]) { src_offset++; } }` and `return 0;`.
The arguments are the unread bytes, `src_offset` and the number of bytes read
so far; the result is the return value with the number of bytes read. -/
def find_signature_loop : List Byte → Nat → Nat → Int × Nat
  | [], src_offset, pos => if src_offset < SIG_LEN then (EOF, pos) else (0, pos)
  | c :: fp, src_offset, pos =>
    if src_offset < SIG_LEN then
      if c = sig.getD src_offset 0 then find_signature_loop fp (src_offset + 1) (pos + 1)
      else find_signature_loop fp src_offset (pos + 1)
    else (0, pos)

/-- The function `find_signature` (lines 72-93): the return value and the
number of bytes that were read from `fp`. -/
def find_signature (fp : List Byte) : Int × Nat :=
  find_signature_loop fp 0 0

/-! ## Definitions used in the proofs -/

/-- What `find_best_match` guarantees of a reported candidate `(q, k)` for the
cursor `it`, searched from `begin` with length limit `len`. -/
def GoodMatch (source : Buffer) (begin it len : Nat) (vram : Bool) (q k : Nat) : Prop :=
  begin ≤ q ∧ q < it ∧ k ≤ len ∧ (vram = true → it - q ≠ 1) ∧
    ∀ j, j < k → source.getD (q + j) 0 = source.getD (it + j) 0

/-- The code byte of an encoder state lies inside its buffer and its bit
position is at most 8. -/
def EncState.WF (E : EncState) : Prop :=
  E.code_pos < E.result.length ∧ E.shift ≤ 8

/-- The stream `F` extends the buffer of the encoder state `E`, except that in
the current code byte of `E` only the bits at position `E.shift` and above are
known to agree. -/
def Agree (E : EncState) (F : Buffer) : Prop :=
  E.result.length ≤ F.length ∧
  (∀ i, i < E.result.length → i ≠ E.code_pos → F[i]? = E.result[i]?) ∧
  (F.getD E.code_pos 0).val >>> E.shift = (E.result.getD E.code_pos 0).val >>> E.shift

/-- The decoder state `D`, reading the stream `F`, has consumed exactly what
the encoder had written in state `E`, and has produced the source up to the
cursor of `E` without any warning. -/
structure Corr (source F : Buffer) (E : EncState) (D : DecState) : Prop where
  wf : E.WF
  it_le : E.it ≤ source.length
  res : D.result = source.take E.it
  size : D.size = source.length - E.it
  src : D.src = E.result.length
  shift_lt : E.shift < 8
  mask : D.mask = (1 <<< E.shift) >>> 1
  flags : E.shift ≠ 0 → D.flags = (F.getD E.code_pos 0).val
  low : (E.result.getD E.code_pos 0).val % 2 ^ E.shift = 0
  perr : D.printed_error = false
  pvram : D.printed_vram_error = false
  stderr : D.stderr = []

/-- An encoder state with the header written and no code byte open. -/
def lzss_init0 (source : Buffer) (mode : LZSS_t) : EncState :=
  { it := 0, result := header [] mode.tag source.length, code_pos := 0, shift := 0 }



/-- The length `find_best_match` credits to the start position `q` for the
cursor `it`: the common prefix length capped at `len`, or 0 for the position
that the VRAM-safe flag excludes. -/
def cand_len (source : Buffer) (it len : Nat) (vram : Bool) (q : Nat) : Nat :=
  if vram = true ∧ it - q = 1 then 0 else common_prefix_len source q it len

/-- The pair `(rs, rl)` is a best candidate of the window `[begin, it)`: `rl`
bounds the length of every position, and when it is not 0 it is the length of
`rs`, which is the farthest position of that length, or the nearest one when
the length is the limit `len`. -/
def BestMatch (source : Buffer) (begin it len : Nat) (vram : Bool) (rs rl : Nat) : Prop :=
  (∀ q, begin ≤ q → q < it → cand_len source it len vram q ≤ rl) ∧
  (rl = 0 ∨ (begin ≤ rs ∧ rs < it ∧ cand_len source it len vram rs = rl ∧
    (rl < len → ∀ q, begin ≤ q → q < it → cand_len source it len vram q = rl → rs ≤ q) ∧
    (rl = len → ∀ q, begin ≤ q → q < it → cand_len source it len vram q = rl → q ≤ rs)))

/-- The decoder state without what the VRAM-safe flag can influence: the
variable `printed_vram_error` and the VRAM warnings on `stderr`. -/
def DecState.forget_vram (st : DecState) : DecState :=
  { st with printed_vram_error := false,
            stderr := st.stderr.filter (fun w => decide (w ≠ Warning.notVramSafe)) }

/-- The run of the decoder of the mode on `source`, with the VRAM-safe flag
set, decodes a compressed block of displacement `disp`: after some number `k`
of iterations, with bytes still to produce, the next unit is a compressed block
whose fields give this displacement. -/
def DecodesMatch (mode : LZSS_t) (source : Buffer) (disp : Nat) : Prop :=
  ∃ k Dk D1 len src, decode_loop mode source true k (decode_init source) = .ok Dk ∧
    0 < Dk.size ∧ load_flags source Dk = .ok D1 ∧ D1.flags &&& D1.mask ≠ 0 ∧
    match_fields mode source D1.src = .ok (len, disp, src)

/-- The length of the best match that `lzss_encode` finds at the cursor `it`
(the call of `find_best_match` with the probe length `min(len, max_len)`). -/
def probe_len (source : Buffer) (mode : LZSS_t) (vram : Bool) (it : Nat) : Nat :=
  (find_best_match source it (min (source.length - it) (max_len mode)) (max_disp mode) vram).2

/-- A length below 3 counts as 1 in the look-ahead of `lzss_encode` (lines
269-270 and 277-278). -/
def usable_len (k : Nat) : Nat := if k < 3 then 1 else k

/-- Invariant of the binary search trees of gbalzss.c, for the arrays
`text_buf`, `lson`, `rson`, `dad`.  A position `x < N` is in a tree when
`dad x ≠ NIL`.  The parent of a node in a tree is a node in a tree with the
same first byte and a smaller rank `rk`, or the root of the first byte of the
node; a child pointer of a node or of a root that is not `NIL` is a node whose
parent pointer points back; the two children of a node are different. -/
structure TreeInv (tb ls rs dd rk : Nat → Nat) : Prop where
  parent : ∀ x, x < N → dd x ≠ NIL →
    (dd x < N ∧ dd (dd x) ≠ NIL ∧ rk (dd x) < rk x ∧ tb (dd x) = tb x ∧
        (ls (dd x) = x ∨ rs (dd x) = x)) ∨
      (dd x = N + 1 + tb x ∧ tb x < 256 ∧ rs (dd x) = x)
  left : ∀ x, x < N → dd x ≠ NIL → ls x ≠ NIL → ls x < N ∧ dd (ls x) = x
  right : ∀ x, x < N → dd x ≠ NIL → rs x ≠ NIL → rs x < N ∧ dd (rs x) = x
  distinct : ∀ x, x < N → dd x ≠ NIL → ls x ≠ NIL → ls x ≠ rs x
  root : ∀ c, c < 256 → rs (N + 1 + c) ≠ NIL →
    rs (N + 1 + c) < N ∧ dd (rs (N + 1 + c)) = N + 1 + c

/-- Number of positions whose rank is above the rank of `p`: a bound on the
length of a descent from `p`. -/
def rank_above (rk : Nat → Nat) (p : Nat) : Nat :=
  ((Finset.range N).filter (fun x => rk p < rk x)).card

/-- What `InsertNode` reports for the string at `r`: a length of at most `F`
and, if it is positive, a position that was in a tree (according to `dad0`)
and whose string agrees with the string at `r` on that length. -/
def MatchPost (g : Globals) (dad0 : Nat → Nat) (r : Nat) : Prop :=
  g.match_length ≤ F ∧
    (0 < g.match_length →
      g.match_position < N ∧ dad0 g.match_position ≠ NIL ∧
        ∀ k, k < g.match_length →
          g.text_buf (g.match_position + k) = g.text_buf (r + k))

/-- The bytes that pass through the ring buffer, by running index: `N - F`
bytes `0xff` (the initial content of the buffer below the first byte read),
then the source. -/
def ext (S : List Byte) (u : Nat) : Nat :=
  if u < N - F then 0xff else (S.getD (u - (N - F)) 0).val

/-- The content of `text_buf` of the encoder when `W` bytes of the extended
source have passed: the byte of index `u` is at position `u % N`, for the last
`N` indices, and also at `N + u % N` when that position is below `F - 1` and
was written by the reading loop. -/
def BufInv (tb : Nat → Nat) (S : List Byte) (W : Nat) : Prop :=
  (∀ u, u < W → W ≤ u + N → tb (u % N) = ext S u) ∧
    (∀ u, N ≤ u → u < W → W ≤ u + N → u % N < F - 1 → tb (N + u % N) = ext S u)

/-- Invariant of `Encode` when the cursor is at the byte `n` of the source:
the trees, the positions `r` and `s`, the look-ahead length, the input left,
the content of the buffer, and the nodes of the trees, which are positions of
indices between `n` and the cursor index `N - F + n`. -/
structure StepInv (S : List Byte) (E : EncodeState) (n : Nat) : Prop where
  tree : ∃ rk, TreeInv E.g.text_buf E.g.lson E.g.rson E.g.dad rk
  n_le : n ≤ S.length
  r_eq : E.r = (N - F + n) % N
  s_eq : E.s = n % N
  len_eq : E.len = min F (S.length - n)
  infile_eq : E.infile = S.drop (n + E.len)
  buf : BufInv E.g.text_buf S (N - F + n + E.len)
  live : ∀ x, x < N → E.g.dad x ≠ NIL →
    ∃ u, x = u % N ∧ n ≤ u ∧ N - 2 * F ≤ u ∧ u ≤ N - F + n

/-- The match that the encoder holds at the cursor `n`: its position is the
position of an earlier index `u`, at most `N - F` back, and the source agrees
from `u` and from the cursor on the length of the match (inside the
look-ahead). -/
def MatchOK (S : List Byte) (E : EncodeState) (n : Nat) : Prop :=
  E.g.match_length ≤ F ∧
    (0 < E.g.match_length →
      ∃ u, E.g.match_position = u % N ∧ n ≤ u ∧ N - 2 * F ≤ u ∧ u < N - F + n ∧
        ∀ k, k < E.g.match_length → k < E.len →
          ext S (u + k) = ext S (N - F + n + k))

/-- The state of `Decode` after `n` bytes of the source were decoded: the
position in the ring buffer, the count, the output, and the content of the
buffer for the last `N` indices of the extended source. -/
structure DecInv (S : List Byte) (D : DecodeState) (n : Nat) : Prop where
  r_eq : D.r = (N - F + n) % N
  cur : D.cur_size = n
  out : D.outfile = S.take n
  buf : ∀ u, u < N - F + n → N - F + n ≤ u + N → D.text_buf (u % N) = ext S u

/-- The output side of the state of `Encode` when the group being assembled
holds `j` units: the mask, the header at the start of `outfile`, the flag byte
of the group (whose bits of the units to come are zero). -/
structure OutInv (S : List Byte) (E : EncodeState) (j : Nat) : Prop where
  j_lt : j < 8
  mask_eq : E.mask = 2 ^ (7 - j)
  hdr_len : 4 ≤ E.outfile.length
  hdr : E.outfile.take 4 = gba_header S.length
  low : (E.code_buf.getD 0 0).val % 2 ^ (8 - j) = 0
  cb_zero : j = 0 → E.code_buf.length = 1
  cb_more : 0 < j → 1 < E.code_buf.length
  size : E.codesize + 4 = E.outfile.length

/-- The stream `Fs` (what follows the header in the final output) extends what
the encoder has written in state `E`: the bytes of `outfile` after the header,
and, when the group being assembled holds `j > 0` units, the units in
`code_buf` and the `j` upper bits of its flag byte. -/
def Extends (Fs : List Byte) (E : EncodeState) (j : Nat) : Prop :=
  E.outfile.length - 4 + (if j = 0 then 0 else E.code_buf.length) ≤ Fs.length ∧
    (∀ t, t < E.outfile.length - 4 → Fs.getD t 0 = E.outfile.getD (4 + t) 0) ∧
    (0 < j →
      (∀ t, 1 ≤ t → t < E.code_buf.length →
        Fs.getD (E.outfile.length - 4 + t) 0 = E.code_buf.getD t 0) ∧
      (Fs.getD (E.outfile.length - 4) 0).val / 2 ^ (8 - j)
        = (E.code_buf.getD 0 0).val / 2 ^ (8 - j))

/-- The decoder `D`, reading the stream `Fs`, has consumed what the encoder
has assembled in state `E` (with `j` units in the open group), and holds the
flag byte of the open group shifted by the units read. -/
structure Sync (Fs : List Byte) (E : EncodeState) (D : DecodeState) (j : Nat) : Prop where
  infile : D.infile
    = Fs.drop (E.outfile.length - 4 + (if j = 0 then 0 else E.code_buf.length))
  z : D.z = (j + 7) % 8
  flags : 0 < j → D.flags = (Fs.getD (E.outfile.length - 4) 0).val * 2 ^ (j - 1)

/-- The first byte of a position and length pair as `Encode` computes it
(lines 429-433). -/
def pair_byte1 (r match_position match_length : Nat) : Byte :=
  u8 (Int.toNat ((((r : Int) - (match_position : Int) - 1) >>> (8 : Nat)) % 16)
    ||| ((match_length - (THRESHOLD + 1)) <<< 4))

/-- The second byte of a position and length pair as `Encode` computes it
(line 435). -/
def pair_byte2 (r match_position : Nat) : Byte :=
  u8 (Int.toNat (((r : Int) - (match_position : Int) - 1) % 256))

/-- The number of source bytes a unit stands for: 1 for a literal, the length
for a compressed block. -/
def LzUnit.len : LzUnit → Nat
  | .literal _ => 1
  | .block len _ => len

/-- Two decoder states at the same point of the same stream with the same
output so far, the first with no more bytes left to produce than the second
(the warnings printed so far are not compared). -/
structure SameUnits (D D' : DecState) : Prop where
  src : D.src = D'.src
  flags : D.flags = D'.flags
  mask : D.mask = D'.mask
  result : D.result = D'.result
  size : D.size ≤ D'.size

/-- The decoder state with the output cut off after `d` bytes. -/
def DecodeState.clip (d : Nat) (st : DecodeState) : DecodeState :=
  { st with outfile := st.outfile.take d }

/-! ## Soundness of the match finder -/

theorem rfind_loop_spec (source : Buffer) (first last : Nat) (val : Byte) (it : Nat) :
    rfind_loop source first last val it = last ∨
      (first ≤ rfind_loop source first last val it ∧
        rfind_loop source first last val it < it ∧
        source.getD (rfind_loop source first last val it) 0 = val) := by
  induction it with
  | zero => left; rfl
  | succ n ih =>
    rw [rfind_loop]
    by_cases h1 : first ≤ n
    · rw [if_pos h1]
      by_cases h2 : source.getD n 0 = val
      · rw [if_pos h2]; right; exact ⟨h1, Nat.lt_succ_self n, h2⟩
      · rw [if_neg h2]
        rcases ih with h | ⟨ha, hb, hc⟩
        · left; exact h
        · right; exact ⟨ha, by omega, hc⟩
    · rw [if_neg h1]; left; rfl

theorem rfind_spec (source : Buffer) (first last : Nat) (val : Byte) :
    rfind source first last val = last ∨
      (first ≤ rfind source first last val ∧ rfind source first last val < last ∧
        source.getD (rfind source first last val) 0 = val) :=
  rfind_loop_spec source first last val last

theorem test_len_loop_spec (source : Buffer) (p it len : Nat) (fuel : Nat) :
    ∀ i tl, tl = i → (∀ j, 1 ≤ j → j < i → source.getD (p + j) 0 = source.getD (it + j) 0) →
      i ≤ test_len_loop source p it len fuel i tl ∧
      (test_len_loop source p it len fuel i tl ≤ len ∨
        test_len_loop source p it len fuel i tl = i) ∧
      ∀ j, 1 ≤ j → j < test_len_loop source p it len fuel i tl →
        source.getD (p + j) 0 = source.getD (it + j) 0 := by
  induction fuel with
  | zero =>
    intro i tl htl hpre
    subst htl
    rw [test_len_loop]
    exact ⟨le_refl _, Or.inr rfl, hpre⟩
  | succ n ih =>
    intro i tl htl hpre
    subst htl
    rw [test_len_loop]
    by_cases h1 : tl < len
    · rw [if_pos h1]
      by_cases h2 : source.getD (p + tl) 0 = source.getD (it + tl) 0
      · rw [if_pos h2]
        have hpre' : ∀ j, 1 ≤ j → j < tl + 1 →
            source.getD (p + j) 0 = source.getD (it + j) 0 := by
          intro j hj1 hj2
          by_cases hj : j = tl
          · subst hj; exact h2
          · exact hpre j hj1 (by omega)
        obtain ⟨ha, hb, hc⟩ := ih (tl + 1) (tl + 1) rfl hpre'
        refine ⟨by omega, ?_, hc⟩
        rcases hb with hb | hb
        · left; exact hb
        · left; omega
      · rw [if_neg h2]
        exact ⟨le_refl _, Or.inr rfl, hpre⟩
    · rw [if_neg h1]
      exact ⟨le_refl _, Or.inr rfl, hpre⟩

theorem fbm_loop_spec (source : Buffer) (begin it len : Nat) (vram : Bool) (hlen : 1 ≤ len)
    (fuel : Nat) :
    ∀ p last_p bs bl, last_p ≤ it →
      (p = last_p ∨ (begin ≤ p ∧ p < last_p ∧ source.getD p 0 = source.getD it 0)) →
      (bl = 0 ∨ GoodMatch source begin it len vram bs bl) →
      ((fbm_loop source begin it len vram fuel p last_p bs bl).2 = 0 ∨
        GoodMatch source begin it len vram
          (fbm_loop source begin it len vram fuel p last_p bs bl).1
          (fbm_loop source begin it len vram fuel p last_p bs bl).2) := by
  induction fuel with
  | zero => intro p last_p bs bl _ _ hg; rw [fbm_loop]; exact hg
  | succ n ih =>
    intro p last_p bs bl hlast hp hg
    rw [fbm_loop]
    by_cases hpl : p = last_p
    · rw [if_pos hpl]; exact hg
    · rw [if_neg hpl]
      rcases hp with hp | ⟨hp1, hp2, hp3⟩
      · exact absurd hp hpl
      · obtain ⟨ht1, ht2, ht3⟩ := test_len_loop_spec source p it len len 1 1 rfl
          (by intro j h1 h2; omega)
        -- the candidate after the vram test
        have hcand : (if vram = true ∧ it - p = 1 then 0
              else test_len_loop source p it len len 1 1) = 0 ∨
            GoodMatch source begin it len vram p
              (if vram = true ∧ it - p = 1 then 0
                else test_len_loop source p it len len 1 1) := by
          by_cases hv : vram = true ∧ it - p = 1
          · left; rw [if_pos hv]
          · right
            rw [if_neg hv]
            refine ⟨hp1, by omega, by omega, ?_, ?_⟩
            · intro hvr h1; exact hv ⟨hvr, h1⟩
            · intro j hj
              by_cases hj0 : j = 0
              · subst hj0; simpa using hp3
              · exact ht3 j (by omega) hj
        dsimp only
        generalize (if vram = true ∧ it - p = 1 then 0
              else test_len_loop source p it len len 1 1) = t at hcand ⊢
        have hg' : (if t ≥ bl then t else bl) = 0 ∨
            GoodMatch source begin it len vram (if t ≥ bl then p else bs)
              (if t ≥ bl then t else bl) := by
          by_cases hge : t ≥ bl
          · rw [if_pos hge, if_pos hge]; exact hcand
          · rw [if_neg hge, if_neg hge]; exact hg
        by_cases hmax : (if t ≥ bl then t else bl) = len
        · rw [if_pos hmax]; exact hg'
        · rw [if_neg hmax]
          exact ih _ _ _ _ (by omega) (by
            rcases rfind_spec source begin p (source.getD it 0) with h | ⟨h1, h2, h3⟩
            · left; exact h
            · right; exact ⟨h1, h2, h3⟩) hg'

theorem find_best_match_spec (source : Buffer) (it len max_disp : Nat) (vram : Bool)
    (hit : it < source.length) (hlen : 1 ≤ len)
    (hk : (find_best_match source it len max_disp vram).2 ≠ 0) :
    GoodMatch source (it - max_disp) it (min len (source.length - it)) vram
      (find_best_match source it len max_disp vram).1
      (find_best_match source it len max_disp vram).2 := by
  unfold find_best_match at hk ⊢
  have hbegin : (if it > max_disp then it - max_disp else 0) = it - max_disp := by
    split <;> omega
  have hlen' : (if source.length - it < len then source.length - it else len)
      = min len (source.length - it) := by
    split <;> omega
  simp only [hbegin, hlen'] at hk ⊢
  have hspec := fbm_loop_spec source (it - max_disp) it (min len (source.length - it)) vram
    (by omega) it (rfind source (it - max_disp) it (source.getD it 0)) it it 0 (le_refl _)
    (by
      rcases rfind_spec source (it - max_disp) it (source.getD it 0) with h | ⟨h1, h2, h3⟩
      · left; exact h
      · right; exact ⟨h1, h2, h3⟩) (Or.inl rfl)
  split at hk
  · rename_i hne
    rw [if_pos hne]
    rcases hspec with h | h
    · exact absurd h hne
    · exact h
  · simp at hk

/-! ## Bit-level facts about bytes -/

set_option maxRecDepth 100000 in
theorem bit_test_byte : ∀ x : Fin 256, ∀ s : Fin 8,
    (x.val &&& (1 <<< s.val) ≠ 0) ↔ (x.val >>> s.val) % 2 = 1 := by
  decide

set_option maxRecDepth 100000 in
theorem bit_mark_byte : ∀ r : Fin 256, ∀ s : Fin 8, r.val % 2 ^ (s.val + 1) = 0 →
    (((r.val ||| (1 <<< s.val)) % 256) >>> s.val) % 2 = 1 ∧
    ((r.val ||| (1 <<< s.val)) % 256) % 2 ^ s.val = 0 ∧
    (r.val >>> s.val) % 2 = 0 ∧ r.val % 2 ^ s.val = 0 := by
  decide

set_option maxRecDepth 100000 in
theorem bit_mark_high : ∀ r : Fin 256, ∀ s : Fin 8,
    ((r.val ||| (1 <<< s.val)) % 256) >>> (s.val + 1) = r.val >>> (s.val + 1) := by
  decide

set_option maxRecDepth 100000 in
theorem and_F0_shift : ∀ b : Fin 256, (b.val &&& 0xF0) >>> 4 = b.val / 16 := by
  decide

theorem or_shift4 (a h : Nat) (hh : h < 16) : (a <<< 4) ||| h = 16 * a + h := by
  rw [Nat.shiftLeft_eq]
  have := Nat.mul_add_lt_is_or (i := 4) (b := h) (by simpa using hh) a
  simp only [Nat.reducePow] at this
  rw [Nat.mul_comm a, ← this]

theorem or_shift8 (a b : Nat) (hb : b < 256) : (a <<< 8) ||| b = 256 * a + b := by
  rw [Nat.shiftLeft_eq]
  have := Nat.mul_add_lt_is_or (i := 8) (b := b) (by simpa using hb) a
  simp only [Nat.reducePow] at this
  rw [Nat.mul_comm a, ← this]

theorem or_shift12 (a b : Nat) (hb : b < 4096) : (a <<< 12) ||| b = 4096 * a + b := by
  rw [Nat.shiftLeft_eq]
  have := Nat.mul_add_lt_is_or (i := 12) (b := b) (by simpa using hb) a
  simp only [Nat.reducePow] at this
  rw [Nat.mul_comm a, ← this]

theorem and_0F (x : Nat) : x &&& 0x0F = x % 16 := by
  have := Nat.and_pow_two_sub_one_eq_mod x 4
  simpa using this

theorem u8_val (n : Nat) : (u8 n).val = n % 256 := rfl

/-- The displacement of a compressed block is recovered from the low nibble
`d / 256` and the byte `d % 256`. -/
theorem disp_fields (x d : Nat) (hx : x % 16 = d / 256) :
    (((x &&& 0x0F) <<< 8) ||| (d % 256)) + 1 = d + 1 := by
  rw [and_0F, or_shift8 _ _ (Nat.mod_lt _ (by decide)), hx]
  omega

/-! ## The fields the decoders read back from an encoded match -/

theorem lz10_fields_payload (F : Buffer) (src l d : Nat) (hl : 3 ≤ l) (hl2 : l ≤ 18)
    (hd : d < 4096)
    (h0 : F[src]? = some (u8 (((l - 3) <<< 4) ||| (d >>> 8))))
    (h1 : F[src + 1]? = some (u8 d)) :
    lz10_fields F src = .ok (l, d + 1, src + 2) := by
  have hb0 : (u8 (((l - 3) <<< 4) ||| (d >>> 8))).val = 16 * (l - 3) + d / 256 := by
    rw [u8_val, Nat.shiftRight_eq_div_pow, or_shift4 _ _ (by norm_num; omega)]
    norm_num; omega
  unfold lz10_fields deref
  simp only [h0, h1]
  have e1 := and_F0_shift (u8 (((l - 3) <<< 4) ||| (d >>> 8)))
  have e2 := disp_fields (u8 (((l - 3) <<< 4) ||| (d >>> 8))).val d (by rw [hb0]; omega)
  rw [e1, u8_val d, e2, hb0]
  congr 2
  omega

theorem lz11_fields_payload2 (F : Buffer) (src l d : Nat) (hl : 3 ≤ l) (hl2 : l ≤ 16)
    (hd : d < 4096)
    (h0 : F[src]? = some (u8 (((l - 1) <<< 4) ||| (d >>> 8))))
    (h1 : F[src + 1]? = some (u8 d)) :
    lz11_fields F src = .ok (l, d + 1, src + 2) := by
  have hb0 : (u8 (((l - 1) <<< 4) ||| (d >>> 8))).val = 16 * (l - 1) + d / 256 := by
    rw [u8_val, Nat.shiftRight_eq_div_pow, or_shift4 _ _ (by norm_num; omega)]
    norm_num; omega
  have hs : (u8 (((l - 1) <<< 4) ||| (d >>> 8))).val >>> 4 = l - 1 := by
    rw [hb0, Nat.shiftRight_eq_div_pow]; norm_num; omega
  unfold lz11_fields deref
  simp only [h0, h1]
  have e2 := disp_fields (u8 (((l - 1) <<< 4) ||| (d >>> 8))).val d (by rw [hb0]; omega)
  rw [hs, if_neg (by omega), if_neg (by omega), u8_val d, e2]
  congr 2
  omega

theorem lz11_fields_payload3 (F : Buffer) (src l d : Nat) (hl : 0x11 ≤ l) (hl2 : l ≤ 0x110)
    (hd : d < 4096)
    (h0 : F[src]? = some (u8 ((l - 0x11) >>> 4)))
    (h1 : F[src + 1]? = some (u8 (((l - 0x11) <<< 4) ||| (d >>> 8))))
    (h2 : F[src + 2]? = some (u8 d)) :
    lz11_fields F src = .ok (l, d + 1, src + 3) := by
  have hb0 : (u8 ((l - 0x11) >>> 4)).val = (l - 0x11) / 16 := by
    rw [u8_val, Nat.shiftRight_eq_div_pow]; norm_num; omega
  have hb1 : (u8 (((l - 0x11) <<< 4) ||| (d >>> 8))).val = 16 * ((l - 0x11) % 16) + d / 256 := by
    rw [u8_val, Nat.shiftRight_eq_div_pow, or_shift4 _ _ (by norm_num; omega)]
    norm_num; omega
  have hs : (u8 ((l - 0x11) >>> 4)).val >>> 4 = 0 := by
    rw [hb0, Nat.shiftRight_eq_div_pow]; norm_num; omega
  unfold lz11_fields deref
  simp only [h0, h1, h2]
  have e2 := disp_fields (u8 (((l - 0x11) <<< 4) ||| (d >>> 8))).val d (by rw [hb1]; omega)
  have e3 : (u8 (((l - 0x11) <<< 4) ||| (d >>> 8))).val >>> 4 = (l - 0x11) % 16 := by
    rw [hb1, Nat.shiftRight_eq_div_pow]; norm_num; omega
  rw [hs, if_pos rfl, u8_val d, e2, e3, or_shift4 _ _ (Nat.mod_lt _ (by decide)), hb0]
  congr 2
  omega

theorem lz11_fields_payload4 (F : Buffer) (src l d : Nat) (hl : 0x111 ≤ l) (hl2 : l ≤ 65808)
    (hd : d < 4096)
    (h0 : F[src]? = some (u8 ((1 <<< 4) ||| ((l - 0x111) >>> 12))))
    (h1 : F[src + 1]? = some (u8 ((l - 0x111) >>> 4)))
    (h2 : F[src + 2]? = some (u8 (((l - 0x111) <<< 4) ||| (d >>> 8))))
    (h3 : F[src + 3]? = some (u8 d)) :
    lz11_fields F src = .ok (l, d + 1, src + 4) := by
  have hb0 : (u8 ((1 <<< 4) ||| ((l - 0x111) >>> 12))).val = 16 + (l - 0x111) / 4096 := by
    rw [u8_val, Nat.shiftRight_eq_div_pow, or_shift4 _ _ (by norm_num; omega)]
    norm_num; omega
  have hb1 : (u8 ((l - 0x111) >>> 4)).val = ((l - 0x111) / 16) % 256 := by
    rw [u8_val, Nat.shiftRight_eq_div_pow]
  have hb2 : (u8 (((l - 0x111) <<< 4) ||| (d >>> 8))).val
      = 16 * ((l - 0x111) % 16) + d / 256 := by
    rw [u8_val, Nat.shiftRight_eq_div_pow, or_shift4 _ _ (by norm_num; omega)]
    norm_num; omega
  have hs : (u8 ((1 <<< 4) ||| ((l - 0x111) >>> 12))).val >>> 4 = 1 := by
    rw [hb0, Nat.shiftRight_eq_div_pow]; norm_num; omega
  unfold lz11_fields deref
  simp only [h0, h1, h2, h3]
  have e2 := disp_fields (u8 (((l - 0x111) <<< 4) ||| (d >>> 8))).val d (by rw [hb2]; omega)
  have e3 : (u8 (((l - 0x111) <<< 4) ||| (d >>> 8))).val >>> 4 = (l - 0x111) % 16 := by
    rw [hb2, Nat.shiftRight_eq_div_pow]; norm_num; omega
  have e4 : (u8 ((1 <<< 4) ||| ((l - 0x111) >>> 12))).val &&& 0x0F = (l - 0x111) / 4096 := by
    rw [and_0F, hb0]; omega
  have e5 : ((l - 0x111) / 4096) <<< 12 ||| (u8 ((l - 0x111) >>> 4)).val <<< 4
      = 16 * ((l - 0x111) / 16) := by
    rw [hb1, Nat.shiftLeft_eq _ 4, or_shift12 _ _ (by norm_num; omega)]
    norm_num; omega
  rw [hs, if_neg (by decide), if_pos rfl, u8_val d, e2, e3, e4, e5]
  have e6 : 16 * ((l - 0x111) / 16) ||| (l - 0x111) % 16 = l - 0x111 := by
    have := or_shift4 ((l - 0x111) / 16) ((l - 0x111) % 16) (Nat.mod_lt _ (by decide))
    rw [Nat.shiftLeft_eq] at this
    norm_num at this
    rw [Nat.mul_comm] at this
    rw [this]; omega
  rw [e6]
  congr 2
  omega

theorem match_fields_payload (mode : LZSS_t) (F : Buffer) (src l d : Nat) (hl : 3 ≤ l)
    (hl2 : l ≤ max_len mode) (hd : d < 4096)
    (hF : ∀ j, j < (match_payload mode l d).length →
      F[src + j]? = (match_payload mode l d)[j]?) :
    match_fields mode F src = .ok (l, d + 1, src + (match_payload mode l d).length) := by
  cases mode with
  | LZ10 =>
    have hp : match_payload .LZ10 l d = [u8 (((l - 3) <<< 4) ||| (d >>> 8)), u8 d] := by
      simp [match_payload]
    rw [hp] at hF ⊢
    have h0 := hF 0 (by simp)
    have h1 := hF 1 (by simp)
    simp only [Nat.add_zero, List.getElem?_cons_zero, List.getElem?_cons_succ] at h0 h1
    exact lz10_fields_payload F src l d hl (by simpa [max_len, LZ10_MAX_LEN] using hl2) hd h0 h1
  | LZ11 =>
    have hl3 : l ≤ 65808 := by simpa [max_len, LZ11_MAX_LEN] using hl2
    by_cases c1 : l ≤ 0x10
    · have hp : match_payload .LZ11 l d = [u8 (((l - 1) <<< 4) ||| (d >>> 8)), u8 d] := by
        simp [match_payload, c1]
      rw [hp] at hF ⊢
      have h0 := hF 0 (by simp)
      have h1 := hF 1 (by simp)
      simp only [Nat.add_zero, List.getElem?_cons_zero, List.getElem?_cons_succ] at h0 h1
      exact lz11_fields_payload2 F src l d hl c1 hd h0 h1
    · by_cases c2 : l ≤ 0x110
      · have hp : match_payload .LZ11 l d = [u8 ((l - 0x11) >>> 4),
            u8 (((l - 0x11) <<< 4) ||| (d >>> 8)), u8 d] := by
          simp [match_payload, c1, c2]
        rw [hp] at hF ⊢
        have h0 := hF 0 (by simp)
        have h1 := hF 1 (by simp)
        have h2 := hF 2 (by simp)
        simp only [Nat.add_zero, List.getElem?_cons_zero, List.getElem?_cons_succ] at h0 h1 h2
        exact lz11_fields_payload3 F src l d (by omega) c2 hd h0 h1 h2
      · have hp : match_payload .LZ11 l d = [u8 ((1 <<< 4) ||| ((l - 0x111) >>> 12)),
            u8 ((l - 0x111) >>> 4), u8 (((l - 0x111) <<< 4) ||| (d >>> 8)), u8 d] := by
          simp [match_payload, c1, c2]
        rw [hp] at hF ⊢
        have h0 := hF 0 (by simp)
        have h1 := hF 1 (by simp)
        have h2 := hF 2 (by simp)
        have h3 := hF 3 (by simp)
        simp only [Nat.add_zero, List.getElem?_cons_zero, List.getElem?_cons_succ]
          at h0 h1 h2 h3
        exact lz11_fields_payload4 F src l d (by omega) hl3 hd h0 h1 h2 h3

/-! ## The choice made by the encoder at a cursor -/

theorem ite_snd_ge3 {c : Prop} [Decidable c] (x : Nat) (b : Nat × Nat)
    (h : 3 ≤ (if c then (x, 1) else b).2) : (if c then (x, 1) else b) = b := by
  split at h
  · simp at h
  · rename_i hc; rw [if_neg hc]

theorem lzss_select_spec (source : Buffer) (mode : LZSS_t) (vram : Bool) (it : Nat)
    (hit : it < source.length) (h3 : 3 ≤ (lzss_select source mode vram it).2) :
    GoodMatch source (it - max_disp mode) it (min (max_len mode) (source.length - it)) vram
      (lzss_select source mode vram it).1 (lzss_select source mode vram it).2 := by
  have hml : 1 ≤ max_len mode := by
    cases mode <;> simp [max_len, LZ10_MAX_LEN, LZ11_MAX_LEN]
  have key : ∀ found : Nat × Nat,
      found = (if it = 0 then (source.length, 1)
        else find_best_match source it (min (source.length - it) (max_len mode))
          (max_disp mode) vram) → 3 ≤ found.2 →
      GoodMatch source (it - max_disp mode) it (min (max_len mode) (source.length - it)) vram
        found.1 found.2 := by
    intro found hf h
    by_cases h0 : it = 0
    · rw [if_pos h0] at hf; rw [hf] at h; simp at h
    · rw [if_neg h0] at hf
      rw [hf] at h ⊢
      have := find_best_match_spec source it (min (source.length - it) (max_len mode))
        (max_disp mode) vram hit (by omega) (by omega)
      have e : min (min (source.length - it) (max_len mode)) (source.length - it)
          = min (max_len mode) (source.length - it) := by omega
      rw [e] at this
      exact this
  unfold lzss_select at h3 ⊢
  dsimp only at h3 ⊢
  generalize hf : (if it = 0 then (source.length, 1)
        else find_best_match source it (min (source.length - it) (max_len mode))
          (max_disp mode) vram) = found at h3 ⊢
  have hk := key found hf.symm
  by_cases hc1 : found.2 > 2 ∧ found.2 < source.length - it
  · rw [if_pos hc1] at h3 ⊢
    have e := ite_snd_ge3 _ _ h3
    rw [e] at h3 ⊢
    exact hk h3
  · rw [if_neg hc1] at h3 ⊢
    exact hk h3

/-! ## The copy loop of the decoders -/

theorem copy_loop_take (source : Buffer) (disp : Nat) (hd : 1 ≤ disp) :
    ∀ len it, disp ≤ it → it + len ≤ source.length →
      (∀ j, j < len → source.getD (it - disp + j) 0 = source.getD (it + j) 0) →
      copy_loop disp len (source.take it) = source.take (it + len) := by
  intro len
  induction len with
  | zero => intro it _ _ _; rfl
  | succ n ih =>
    intro it hdi hle hm
    rw [copy_loop]
    have hlen : (source.take it).length = it := by
      rw [List.length_take]; omega
    have h0 := hm 0 (by omega)
    simp only [Nat.add_zero] at h0
    have hget : (source.take it).getD ((source.take it).length - disp) 0
        = source.getD it 0 := by
      rw [hlen, ← h0, List.getD_eq_getElem?_getD, List.getD_eq_getElem?_getD,
        List.getElem?_take_of_lt (by omega)]
    have hstep : source.take it ++ [source.getD it 0] = source.take (it + 1) := by
      rw [List.take_succ, List.getD_eq_getElem?_getD,
        List.getElem?_eq_getElem (by omega : it < source.length)]
      simp
    rw [hget, hstep, ih (it + 1) (by omega) (by omega) (by
      intro j hj
      have := hm (j + 1) (by omega)
      have e1 : it + 1 - disp + j = it - disp + (j + 1) := by omega
      have e2 : it + 1 + j = it + (j + 1) := by omega
      rw [e1, e2]; exact this)]
    congr 1
    omega

/-! ## Shape of one encoder iteration -/

theorem next_code_bit_it (E : EncState) : (next_code_bit E).it = E.it := by
  by_cases h : E.shift = 0 <;> simp [next_code_bit, h]

theorem next_code_bit_zero (E : EncState) (h : E.shift = 0) :
    (next_code_bit E).result = E.result ++ [0] ∧
    (next_code_bit E).code_pos = E.result.length ∧ (next_code_bit E).shift = 7 := by
  unfold next_code_bit
  simp [h]

theorem next_code_bit_pos (E : EncState) (h : E.shift ≠ 0) :
    (next_code_bit E).result = E.result ∧
    (next_code_bit E).code_pos = E.code_pos ∧ (next_code_bit E).shift + 1 = E.shift := by
  unfold next_code_bit
  simp [h]
  omega

theorem next_code_bit_wf (E : EncState) (h : E.WF) :
    (next_code_bit E).code_pos < (next_code_bit E).result.length ∧
      (next_code_bit E).shift < 8 := by
  by_cases hs : E.shift = 0
  · obtain ⟨h1, h2, h3⟩ := next_code_bit_zero E hs
    rw [h1, h2, h3]; simp
  · obtain ⟨h1, h2, h3⟩ := next_code_bit_pos E hs
    rw [h1, h2]
    exact ⟨h.1, by have := h.2; omega⟩

theorem mark_code_length (r : Buffer) (cp s : Nat) : (mark_code r cp s).length = r.length := by
  unfold mark_code; simp

theorem mark_code_ne (r : Buffer) (cp s i : Nat) (h : i ≠ cp) :
    (mark_code r cp s)[i]? = r[i]? := by
  unfold mark_code
  rw [List.getElem?_set_ne (Ne.symm h)]

theorem mark_code_self (r : Buffer) (cp s : Nat) (h : cp < r.length) :
    (mark_code r cp s)[cp]? = some (u8 ((r.getD cp 0).val ||| (1 <<< s))) := by
  unfold mark_code
  rw [List.getElem?_set_self h]

/-- The buffer after one iteration: the buffer after `next_code_bit`, with the
code byte possibly marked, followed by the bytes of the unit. -/
theorem lzss_iter_shape (source : Buffer) (mode : LZSS_t) (vram : Bool) (E : EncState) :
    (lzss_iter source mode vram E).code_pos = (next_code_bit E).code_pos ∧
    (lzss_iter source mode vram E).shift = (next_code_bit E).shift ∧
    (((lzss_select source mode vram E.it).2 < 3 ∧
      (lzss_iter source mode vram E).it = E.it + 1 ∧
      (lzss_iter source mode vram E).result
        = (next_code_bit E).result ++ [source.getD E.it 0]) ∨
     (3 ≤ (lzss_select source mode vram E.it).2 ∧
      (lzss_iter source mode vram E).it = E.it + (lzss_select source mode vram E.it).2 ∧
      (lzss_iter source mode vram E).result
        = mark_code (next_code_bit E).result (next_code_bit E).code_pos (next_code_bit E).shift
          ++ match_payload mode (lzss_select source mode vram E.it).2
              (E.it - (lzss_select source mode vram E.it).1 - 1))) := by
  unfold lzss_iter
  dsimp only
  by_cases h : (lzss_select source mode vram E.it).2 < 3
  · rw [if_pos h]
    exact ⟨rfl, rfl, Or.inl ⟨h, rfl, rfl⟩⟩
  · rw [if_neg h]
    exact ⟨rfl, rfl, Or.inr ⟨by omega, rfl, rfl⟩⟩

theorem lzss_iter_wf (source : Buffer) (mode : LZSS_t) (vram : Bool) (E : EncState)
    (h : E.WF) : (lzss_iter source mode vram E).WF := by
  obtain ⟨h1, h2, h3⟩ := lzss_iter_shape source mode vram E
  obtain ⟨w1, w2⟩ := next_code_bit_wf E h
  unfold EncState.WF
  rw [h1, h2]
  refine ⟨?_, by omega⟩
  rcases h3 with ⟨_, _, hr⟩ | ⟨_, _, hr⟩
  · rw [hr, List.length_append]; omega
  · rw [hr, List.length_append, mark_code_length]; omega

/-- The buffer only grows, and bytes other than the current code byte keep
their value. -/
theorem lzss_iter_grows (source : Buffer) (mode : LZSS_t) (vram : Bool) (E : EncState) :
    E.result.length < (lzss_iter source mode vram E).result.length ∧
    ∀ i, i < E.result.length → (i ≠ E.code_pos ∨ E.shift = 0) →
      (lzss_iter source mode vram E).result[i]? = E.result[i]? := by
  obtain ⟨h1, h2, h3⟩ := lzss_iter_shape source mode vram E
  have hlen : E.result.length ≤ (next_code_bit E).result.length ∧
      (∀ i, i < E.result.length → (next_code_bit E).result[i]? = E.result[i]?) ∧
      (E.shift = 0 → (next_code_bit E).code_pos = E.result.length) ∧
      (E.shift ≠ 0 → (next_code_bit E).code_pos = E.code_pos) := by
    by_cases hs : E.shift = 0
    · obtain ⟨a, b, c⟩ := next_code_bit_zero E hs
      rw [a, b]
      refine ⟨by simp, ?_, fun _ => rfl, fun h => absurd hs h⟩
      intro i hi
      rw [List.getElem?_append_left hi]
    · obtain ⟨a, b, c⟩ := next_code_bit_pos E hs
      rw [a, b]
      exact ⟨le_refl _, fun _ _ => rfl, fun h => absurd h hs, fun _ => rfl⟩
  obtain ⟨l1, l2, l3, l4⟩ := hlen
  rcases h3 with ⟨_, _, hr⟩ | ⟨_, _, hr⟩
  · rw [hr]
    refine ⟨by rw [List.length_append]; simp; omega, ?_⟩
    intro i hi _
    rw [List.getElem?_append_left (by omega)]
    exact l2 i hi
  · rw [hr]
    refine ⟨?_, ?_⟩
    · rw [List.length_append, mark_code_length]
      have : 0 < (match_payload mode (lzss_select source mode vram E.it).2
          (E.it - (lzss_select source mode vram E.it).1 - 1)).length := by
        unfold match_payload
        split
        · simp
        · split
          · simp
          · split <;> simp
      omega
    · intro i hi hne
      rw [List.getElem?_append_left (by rw [mark_code_length]; omega)]
      have hcp : i ≠ (next_code_bit E).code_pos := by
        by_cases hs : E.shift = 0
        · rw [l3 hs]; omega
        · rw [l4 hs]
          rcases hne with hne | hne
          · exact hne
          · exact absurd hne hs
      rw [mark_code_ne _ _ _ _ hcp]
      exact l2 i hi

/-! ## The encoder output seen from a later stream -/

theorem agree_iter (source : Buffer) (mode : LZSS_t) (vram : Bool) (E : EncState)
    (F : Buffer) (hwf : E.WF) (h : Agree (lzss_iter source mode vram E) F) : Agree E F := by
  obtain ⟨a1, a2, a3⟩ := h
  obtain ⟨p1, p2⟩ := lzss_iter_grows source mode vram E
  obtain ⟨s1, s2, s3⟩ := lzss_iter_shape source mode vram E
  obtain ⟨w1, w2⟩ := next_code_bit_wf E hwf
  by_cases hs : E.shift = 0
  · obtain ⟨n1, n2, n3⟩ := next_code_bit_zero E hs
    have hall : ∀ i, i < E.result.length → F[i]? = E.result[i]? := by
      intro i hi
      rw [a2 i (by omega) (by rw [s1, n2]; omega)]
      exact p2 i hi (Or.inr hs)
    refine ⟨by omega, fun i hi _ => hall i hi, ?_⟩
    rw [List.getD_eq_getElem?_getD, List.getD_eq_getElem?_getD, hall _ hwf.1]
  · obtain ⟨n1, n2, n3⟩ := next_code_bit_pos E hs
    refine ⟨by omega, ?_, ?_⟩
    · intro i hi hne
      rw [a2 i (by omega) (by rw [s1, n2]; exact hne)]
      exact p2 i hi (Or.inl hne)
    · rw [s1, s2, n2] at a3
      have hsh : E.shift = (next_code_bit E).shift + 1 := n3.symm
      rw [hsh, Nat.shiftRight_succ, a3, ← Nat.shiftRight_succ]
      rcases s3 with ⟨_, _, hr⟩ | ⟨_, _, hr⟩
      · rw [hr, n1, List.getD_eq_getElem?_getD, List.getElem?_append_left hwf.1,
          ← List.getD_eq_getElem?_getD]
      · rw [hr, n1, n2, List.getD_eq_getElem?_getD,
          List.getElem?_append_left (by rw [mark_code_length]; exact hwf.1),
          mark_code_self _ _ _ hwf.1]
        simp only [Option.getD_some, u8_val]
        exact bit_mark_high (E.result.getD E.code_pos 0) ⟨(next_code_bit E).shift, w2⟩

theorem lzss_loop_wf (source : Buffer) (mode : LZSS_t) (vram : Bool) (fuel : Nat) :
    ∀ E : EncState, E.WF → (lzss_loop source mode vram fuel E).WF := by
  induction fuel with
  | zero => intro E h; exact h
  | succ n ih =>
    intro E h
    rw [lzss_loop]
    split
    · exact ih _ (lzss_iter_wf source mode vram E h)
    · exact h

theorem agree_loop (source : Buffer) (mode : LZSS_t) (vram : Bool) (F : Buffer)
    (fuel : Nat) :
    ∀ E : EncState, E.WF → Agree (lzss_loop source mode vram fuel E) F → Agree E F := by
  induction fuel with
  | zero => intro E _ h; exact h
  | succ n ih =>
    intro E hwf h
    rw [lzss_loop] at h
    split at h
    · exact agree_iter source mode vram E F hwf
        (ih _ (lzss_iter_wf source mode vram E hwf) h)
    · exact h

/-! ## One decoder iteration on a literal and on a match -/

theorem decode_iter_literal (mode : LZSS_t) (F : Buffer) (vram : Bool) (D D1 : DecState)
    (b : Byte) (h1 : load_flags F D = .ok D1) (h2 : D1.flags &&& D1.mask = 0)
    (h3 : F[D1.src]? = some b) :
    decode_iter mode F vram D =
      .ok { D1 with result := D1.result ++ [b], src := D1.src + 1,
                    size := D1.size - 1, mask := D1.mask >>> 1 } := by
  unfold decode_iter
  rw [h1]
  simp only [h2, ne_eq, not_true_eq_false, if_false, deref, h3]

theorem decode_iter_match (mode : LZSS_t) (F : Buffer) (vram : Bool) (D D1 : DecState)
    (len disp src : Nat) (h1 : load_flags F D = .ok D1) (h2 : D1.flags &&& D1.mask ≠ 0)
    (h3 : match_fields mode F D1.src = .ok (len, disp, src))
    (h4 : len ≤ D1.size) (h5 : disp ≤ D1.result.length)
    (h6 : (vram && !D1.printed_vram_error && decide (disp = 1)) = false) :
    decode_iter mode F vram D =
      .ok { src := src, flags := D1.flags, mask := D1.mask >>> 1, size := D1.size - len,
            result := copy_loop disp len D1.result,
            printed_error := D1.printed_error,
            printed_vram_error := D1.printed_vram_error, stderr := D1.stderr } := by
  unfold decode_iter
  rw [h1]
  simp only [h2, ne_eq, not_false_eq_true, if_true, h3]
  unfold copy_block
  have h4' : ¬ len > D1.size := by omega
  have h5' : ¬ D1.result.length < disp := by omega
  simp only [h4', h5', h6, decide_False, Bool.false_and, if_false, Bool.false_eq_true]

/-! ## Simulation of the encoder by the decoder -/

set_option maxRecDepth 100000 in
theorem mask_shift : ∀ s : Fin 8, (1 <<< (s.val + 1)) >>> 1 = 1 <<< s.val ∧
    (1 <<< s.val) >>> 1 ≠ 0 ∨ s.val = 0 := by
  decide

theorem take_snoc (source : Buffer) (it : Nat) (h : it < source.length) :
    source.take it ++ [source.getD it 0] = source.take (it + 1) := by
  rw [List.take_succ, List.getD_eq_getElem?_getD, List.getElem?_eq_getElem h]
  simp

theorem corr_load (source F : Buffer) (mode : LZSS_t) (vram : Bool) (E : EncState)
    (D : DecState) (hc : Corr source F E D)
    (hA : Agree (lzss_iter source mode vram E) F) :
    load_flags F D = .ok { D with flags := (F.getD (next_code_bit E).code_pos 0).val,
                                  mask := 1 <<< (next_code_bit E).shift,
                                  src := (next_code_bit E).result.length } := by
  obtain ⟨a1, a2, a3⟩ := hA
  obtain ⟨p1, p2⟩ := lzss_iter_grows source mode vram E
  unfold load_flags
  by_cases hs : E.shift = 0
  · obtain ⟨n1, n2, n3⟩ := next_code_bit_zero E hs
    have hm : D.mask = 0 := by rw [hc.mask, hs]; rfl
    rw [if_pos hm]
    have hlt : D.src < F.length := by rw [hc.src]; omega
    unfold deref
    rw [List.getElem?_eq_getElem hlt]
    simp only [n1, n2, n3, List.length_append, List.length_singleton,
      List.getD_eq_getElem?_getD]
    rw [← hc.src, List.getElem?_eq_getElem hlt]
    rfl
  · obtain ⟨n1, n2, n3⟩ := next_code_bit_pos E hs
    have hlt : (next_code_bit E).shift < 8 := by have := hc.shift_lt; omega
    have hms := mask_shift ⟨(next_code_bit E).shift, hlt⟩
    have hm : D.mask = 1 <<< (next_code_bit E).shift := by
      rw [hc.mask, ← n3]
      rcases mask_shift ⟨(next_code_bit E).shift, hlt⟩ with h | h
      · exact h.1
      · simp only at h; rw [h]; rfl
    have hm0 : D.mask ≠ 0 := by
      rw [hm, Nat.shiftLeft_eq]; positivity
    rw [if_neg hm0, n1, n2, ← hm, ← hc.src, ← hc.flags hs]

theorem next_low (source F : Buffer) (E : EncState) (D : DecState)
    (hc : Corr source F E D) :
    ((next_code_bit E).result.getD (next_code_bit E).code_pos 0).val
      % 2 ^ ((next_code_bit E).shift + 1) = 0 := by
  by_cases hs : E.shift = 0
  · obtain ⟨n1, n2, n3⟩ := next_code_bit_zero E hs
    rw [n1, n2, List.getD_eq_getElem?_getD, List.getElem?_concat_length]
    rfl
  · obtain ⟨n1, n2, n3⟩ := next_code_bit_pos E hs
    rw [n1, n2, n3]
    exact hc.low

theorem max_disp_eq (mode : LZSS_t) : max_disp mode = 4096 := by
  cases mode <;> rfl

theorem sim_step (source F : Buffer) (mode : LZSS_t) (vram : Bool) (E : EncState)
    (D : DecState) (hc : Corr source F E D) (hit : E.it < source.length)
    (hA : Agree (lzss_iter source mode vram E) F) :
    ∃ D', decode_iter mode F vram D = .ok D' ∧
      Corr source F (lzss_iter source mode vram E) D' := by
  have hload := corr_load source F mode vram E D hc hA
  have hlow := next_low source F E D hc
  obtain ⟨a1, a2, a3⟩ := hA
  obtain ⟨s1, s2, s3⟩ := lzss_iter_shape source mode vram E
  obtain ⟨w1, w2⟩ := next_code_bit_wf E hc.wf
  have hwf' := lzss_iter_wf source mode vram E hc.wf
  have hbits := bit_mark_byte ((next_code_bit E).result.getD (next_code_bit E).code_pos 0)
    ⟨(next_code_bit E).shift, w2⟩ hlow
  have htest := bit_test_byte (F.getD (next_code_bit E).code_pos 0)
    ⟨(next_code_bit E).shift, w2⟩
  simp only at hbits htest
  rw [s1, s2] at a3
  have hmask : (1 <<< (lzss_iter source mode vram E).shift) >>> 1
      = (1 <<< (next_code_bit E).shift) >>> 1 := by rw [s2]
  rcases s3 with ⟨hsel, hit', hr⟩ | ⟨hsel, hit', hr⟩
  · -- a copy chunk
    have hcode : (lzss_iter source mode vram E).result.getD (next_code_bit E).code_pos 0
        = (next_code_bit E).result.getD (next_code_bit E).code_pos 0 := by
      rw [hr, List.getD_eq_getElem?_getD, List.getElem?_append_left w1,
        ← List.getD_eq_getElem?_getD]
    have hflag : (F.getD (next_code_bit E).code_pos 0).val
        &&& (1 <<< (next_code_bit E).shift) = 0 := by
      by_contra hne
      have h1 := htest.mp hne
      rw [a3, hcode] at h1
      have h2 := hbits.2.2.1
      omega
    have hbyte : F[(next_code_bit E).result.length]? = some (source.getD E.it 0) := by
      rw [a2 _ (by rw [hr]; simp) (by rw [s1]; omega), hr, List.getElem?_concat_length]
    refine ⟨_, decode_iter_literal mode F vram D _ _ hload hflag hbyte, ?_⟩
    exact {
      wf := hwf'
      it_le := by rw [hit']; omega
      res := by
        rw [hit']
        show D.result ++ [source.getD E.it 0] = _
        rw [hc.res, take_snoc source E.it hit]
      size := by
        rw [hit']
        show D.size - 1 = _
        rw [hc.size]; omega
      src := by
        show (next_code_bit E).result.length + 1 = _
        rw [hr]; simp
      shift_lt := by rw [s2]; exact w2
      mask := by rw [hmask]
      flags := by intro _; rw [s1]
      low := by
        rw [s1, s2, hcode]
        exact hbits.2.2.2
      perr := hc.perr
      pvram := hc.pvram
      stderr := hc.stderr }
  · -- a compressed chunk
    have hcode : ((lzss_iter source mode vram E).result.getD (next_code_bit E).code_pos 0)
        = u8 (((next_code_bit E).result.getD (next_code_bit E).code_pos 0).val
            ||| (1 <<< (next_code_bit E).shift)) := by
      rw [hr, List.getD_eq_getElem?_getD,
        List.getElem?_append_left (by rw [mark_code_length]; exact w1),
        mark_code_self _ _ _ w1]
      rfl
    have hflag : (F.getD (next_code_bit E).code_pos 0).val
        &&& (1 <<< (next_code_bit E).shift) ≠ 0 := by
      apply htest.mpr
      rw [a3, hcode, u8_val]
      exact hbits.1
    obtain ⟨g1, g2, g3, g4, g5⟩ := lzss_select_spec source mode vram E.it hit hsel
    rw [max_disp_eq] at g1
    have hd : E.it - (lzss_select source mode vram E.it).1 - 1 < 4096 := by omega
    have hfields := match_fields_payload mode F (next_code_bit E).result.length
      (lzss_select source mode vram E.it).2
      (E.it - (lzss_select source mode vram E.it).1 - 1) hsel (by omega) hd (by
        intro j hj
        rw [a2 _ (by rw [hr, List.length_append, mark_code_length]; omega)
          (by rw [s1]; omega), hr,
          List.getElem?_append_right (by rw [mark_code_length]; omega)]
        congr 1
        rw [mark_code_length]; omega)
    have hreslen : D.result.length = E.it := by
      rw [hc.res, List.length_take]; have := hc.it_le; omega
    have hiter := decode_iter_match mode F vram D _ _ _ _ hload hflag hfields
      (by show _ ≤ D.size; rw [hc.size]; omega)
      (by show _ ≤ D.result.length; rw [hreslen]; omega)
      (by
        show (vram && !D.printed_vram_error && decide (_ = 1)) = false
        cases vram with
        | false => rfl
        | true =>
          have := g4 rfl
          simp only [Bool.true_and, Bool.and_eq_false_imp, decide_eq_false_iff_not]
          intro _
          omega)
    refine ⟨_, hiter, ?_⟩
    exact {
      wf := hwf'
      it_le := by rw [hit']; omega
      res := by
        rw [hit']
        show copy_loop _ _ D.result = _
        rw [hc.res]
        apply copy_loop_take source _ (by omega) _ _ (by omega) (by omega)
        intro j hj
        have e : E.it - (E.it - (lzss_select source mode vram E.it).1 - 1 + 1) + j
            = (lzss_select source mode vram E.it).1 + j := by omega
        rw [e]
        exact g5 j hj
      size := by
        rw [hit']
        show D.size - _ = _
        rw [hc.size]; omega
      src := by
        show (next_code_bit E).result.length + _ = _
        rw [hr, List.length_append, mark_code_length]
      shift_lt := by rw [s2]; exact w2
      mask := by rw [hmask]
      flags := by intro _; rw [s1]
      low := by
        rw [s1, s2, hcode, u8_val]
        exact hbits.2.1
      perr := hc.perr
      pvram := hc.pvram
      stderr := hc.stderr }

theorem lzss_iter_it_lt (source : Buffer) (mode : LZSS_t) (vram : Bool) (E : EncState) :
    E.it < (lzss_iter source mode vram E).it := by
  obtain ⟨_, _, s3⟩ := lzss_iter_shape source mode vram E
  rcases s3 with ⟨_, h, _⟩ | ⟨_, h, _⟩ <;> omega

theorem decode_loop_done (mode : LZSS_t) (F : Buffer) (vram : Bool) (fd : Nat)
    (D : DecState) (h : D.size = 0) : decode_loop mode F vram fd D = .ok D := by
  cases fd with
  | zero => rfl
  | succ n => rw [decode_loop, if_neg (by omega)]

theorem sim_loop (source F : Buffer) (mode : LZSS_t) (vram : Bool) (fuel : Nat) :
    ∀ (E : EncState) (D : DecState) (fd : Nat), Corr source F E D →
      Agree (lzss_loop source mode vram fuel E) F →
      source.length - E.it ≤ fuel → D.size ≤ fd →
      ∃ D', decode_loop mode F vram fd D = .ok D' ∧ D'.result = source ∧ D'.size = 0 ∧
        D'.stderr = [] := by
  induction fuel with
  | zero =>
    intro E D fd hc _ hfuel _
    have hsz : D.size = 0 := by rw [hc.size]; omega
    refine ⟨D, decode_loop_done mode F vram fd D hsz, ?_, hsz, hc.stderr⟩
    rw [hc.res, List.take_of_length_le (by omega)]
  | succ n ih =>
    intro E D fd hc hA hfuel hfd
    by_cases hit : E.it < source.length
    · rw [lzss_loop, if_pos hit] at hA
      have hA' := agree_loop source mode vram F n _ (lzss_iter_wf source mode vram E hc.wf) hA
      obtain ⟨D1, hD1, hc1⟩ := sim_step source F mode vram E D hc hit hA'
      have hlt := lzss_iter_it_lt source mode vram E
      have hsz := hc.size
      have hsz1 := hc1.size
      cases fd with
      | zero => omega
      | succ m =>
        rw [decode_loop, if_pos (by omega), hD1]
        exact ih _ D1 m hc1 hA (by omega) (by omega)
    · have hsz : D.size = 0 := by rw [hc.size]; omega
      refine ⟨D, decode_loop_done mode F vram fd D hsz, ?_, hsz, hc.stderr⟩
      rw [hc.res, List.take_of_length_le (by omega)]

/-! ## Padding and header -/

theorem pad4_eq (r : Buffer) :
    ∃ k, k ≤ 3 ∧ pad4 r = r ++ List.replicate k 0 ∧ (r.length + k) % 4 = 0 := by
  have hand : ∀ x : Nat, x &&& 0x3 = x % 4 := by
    intro x
    have := Nat.and_pow_two_sub_one_eq_mod x 2
    simpa using this
  unfold pad4
  rw [hand, hand]
  by_cases h : r.length % 4 ≠ 0
  · rw [if_pos h]
    refine ⟨r.length + 3 - (r.length + 3) % 4 - r.length, by omega, ?_, by omega⟩
    unfold resize
    rw [List.take_of_length_le (by omega)]
  · rw [if_neg h]
    exact ⟨0, by omega, by simp, by omega⟩

theorem lzss_init_wf (source : Buffer) (mode : LZSS_t) : (lzss_init source mode).WF := by
  unfold EncState.WF lzss_init header
  simp

theorem agree_pad (E : EncState) (hwf : E.WF) : Agree E (pad4 E.result) := by
  obtain ⟨k, _, hk, _⟩ := pad4_eq E.result
  rw [hk]
  refine ⟨by simp, ?_, ?_⟩
  · intro i hi _
    rw [List.getElem?_append_left hi]
  · rw [List.getD_eq_getElem?_getD, List.getElem?_append_left hwf.1,
      ← List.getD_eq_getElem?_getD]

/-- The stream returned by `lzss_encode` agrees with the state of the encoder
on entry to its loop. -/
theorem agree_init (source : Buffer) (mode : LZSS_t) (vram : Bool) :
    Agree (lzss_init source mode) (lzss_encode source mode vram) := by
  unfold lzss_encode lzss_body
  exact agree_loop source mode vram _ source.length _ (lzss_init_wf source mode)
    (agree_pad _ (lzss_loop_wf source mode vram _ _ (lzss_init_wf source mode)))

theorem header_bytes (source : Buffer) (mode : LZSS_t) (vram : Bool) :
    (lzss_encode source mode vram)[0]? = some (u8 mode.tag) ∧
    (lzss_encode source mode vram)[1]? = some (u8 (source.length >>> 0)) ∧
    (lzss_encode source mode vram)[2]? = some (u8 (source.length >>> 8)) ∧
    (lzss_encode source mode vram)[3]? = some (u8 (source.length >>> 16)) := by
  obtain ⟨_, a2, _⟩ := agree_init source mode vram
  have hl : (lzss_init source mode).result.length = 5 := by simp [lzss_init, header]
  have hcp : (lzss_init source mode).code_pos = 4 := by simp [lzss_init, header]
  rw [hl, hcp] at a2
  refine ⟨?_, ?_, ?_, ?_⟩
  · rw [a2 0 (by omega) (by omega)]; rfl
  · rw [a2 1 (by omega) (by omega)]; rfl
  · rw [a2 2 (by omega) (by omega)]; rfl
  · rw [a2 3 (by omega) (by omega)]; rfl

theorem size_bytes (n : Nat) (h : n < 2 ^ 24) :
    (u8 (n >>> 0)).val ||| ((u8 (n >>> 8)).val <<< 8) ||| ((u8 (n >>> 16)).val <<< 16) = n := by
  simp only [u8_val, Nat.shiftRight_eq_div_pow, Nat.pow_zero, Nat.div_one]
  have e1 : n % 256 ||| (n / 2 ^ 8 % 256) <<< 8 = n % 65536 := by
    rw [Nat.lor_comm, or_shift8 _ _ (Nat.mod_lt _ (by decide))]
    norm_num; omega
  rw [e1, Nat.lor_comm, Nat.shiftLeft_eq]
  have := Nat.mul_add_lt_is_or (i := 16) (b := n % 65536) (by norm_num; omega)
    (n / 2 ^ 16 % 256)
  rw [Nat.mul_comm, ← this]
  norm_num at h ⊢
  omega

theorem declared_size_encode (source : Buffer) (mode : LZSS_t) (vram : Bool)
    (h : source.length < 2 ^ 24) :
    declared_size (lzss_encode source mode vram) = source.length := by
  obtain ⟨_, h1, h2, h3⟩ := header_bytes source mode vram
  unfold declared_size
  simp only [List.getD_eq_getElem?_getD, h1, h2, h3, Option.getD_some]
  exact size_bytes source.length h

theorem good_header_encode (source : Buffer) (mode : LZSS_t) (vram : Bool) :
    ¬ bad_header mode (lzss_encode source mode vram) := by
  obtain ⟨h0, _, _, _⟩ := header_bytes source mode vram
  obtain ⟨a1, _, _⟩ := agree_init source mode vram
  have hl : (lzss_init source mode).result.length = 5 := by simp [lzss_init, header]
  unfold bad_header
  rw [List.getD_eq_getElem?_getD, h0]
  intro hbad
  rcases hbad with hbad | hbad
  · omega
  · apply hbad
    cases mode <;> rfl

/-! ## Decoding what the encoder wrote -/

/-- The encoder state on entry to the loop behaves as a state whose code byte
is exhausted: the first iteration opens the code byte that `lzss_encode`
reserves before its loop. -/
theorem lzss_iter_init (source : Buffer) (mode : LZSS_t) (vram : Bool) :
    lzss_iter source mode vram (lzss_init source mode)
      = lzss_iter source mode vram (lzss_init0 source mode) := by
  unfold lzss_iter
  have : next_code_bit (lzss_init source mode) = next_code_bit (lzss_init0 source mode) := by
    simp [next_code_bit, lzss_init, lzss_init0]
  rw [this]
  rfl

theorem lzss_loop_init (source : Buffer) (mode : LZSS_t) (vram : Bool) (fuel : Nat)
    (hf : 0 < fuel) (hs : 0 < source.length) :
    lzss_loop source mode vram fuel (lzss_init source mode)
      = lzss_loop source mode vram fuel (lzss_init0 source mode) := by
  cases fuel with
  | zero => omega
  | succ n =>
    rw [lzss_loop, lzss_loop, if_pos (by exact hs), if_pos (by exact hs), lzss_iter_init]

theorem lzss_init0_wf (source : Buffer) (mode : LZSS_t) : (lzss_init0 source mode).WF := by
  unfold EncState.WF lzss_init0 header
  simp

theorem decode_run_encode (source : Buffer) (mode : LZSS_t) (vram : Bool)
    (h : source.length < 2 ^ 24) :
    ∃ D, decode_run mode (lzss_encode source mode vram) vram = .ok D ∧
      D.result = source ∧ D.size = 0 ∧ D.stderr = [] := by
  unfold decode_run
  rw [if_neg (good_header_encode source mode vram)]
  have hsize := declared_size_encode source mode vram h
  rcases Nat.eq_zero_or_pos source.length with hlen | hpos
  · refine ⟨_, decode_loop_done _ _ _ _ _ ?_, ?_, ?_, rfl⟩
    · show declared_size _ = 0
      rw [hsize, hlen]
    · exact (List.length_eq_zero.mp hlen).symm
    · show declared_size _ = 0
      rw [hsize, hlen]
  · have hloop := lzss_loop_init source mode vram source.length hpos hpos
    have hA : Agree (lzss_loop source mode vram source.length (lzss_init0 source mode))
        (lzss_encode source mode vram) := by
      have := agree_pad _
        (lzss_loop_wf source mode vram source.length _ (lzss_init0_wf source mode))
      rw [← hloop] at this ⊢
      exact this
    have hc : Corr source (lzss_encode source mode vram) (lzss_init0 source mode)
        (decode_init (lzss_encode source mode vram)) :=
      { wf := lzss_init0_wf source mode
        it_le := Nat.zero_le _
        res := rfl
        size := by show declared_size _ = _; rw [hsize]; rfl
        src := by simp [decode_init, header, lzss_init0]
        shift_lt := by show 0 < 8; decide
        mask := by show 0 = (1 <<< 0) >>> 1; rfl
        flags := fun hne => absurd rfl hne
        low := Nat.mod_one _
        perr := rfl
        pvram := rfl
        stderr := rfl }
    exact sim_loop source _ mode vram source.length _ _ _ hc hA
      (by show source.length - 0 ≤ _; omega) (by
      show declared_size _ ≤ _
      rw [hsize])

/-! ## Invariants of the decoder loop -/

theorem deref_ok (source : Buffer) (src : Nat) (b : Byte) (h : deref source src = .ok b) :
    source[src]? = some b := by
  unfold deref at h
  split at h
  · rename_i hb; cases h; exact hb
  · cases h

theorem lz10_fields_bounds (F : Buffer) (src len disp src1 : Nat)
    (h : lz10_fields F src = .ok (len, disp, src1)) :
    3 ≤ len ∧ 1 ≤ disp ∧ disp ≤ 4096 ∧ src < src1 := by
  unfold lz10_fields at h
  split at h
  · cases h
  · rename_i b0 _
    split at h
    · cases h
    · rename_i b1 _
      simp only [Except.ok.injEq, Prod.mk.injEq] at h
      obtain ⟨h1, h2, h3⟩ := h
      rw [and_0F, or_shift8 _ _ b1.isLt] at h2
      have := b1.isLt
      omega

theorem lz11_fields_bounds (F : Buffer) (src len disp src1 : Nat)
    (h : lz11_fields F src = .ok (len, disp, src1)) :
    3 ≤ len ∧ 1 ≤ disp ∧ disp ≤ 4096 ∧ src < src1 := by
  unfold lz11_fields at h
  split at h
  · cases h
  · rename_i b0 _
    split at h
    · split at h
      · cases h
      · rename_i b1 _
        split at h
        · cases h
        · rename_i b2 _
          simp only [Except.ok.injEq, Prod.mk.injEq] at h
          obtain ⟨h1, h2, h3⟩ := h
          rw [and_0F, or_shift8 _ _ b2.isLt] at h2
          have := b2.isLt
          omega
    · split at h
      · split at h
        · cases h
        · rename_i b1 _
          split at h
          · cases h
          · rename_i b2 _
            split at h
            · cases h
            · rename_i b3 _
              simp only [Except.ok.injEq, Prod.mk.injEq] at h
              obtain ⟨h1, h2, h3⟩ := h
              rw [and_0F, or_shift8 _ _ b3.isLt] at h2
              have := b3.isLt
              omega
      · rename_i hn0 hn1
        split at h
        · cases h
        · rename_i b1 _
          simp only [Except.ok.injEq, Prod.mk.injEq] at h
          obtain ⟨h1, h2, h3⟩ := h
          rw [and_0F, or_shift8 _ _ b1.isLt] at h2
          have := b1.isLt
          omega

theorem match_fields_bounds (mode : LZSS_t) (F : Buffer) (src len disp src1 : Nat)
    (h : match_fields mode F src = .ok (len, disp, src1)) :
    3 ≤ len ∧ 1 ≤ disp ∧ disp ≤ 4096 ∧ src < src1 := by
  cases mode with
  | LZ10 => exact lz10_fields_bounds F src len disp src1 h
  | LZ11 => exact lz11_fields_bounds F src len disp src1 h

theorem copy_loop_length (disp : Nat) : ∀ (len : Nat) (r : Buffer),
    (copy_loop disp len r).length = r.length + len := by
  intro len
  induction len with
  | zero => intro r; rfl
  | succ n ih =>
    intro r
    rw [copy_loop, ih]
    simp
    omega

theorem load_flags_ok (F : Buffer) (D D1 : DecState) (h : load_flags F D = .ok D1) :
    D1.size = D.size ∧ D1.result = D.result ∧ D1.printed_error = D.printed_error ∧
      D1.printed_vram_error = D.printed_vram_error ∧ D1.stderr = D.stderr := by
  unfold load_flags at h
  split at h
  · split at h
    · cases h
    · cases h; exact ⟨rfl, rfl, rfl, rfl, rfl⟩
  · cases h; exact ⟨rfl, rfl, rfl, rfl, rfl⟩

theorem load_flags_error (F : Buffer) (D : DecState) (e : DecodeError)
    (h : load_flags F D = .error e) : e = .srcPastEnd := by
  unfold load_flags deref at h
  split at h
  · split at h
    · rename_i heq
      split at heq
      · cases heq
      · cases heq; cases h; rfl
    · cases h
  · cases h

theorem deref_error (F : Buffer) (src : Nat) (e : DecodeError)
    (h : deref F src = .error e) : e = .srcPastEnd := by
  unfold deref at h
  split at h
  · cases h
  · cases h; rfl

theorem copy_block_ok (vram : Bool) (D1 D2 : DecState) (src len disp : Nat)
    (h : copy_block vram D1 src len disp = .ok D2) :
    disp ≤ D1.result.length ∧ D2.size = D1.size - min len D1.size ∧
      D2.result = copy_loop disp (min len D1.size) D1.result ∧ D2.src = src ∧
      D2.flags = D1.flags ∧ D2.mask = D1.mask := by
  unfold copy_block at h
  dsimp only at h
  split at h
  · cases h
  · rename_i hd
    cases h
    have e : (if len > D1.size then D1.size else len) = min len D1.size := by
      split <;> omega
    exact ⟨by omega, by rw [← e], by rw [← e], rfl, rfl, rfl⟩

theorem copy_block_error (vram : Bool) (D1 : DecState) (src len disp : Nat)
    (e : DecodeError) (h : copy_block vram D1 src len disp = .error e) :
    e = .readPriorToStart ∧ D1.result.length < disp := by
  unfold copy_block at h
  dsimp only at h
  split at h
  · rename_i hd; cases h; exact ⟨rfl, hd⟩
  · cases h

theorem match_fields_error (mode : LZSS_t) (F : Buffer) (src : Nat) (e : DecodeError)
    (h : match_fields mode F src = .error e) : e = .srcPastEnd := by
  cases mode with
  | LZ10 =>
    unfold match_fields lz10_fields at h
    dsimp only at h
    split at h
    · rename_i e1 h1; cases h; exact deref_error _ _ _ h1
    · split at h
      · rename_i e1 h1; cases h; exact deref_error _ _ _ h1
      · cases h
  | LZ11 =>
    unfold match_fields lz11_fields at h
    dsimp only at h
    split at h
    · rename_i e1 h1; cases h; exact deref_error _ _ _ h1
    · split at h
      · split at h
        · rename_i e1 h1; cases h; exact deref_error _ _ _ h1
        · split at h
          · rename_i e1 h1; cases h; exact deref_error _ _ _ h1
          · cases h
      · split at h
        · split at h
          · rename_i e1 h1; cases h; exact deref_error _ _ _ h1
          · split at h
            · rename_i e1 h1; cases h; exact deref_error _ _ _ h1
            · split at h
              · rename_i e1 h1; cases h; exact deref_error _ _ _ h1
              · cases h
        · split at h
          · rename_i e1 h1; cases h; exact deref_error _ _ _ h1
          · cases h

/-- What a successful iteration of the decoder loop did. -/
theorem decode_iter_ok (mode : LZSS_t) (F : Buffer) (vram : Bool) (D D' : DecState)
    (h : decode_iter mode F vram D = .ok D') :
    ∃ D1, load_flags F D = .ok D1 ∧
      ((D1.flags &&& D1.mask = 0 ∧ ∃ b, F[D1.src]? = some b ∧
          D'.result = D1.result ++ [b] ∧ D'.size = D1.size - 1) ∨
       (D1.flags &&& D1.mask ≠ 0 ∧ ∃ len disp src D2,
          match_fields mode F D1.src = .ok (len, disp, src) ∧
          copy_block vram D1 src len disp = .ok D2 ∧
          D'.result = D2.result ∧ D'.size = D2.size)) := by
  unfold decode_iter at h
  split at h
  · cases h
  · rename_i D1 hD1
    refine ⟨D1, hD1, ?_⟩
    split at h
    · rename_i hf
      right
      refine ⟨hf, ?_⟩
      split at h
      · cases h
      · rename_i len disp src hm
        split at h
        · cases h
        · rename_i D2 hcb
          cases h
          exact ⟨len, disp, src, D2, hm, hcb, rfl, rfl⟩
    · rename_i hf
      left
      refine ⟨by simpa using hf, ?_⟩
      split at h
      · cases h
      · rename_i b hb
        cases h
        exact ⟨b, deref_ok _ _ _ hb, rfl, rfl⟩

theorem decode_iter_size (mode : LZSS_t) (F : Buffer) (vram : Bool) (D D' : DecState)
    (h : decode_iter mode F vram D = .ok D') (hs : 0 < D.size) :
    D'.size < D.size ∧ D'.result.length + D'.size = D.result.length + D.size := by
  obtain ⟨D1, hl, hcase⟩ := decode_iter_ok mode F vram D D' h
  obtain ⟨l1, l2, _, _, _⟩ := load_flags_ok F D D1 hl
  rcases hcase with ⟨_, b, _, hr, hz⟩ | ⟨_, len, disp, src, D2, hm, hcb, hr, hz⟩
  · rw [hr, hz, l1, l2, List.length_append]
    simp
    omega
  · obtain ⟨hlen, _, _, _⟩ := match_fields_bounds mode F D1.src len disp src hm
    obtain ⟨_, c2, c3, _⟩ := copy_block_ok vram D1 D2 src len disp hcb
    rw [hr, hz, c2, c3, copy_loop_length, l1, l2]
    omega

theorem decode_iter_error (mode : LZSS_t) (F : Buffer) (vram : Bool) (D : DecState)
    (e : DecodeError) (h : decode_iter mode F vram D = .error e) :
    e = .srcPastEnd ∨ e = .readPriorToStart := by
  unfold decode_iter at h
  split at h
  · rename_i e1 h1; cases h; left; exact load_flags_error _ _ _ h1
  · split at h
    · split at h
      · rename_i e1 h1; cases h; left; exact match_fields_error _ _ _ _ h1
      · split at h
        · rename_i e1 h1; cases h; right; exact (copy_block_error _ _ _ _ _ _ h1).1
        · cases h
    · split at h
      · rename_i e1 h1; cases h; left; exact deref_error _ _ _ h1
      · cases h

theorem decode_loop_error (mode : LZSS_t) (F : Buffer) (vram : Bool) (fuel : Nat) :
    ∀ (D : DecState) (e : DecodeError), decode_loop mode F vram fuel D = .error e →
      e = .srcPastEnd ∨ e = .readPriorToStart := by
  induction fuel with
  | zero => intro D e h; cases h
  | succ n ih =>
    intro D e h
    rw [decode_loop] at h
    split at h
    · split at h
      · rename_i e1 h1; cases h; exact decode_iter_error _ _ _ _ _ h1
      · exact ih _ _ h
    · cases h

/-- A run of the loop that returns has produced exactly `size` more bytes: the
fuel is never what ends the loop. -/
theorem decode_loop_ok (mode : LZSS_t) (F : Buffer) (vram : Bool) (fuel : Nat) :
    ∀ (D D' : DecState), decode_loop mode F vram fuel D = .ok D' → D.size ≤ fuel →
      D'.size = 0 ∧ D'.result.length = D.result.length + D.size := by
  induction fuel with
  | zero =>
    intro D D' h hf
    cases h
    exact ⟨by omega, by omega⟩
  | succ n ih =>
    intro D D' h hf
    rw [decode_loop] at h
    split at h
    · rename_i hs
      split at h
      · cases h
      · rename_i D1 h1
        obtain ⟨s1, s2⟩ := decode_iter_size mode F vram D D1 h1 hs
        obtain ⟨r1, r2⟩ := ih D1 D' h (by omega)
        exact ⟨r1, by omega⟩
    · cases h
      exact ⟨by omega, by omega⟩

theorem decode_loop_split (mode : LZSS_t) (F : Buffer) (vram : Bool) (k : Nat) :
    ∀ (st D : DecState), decode_loop mode F vram k st = .ok D → 0 < D.size →
      D.size + k ≤ st.size ∧ ∀ m, decode_loop mode F vram (k + m) st
        = decode_loop mode F vram m D := by
  induction k with
  | zero =>
    intro st D h _
    cases h
    exact ⟨by omega, fun m => by rw [Nat.zero_add]⟩
  | succ n ih =>
    intro st D h hs
    rw [decode_loop] at h
    split at h
    · rename_i hpos
      split at h
      · cases h
      · rename_i st1 h1
        obtain ⟨i1, i2⟩ := ih st1 D h hs
        obtain ⟨z1, _⟩ := decode_iter_size mode F vram st st1 h1 hpos
        refine ⟨by omega, fun m => ?_⟩
        have e : n + 1 + m = (n + m) + 1 := by omega
        rw [e, decode_loop, if_pos hpos, h1]
        exact i2 m
    · cases h
      rename_i hz
      exact absurd hs hz

theorem decode_loop_init_size (source : Buffer) : (decode_init source).size
    = declared_size source := rfl

theorem read_file_loop_spec (limit : Nat) (fuel : Nat) :
    ∀ (fp buffer : Buffer), fp.length < fuel → buffer.length ≤ limit →
      read_file_loop limit fuel fp buffer =
        if buffer.length + fp.length > limit then .error .inputTooLarge
        else .ok (buffer ++ fp) := by
  induction fuel with
  | zero => intro fp buffer h _; omega
  | succ n ih =>
    intro fp buffer hf hb
    rw [read_file_loop]
    dsimp only
    have hlen : (fp.take 4096).length = min 4096 fp.length := List.length_take _ _
    by_cases hrc : (fp.take 4096).length > 0
    · rw [if_pos hrc]
      by_cases hbig : (buffer ++ fp.take 4096).length > limit
      · rw [if_pos hbig, if_pos]
        rw [List.length_append] at hbig
        omega
      · rw [if_neg hbig]
        rw [List.length_append] at hbig
        rw [ih (fp.drop 4096) (buffer ++ fp.take 4096)
          (by rw [List.length_drop]; omega) (by rw [List.length_append]; omega)]
        have e1 : (buffer ++ fp.take 4096).length + (fp.drop 4096).length
            = buffer.length + fp.length := by
          rw [List.length_append, List.length_drop]; omega
        have e2 : buffer ++ fp.take 4096 ++ fp.drop 4096 = buffer ++ fp := by
          rw [List.append_assoc, List.take_append_drop]
        rw [e1, e2]
    · rw [if_neg hrc]
      have h0 : fp.length = 0 := by omega
      have hnil : fp = [] := List.length_eq_zero.mp h0
      rw [if_neg (by omega), hnil, List.append_nil]

theorem read_file_spec (fp : Buffer) (limit : Nat) :
    read_file fp limit = if fp.length > limit then .error .inputTooLarge else .ok fp := by
  unfold read_file
  rw [read_file_loop_spec limit (fp.length + 1) fp [] (by omega) (Nat.zero_le _)]
  simp

theorem take4_eq (F : Buffer) (a b c d : Byte) (h0 : F[0]? = some a) (h1 : F[1]? = some b)
    (h2 : F[2]? = some c) (h3 : F[3]? = some d) : F.take 4 = [a, b, c, d] := by
  match F, h0, h1, h2, h3 with
  | x0 :: x1 :: x2 :: x3 :: rest, h0, h1, h2, h3 =>
    simp only [List.getElem?_cons_zero, List.getElem?_cons_succ, Option.some.injEq]
      at h0 h1 h2 h3
    rw [h0, h1, h2, h3]
    rfl

theorem declared_size_sum (source : Buffer) :
    declared_size source = (source.getD 1 0).val + 256 * (source.getD 2 0).val
      + 65536 * (source.getD 3 0).val := by
  unfold declared_size
  have h1 := (source.getD 1 0).isLt
  have h2 := (source.getD 2 0).isLt
  have h3 := (source.getD 3 0).isLt
  generalize (source.getD 1 0).val = a at h1 ⊢
  generalize (source.getD 2 0).val = b at h2 ⊢
  generalize (source.getD 3 0).val = c at h3 ⊢
  rw [Nat.lor_comm a, or_shift8 _ _ h1, Nat.lor_comm, Nat.shiftLeft_eq]
  have := Nat.mul_add_lt_is_or (i := 16) (b := 256 * b + a) (by norm_num; omega) c
  rw [Nat.mul_comm, ← this]
  norm_num
  omega

/-! ## The fuel of the loops is sufficient -/

theorem test_len_loop_fuel (source : Buffer) (p it len : Nat) (fuel1 : Nat) :
    ∀ (fuel2 i tl : Nat), len ≤ fuel1 + i → len ≤ fuel2 + i →
      test_len_loop source p it len fuel1 i tl = test_len_loop source p it len fuel2 i tl := by
  induction fuel1 with
  | zero =>
    intro fuel2 i tl h1 _
    rw [test_len_loop]
    cases fuel2 with
    | zero => rw [test_len_loop]
    | succ m => rw [test_len_loop, if_neg (by omega)]
  | succ n ih =>
    intro fuel2 i tl h1 h2
    cases fuel2 with
    | zero =>
      rw [test_len_loop, test_len_loop, if_neg (by omega)]
    | succ m =>
      rw [test_len_loop, test_len_loop]
      by_cases hi : i < len
      · rw [if_pos hi, if_pos hi, ih m (i + 1) (tl + 1) (by omega) (by omega)]
      · rw [if_neg hi, if_neg hi]

theorem fbm_loop_fuel (source : Buffer) (begin it len : Nat) (vram : Bool) (fuel1 : Nat) :
    ∀ (fuel2 p last_p bs bl : Nat), (p = last_p ∨ p < fuel1) → (p = last_p ∨ p < fuel2) →
      fbm_loop source begin it len vram fuel1 p last_p bs bl
        = fbm_loop source begin it len vram fuel2 p last_p bs bl := by
  induction fuel1 with
  | zero =>
    intro fuel2 p last_p bs bl h1 _
    have hp : p = last_p := by omega
    rw [fbm_loop]
    cases fuel2 with
    | zero => rw [fbm_loop]
    | succ m => rw [fbm_loop, if_pos hp]
  | succ n ih =>
    intro fuel2 p last_p bs bl h1 h2
    cases fuel2 with
    | zero =>
      have hp : p = last_p := by omega
      rw [fbm_loop, fbm_loop, if_pos hp]
    | succ m =>
      rw [fbm_loop, fbm_loop]
      by_cases hp : p = last_p
      · rw [if_pos hp, if_pos hp]
      · rw [if_neg hp, if_neg hp]
        dsimp only
        have hnext : ∀ f, p < f + 1 →
            (rfind source begin p (source.getD it 0) = p ∨
              rfind source begin p (source.getD it 0) < f) := by
          intro f hf
          rcases rfind_spec source begin p (source.getD it 0) with h | ⟨_, h, _⟩
          · left; exact h
          · right; omega
        rw [ih m _ p _ _ (hnext n (by omega)) (hnext m (by omega))]

/-- The loop of `lzss_encode` ends with the cursor at the end of the source:
the fuel `source.length` is never what ends it. -/
theorem lzss_loop_done (source : Buffer) (mode : LZSS_t) (vram : Bool) (fuel : Nat) :
    ∀ E : EncState, source.length - E.it ≤ fuel →
      source.length ≤ (lzss_loop source mode vram fuel E).it := by
  induction fuel with
  | zero => intro E h; rw [lzss_loop]; omega
  | succ n ih =>
    intro E h
    rw [lzss_loop]
    by_cases hit : E.it < source.length
    · rw [if_pos hit]
      have := lzss_iter_it_lt source mode vram E
      exact ih _ (by omega)
    · rw [if_neg hit]; omega

/-! ## The round trip -/

/-- C1: LZ10 round trip.  For every byte sequence `S` of fewer than `2^24`
bytes and each value of the vram flag, `lz10_decode` applied to
`lz10_encode S vram` with the same flag returns, and returns exactly `S`. -/
theorem lz10_round_trip (S : Buffer) (vram : Bool) (h : S.length < 2 ^ 24) :
    lz10_decode (lz10_encode S vram) vram = .ok S := by
  obtain ⟨D, hD, hr, _, _⟩ := decode_run_encode S .LZ10 vram h
  unfold lz10_decode lz10_encode
  rw [hD]
  exact congrArg Except.ok hr

/-- Instance of C1: a source with a repeated pattern, encoded VRAM-safe. -/
theorem lz10_round_trip_witness :
    ([1, 2, 3, 1, 2, 3, 1, 2, 3, 1, 2, 3] : Buffer).length < 2 ^ 24 ∧
      lz10_decode (lz10_encode [1, 2, 3, 1, 2, 3, 1, 2, 3, 1, 2, 3] true) true
        = .ok [1, 2, 3, 1, 2, 3, 1, 2, 3, 1, 2, 3] :=
  ⟨by decide, lz10_round_trip [1, 2, 3, 1, 2, 3, 1, 2, 3, 1, 2, 3] true (by decide)⟩

/-- C2: LZ11 round trip.  For every byte sequence `S` of fewer than `2^24`
bytes and each value of the vram flag, `lz11_decode` applied to
`lz11_encode S vram` with the same flag returns, and returns exactly `S`;
this covers the sources whose matches use the 2-byte, 3-byte and 4-byte
encodings of the length. -/
theorem lz11_round_trip (S : Buffer) (vram : Bool) (h : S.length < 2 ^ 24) :
    lz11_decode (lz11_encode S vram) vram = .ok S := by
  obtain ⟨D, hD, hr, _, _⟩ := decode_run_encode S .LZ11 vram h
  unfold lz11_decode lz11_encode
  rw [hD]
  exact congrArg Except.ok hr

/-- Instance of C2: a run of 600 equal bytes, long enough for a match with the
4-byte encoding of the length. -/
theorem lz11_round_trip_witness :
    (List.replicate 600 (7 : Byte)).length < 2 ^ 24 ∧
      lz11_decode (lz11_encode (List.replicate 600 7) false) false
        = .ok (List.replicate 600 7) :=
  ⟨by rw [List.length_replicate]; decide,
   lz11_round_trip (List.replicate 600 7) false (by rw [List.length_replicate]; decide)⟩

/-! ## Header and padding -/

/-- C3: header correctness.  For every source `S` of fewer than `2^24` bytes,
every mode and vram flag, the first four bytes of `lzss_encode S mode vram`
are the tag of the mode (`0x10` for LZ10, `0x11` for LZ11) and the three bytes
`len & 0xFF`, `(len >> 8) & 0xFF`, `(len >> 16) & 0xFF` of `len = S.length`;
the decoder of the same mode accepts this header and reads `S.length` as the
declared size. -/
theorem lzss_encode_header (S : Buffer) (mode : LZSS_t) (vram : Bool)
    (h : S.length < 2 ^ 24) :
    ((lzss_encode S mode vram).take 4).map Fin.val
        = [mode.tag, S.length &&& 0xFF, (S.length >>> 8) &&& 0xFF,
            (S.length >>> 16) &&& 0xFF] ∧
      (mode.tag = if mode = .LZ10 then 0x10 else 0x11) ∧
      ¬ bad_header mode (lzss_encode S mode vram) ∧
      declared_size (lzss_encode S mode vram) = S.length := by
  obtain ⟨h0, h1, h2, h3⟩ := header_bytes S mode vram
  have hand : ∀ x : Nat, x &&& 0xFF = x % 256 := by
    intro x
    have := Nat.and_pow_two_sub_one_eq_mod x 8
    simpa using this
  refine ⟨?_, ?_, good_header_encode S mode vram, declared_size_encode S mode vram h⟩
  · rw [take4_eq _ _ _ _ _ h0 h1 h2 h3]
    simp only [List.map_cons, List.map_nil, u8_val, hand, Nat.shiftRight_zero]
    cases mode <;> rfl
  · cases mode <;> rfl

/-- Instance of C3: the header of the encoding of a three-byte source. -/
theorem lzss_encode_header_witness :
    ([5, 6, 7] : Buffer).length < 2 ^ 24 ∧
      ((lzss_encode [5, 6, 7] .LZ11 true).take 4).map Fin.val = [0x11, 3, 0, 0] :=
  ⟨by decide, (lzss_encode_header [5, 6, 7] .LZ11 true (by decide)).1⟩

/-- C4: padding.  For every source `S`, mode and vram flag, the length of
`lzss_encode S mode vram` is a multiple of 4, and the stream is the buffer the
encoder has built when its loop ends (header and groups) followed by at most
three bytes, all zero. -/
theorem lzss_encode_padding (S : Buffer) (mode : LZSS_t) (vram : Bool) :
    (lzss_encode S mode vram).length % 4 = 0 ∧
      ∃ k, k ≤ 3 ∧
        lzss_encode S mode vram = lzss_body S mode vram ++ List.replicate k (0 : Byte) := by
  obtain ⟨k, hk, he, hm⟩ := pad4_eq (lzss_body S mode vram)
  unfold lzss_encode
  refine ⟨?_, k, hk, he⟩
  rw [he, List.length_append, List.length_replicate]
  exact hm

/-! ## VRAM safety of the encoder -/

/-- C5: VRAM safety of the encoder.  With `vram = true`, in every iteration of
the loop of `lzss_encode` that emits a compressed chunk (the chosen length is
at least 3), for every source and each mode, the bytes pushed are the payload
of that length with the stored displacement field `it - tmp - 1`, and this
field is not 0: the displacement `it - tmp` is at least 2, never 1. -/
theorem lzss_encode_vram_safe (S : Buffer) (mode : LZSS_t) (st : EncState)
    (hit : st.it < S.length) (hm : 3 ≤ (lzss_select S mode true st.it).2) :
    (lzss_iter S mode true st).result
        = mark_code (next_code_bit st).result (next_code_bit st).code_pos
            (next_code_bit st).shift
          ++ match_payload mode (lzss_select S mode true st.it).2
              (st.it - (lzss_select S mode true st.it).1 - 1) ∧
      st.it - (lzss_select S mode true st.it).1 - 1 ≠ 0 ∧
      st.it - (lzss_select S mode true st.it).1 ≠ 1 ∧
      2 ≤ st.it - (lzss_select S mode true st.it).1 := by
  obtain ⟨_, g2, _, g4, _⟩ := lzss_select_spec S mode true st.it hit hm
  have hne := g4 rfl
  obtain ⟨_, _, s3⟩ := lzss_iter_shape S mode true st
  refine ⟨?_, by omega, hne, by omega⟩
  rcases s3 with ⟨hlt, _, _⟩ | ⟨_, _, hr⟩
  · omega
  · exact hr

/-- Instance of C5: at cursor 2 of a run of six equal bytes the VRAM-safe
encoder emits a match, with displacement 2. -/
theorem lzss_encode_vram_safe_witness :
    (2 < ([9, 9, 9, 9, 9, 9] : Buffer).length ∧
      3 ≤ (lzss_select [9, 9, 9, 9, 9, 9] .LZ10 true 2).2) ∧
    2 - (lzss_select [9, 9, 9, 9, 9, 9] .LZ10 true 2).1 ≠ 1 :=
  ⟨⟨by decide, by decide⟩,
   (lzss_encode_vram_safe [9, 9, 9, 9, 9, 9] .LZ10
      { it := 2, result := [0x10, 6, 0, 0, 0, 9, 9], code_pos := 4, shift := 6 }
      (by decide) (by decide)).2.2.1⟩

/-! ## Behaviour of the decoders on arbitrary streams -/

theorem decode_run_size (mode : LZSS_t) (source : Buffer) (vram : Bool) (D : DecState)
    (h : decode_run mode source vram = .ok D) :
    D.size = 0 ∧ D.result.length = declared_size source := by
  unfold decode_run at h
  split at h
  · cases h
  · have := decode_loop_ok mode source vram _ _ _ h (le_refl _)
    simpa [decode_init] using this

theorem lz10_decode_ok (source : Buffer) (vram : Bool) (out : Buffer)
    (h : lz10_decode source vram = .ok out) :
    ∃ D, decode_run .LZ10 source vram = .ok D ∧ D.result = out := by
  unfold lz10_decode at h
  split at h
  · cases h
  · rename_i D hD; cases h; exact ⟨D, hD, rfl⟩

theorem lz11_decode_ok (source : Buffer) (vram : Bool) (out : Buffer)
    (h : lz11_decode source vram = .ok out) :
    ∃ D, decode_run .LZ11 source vram = .ok D ∧ D.result = out := by
  unfold lz11_decode at h
  split at h
  · cases h
  · rename_i D hD; cases h; exact ⟨D, hD, rfl⟩

/-- C6: decode stops exactly at the declared size.  Whenever `lz10_decode` or
`lz11_decode` returns a buffer, that buffer has exactly `N` bytes, `N` being
the size `source[1] | source[2] << 8 | source[3] << 16` declared by the
header; this holds also when the last compressed block is longer than what is
left to produce (it is truncated) and when input bytes remain unread. -/
theorem decode_exact_size (source : Buffer) (vram : Bool) (out : Buffer)
    (h : lz10_decode source vram = .ok out ∨ lz11_decode source vram = .ok out) :
    out.length = declared_size source := by
  rcases h with h | h
  · obtain ⟨D, hD, hr⟩ := lz10_decode_ok source vram out h
    rw [← hr]; exact (decode_run_size _ _ _ _ hD).2
  · obtain ⟨D, hD, hr⟩ := lz11_decode_ok source vram out h
    rw [← hr]; exact (decode_run_size _ _ _ _ hD).2

/-- Instance of C6: the header declares 3 bytes; the stream holds a literal,
then a compressed block of length 3 with 2 bytes left to produce, then two
more bytes that are never read. -/
theorem decode_exact_size_witness :
    lz10_decode [0x10, 3, 0, 0, 0x40, 7, 0x00, 0x00, 9, 9] false = .ok [7, 7, 7] ∧
      decode_run .LZ10 [0x10, 3, 0, 0, 0x40, 7, 0x00, 0x00, 9, 9] false
        = .ok { src := 8, flags := 0x40, mask := 0x20, size := 0, result := [7, 7, 7],
                printed_error := true, printed_vram_error := false,
                stderr := [Warning.exceedsOutputLength] } ∧
      ([7, 7, 7] : Buffer).length = declared_size [0x10, 3, 0, 0, 0x40, 7, 0x00, 0x00, 9, 9] :=
  ⟨by decide, by decide,
   decode_exact_size [0x10, 3, 0, 0, 0x40, 7, 0x00, 0x00, 9, 9] false [7, 7, 7]
     (Or.inl (by decide))⟩

theorem decode_run_error_of_loop (mode : LZSS_t) (source : Buffer) (vram : Bool)
    (e : DecodeError) (hh : ¬ bad_header mode source)
    (h : decode_loop mode source vram (declared_size source) (decode_init source) = .error e) :
    lzss_decode mode source vram = .error e := by
  have hr : decode_run mode source vram = .error e := by
    unfold decode_run
    rw [if_neg hh, h]
  cases mode with
  | LZ10 => unfold lzss_decode lz10_decode; simp only [hr]
  | LZ11 => unfold lzss_decode lz11_decode; simp only [hr]

/-- C7: an out-of-range back-reference is fatal.  Take a stream with a valid
header on which the decoder of the mode completes `k` iterations of its loop
and arrives, with bytes still to produce, at a compressed block (the flag bit
is set and the fields can be read) whose displacement exceeds the number of
bytes produced so far.  Then the decoder throws the error `read prior to start
of output buffer`; it returns no buffer. -/
theorem backref_out_of_range_fatal (mode : LZSS_t) (source : Buffer) (vram : Bool)
    (k : Nat) (D D1 : DecState) (len disp src : Nat)
    (hh : ¬ bad_header mode source)
    (hk : decode_loop mode source vram k (decode_init source) = .ok D)
    (hs : 0 < D.size)
    (hl : load_flags source D = .ok D1)
    (hf : D1.flags &&& D1.mask ≠ 0)
    (hm : match_fields mode source D1.src = .ok (len, disp, src))
    (hd : D1.result.length < disp) :
    lzss_decode mode source vram = .error .readPriorToStart := by
  apply decode_run_error_of_loop mode source vram _ hh
  obtain ⟨hle, hsplit⟩ := decode_loop_split mode source vram k _ D hk hs
  rw [decode_loop_init_size] at hle
  have hiter : decode_iter mode source vram D = .error .readPriorToStart := by
    unfold decode_iter
    rw [hl]
    simp only [hf, ne_eq, not_false_eq_true, if_true, hm]
    unfold copy_block
    simp only [hd, if_true]
  obtain ⟨m, hm1⟩ : ∃ m, declared_size source = k + (m + 1) := ⟨declared_size source - k - 1, by omega⟩
  rw [hm1, hsplit (m + 1), decode_loop, if_pos hs, hiter]

/-- Instance of C7: the first unit is a compressed block with displacement 6
while nothing has been produced. -/
theorem backref_out_of_range_fatal_witness :
    lz10_decode [0x10, 3, 0, 0, 0x80, 0x00, 0x05] true = .error .readPriorToStart :=
  backref_out_of_range_fatal .LZ10 [0x10, 3, 0, 0, 0x80, 0x00, 0x05] true 0
    (decode_init [0x10, 3, 0, 0, 0x80, 0x00, 0x05])
    { decode_init [0x10, 3, 0, 0, 0x80, 0x00, 0x05] with flags := 0x80, mask := 0x80, src := 5 }
    3 6 7 (by decide) rfl (by decide) (by decide) (by decide) (by decide) (by decide)

/-- C8: a bad header is fatal, and only a bad header raises the header error.
`lz10_decode` throws `Invalid LZ10 header` exactly on the inputs shorter than
4 bytes or whose first byte is not `0x10`, `lz11_decode` throws
`Invalid LZ11 header` exactly on the inputs shorter than 4 bytes or whose
first byte is not `0x11`; the size both read from the header is
`byte1 | byte2 << 8 | byte3 << 16`, the 24-bit little-endian number
`byte1 + 256 * byte2 + 65536 * byte3`, which is the size the loop starts
from. -/
theorem bad_header_fatal (source : Buffer) (vram : Bool) :
    (lz10_decode source vram = .error .invalidHeader ↔
      (source.length < 4 ∨ (source.getD 0 0).val ≠ 0x10)) ∧
    (lz11_decode source vram = .error .invalidHeader ↔
      (source.length < 4 ∨ (source.getD 0 0).val ≠ 0x11)) ∧
    declared_size source = (source.getD 1 0).val + 256 * (source.getD 2 0).val
      + 65536 * (source.getD 3 0).val ∧
    (decode_init source).size = declared_size source := by
  have key : ∀ mode : LZSS_t, decode_run mode source vram = .error .invalidHeader ↔
      bad_header mode source := by
    intro mode
    unfold decode_run
    constructor
    · intro h
      by_contra hb
      rw [if_neg hb] at h
      rcases decode_loop_error mode source vram _ _ _ h with h1 | h1 <;> cases h1
    · intro hb
      rw [if_pos hb]
  refine ⟨?_, ?_, declared_size_sum source, rfl⟩
  · rw [show (source.length < 4 ∨ (source.getD 0 0).val ≠ 0x10) = bad_header .LZ10 source
      from rfl, ← key]
    unfold lz10_decode
    constructor
    · intro h
      split at h
      · rename_i e he; cases h; exact he
      · cases h
    · intro h; rw [h]
  · rw [show (source.length < 4 ∨ (source.getD 0 0).val ≠ 0x11) = bad_header .LZ11 source
      from rfl, ← key]
    unfold lz11_decode
    constructor
    · intro h
      split at h
      · rename_i e he; cases h; exact he
      · cases h
    · intro h; rw [h]

/-- C9 (what the code does): on a stream that ends where a flags byte, a
literal or a field of a compressed block is still needed, the decoders
dereference `src` at `source.cend()`; no error is thrown there.  Here the
header declares one byte and the input ends after the header, in the middle of
a compressed block, and before a literal. -/
theorem truncated_input_unchecked :
    lz10_decode [0x10, 1, 0, 0] false = .error .srcPastEnd ∧
    lz11_decode [0x11, 1, 0, 0] false = .error .srcPastEnd ∧
    lz10_decode [0x10, 3, 0, 0, 0x80, 0x00] false = .error .srcPastEnd ∧
    lz11_decode [0x11, 1, 0, 0, 0x00] false = .error .srcPastEnd := by
  decide

/-! ## The size limit of the encode operation -/

/-- C10: an input that is too large is rejected.  The encode operation of the
tool (`read_file` with the limit `LZSS_MAX_ENCODE_LEN`, then the encoder),
applied to a file of more than `0x00FFFFFF` bytes, fails with the error
`Input file too large`, raised by `read_file` before the encoder is called; a
file within the limit is handed whole to the encoder, whose stream declares
its exact length. -/
theorem encode_input_too_large (fp : Buffer) (lz11 vram : Bool) :
    (fp.length > 0x00FFFFFF →
      read_file fp LZSS_MAX_ENCODE_LEN = .error .inputTooLarge ∧
      process_file true lz11 vram fp = .error .inputTooLarge) ∧
    (fp.length ≤ 0x00FFFFFF →
      process_file true lz11 vram fp
        = .ok (lzss_encode fp (if lz11 then .LZ11 else .LZ10) vram) ∧
      declared_size (lzss_encode fp (if lz11 then .LZ11 else .LZ10) vram) = fp.length) := by
  have hr := read_file_spec fp LZSS_MAX_ENCODE_LEN
  constructor
  · intro h
    have hr' : read_file fp LZSS_MAX_ENCODE_LEN = .error .inputTooLarge := by
      rw [hr, if_pos (by simpa [LZSS_MAX_ENCODE_LEN] using h)]
    refine ⟨hr', ?_⟩
    unfold process_file
    simp only [if_true, hr']
  · intro h
    have hr' : read_file fp LZSS_MAX_ENCODE_LEN = .ok fp := by
      rw [hr, if_neg (by simp only [LZSS_MAX_ENCODE_LEN]; omega)]
    refine ⟨?_, declared_size_encode fp _ vram (by norm_num; omega)⟩
    unfold process_file
    simp only [if_true, hr']
    cases lz11 <;> rfl

/-- Instance of C10: a file of `0x01000000` zero bytes is refused, in either
mode. -/
theorem encode_input_too_large_witness :
    (List.replicate 0x01000000 (0 : Byte)).length > 0x00FFFFFF ∧
      process_file true false true (List.replicate 0x01000000 (0 : Byte))
        = .error .inputTooLarge :=
  ⟨by rw [List.length_replicate]; decide,
   ((encode_input_too_large (List.replicate 0x01000000 (0 : Byte)) false true).1
      (by rw [List.length_replicate]; decide)).2⟩

/-! ## Completeness of the match finder -/

theorem common_prefix_len_le (source : Buffer) : ∀ (cap q p : Nat),
    common_prefix_len source q p cap ≤ cap := by
  intro cap
  induction cap with
  | zero => intro q p; rw [common_prefix_len]
  | succ n ih =>
    intro q p
    rw [common_prefix_len]
    split
    · have := ih (q + 1) (p + 1); omega
    · omega

theorem common_prefix_len_ne (source : Buffer) (q p cap : Nat)
    (h : source.getD q 0 ≠ source.getD p 0) : common_prefix_len source q p cap = 0 := by
  cases cap with
  | zero => rw [common_prefix_len]
  | succ n => rw [common_prefix_len, if_neg h]

theorem common_prefix_len_eq (source : Buffer) : ∀ (cap q p j : Nat),
    j < common_prefix_len source q p cap → source.getD (q + j) 0 = source.getD (p + j) 0 := by
  intro cap
  induction cap with
  | zero => intro q p j h; rw [common_prefix_len] at h; omega
  | succ n ih =>
    intro q p j h
    rw [common_prefix_len] at h
    split at h
    · rename_i heq
      cases j with
      | zero => exact heq
      | succ i =>
        have := ih (q + 1) (p + 1) i (by omega)
        have e1 : q + (i + 1) = q + 1 + i := by omega
        have e2 : p + (i + 1) = p + 1 + i := by omega
        rw [e1, e2]; exact this
    · omega

/-- The inner loop of `find_best_match` counts the common prefix. -/
theorem test_len_loop_eq (source : Buffer) (p it len : Nat) (fuel : Nat) :
    ∀ i, len ≤ fuel + i →
      test_len_loop source p it len fuel i i
        = i + common_prefix_len source (p + i) (it + i) (len - i) := by
  induction fuel with
  | zero =>
    intro i h
    rw [test_len_loop]
    have e : len - i = 0 := by omega
    rw [e, common_prefix_len, Nat.add_zero]
  | succ n ih =>
    intro i h
    rw [test_len_loop]
    by_cases h1 : i < len
    · rw [if_pos h1]
      have e : len - i = (len - (i + 1)) + 1 := by omega
      by_cases h2 : source.getD (p + i) 0 = source.getD (it + i) 0
      · rw [if_pos h2, ih (i + 1) (by omega), e, common_prefix_len, if_pos h2]
        have e1 : p + i + 1 = p + (i + 1) := by omega
        have e2 : it + i + 1 = it + (i + 1) := by omega
        rw [e1, e2]; omega
      · rw [if_neg h2, e, common_prefix_len, if_neg h2, Nat.add_zero]
    · rw [if_neg h1]
      have e : len - i = 0 := by omega
      rw [e, common_prefix_len, Nat.add_zero]

theorem test_len_candidate (source : Buffer) (p it len : Nat) (hlen : 1 ≤ len)
    (h : source.getD p 0 = source.getD it 0) :
    test_len_loop source p it len len 1 1 = common_prefix_len source p it len := by
  rw [test_len_loop_eq source p it len len 1 (by omega)]
  have e : len = (len - 1) + 1 := by omega
  conv => rhs; rw [e, common_prefix_len, if_pos h]
  omega

theorem rfind_loop_complete (source : Buffer) (first last : Nat) (val : Byte) (it : Nat) :
    (rfind_loop source first last val it = last ∧
        ∀ q, first ≤ q → q < it → source.getD q 0 ≠ val) ∨
      (first ≤ rfind_loop source first last val it ∧
        rfind_loop source first last val it < it ∧
        source.getD (rfind_loop source first last val it) 0 = val ∧
        ∀ q, rfind_loop source first last val it < q → q < it → source.getD q 0 ≠ val) := by
  induction it with
  | zero => left; exact ⟨rfl, fun q _ h => by omega⟩
  | succ n ih =>
    rw [rfind_loop]
    by_cases h1 : first ≤ n
    · rw [if_pos h1]
      by_cases h2 : source.getD n 0 = val
      · rw [if_pos h2]; right
        exact ⟨h1, Nat.lt_succ_self n, h2, fun q hq1 hq2 => by omega⟩
      · rw [if_neg h2]
        rcases ih with ⟨h, hall⟩ | ⟨ha, hb, hc, hall⟩
        · left
          refine ⟨h, fun q hq1 hq2 => ?_⟩
          by_cases hqn : q = n
          · rw [hqn]; exact h2
          · exact hall q hq1 (by omega)
        · right
          refine ⟨ha, by omega, hc, fun q hq1 hq2 => ?_⟩
          by_cases hqn : q = n
          · rw [hqn]; exact h2
          · exact hall q hq1 (by omega)
    · rw [if_neg h1]; left
      exact ⟨rfl, fun q hq1 hq2 => by omega⟩

theorem rfind_complete (source : Buffer) (first last : Nat) (val : Byte) :
    (rfind source first last val = last ∧
        ∀ q, first ≤ q → q < last → source.getD q 0 ≠ val) ∨
      (first ≤ rfind source first last val ∧ rfind source first last val < last ∧
        source.getD (rfind source first last val) 0 = val ∧
        ∀ q, rfind source first last val < q → q < last → source.getD q 0 ≠ val) :=
  rfind_loop_complete source first last val last

theorem cand_len_le (source : Buffer) (it len : Nat) (vram : Bool) (q : Nat) :
    cand_len source it len vram q ≤ len := by
  unfold cand_len
  split
  · omega
  · exact common_prefix_len_le source len q it

theorem cand_len_ne (source : Buffer) (it len : Nat) (vram : Bool) (q : Nat)
    (h : source.getD q 0 ≠ source.getD it 0) : cand_len source it len vram q = 0 := by
  unfold cand_len
  split
  · rfl
  · exact common_prefix_len_ne source q it len h

/-- When no candidate is left, the best candidate so far is the result. -/
theorem fbm_exit_best (source : Buffer) (begin it len : Nat) (vram : Bool)
    (last_p bs bl : Nat) (hb : begin ≤ last_p)
    (hnone : ∀ q, begin ≤ q → q < last_p → source.getD q 0 ≠ source.getD it 0)
    (i1 : ∀ q, last_p ≤ q → q < it → cand_len source it len vram q ≤ bl)
    (i3 : bl < len)
    (i2 : bl = 0 ∨ (last_p ≤ bs ∧ bs < it ∧ cand_len source it len vram bs = bl ∧
      ∀ q, last_p ≤ q → q < it → cand_len source it len vram q = bl → bs ≤ q)) :
    BestMatch source begin it len vram bs bl := by
  refine ⟨?_, ?_⟩
  · intro q hq1 hq2
    by_cases hq : last_p ≤ q
    · exact i1 q hq hq2
    · rw [cand_len_ne source it len vram q (hnone q hq1 (by omega))]; omega
  · rcases i2 with h0 | ⟨a, b, c, d⟩
    · left; exact h0
    · by_cases h0 : bl = 0
      · left; exact h0
      · right
        refine ⟨by omega, b, c, ?_, fun h => by omega⟩
        intro _ q hq1 hq2 hq3
        by_cases hq : last_p ≤ q
        · exact d q hq hq2 hq3
        · rw [cand_len_ne source it len vram q (hnone q hq1 (by omega))] at hq3
          omega

theorem fbm_loop_best (source : Buffer) (begin it len : Nat) (vram : Bool) (hlen : 1 ≤ len)
    (fuel : Nat) :
    ∀ p last_p bs bl, last_p ≤ it → begin ≤ last_p → (p = last_p ∨ p < fuel) →
      ((p = last_p ∧ ∀ q, begin ≤ q → q < last_p → source.getD q 0 ≠ source.getD it 0) ∨
        (begin ≤ p ∧ p < last_p ∧ source.getD p 0 = source.getD it 0 ∧
          ∀ q, p < q → q < last_p → source.getD q 0 ≠ source.getD it 0)) →
      (∀ q, last_p ≤ q → q < it → cand_len source it len vram q ≤ bl) →
      bl < len →
      (bl = 0 ∨ (last_p ≤ bs ∧ bs < it ∧ cand_len source it len vram bs = bl ∧
        ∀ q, last_p ≤ q → q < it → cand_len source it len vram q = bl → bs ≤ q)) →
      BestMatch source begin it len vram
        (fbm_loop source begin it len vram fuel p last_p bs bl).1
        (fbm_loop source begin it len vram fuel p last_p bs bl).2 := by
  induction fuel with
  | zero =>
    intro p last_p bs bl _ hb hf hp i1 i3 i2
    rw [fbm_loop]
    have hpl : p = last_p := by omega
    rcases hp with ⟨_, hnone⟩ | ⟨_, h, _⟩
    · exact fbm_exit_best source begin it len vram last_p bs bl hb hnone i1 i3 i2
    · omega
  | succ n ih =>
    intro p last_p bs bl hl hb hf hp i1 i3 i2
    rw [fbm_loop]
    by_cases hpl : p = last_p
    · rw [if_pos hpl]
      rcases hp with ⟨_, hnone⟩ | ⟨_, h, _⟩
      · exact fbm_exit_best source begin it len vram last_p bs bl hb hnone i1 i3 i2
      · omega
    · rw [if_neg hpl]
      rcases hp with ⟨h, _⟩ | ⟨hp1, hp2, hp3, hp4⟩
      · exact absurd h hpl
      · have ht : (if vram = true ∧ it - p = 1 then 0
              else test_len_loop source p it len len 1 1)
            = cand_len source it len vram p := by
          unfold cand_len
          rw [test_len_candidate source p it len hlen hp3]
        dsimp only
        rw [ht]
        have htle := cand_len_le source it len vram p
        -- positions strictly between the candidate and the previous one count 0
        have hgap : ∀ q, p < q → q < last_p → cand_len source it len vram q = 0 :=
          fun q h1 h2 => cand_len_ne source it len vram q (hp4 q h1 h2)
        by_cases hge : cand_len source it len vram p ≥ bl
        · rw [if_pos hge, if_pos hge]
          have i1' : ∀ q, p ≤ q → q < it → cand_len source it len vram q
              ≤ cand_len source it len vram p := by
            intro q hq1 hq2
            by_cases hqp : q = p
            · rw [hqp]
            · by_cases hq : last_p ≤ q
              · have := i1 q hq hq2; omega
              · rw [hgap q (by omega) (by omega)]; omega
          by_cases hmax : cand_len source it len vram p = len
          · rw [if_pos hmax]
            refine ⟨?_, Or.inr ⟨hp1, by omega, rfl, fun h => by omega, ?_⟩⟩
            · intro q _ _
              have := cand_len_le source it len vram q
              show _ ≤ cand_len source it len vram p
              omega
            · intro _ q hq1 hq2 hq3
              show q ≤ p
              by_contra hcon
              by_cases hq : last_p ≤ q
              · have := i1 q hq hq2
                simp only at hq3
                omega
              · have := hgap q (by omega) (by omega)
                simp only at hq3
                omega
          · rw [if_neg hmax]
            refine ih _ p p _ (by omega) hp1 ?_ ?_ i1' (by omega) ?_
            · rcases rfind_spec source begin p (source.getD it 0) with h | ⟨_, h, _⟩
              · left; exact h
              · right; omega
            · rcases rfind_complete source begin p (source.getD it 0) with
                ⟨h, hall⟩ | ⟨a, b, c, hall⟩
              · left; exact ⟨h, hall⟩
              · right; exact ⟨a, b, c, hall⟩
            · by_cases h0 : cand_len source it len vram p = 0
              · left; exact h0
              · right
                exact ⟨le_refl _, by omega, rfl, fun q hq1 _ _ => hq1⟩
        · rw [if_neg hge, if_neg hge]
          have hne : ¬ bl = len := by omega
          rw [if_neg hne]
          have hbl0 : bl ≠ 0 := by omega
          refine ih _ p bs bl (by omega) hp1 ?_ ?_ ?_ i3 ?_
          · rcases rfind_spec source begin p (source.getD it 0) with h | ⟨_, h, _⟩
            · left; exact h
            · right; omega
          · rcases rfind_complete source begin p (source.getD it 0) with
              ⟨h, hall⟩ | ⟨a, b, c, hall⟩
            · left; exact ⟨h, hall⟩
            · right; exact ⟨a, b, c, hall⟩
          · intro q hq1 hq2
            by_cases hqp : q = p
            · rw [hqp]; omega
            · by_cases hq : last_p ≤ q
              · exact i1 q hq hq2
              · rw [hgap q (by omega) (by omega)]; omega
          · rcases i2 with h0 | ⟨a, b, c, d⟩
            · exact absurd h0 hbl0
            · right
              refine ⟨by omega, b, c, ?_⟩
              intro q hq1 hq2 hq3
              by_cases hqp : q = p
              · rw [hqp] at hq3; omega
              · by_cases hq : last_p ≤ q
                · exact d q hq hq2 hq3
                · rw [hgap q (by omega) (by omega)] at hq3; omega

/-- The result of `find_best_match` is a best candidate of its window: the
window starts at `it - max_disp` and the limit is `min len (source.length - it)`. -/
theorem find_best_match_best (source : Buffer) (it len max_disp : Nat) (vram : Bool)
    (hit : it < source.length) (hlen : 1 ≤ len) :
    BestMatch source (it - max_disp) it (min len (source.length - it)) vram
        (find_best_match source it len max_disp vram).1
        (find_best_match source it len max_disp vram).2 ∧
      ((find_best_match source it len max_disp vram).2 = 0 ↔
        (find_best_match source it len max_disp vram).1 = source.length) := by
  unfold find_best_match
  have hbegin : (if it > max_disp then it - max_disp else 0) = it - max_disp := by
    split <;> omega
  have hlen' : (if source.length - it < len then source.length - it else len)
      = min len (source.length - it) := by
    split <;> omega
  simp only [hbegin, hlen']
  have hbest := fbm_loop_best source (it - max_disp) it (min len (source.length - it)) vram
    (by omega) it (rfind source (it - max_disp) it (source.getD it 0)) it it 0 (le_refl _)
    (by omega)
    (by
      rcases rfind_spec source (it - max_disp) it (source.getD it 0) with h | ⟨_, h, _⟩
      · left; exact h
      · right; exact h)
    (by
      rcases rfind_complete source (it - max_disp) it (source.getD it 0) with
        ⟨h, hall⟩ | ⟨a, b, c, hall⟩
      · left; exact ⟨h, hall⟩
      · right; exact ⟨a, b, c, hall⟩)
    (fun q h1 h2 => by omega) (by omega) (Or.inl rfl)
  by_cases hne : (fbm_loop source (it - max_disp) it (min len (source.length - it)) vram it
      (rfind source (it - max_disp) it (source.getD it 0)) it it 0).2 ≠ 0
  · rw [if_pos hne]
    refine ⟨hbest, ?_⟩
    obtain ⟨_, h2⟩ := hbest
    rcases h2 with h0 | ⟨_, hlt, _⟩
    · exact absurd h0 hne
    · constructor
      · intro h; exact absurd h hne
      · intro h; simp only at h; omega
  · rw [if_neg hne]
    have h0 := not_not.mp hne
    obtain ⟨h1, _⟩ := hbest
    rw [h0] at h1
    exact ⟨⟨h1, Or.inl rfl⟩, by simp⟩

theorem foldr_max_ge (l : List Nat) : ∀ x ∈ l, x ≤ l.foldr max 0 := by
  induction l with
  | nil => intro x hx; cases hx
  | cons a t ih =>
    intro x hx
    rw [List.foldr_cons]
    rcases List.mem_cons.mp hx with h | h
    · rw [h]; exact Nat.le_max_left _ _
    · exact Nat.le_trans (ih x h) (Nat.le_max_right _ _)

theorem foldr_max_mem (l : List Nat) : l.foldr max 0 = 0 ∨ l.foldr max 0 ∈ l := by
  induction l with
  | nil => left; rfl
  | cons a t ih =>
    rw [List.foldr_cons]
    rcases Nat.le_total a (t.foldr max 0) with h | h
    · rw [Nat.max_eq_right h]
      rcases ih with h0 | hm
      · left; exact h0
      · right; exact List.mem_cons_of_mem _ hm
    · rw [Nat.max_eq_left h]
      right; exact List.mem_cons_self _ _

theorem mem_spec_candidates (p D : Nat) (vram : Bool) (q : Nat) :
    q ∈ spec_candidates p D vram ↔ q < p ∧ p - D ≤ q ∧ ¬ (vram = true ∧ p - q = 1) := by
  unfold spec_candidates
  simp only [List.mem_filter, List.mem_range, Bool.and_eq_true, decide_eq_true_eq,
    Bool.not_eq_true', Bool.and_eq_false_imp, decide_eq_false_iff_not, not_and]

theorem cand_len_allowed (source : Buffer) (it len : Nat) (vram : Bool) (q : Nat)
    (h : ¬ (vram = true ∧ it - q = 1)) :
    cand_len source it len vram q = common_prefix_len source q it len := by
  unfold cand_len
  rw [if_neg h]

theorem cand_len_pos_allowed (source : Buffer) (it len : Nat) (vram : Bool) (q : Nat)
    (h : cand_len source it len vram q ≠ 0) : ¬ (vram = true ∧ it - q = 1) := by
  intro hx
  apply h
  unfold cand_len
  rw [if_pos hx]

/-- The length reported by `find_best_match` is the best length of the
specification. -/
theorem find_best_match_len_eq (source : Buffer) (p L D : Nat) (vram : Bool)
    (hp : p < source.length) (hL : 1 ≤ L) :
    (find_best_match source p L D vram).2 = spec_best_len source p L D vram := by
  obtain ⟨⟨b1, b2⟩, _⟩ := find_best_match_best source p L D vram hp hL
  unfold spec_best_len
  apply Nat.le_antisymm
  · rcases b2 with h0 | ⟨c1, c2, c3, _, _⟩
    · rw [h0]; exact Nat.zero_le _
    · by_cases h0 : (find_best_match source p L D vram).2 = 0
      · rw [h0]; exact Nat.zero_le _
      · have hall := cand_len_pos_allowed source p _ vram _ (by rw [c3]; exact h0)
        apply foldr_max_ge
        rw [List.mem_map]
        refine ⟨(find_best_match source p L D vram).1, ?_, ?_⟩
        · rw [mem_spec_candidates]; exact ⟨c2, c1, hall⟩
        · rw [← cand_len_allowed source p _ vram _ hall]; exact c3
  · rcases foldr_max_mem ((spec_candidates p D vram).map
        (fun q => common_prefix_len source q p (min L (source.length - p)))) with h0 | hm
    · rw [h0]; exact Nat.zero_le _
    · rw [List.mem_map] at hm
      obtain ⟨q, hq, he⟩ := hm
      rw [mem_spec_candidates] at hq
      obtain ⟨q1, q2, q3⟩ := hq
      rw [← he, ← cand_len_allowed source p _ vram q q3]
      exact b1 q q2 q1

/-! ## The match finder: soundness, best length, ties -/

/-- C13: soundness of the match finder.  For every source, cursor `p` inside
the source, probe length `L ≥ 1`, maximum displacement `D` and vram flag, when
`find_best_match` reports a match `(q, k)` (the returned iterator is not the
end iterator) then `max(0, p - D) ≤ q < p`, `1 ≤ k ≤ min(L, len(source) - p)`,
the `k` bytes at `q` equal the `k` bytes at `p`, and `p - q ≠ 1` when the vram
flag is set.  The cursor `p = 0`, which the encoder never passes, is covered:
no match is reported there. -/
theorem find_best_match_sound (source : Buffer) (p L D : Nat) (vram : Bool) (q k : Nat)
    (hp : p < source.length) (hL : 1 ≤ L)
    (hr : find_best_match source p L D vram = (q, k)) (hm : q ≠ source.length) :
    p - D ≤ q ∧ q < p ∧ 1 ≤ k ∧ k ≤ min L (source.length - p) ∧
      (source.drop q).take k = (source.drop p).take k ∧
      (∀ j, j < k → source.getD (q + j) 0 = source.getD (p + j) 0) ∧
      (vram = true → p - q ≠ 1) := by
  obtain ⟨_, hiff⟩ := find_best_match_best source p L D vram hp hL
  have hk : (find_best_match source p L D vram).2 ≠ 0 := by
    intro h0
    have := hiff.mp h0
    rw [hr] at this
    exact hm this
  obtain ⟨g1, g2, g3, g4, g5⟩ := find_best_match_spec source p L D vram hp hL hk
  rw [hr] at hk g1 g2 g3 g4 g5
  simp only at hk g1 g2 g3 g4 g5
  refine ⟨g1, g2, by omega, g3, ?_, g5, g4⟩
  apply List.ext_getElem?
  intro j
  rw [List.getElem?_take, List.getElem?_take]
  by_cases hj : j < k
  · rw [if_pos hj, if_pos hj, List.getElem?_drop, List.getElem?_drop]
    have h := g5 j hj
    rw [List.getD_eq_getElem?_getD, List.getD_eq_getElem?_getD,
      List.getElem?_eq_getElem (by omega : q + j < source.length),
      List.getElem?_eq_getElem (by omega : p + j < source.length)] at h
    rw [List.getElem?_eq_getElem (by omega : q + j < source.length),
      List.getElem?_eq_getElem (by omega : p + j < source.length)]
    simpa using h
  · rw [if_neg hj, if_neg hj]

/-- Instance of C13: at cursor 3 of `1 2 3 1 2 3` the match `(0, 3)` is
reported. -/
theorem find_best_match_sound_witness :
    find_best_match [1, 2, 3, 1, 2, 3] 3 18 4096 true = (0, 3) ∧
      (([1, 2, 3, 1, 2, 3] : Buffer).drop 0).take 3
        = (([1, 2, 3, 1, 2, 3] : Buffer).drop 3).take 3 :=
  ⟨by decide,
   (find_best_match_sound [1, 2, 3, 1, 2, 3] 3 18 4096 true 0 3 (by decide) (by decide)
      (by decide) (by decide)).2.2.2.2.1⟩

/-- C14: the match finder finds the best length.  For every source, cursor `p`
inside the source, `L ≥ 1`, `D` and vram flag, the length reported by
`find_best_match` is the maximum, over the start positions `q` of
`[max(0, p - D), p)` (without `p - 1` when the vram flag is set), of the length
of the common prefix of `source[q..]` and `source[p..]` capped at
`min(L, len(source) - p)`; and it reports no match (length 0 and the end
iterator) exactly when that maximum is 0. -/
theorem find_best_match_longest (source : Buffer) (p L D : Nat) (vram : Bool)
    (hp : p < source.length) (hL : 1 ≤ L) :
    (find_best_match source p L D vram).2 = spec_best_len source p L D vram ∧
      (find_best_match source p L D vram = (source.length, 0) ↔
        spec_best_len source p L D vram = 0) := by
  have hlen := find_best_match_len_eq source p L D vram hp hL
  obtain ⟨_, hiff⟩ := find_best_match_best source p L D vram hp hL
  refine ⟨hlen, ?_⟩
  rw [← hlen]
  constructor
  · intro h; rw [h]
  · intro h0
    exact Prod.ext (hiff.mp h0) h0

/-- Instance of C14: in `1 2 1 2 3 1 2 3` at cursor 5 the best length is 3. -/
theorem find_best_match_longest_witness :
    (find_best_match [1, 2, 1, 2, 3, 1, 2, 3] 5 18 4096 false).2 = 3 ∧
      spec_best_len [1, 2, 1, 2, 3, 1, 2, 3] 5 18 4096 false = 3 :=
  ⟨by decide,
   (find_best_match_longest [1, 2, 1, 2, 3, 1, 2, 3] 5 18 4096 false (by decide)
      (by decide)).1.symm.trans (by decide)⟩

/-- C15 fails as stated: in `1 2 1 3 1 4` at cursor 4 with `L = 2` the start
positions 2 and 0 both have the best length 1, and `find_best_match` returns
position 0 (displacement 4), not the nearer position 2 (displacement 2). -/
theorem find_best_match_tie_counterexample :
    find_best_match [1, 2, 1, 3, 1, 4] 4 2 4096 false = (0, 1) ∧
      common_prefix_len [1, 2, 1, 3, 1, 4] 2 4 (min 2 (6 - 4)) = 1 ∧
      common_prefix_len [1, 2, 1, 3, 1, 4] 0 4 (min 2 (6 - 4)) = 1 ∧
      ¬ (4 - 0 ≤ 4 - 2) := by
  decide

/-- C15 as amended: the tie-break of the match finder.  Let `(q, k)` be a
match reported by `find_best_match` and `q'` a qualifying start position of the
window with the same capped common prefix length `k`.  When `k` is below the
cap `min(L, len(source) - p)` the reported position is the farthest one
(`p - q' ≤ p - q`: a later candidate of equal length replaces the earlier one);
when `k` equals the cap it is the nearest one (`p - q ≤ p - q'`: the scan
stops at the first candidate that reaches the cap). -/
theorem find_best_match_tie (source : Buffer) (p L D : Nat) (vram : Bool) (q k q' : Nat)
    (hp : p < source.length) (hL : 1 ≤ L)
    (hr : find_best_match source p L D vram = (q, k)) (hk : k ≠ 0)
    (hw : p - D ≤ q' ∧ q' < p) (hv : ¬ (vram = true ∧ p - q' = 1))
    (hq' : common_prefix_len source q' p (min L (source.length - p)) = k) :
    common_prefix_len source q p (min L (source.length - p)) = k ∧ q < p ∧
      (k < min L (source.length - p) → p - q' ≤ p - q) ∧
      (k = min L (source.length - p) → p - q ≤ p - q') := by
  obtain ⟨⟨_, b2⟩, _⟩ := find_best_match_best source p L D vram hp hL
  rw [hr] at b2
  simp only at b2
  rcases b2 with h0 | ⟨c1, c2, c3, c4, c5⟩
  · exact absurd h0 hk
  · have hall := cand_len_pos_allowed source p _ vram q (by rw [c3]; exact hk)
    have hc' : cand_len source p (min L (source.length - p)) vram q' = k := by
      rw [cand_len_allowed source p _ vram q' hv]; exact hq'
    refine ⟨by rw [← cand_len_allowed source p _ vram q hall]; exact c3, c2, ?_, ?_⟩
    · intro hlt
      have := c4 hlt q' hw.1 hw.2 hc'
      omega
    · intro heq
      have := c5 heq q' hw.1 hw.2 hc'
      omega

/-- Instance of C15 as amended: the tie of the counterexample, resolved to the
farthest position. -/
theorem find_best_match_tie_witness :
    find_best_match [1, 2, 1, 3, 1, 4] 4 2 4096 false = (0, 1) ∧ 4 - 2 ≤ 4 - 0 :=
  ⟨by decide,
   (find_best_match_tie [1, 2, 1, 3, 1, 4] 4 2 4096 false 0 1 2 (by decide) (by decide)
      (by decide) (by decide) (by decide) (by decide) (by decide)).2.2.1 (by decide)⟩

/-! ## Invariants of the emitted and of the decoded matches -/

theorem lzss_select_short (source : Buffer) (mode : LZSS_t) (vram : Bool) (it : Nat)
    (h : it = 0 ∨ (find_best_match source it (min (source.length - it) (max_len mode))
      (max_disp mode) vram).2 < 3) :
    (lzss_select source mode vram it).2 < 3 := by
  unfold lzss_select
  dsimp only
  generalize hf : (if it = 0 then (source.length, 1)
        else find_best_match source it (min (source.length - it) (max_len mode))
          (max_disp mode) vram) = found
  have hlt : found.2 < 3 := by
    by_cases h0 : it = 0
    · rw [if_pos h0] at hf; rw [← hf]; show 1 < 3; omega
    · rw [if_neg h0] at hf
      rcases h with h | h
      · exact absurd h h0
      · rw [← hf]; exact h
  rw [if_neg (by omega)]
  exact hlt

/-- C16: the displacement invariant of the encoder.  In every iteration of the
loop of `lzss_encode` that emits a compressed chunk, for every source, mode and
vram flag, the displacement `d = it - tmp` satisfies `1 ≤ d ≤ 4096` and
`d ≤ it`, the number of source bytes encoded before this unit; so the stored
field `d - 1` fits in 12 bits, and the cursor is not 0: no match is emitted at
source position 0. -/
theorem lzss_encode_displacement (S : Buffer) (mode : LZSS_t) (vram : Bool) (st : EncState)
    (hit : st.it < S.length) (hm : 3 ≤ (lzss_select S mode vram st.it).2) :
    (lzss_iter S mode vram st).result
        = mark_code (next_code_bit st).result (next_code_bit st).code_pos
            (next_code_bit st).shift
          ++ match_payload mode (lzss_select S mode vram st.it).2
              (st.it - (lzss_select S mode vram st.it).1 - 1) ∧
      1 ≤ st.it - (lzss_select S mode vram st.it).1 ∧
      st.it - (lzss_select S mode vram st.it).1 ≤ min 4096 st.it ∧
      st.it - (lzss_select S mode vram st.it).1 - 1 < 2 ^ 12 ∧
      st.it ≠ 0 := by
  obtain ⟨g1, g2, _, _, _⟩ := lzss_select_spec S mode vram st.it hit hm
  rw [max_disp_eq] at g1
  obtain ⟨_, _, s3⟩ := lzss_iter_shape S mode vram st
  refine ⟨?_, by omega, by omega, by norm_num; omega, by omega⟩
  rcases s3 with ⟨hlt, _, _⟩ | ⟨_, _, hr⟩
  · omega
  · exact hr

/-- Instance of C16: the match emitted at cursor 3 of `1 2 3 1 2 3` has
displacement 3. -/
theorem lzss_encode_displacement_witness :
    (3 < ([1, 2, 3, 1, 2, 3] : Buffer).length ∧
      3 ≤ (lzss_select [1, 2, 3, 1, 2, 3] .LZ10 false 3).2) ∧
    3 - (lzss_select [1, 2, 3, 1, 2, 3] .LZ10 false 3).1 ≤ min 4096 3 :=
  ⟨⟨by decide, by decide⟩,
   (lzss_encode_displacement [1, 2, 3, 1, 2, 3] .LZ10 false
      { it := 3, result := [0x10, 6, 0, 0, 0, 1, 2, 3], code_pos := 4, shift := 5 }
      (by decide) (by decide)).2.2.1⟩

/-- C17: the match-length invariant of the encoder.  In every iteration of the
loop of `lzss_encode`, for every source, mode and vram flag: a compressed chunk
has a length `l` with `3 ≤ l`, `l ≤ 18` in mode LZ10 and `l ≤ 65808` in mode
LZ11, and `l` at most the number of source bytes left at the cursor, and the
cursor advances by `l`; when the cursor is 0 or the best match has a length
below 3 (so 1 or 2, or none), one literal is emitted and the cursor advances
by 1. -/
theorem lzss_encode_match_length (S : Buffer) (mode : LZSS_t) (vram : Bool) (st : EncState)
    (hit : st.it < S.length) :
    (3 ≤ (lzss_select S mode vram st.it).2 →
      (lzss_iter S mode vram st).result
          = mark_code (next_code_bit st).result (next_code_bit st).code_pos
              (next_code_bit st).shift
            ++ match_payload mode (lzss_select S mode vram st.it).2
                (st.it - (lzss_select S mode vram st.it).1 - 1) ∧
        (lzss_iter S mode vram st).it = st.it + (lzss_select S mode vram st.it).2 ∧
        (lzss_select S mode vram st.it).2 ≤ (if mode = .LZ10 then 18 else 65808) ∧
        (lzss_select S mode vram st.it).2 ≤ S.length - st.it) ∧
    ((st.it = 0 ∨ (find_best_match S st.it (min (S.length - st.it) (max_len mode))
        (max_disp mode) vram).2 < 3) →
      (lzss_iter S mode vram st).result = (next_code_bit st).result ++ [S.getD st.it 0] ∧
        (lzss_iter S mode vram st).it = st.it + 1) := by
  obtain ⟨_, _, s3⟩ := lzss_iter_shape S mode vram st
  constructor
  · intro hm
    obtain ⟨_, _, g3, _, _⟩ := lzss_select_spec S mode vram st.it hit hm
    have hml : max_len mode = if mode = .LZ10 then 18 else 65808 := rfl
    rcases s3 with ⟨hlt, _, _⟩ | ⟨_, hi, hr⟩
    · omega
    · exact ⟨hr, hi, by rw [← hml]; omega, by omega⟩
  · intro hs
    have hlt := lzss_select_short S mode vram st.it hs
    rcases s3 with ⟨_, hi, hr⟩ | ⟨hge, _, _⟩
    · exact ⟨hr, hi⟩
    · omega

/-- Instance of C17: in `1 2 1 2 5` at cursor 2 the best match has length 2,
and a literal is emitted. -/
theorem lzss_encode_match_length_witness :
    (find_best_match [1, 2, 1, 2, 5] 2 (min (5 - 2) (max_len .LZ10)) (max_disp .LZ10) false).2
        = 2 ∧
      (lzss_iter [1, 2, 1, 2, 5] .LZ10 false
          { it := 2, result := [0x10, 5, 0, 0, 0, 1, 2], code_pos := 4, shift := 6 }).it
        = 2 + 1 :=
  ⟨by decide,
   ((lzss_encode_match_length [1, 2, 1, 2, 5] .LZ10 false
      { it := 2, result := [0x10, 5, 0, 0, 0, 1, 2], code_pos := 4, shift := 6 }
      (by decide)).2 (Or.inr (by decide))).2⟩

/-- C18: the displacement bound of the decoders.  In every iteration of the
loop of `lz10_decode` or `lz11_decode` that decodes a compressed block and
copies its bytes (the iteration does not throw), the displacement `d` read from
the block satisfies `1 ≤ d ≤ 4096` and `d` is at most the number of bytes
produced before the block. -/
theorem decode_displacement_bound (mode : LZSS_t) (source : Buffer) (vram : Bool)
    (D D1 D2 : DecState) (len disp src : Nat)
    (hi : decode_iter mode source vram D = .ok D2)
    (hl : load_flags source D = .ok D1) (hf : D1.flags &&& D1.mask ≠ 0)
    (hm : match_fields mode source D1.src = .ok (len, disp, src)) :
    1 ≤ disp ∧ disp ≤ 4096 ∧ disp ≤ D.result.length := by
  obtain ⟨_, b2, b3, _⟩ := match_fields_bounds mode source D1.src len disp src hm
  obtain ⟨D1', hl', hcase⟩ := decode_iter_ok mode source vram D D2 hi
  rw [hl] at hl'
  cases hl'
  obtain ⟨_, l2, _⟩ := load_flags_ok source D D1 hl
  rcases hcase with ⟨h0, _⟩ | ⟨_, len', disp', src', D3, hm', hcb, _, _⟩
  · exact absurd h0 hf
  · rw [hm] at hm'
    cases hm'
    obtain ⟨c1, _⟩ := copy_block_ok vram D1 D3 src len disp hcb
    rw [l2] at c1
    exact ⟨b2, b3, c1⟩

/-- Instance of C18: a literal followed by a compressed block with
displacement 1. -/
theorem decode_displacement_bound_witness :
    decode_iter .LZ10 [0x10, 4, 0, 0, 0x40, 7, 0x00, 0x00] true
        { src := 6, flags := 0x40, mask := 0x40, size := 3, result := [7],
          printed_error := false, printed_vram_error := false, stderr := [] }
      = .ok { src := 8, flags := 0x40, mask := 0x20, size := 0, result := [7, 7, 7, 7],
              printed_error := false, printed_vram_error := true,
              stderr := [Warning.notVramSafe] } ∧
    (1 ≤ 1 ∧ 1 ≤ 4096 ∧ 1 ≤ ([7] : Buffer).length) :=
  ⟨by decide,
   decode_displacement_bound .LZ10 [0x10, 4, 0, 0, 0x40, 7, 0x00, 0x00] true
     { src := 6, flags := 0x40, mask := 0x40, size := 3, result := [7],
       printed_error := false, printed_vram_error := false, stderr := [] }
     { src := 6, flags := 0x40, mask := 0x40, size := 3, result := [7],
       printed_error := false, printed_vram_error := false, stderr := [] }
     { src := 8, flags := 0x40, mask := 0x20, size := 0, result := [7, 7, 7, 7],
       printed_error := false, printed_vram_error := true,
       stderr := [Warning.notVramSafe] }
     3 1 8 (by decide) (by decide) (by decide) (by decide)⟩

/-! ## The VRAM-safe flag in the decoders -/

theorem load_flags_forget (F : Buffer) (st : DecState) :
    load_flags F st.forget_vram = (load_flags F st).map DecState.forget_vram := by
  unfold load_flags
  by_cases hm : st.mask = 0
  · have hm' : st.forget_vram.mask = 0 := hm
    have e : st.forget_vram.src = st.src := rfl
    rw [if_pos hm, if_pos hm', e]
    cases deref F st.src <;> rfl
  · have hm' : ¬ st.forget_vram.mask = 0 := hm
    rw [if_neg hm, if_neg hm']
    rfl

theorem filter_keep (l : List Warning) :
    (l ++ [Warning.exceedsOutputLength]).filter (fun w => decide (w ≠ Warning.notVramSafe))
      = l.filter (fun w => decide (w ≠ Warning.notVramSafe)) ++ [Warning.exceedsOutputLength] := by
  rw [List.filter_append]; rfl

theorem filter_drop (l : List Warning) :
    (l ++ [Warning.notVramSafe]).filter (fun w => decide (w ≠ Warning.notVramSafe))
      = l.filter (fun w => decide (w ≠ Warning.notVramSafe)) := by
  rw [List.filter_append]; simp

theorem copy_block_forget (vram : Bool) (st : DecState) (src len disp : Nat) :
    (copy_block vram st src len disp).map DecState.forget_vram
      = copy_block false st.forget_vram src len disp := by
  unfold copy_block
  dsimp only
  have e1 : st.forget_vram.result = st.result := rfl
  have e2 : st.forget_vram.size = st.size := rfl
  have e3 : st.forget_vram.printed_error = st.printed_error := rfl
  have e4 : st.forget_vram.flags = st.flags := rfl
  have e5 : st.forget_vram.mask = st.mask := rfl
  rw [e1, e2, e3, e4, e5]
  by_cases hd : st.result.length < disp
  · rw [if_pos hd, if_pos hd]; rfl
  · rw [if_neg hd, if_neg hd]
    simp only [Except.map, Bool.false_and, Bool.false_eq_true, if_false,
      DecState.forget_vram]
    congr 1
    by_cases hw : (decide (len > st.size) && !st.printed_error) = true
    · by_cases hv : (vram && !st.printed_vram_error && decide (disp = 1)) = true
      · simp only [hw, hv, if_true, filter_drop, filter_keep]
      · simp only [hw, hv, if_true, if_false, filter_keep, Bool.false_eq_true]
    · by_cases hv : (vram && !st.printed_vram_error && decide (disp = 1)) = true
      · simp only [hw, hv, if_true, if_false, filter_drop, Bool.false_eq_true]
      · simp only [hw, hv, if_false, Bool.false_eq_true]

theorem decode_iter_forget (mode : LZSS_t) (F : Buffer) (vram : Bool) (st : DecState) :
    (decode_iter mode F vram st).map DecState.forget_vram
      = decode_iter mode F false st.forget_vram := by
  unfold decode_iter
  rw [load_flags_forget]
  cases hl : load_flags F st with
  | error e => rfl
  | ok st1 =>
    simp only [Except.map]
    have e1 : st1.forget_vram.flags = st1.flags := rfl
    have e2 : st1.forget_vram.mask = st1.mask := rfl
    have e3 : st1.forget_vram.src = st1.src := rfl
    rw [e1, e2, e3]
    by_cases hf : st1.flags &&& st1.mask ≠ 0
    · rw [if_pos hf, if_pos hf]
      cases hm : match_fields mode F st1.src with
      | error e => rfl
      | ok r =>
        obtain ⟨len, disp, src⟩ := r
        simp only
        rw [← copy_block_forget vram st1 src len disp]
        cases copy_block vram st1 src len disp <;> rfl
    · rw [if_neg hf, if_neg hf]
      cases deref F st1.src <;> rfl

theorem decode_loop_forget (mode : LZSS_t) (F : Buffer) (vram : Bool) (fuel : Nat) :
    ∀ st : DecState, (decode_loop mode F vram fuel st).map DecState.forget_vram
      = decode_loop mode F false fuel st.forget_vram := by
  induction fuel with
  | zero => intro st; rfl
  | succ n ih =>
    intro st
    rw [decode_loop, decode_loop]
    have e : st.forget_vram.size = st.size := rfl
    rw [e]
    by_cases hs : st.size > 0
    · rw [if_pos hs, if_pos hs, ← decode_iter_forget mode F vram st]
      cases hi : decode_iter mode F vram st with
      | error e => rfl
      | ok st1 =>
        simp only [Except.map]
        exact ih st1
    · rw [if_neg hs, if_neg hs]; rfl

/-- The run with any value of the flag, with the VRAM information forgotten,
is the run without the flag. -/
theorem decode_run_forget (mode : LZSS_t) (F : Buffer) (vram : Bool) :
    (decode_run mode F vram).map DecState.forget_vram = decode_run mode F false := by
  unfold decode_run
  by_cases hb : bad_header mode F
  · rw [if_pos hb, if_pos hb]; rfl
  · rw [if_neg hb, if_neg hb, decode_loop_forget]
    rfl

theorem count_append_other (l : List Warning) :
    (l ++ [Warning.exceedsOutputLength]).count Warning.notVramSafe
      = l.count Warning.notVramSafe := by
  rw [List.count_append]; rfl

theorem count_append_self (l : List Warning) :
    (l ++ [Warning.notVramSafe]).count Warning.notVramSafe
      = l.count Warning.notVramSafe + 1 := by
  rw [List.count_append]; rfl

/-- What a compressed block does to the VRAM warning. -/
theorem copy_block_vram (vram : Bool) (D1 D2 : DecState) (src len disp : Nat)
    (h : copy_block vram D1 src len disp = .ok D2) :
    D2.printed_vram_error = (D1.printed_vram_error || (vram && decide (disp = 1))) ∧
      D2.stderr.count Warning.notVramSafe = D1.stderr.count Warning.notVramSafe
        + (if (vram && !D1.printed_vram_error && decide (disp = 1)) = true then 1 else 0) := by
  unfold copy_block at h
  dsimp only at h
  split at h
  · cases h
  · cases h
    dsimp only
    by_cases hw : (decide (len > D1.size) && !D1.printed_error) = true
    · by_cases hv : (vram && !D1.printed_vram_error && decide (disp = 1)) = true
      · simp only [hw, hv, if_true, count_append_self, count_append_other]
        refine ⟨?_, trivial⟩
        simp only [Bool.and_eq_true, Bool.not_eq_true', decide_eq_true_eq] at hv
        simp [hv.1.1, hv.2]
      · simp only [hw, hv, if_true, if_false, count_append_other, Bool.false_eq_true,
          Nat.add_zero, and_true]
        cases hp : D1.printed_vram_error
        · rw [hp] at hv
          simpa using hv
        · rfl
    · by_cases hv : (vram && !D1.printed_vram_error && decide (disp = 1)) = true
      · simp only [hw, hv, if_true, if_false, count_append_self, Bool.false_eq_true]
        refine ⟨?_, trivial⟩
        simp only [Bool.and_eq_true, Bool.not_eq_true', decide_eq_true_eq] at hv
        simp [hv.1.1, hv.2]
      · simp only [hw, hv, if_false, Bool.false_eq_true, Nat.add_zero, and_true]
        cases hp : D1.printed_vram_error
        · rw [hp] at hv
          simpa using hv
        · rfl

/-- What one iteration of the decoder loop does to the VRAM warning. -/
theorem decode_iter_vram (mode : LZSS_t) (F : Buffer) (vram : Bool) (D D2 : DecState)
    (h : decode_iter mode F vram D = .ok D2) :
    ∃ D1, load_flags F D = .ok D1 ∧
      ((D1.flags &&& D1.mask = 0 ∧ D2.printed_vram_error = D.printed_vram_error ∧
          D2.stderr = D.stderr) ∨
       (D1.flags &&& D1.mask ≠ 0 ∧ ∃ len disp src,
          match_fields mode F D1.src = .ok (len, disp, src) ∧
          D2.printed_vram_error = (D.printed_vram_error || (vram && decide (disp = 1))) ∧
          D2.stderr.count Warning.notVramSafe = D.stderr.count Warning.notVramSafe
            + (if (vram && !D.printed_vram_error && decide (disp = 1)) = true
                then 1 else 0))) := by
  unfold decode_iter at h
  split at h
  · cases h
  · rename_i D1 hD1
    obtain ⟨_, _, _, l4, l5⟩ := load_flags_ok F D D1 hD1
    refine ⟨D1, hD1, ?_⟩
    split at h
    · rename_i hf
      right
      refine ⟨hf, ?_⟩
      split at h
      · cases h
      · rename_i len disp src hm
        split at h
        · cases h
        · rename_i D3 hcb
          cases h
          obtain ⟨v1, v2⟩ := copy_block_vram vram D1 D3 src len disp hcb
          rw [l4] at v1 v2
          rw [l5] at v2
          exact ⟨len, disp, src, hm, v1, v2⟩
    · rename_i hf
      left
      refine ⟨by simpa using hf, ?_⟩
      split at h
      · cases h
      · cases h
        exact ⟨l4, l5⟩

theorem decode_iter_count (mode : LZSS_t) (F : Buffer) (vram : Bool) (D D2 : DecState)
    (h : decode_iter mode F vram D = .ok D2)
    (hinv : D.stderr.count Warning.notVramSafe = if D.printed_vram_error = true then 1 else 0) :
    (D2.stderr.count Warning.notVramSafe = if D2.printed_vram_error = true then 1 else 0) ∧
      (D.printed_vram_error = true → D2.printed_vram_error = true) := by
  obtain ⟨D1, _, hcase⟩ := decode_iter_vram mode F vram D D2 h
  rcases hcase with ⟨_, h1, h2⟩ | ⟨_, len, disp, src, _, h1, h2⟩
  · rw [h1, h2]; exact ⟨hinv, fun h => h⟩
  · rw [h1, h2, hinv]
    cases D.printed_vram_error <;> cases vram <;> by_cases hd : disp = 1 <;> simp [hd]

theorem decode_loop_count (mode : LZSS_t) (F : Buffer) (vram : Bool) (fuel : Nat) :
    ∀ (st D : DecState), decode_loop mode F vram fuel st = .ok D →
      (st.stderr.count Warning.notVramSafe = if st.printed_vram_error = true then 1 else 0) →
      (D.stderr.count Warning.notVramSafe = if D.printed_vram_error = true then 1 else 0) ∧
        (st.printed_vram_error = true → D.printed_vram_error = true) := by
  induction fuel with
  | zero => intro st D h hinv; cases h; exact ⟨hinv, fun h => h⟩
  | succ n ih =>
    intro st D h hinv
    rw [decode_loop] at h
    split at h
    · split at h
      · cases h
      · rename_i st1 h1
        obtain ⟨i1, i2⟩ := decode_iter_count mode F vram st st1 h1 hinv
        obtain ⟨j1, j2⟩ := ih st1 D h i1
        exact ⟨j1, fun h => j2 (i2 h)⟩
    · cases h; exact ⟨hinv, fun h => h⟩

/-- The variable `printed_vram_error` is set only by a compressed block of
displacement 1 met with the flag set. -/
theorem decode_loop_vram_source (mode : LZSS_t) (F : Buffer) (vram : Bool) (fuel : Nat) :
    ∀ (st D : DecState), decode_loop mode F vram fuel st = .ok D →
      D.printed_vram_error = true →
      st.printed_vram_error = true ∨
        (vram = true ∧ ∃ k Dk D1 len src, decode_loop mode F vram k st = .ok Dk ∧
          0 < Dk.size ∧ load_flags F Dk = .ok D1 ∧ D1.flags &&& D1.mask ≠ 0 ∧
          match_fields mode F D1.src = .ok (len, 1, src)) := by
  induction fuel with
  | zero => intro st D h hp; cases h; left; exact hp
  | succ n ih =>
    intro st D h hp
    rw [decode_loop] at h
    split at h
    · rename_i hs
      split at h
      · cases h
      · rename_i st1 h1
        rcases ih st1 D h hp with h2 | ⟨hv, k, Dk, D1, len, src, e1, e2, e3, e4, e5⟩
        · obtain ⟨D1, hl, hcase⟩ := decode_iter_vram mode F vram st st1 h1
          rcases hcase with ⟨_, c1, _⟩ | ⟨hf, len, disp, src, hm, c1, _⟩
          · left; rw [← c1]; exact h2
          · rw [c1] at h2
            by_cases hst : st.printed_vram_error = true
            · left; exact hst
            · right
              simp only [Bool.or_eq_true, Bool.and_eq_true, decide_eq_true_eq] at h2
              rcases h2 with h2 | ⟨hv, hd⟩
              · exact absurd h2 hst
              · rw [hd] at hm
                exact ⟨hv, 0, st, D1, len, src, rfl, hs, hl, hf, hm⟩
        · right
          refine ⟨hv, k + 1, Dk, D1, len, src, ?_, e2, e3, e4, e5⟩
          rw [decode_loop, if_pos hs, h1]
          exact e1
    · cases h; left; exact hp

theorem decode_init_count (source : Buffer) :
    (decode_init source).stderr.count Warning.notVramSafe
      = if (decode_init source).printed_vram_error = true then 1 else 0 := rfl

theorem decode_run_loop (mode : LZSS_t) (source : Buffer) (vram : Bool) (D : DecState)
    (h : decode_run mode source vram = .ok D) :
    decode_loop mode source vram (declared_size source) (decode_init source) = .ok D := by
  unfold decode_run at h
  split at h
  · cases h
  · exact h

/-- C11: the VRAM-unsafe warning is raised exactly once per stream.  Take a
stream that the decoder of the mode decodes without the VRAM-safe flag (an
otherwise valid stream); that run raises the warning zero times.  With the
flag set the decode succeeds too, with the same bytes, and the warning is
raised exactly once when the run decodes a compressed block of displacement 1,
however many there are, and zero times when it decodes none. -/
theorem vram_warning_once (mode : LZSS_t) (source : Buffer) (D0 : DecState)
    (h : decode_run mode source false = .ok D0) :
    D0.stderr.count Warning.notVramSafe = 0 ∧
      ∃ D, decode_run mode source true = .ok D ∧ D.result = D0.result ∧
        (DecodesMatch mode source 1 → D.stderr.count Warning.notVramSafe = 1) ∧
        (¬ DecodesMatch mode source 1 → D.stderr.count Warning.notVramSafe = 0) := by
  have hf := decode_run_forget mode source true
  rw [h] at hf
  cases hr : decode_run mode source true with
  | error e => rw [hr] at hf; cases hf
  | ok D =>
    rw [hr] at hf
    simp only [Except.map, Except.ok.injEq] at hf
    have hloop := decode_run_loop mode source true D hr
    obtain ⟨hcount, _⟩ := decode_loop_count mode source true _ _ D hloop
      (decode_init_count source)
    refine ⟨?_, D, rfl, ?_, ?_, ?_⟩
    · rw [← hf, List.count_eq_zero]
      intro hmem
      have := (List.mem_filter.mp hmem).2
      simp at this
    · rw [← hf]; rfl
    · intro hdm
      obtain ⟨k, Dk, D1, len, src, e1, e2, e3, e4, e5⟩ := hdm
      obtain ⟨hle, hsplit⟩ := decode_loop_split mode source true k _ Dk e1 e2
      rw [decode_loop_init_size] at hle
      obtain ⟨m, hm1⟩ : ∃ m, declared_size source = k + (m + 1) :=
        ⟨declared_size source - k - 1, by omega⟩
      rw [hm1, hsplit (m + 1), decode_loop, if_pos e2] at hloop
      split at hloop
      · cases hloop
      · rename_i Dk1 hiter
        obtain ⟨D1', hl', hcase⟩ := decode_iter_vram mode source true Dk Dk1 hiter
        rw [e3] at hl'
        cases hl'
        have hp1 : Dk1.printed_vram_error = true := by
          rcases hcase with ⟨h0, _⟩ | ⟨_, len', disp', src', hm', c1, _⟩
          · exact absurd h0 e4
          · rw [e5] at hm'
            cases hm'
            rw [c1]; simp
        have hk1 : Dk1.stderr.count Warning.notVramSafe
            = if Dk1.printed_vram_error = true then 1 else 0 := by
          rw [hp1, if_pos rfl]
          obtain ⟨z1, _⟩ := decode_loop_count mode source true k _ Dk e1
            (decode_init_count source)
          obtain ⟨z2, _⟩ := decode_iter_count mode source true Dk Dk1 hiter z1
          rw [z2, hp1, if_pos rfl]
        obtain ⟨_, j2⟩ := decode_loop_count mode source true m Dk1 D hloop hk1
        rw [hcount, j2 hp1, if_pos rfl]
    · intro hno
      rw [hcount]
      by_cases hp : D.printed_vram_error = true
      · rcases decode_loop_vram_source mode source true _ _ D hloop hp with h0 | ⟨_, hex⟩
        · cases h0
        · exact absurd hex hno
      · rw [if_neg hp]

/-- Instance of C11: a literal and two compressed blocks of displacement 1;
the warning is raised once. -/
theorem vram_warning_once_witness :
    DecodesMatch .LZ10 [0x10, 7, 0, 0, 0x60, 1, 0x00, 0x00, 0x00, 0x00] 1 ∧
      decode_run .LZ10 [0x10, 7, 0, 0, 0x60, 1, 0x00, 0x00, 0x00, 0x00] true
        = .ok { src := 10, flags := 0x60, mask := 0x10, size := 0,
                result := [1, 1, 1, 1, 1, 1, 1], printed_error := false,
                printed_vram_error := true, stderr := [Warning.notVramSafe] } ∧
      (∃ D, decode_run .LZ10 [0x10, 7, 0, 0, 0x60, 1, 0x00, 0x00, 0x00, 0x00] true = .ok D ∧
        D.result = [1, 1, 1, 1, 1, 1, 1] ∧ D.stderr.count Warning.notVramSafe = 1) := by
  have hdm : DecodesMatch .LZ10 [0x10, 7, 0, 0, 0x60, 1, 0x00, 0x00, 0x00, 0x00] 1 :=
    ⟨1, { src := 6, flags := 0x60, mask := 0x40, size := 6, result := [1],
          printed_error := false, printed_vram_error := false, stderr := [] },
      { src := 6, flags := 0x60, mask := 0x40, size := 6, result := [1],
        printed_error := false, printed_vram_error := false, stderr := [] },
      3, 8, by decide, by decide, by decide, by decide, by decide⟩
  obtain ⟨_, D, h1, h2, h3, _⟩ :=
    vram_warning_once .LZ10 [0x10, 7, 0, 0, 0x60, 1, 0x00, 0x00, 0x00, 0x00]
      { src := 10, flags := 0x60, mask := 0x10, size := 0,
        result := [1, 1, 1, 1, 1, 1, 1], printed_error := false,
        printed_vram_error := false, stderr := [] } (by decide)
  exact ⟨hdm, by decide, D, h1, h2, h3 hdm⟩

/-- C12: the vram flag does not influence what the decoders produce.  For
every input, `lz10_decode` with the flag set and without it end the same way:
the same error, or the same returned buffer; likewise `lz11_decode`.  The two
runs differ at most in the variable `printed_vram_error` and in the VRAM
warnings on `stderr`. -/
theorem decode_vram_independent (source : Buffer) :
    lz10_decode source true = lz10_decode source false ∧
      lz11_decode source true = lz11_decode source false ∧
      ∀ mode : LZSS_t,
        (decode_run mode source true).map
            (fun D => { D with printed_vram_error := false,
                               stderr := D.stderr.filter
                                 (fun w => decide (w ≠ Warning.notVramSafe)) })
          = decode_run mode source false := by
  have key : ∀ mode : LZSS_t, (decode_run mode source true).map DecState.forget_vram
      = decode_run mode source false := fun mode => decode_run_forget mode source true
  refine ⟨?_, ?_, key⟩
  · unfold lz10_decode
    rw [← key .LZ10]
    cases decode_run .LZ10 source true <;> rfl
  · unfold lz11_decode
    rw [← key .LZ11]
    cases decode_run .LZ11 source true <;> rfl

/-! ## Concrete scenarios -/

/-- C19 fails as stated: the encoding of the empty source has 8 bytes, not 4;
the control byte reserved before the loop is in the stream although no unit
follows it. -/
theorem lzss_encode_empty_counterexample :
    lzss_encode [] .LZ10 false ≠ [0x10, 0, 0, 0] ∧
      (lzss_encode [] .LZ10 false).length = 8 ∧
      lzss_body [] .LZ10 false = [0x10, 0, 0, 0, 0] := by
  decide

/-- C19 as amended: for the empty source and each mode and vram flag,
`lzss_encode` returns the header `(tag, 0, 0, 0)`, then the control byte `0x00`
reserved before the loop, which no unit follows (the loop emits no unit), then
three zero bytes of padding: exactly 8 bytes, a multiple of 4.  The decoder of
the mode returns the empty buffer on it. -/
theorem lzss_encode_empty (mode : LZSS_t) (vram : Bool) :
    lzss_encode [] mode vram = [u8 mode.tag, 0, 0, 0, 0, 0, 0, 0] ∧
      lzss_body [] mode vram = [u8 mode.tag, 0, 0, 0, 0] ∧
      lzss_units [] mode vram = [] ∧
      (lzss_encode [] mode vram).length = 8 ∧
      lzss_decode mode (lzss_encode [] mode vram) vram = .ok [] := by
  cases mode <;> cases vram <;> decide

set_option maxRecDepth 100000 in
/-- C20 fails as stated: for the run of 20 bytes `0xAA` in mode LZ10 the
encoder emits two literals and then one match of length 18, which is the last
unit: no unit follows the match. -/
theorem lzss_encode_run20_counterexample :
    lzss_units (List.replicate 20 0xAA) .LZ10 false
        = [.literal 0xAA, .literal 0xAA, .block 18 1] ∧
      ¬ ∃ pre len disp u post,
        lzss_units (List.replicate 20 0xAA) .LZ10 false = pre ++ .block len disp :: u :: post := by
  have h : lzss_units (List.replicate 20 0xAA) .LZ10 false
      = [.literal 0xAA, .literal 0xAA, .block 18 1] := by decide
  refine ⟨h, ?_⟩
  rw [h]
  rintro ⟨pre, len, disp, u, post, he⟩
  rcases pre with _ | ⟨a, _ | ⟨b, _ | ⟨c, pre⟩⟩⟩ <;> simp at he

set_option maxRecDepth 100000 in
/-- C20 as amended: for the run of 20 bytes `0xAA` in mode LZ10 the encoder
emits exactly three units: two literals `0xAA`, then one match of length 18
(the LZ10 cap), of displacement 1, or 2 when the vram flag is set, which covers
the rest of the run and ends the stream.  The stream is the header, the control
byte `0x20`, the two literals, the two bytes of the match and three bytes of
padding; `lz10_decode` recovers the 20 bytes from it. -/
theorem lzss_encode_run20 (vram : Bool) :
    lzss_units (List.replicate 20 0xAA) .LZ10 vram
        = [.literal 0xAA, .literal 0xAA, .block 18 (if vram then 2 else 1)] ∧
      lz10_encode (List.replicate 20 0xAA) vram
        = [0x10, 20, 0, 0, 0x20, 0xAA, 0xAA, 0xF0, (if vram then 1 else 0), 0, 0, 0] ∧
      lz10_decode (lz10_encode (List.replicate 20 0xAA) vram) vram
        = .ok (List.replicate 20 0xAA) := by
  cases vram <;> decide

/-! ## Short sources -/

theorem lzss_unit_lit (S : Buffer) (mode : LZSS_t) (vram : Bool) (it : Nat)
    (h : (lzss_select S mode vram it).2 < 3) :
    lzss_unit S mode vram it = .literal (S.getD it 0) := by
  unfold lzss_unit
  dsimp only
  rw [if_pos h]

theorem lzss_select_short_source (S : Buffer) (mode : LZSS_t) (vram : Bool) (it : Nat)
    (hlen : S.length ≤ 3) (hit : it < S.length) : (lzss_select S mode vram it).2 < 3 := by
  by_contra hc
  obtain ⟨_, g2, g3, _, _⟩ := lzss_select_spec S mode vram it hit (by omega)
  omega

theorem drop_cons_getD (S : Buffer) (it : Nat) (h : it < S.length) :
    S.drop it = S.getD it 0 :: S.drop (it + 1) := by
  rw [List.getD_eq_getElem?_getD, List.getElem?_eq_getElem h]
  exact List.drop_eq_getElem_cons h

/-- A run of iterations that all emit a literal, within one code byte, appends
the rest of the source to the buffer. -/
theorem lzss_loop_literals (S : Buffer) (mode : LZSS_t) (vram : Bool)
    (hs : ∀ it, it < S.length → (lzss_select S mode vram it).2 < 3) (fuel : Nat) :
    ∀ st : EncState, S.length - st.it ≤ fuel → S.length - st.it ≤ st.shift →
      (lzss_loop S mode vram fuel st).result = st.result ++ S.drop st.it := by
  induction fuel with
  | zero =>
    intro st hf _
    rw [lzss_loop, List.drop_of_length_le (by omega), List.append_nil]
  | succ n ih =>
    intro st hf hsh
    rw [lzss_loop]
    by_cases hit : st.it < S.length
    · rw [if_pos hit]
      obtain ⟨s1, s2, s3⟩ := lzss_iter_shape S mode vram st
      obtain ⟨n1, n2, n3⟩ := next_code_bit_pos st (by omega)
      rcases s3 with ⟨_, hi, hr⟩ | ⟨hge, _, _⟩
      · rw [ih _ (by omega) (by rw [s2, hi]; omega), hr, hi, n1, List.append_assoc,
          List.singleton_append, ← drop_cons_getD S st.it hit]
      · have := hs st.it hit; omega
    · rw [if_neg hit, List.drop_of_length_le (by omega), List.append_nil]

theorem lzss_units_literals (S : Buffer) (mode : LZSS_t) (vram : Bool)
    (hs : ∀ it, it < S.length → (lzss_select S mode vram it).2 < 3) (fuel : Nat) :
    ∀ st : EncState, S.length - st.it ≤ fuel →
      lzss_units_loop S mode vram fuel st = (S.drop st.it).map LzUnit.literal := by
  induction fuel with
  | zero =>
    intro st hf
    rw [lzss_units_loop, List.drop_of_length_le (by omega)]
    rfl
  | succ n ih =>
    intro st hf
    rw [lzss_units_loop]
    by_cases hit : st.it < S.length
    · rw [if_pos hit, lzss_unit_lit S mode vram st.it (hs st.it hit)]
      obtain ⟨_, _, s3⟩ := lzss_iter_shape S mode vram st
      rcases s3 with ⟨_, hi, _⟩ | ⟨hge, _, _⟩
      · rw [ih _ (by omega), hi, drop_cons_getD S st.it hit, List.map_cons]
      · have := hs st.it hit; omega
    · rw [if_neg hit, List.drop_of_length_le (by omega)]
      rfl

theorem pad4_of_len (r : Buffer) (k : Nat) (hk : k ≤ 3) (h : (r.length + k) % 4 = 0) :
    pad4 r = r ++ List.replicate k 0 := by
  obtain ⟨k', hk', he, hm⟩ := pad4_eq r
  have : k' = k := by omega
  rw [he, this]

/-- C21: sources too short to match are stored as literals.  For every source
`S` of 1 to 3 bytes, each mode and vram flag, `lzss_encode S` is the 4-byte
header, then one control byte `0x00`, then the bytes of `S` as literal units in
order, then zero bytes up to a multiple of 4 (8 bytes in all); the loop emits
one literal per byte and no match unit. -/
theorem lzss_encode_short (S : Buffer) (mode : LZSS_t) (vram : Bool)
    (h1 : 1 ≤ S.length) (h3 : S.length ≤ 3) :
    lzss_encode S mode vram
        = header [] mode.tag S.length ++ [0] ++ S ++ List.replicate (3 - S.length) 0 ∧
      lzss_units S mode vram = S.map LzUnit.literal ∧
      (∀ len disp, LzUnit.block len disp ∉ lzss_units S mode vram) := by
  have hs : ∀ it, it < S.length → (lzss_select S mode vram it).2 < 3 :=
    fun it hit => lzss_select_short_source S mode vram it h3 hit
  have hu : lzss_units S mode vram = S.map LzUnit.literal := by
    unfold lzss_units
    rw [lzss_units_literals S mode vram hs S.length _ (by omega)]
    rfl
  refine ⟨?_, hu, ?_⟩
  · unfold lzss_encode lzss_body
    rw [lzss_loop_literals S mode vram hs S.length _ (by omega)
      (by show S.length - 0 ≤ 8; omega)]
    have e : (lzss_init S mode).result ++ S.drop (lzss_init S mode).it
        = header [] mode.tag S.length ++ [0] ++ S := rfl
    rw [e]
    apply pad4_of_len _ _ (by omega)
    simp only [header, List.nil_append, List.length_append, List.length_cons,
      List.length_nil]
    omega
  · intro len disp hmem
    rw [hu, List.mem_map] at hmem
    obtain ⟨_, _, he⟩ := hmem
    cases he

/-- Instance of C21: three distinct bytes. -/
theorem lzss_encode_short_witness :
    (1 ≤ ([1, 2, 3] : Buffer).length ∧ ([1, 2, 3] : Buffer).length ≤ 3) ∧
      lzss_encode [1, 2, 3] .LZ10 false = [0x10, 3, 0, 0, 0, 1, 2, 3] ∧
      lzss_units [1, 2, 3] .LZ10 false = [.literal 1, .literal 2, .literal 3] :=
  ⟨⟨by decide, by decide⟩,
    (lzss_encode_short [1, 2, 3] .LZ10 false (by decide) (by decide)).1.trans (by decide),
    (lzss_encode_short [1, 2, 3] .LZ10 false (by decide) (by decide)).2.1⟩

/-! ## The wire format of a match -/

theorem next_code_bit_shift (st : EncState) (h : st.shift ≤ 8) :
    (next_code_bit st).shift = 7 - (8 - st.shift) % 8 := by
  by_cases hs : st.shift = 0
  · obtain ⟨_, _, n3⟩ := next_code_bit_zero st hs
    rw [n3, hs]
  · obtain ⟨_, _, n3⟩ := next_code_bit_pos st hs
    omega

set_option maxRecDepth 100000 in
theorem bit_set_byte : ∀ r : Fin 256, ∀ s : Fin 8,
    (((r.val ||| (1 <<< s.val)) % 256) >>> s.val) % 2 = 1 := by
  decide

theorem u8_and_FF (x : Nat) : u8 (x &&& 0xFF) = u8 x := by
  have h := Nat.and_pow_two_sub_one_eq_mod x 8
  apply Fin.ext
  rw [u8_val, u8_val]
  have e : x &&& 0xFF = x % 256 := by simpa using h
  rw [e]
  omega

theorem payload_in_stream (pre payload post : Buffer) (j : Nat) (hj : j < payload.length) :
    (pre ++ payload ++ post)[pre.length + j]? = payload[j]? := by
  rw [List.append_assoc, List.getElem?_append_right (by omega),
    List.getElem?_append_left (by omega)]
  congr 1
  omega

/-- C22: the wire format of a match in mode LZ10.  In every iteration of the
loop of `lzss_encode` in mode LZ10 that emits a match, of length `l` and
displacement `d = it - tmp`: `3 ≤ l ≤ 18` and `1 ≤ d ≤ 4096`; the flag bit of
the unit is set in the code byte of the group, bit 7 for the first unit of a
group down to bit 0 for the eighth; exactly two bytes are pushed,
`((l - 3) << 4) | ((d - 1) >> 8)` and `(d - 1) & 0xFF`; and `lz10_decode` reads
`(l, d)` back from these two bytes wherever they stand in a stream. -/
theorem lz10_match_wire_format (S : Buffer) (vram : Bool) (st : EncState)
    (hwf : st.code_pos < st.result.length ∧ st.shift ≤ 8)
    (hit : st.it < S.length) (hm : 3 ≤ (lzss_select S .LZ10 vram st.it).2) :
    (3 ≤ (lzss_select S .LZ10 vram st.it).2 ∧ (lzss_select S .LZ10 vram st.it).2 ≤ 18 ∧
      1 ≤ st.it - (lzss_select S .LZ10 vram st.it).1 ∧
      st.it - (lzss_select S .LZ10 vram st.it).1 ≤ 4096) ∧
    (lzss_iter S .LZ10 vram st).result
      = mark_code (next_code_bit st).result (next_code_bit st).code_pos
          (next_code_bit st).shift
        ++ [u8 ((((lzss_select S .LZ10 vram st.it).2 - 3) <<< 4)
              ||| ((st.it - (lzss_select S .LZ10 vram st.it).1 - 1) >>> 8)),
            u8 ((st.it - (lzss_select S .LZ10 vram st.it).1 - 1) &&& 0xFF)] ∧
    (next_code_bit st).shift = 7 - (8 - st.shift) % 8 ∧
    ((lzss_iter S .LZ10 vram st).result.getD (next_code_bit st).code_pos 0).val
      &&& (1 <<< (next_code_bit st).shift) ≠ 0 ∧
    (∀ pre post : Buffer,
      lz10_fields (pre ++ [u8 ((((lzss_select S .LZ10 vram st.it).2 - 3) <<< 4)
              ||| ((st.it - (lzss_select S .LZ10 vram st.it).1 - 1) >>> 8)),
            u8 ((st.it - (lzss_select S .LZ10 vram st.it).1 - 1) &&& 0xFF)] ++ post)
          pre.length
        = .ok ((lzss_select S .LZ10 vram st.it).2,
            st.it - (lzss_select S .LZ10 vram st.it).1, pre.length + 2)) := by
  obtain ⟨g1, g2, g3, _, _⟩ := lzss_select_spec S .LZ10 vram st.it hit hm
  rw [max_disp_eq] at g1
  have hml : max_len .LZ10 = 18 := rfl
  rw [hml] at g3
  obtain ⟨_, _, s3⟩ := lzss_iter_shape S .LZ10 vram st
  obtain ⟨w1, w2⟩ := next_code_bit_wf st hwf
  have hr : (lzss_iter S .LZ10 vram st).result
      = mark_code (next_code_bit st).result (next_code_bit st).code_pos
          (next_code_bit st).shift
        ++ match_payload .LZ10 (lzss_select S .LZ10 vram st.it).2
            (st.it - (lzss_select S .LZ10 vram st.it).1 - 1) := by
    rcases s3 with ⟨hlt, _, _⟩ | ⟨_, _, hr⟩
    · omega
    · exact hr
  have hp : match_payload .LZ10 (lzss_select S .LZ10 vram st.it).2
        (st.it - (lzss_select S .LZ10 vram st.it).1 - 1)
      = [u8 ((((lzss_select S .LZ10 vram st.it).2 - 3) <<< 4)
              ||| ((st.it - (lzss_select S .LZ10 vram st.it).1 - 1) >>> 8)),
          u8 ((st.it - (lzss_select S .LZ10 vram st.it).1 - 1) &&& 0xFF)] := by
    rw [u8_and_FF]
    simp [match_payload]
  refine ⟨⟨hm, by omega, by omega, by omega⟩, by rw [hr, hp],
    next_code_bit_shift st hwf.2, ?_, ?_⟩
  · rw [hr, List.getD_eq_getElem?_getD,
      List.getElem?_append_left (by rw [mark_code_length]; exact w1),
      mark_code_self _ _ _ w1]
    simp only [Option.getD_some]
    apply (bit_test_byte _ ⟨(next_code_bit st).shift, w2⟩).mpr
    have := bit_set_byte ((next_code_bit st).result.getD (next_code_bit st).code_pos 0)
      ⟨(next_code_bit st).shift, w2⟩
    simpa [u8_val] using this
  · intro pre post
    have h := lz10_fields_payload
      (pre ++ [u8 ((((lzss_select S .LZ10 vram st.it).2 - 3) <<< 4)
              ||| ((st.it - (lzss_select S .LZ10 vram st.it).1 - 1) >>> 8)),
            u8 ((st.it - (lzss_select S .LZ10 vram st.it).1 - 1) &&& 0xFF)] ++ post)
      pre.length (lzss_select S .LZ10 vram st.it).2
      (st.it - (lzss_select S .LZ10 vram st.it).1 - 1) hm (by omega) (by omega)
      (by
        have := payload_in_stream pre
          [u8 ((((lzss_select S .LZ10 vram st.it).2 - 3) <<< 4)
              ||| ((st.it - (lzss_select S .LZ10 vram st.it).1 - 1) >>> 8)),
            u8 ((st.it - (lzss_select S .LZ10 vram st.it).1 - 1) &&& 0xFF)] post 0
          (by simp)
        simpa using this)
      (by
        have := payload_in_stream pre
          [u8 ((((lzss_select S .LZ10 vram st.it).2 - 3) <<< 4)
              ||| ((st.it - (lzss_select S .LZ10 vram st.it).1 - 1) >>> 8)),
            u8 ((st.it - (lzss_select S .LZ10 vram st.it).1 - 1) &&& 0xFF)] post 1
          (by simp)
        rw [u8_and_FF] at this ⊢
        simpa using this)
    have e : st.it - (lzss_select S .LZ10 vram st.it).1 - 1 + 1
        = st.it - (lzss_select S .LZ10 vram st.it).1 := by omega
    rw [e] at h
    exact h

/-- Instance of C22: the match emitted at cursor 3 of `1 2 3 1 2 3`, the
fourth unit of its group. -/
theorem lz10_match_wire_format_witness :
    (lzss_iter [1, 2, 3, 1, 2, 3] .LZ10 false
        { it := 3, result := [0x10, 6, 0, 0, 0, 1, 2, 3], code_pos := 4, shift := 5 }).result
      = [0x10, 6, 0, 0, 0x10, 1, 2, 3, 0x00, 0x02] ∧
    lz10_fields ([0x10, 6, 0, 0, 0x10, 1, 2, 3] ++ [0x00, 0x02] ++ []) 8 = .ok (3, 3, 10) :=
  ⟨by decide,
   (lz10_match_wire_format [1, 2, 3, 1, 2, 3] false
      { it := 3, result := [0x10, 6, 0, 0, 0, 1, 2, 3], code_pos := 4, shift := 5 }
      ⟨by decide, by decide⟩ (by decide) (by decide)).2.2.2.2
        [0x10, 6, 0, 0, 0x10, 1, 2, 3] []⟩

set_option maxRecDepth 100000 in
/-- C23 fails as stated: a match of length 18 in mode LZ11 has a payload of 3
bytes, not 2.  For the run of 19 bytes `0xAA` the encoder emits a literal and a
match of length 18, written as the three bytes `0x00 0x10 0x00`. -/
theorem lz11_payload_size_counterexample :
    lzss_units (List.replicate 19 0xAA) .LZ11 false = [.literal 0xAA, .block 18 1] ∧
      lz11_encode (List.replicate 19 0xAA) false
        = [0x11, 19, 0, 0, 0x40, 0xAA, 0x00, 0x10, 0x00, 0, 0, 0] ∧
      match_payload .LZ11 18 0 = [0x00, 0x10, 0x00] ∧
      (match_payload .LZ11 18 0).length ≠ 2 := by
  decide

/-- C23 as amended: in mode LZ11 the size of the payload is selected by the
length of the match.  In every iteration of the loop of `lzss_encode` in mode
LZ11 that emits a match, of length `l` with stored displacement field `disp`,
the bytes pushed are: for `3 ≤ l ≤ 16` the two bytes
`((l - 1) << 4) | (disp >> 8)`, `disp`; for `17 ≤ l ≤ 272` the three bytes
`(l - 0x11) >> 4`, `((l - 0x11) << 4) | (disp >> 8)`, `disp`, the first with
high nibble 0; for `273 ≤ l ≤ 65808` the four bytes
`(1 << 4) | ((l - 0x111) >> 12)`, `(l - 0x111) >> 4`,
`((l - 0x111) << 4) | (disp >> 8)`, `disp`, the first with high nibble 1. -/
theorem lz11_payload_size (S : Buffer) (vram : Bool) (st : EncState)
    (hit : st.it < S.length) (hm : 3 ≤ (lzss_select S .LZ11 vram st.it).2) :
    (lzss_iter S .LZ11 vram st).result
        = mark_code (next_code_bit st).result (next_code_bit st).code_pos
            (next_code_bit st).shift
          ++ match_payload .LZ11 (lzss_select S .LZ11 vram st.it).2
              (st.it - (lzss_select S .LZ11 vram st.it).1 - 1) ∧
      (lzss_select S .LZ11 vram st.it).2 ≤ 65808 ∧
      ∀ l disp : Nat, 3 ≤ l → l ≤ 65808 →
        (l ≤ 16 → match_payload .LZ11 l disp
          = [u8 (((l - 1) <<< 4) ||| (disp >>> 8)), u8 disp]) ∧
        (17 ≤ l → l ≤ 272 → match_payload .LZ11 l disp
          = [u8 ((l - 0x11) >>> 4), u8 (((l - 0x11) <<< 4) ||| (disp >>> 8)), u8 disp] ∧
            (u8 ((l - 0x11) >>> 4)).val >>> 4 = 0) ∧
        (273 ≤ l → match_payload .LZ11 l disp
          = [u8 ((1 <<< 4) ||| ((l - 0x111) >>> 12)), u8 ((l - 0x111) >>> 4),
              u8 (((l - 0x111) <<< 4) ||| (disp >>> 8)), u8 disp] ∧
            (u8 ((1 <<< 4) ||| ((l - 0x111) >>> 12))).val >>> 4 = 1) := by
  obtain ⟨_, _, g3, _, _⟩ := lzss_select_spec S .LZ11 vram st.it hit hm
  have hml : max_len .LZ11 = 65808 := rfl
  rw [hml] at g3
  obtain ⟨_, _, s3⟩ := lzss_iter_shape S .LZ11 vram st
  refine ⟨?_, by omega, ?_⟩
  · rcases s3 with ⟨hlt, _, _⟩ | ⟨_, _, hr⟩
    · omega
    · exact hr
  · intro l disp hl hl2
    refine ⟨?_, ?_, ?_⟩
    · intro h16
      have c1 : l ≤ 0x10 := h16
      simp [match_payload, c1]
    · intro h17 h272
      have c1 : ¬ l ≤ 0x10 := by omega
      have c2 : l ≤ 0x110 := h272
      refine ⟨by simp [match_payload, c1, c2], ?_⟩
      rw [u8_val, Nat.shiftRight_eq_div_pow, Nat.shiftRight_eq_div_pow]
      norm_num
      omega
    · intro h273
      have c1 : ¬ l ≤ 0x10 := by omega
      have c2 : ¬ l ≤ 0x110 := by omega
      refine ⟨by simp [match_payload, c1, c2], ?_⟩
      rw [u8_val, Nat.shiftRight_eq_div_pow (l - 0x111),
        or_shift4 _ _ (by norm_num; omega), Nat.shiftRight_eq_div_pow]
      norm_num
      omega

/-- Instance of C23 as amended: the match of length 18 of the counterexample,
emitted at cursor 1 of the run of 19 bytes. -/
theorem lz11_payload_size_witness :
    (1 < (List.replicate 19 (0xAA : Byte)).length ∧
      3 ≤ (lzss_select (List.replicate 19 0xAA) .LZ11 false 1).2) ∧
    match_payload .LZ11 18 0 = [u8 ((18 - 0x11) >>> 4),
      u8 (((18 - 0x11) <<< 4) ||| (0 >>> 8)), u8 0] :=
  ⟨⟨by decide, by decide⟩,
   ((((lz11_payload_size (List.replicate 19 0xAA) false
      { it := 1, result := [0x11, 19, 0, 0, 0, 0xAA], code_pos := 4, shift := 7 }
      (by decide) (by decide)).2.2 18 0 (by decide) (by decide)).2.1)
        (by decide) (by decide)).1⟩

/-- C24: the fields of a match round-trip at the unit level in mode LZ11.  For
every length `l` with `3 ≤ l ≤ 65808` and every displacement `d` with
`1 ≤ d ≤ 4096`, the bytes that `lzss_encode` writes for `(l, d)` in mode LZ11
(with the stored field `d - 1`), standing anywhere in a stream, are parsed by
the match branch of `lz11_decode` back to exactly `(l, d)`, and the iterator
ends just after the bytes written. -/
theorem lz11_unit_round_trip (l d : Nat) (pre post : Buffer)
    (hl : 3 ≤ l) (hl2 : l ≤ 65808) (hd1 : 1 ≤ d) (hd2 : d ≤ 4096) :
    lz11_fields (pre ++ match_payload .LZ11 l (d - 1) ++ post) pre.length
      = .ok (l, d, pre.length + (match_payload .LZ11 l (d - 1)).length) := by
  have h := match_fields_payload .LZ11 (pre ++ match_payload .LZ11 l (d - 1) ++ post)
    pre.length l (d - 1) hl hl2 (by omega)
    (fun j hj => payload_in_stream pre _ post j hj)
  have e : d - 1 + 1 = d := by omega
  rw [e] at h
  exact h

/-- Instance of C24: a length that takes the 4-byte form. -/
theorem lz11_unit_round_trip_witness :
    match_payload .LZ11 1000 (4096 - 1) = [0x10, 0x2D, 0x7F, 0xFF] ∧
      lz11_fields ([0x11, 0, 0, 0, 0x80] ++ match_payload .LZ11 1000 (4096 - 1) ++ [7])
          ([0x11, 0, 0, 0, 0x80] : Buffer).length
        = .ok (1000, 4096, ([0x11, 0, 0, 0, 0x80] : Buffer).length
            + (match_payload .LZ11 1000 (4096 - 1)).length) :=
  ⟨by decide,
   lz11_unit_round_trip 1000 4096 [0x11, 0, 0, 0, 0x80] [7] (by decide) (by decide)
     (by decide) (by decide)⟩

/-! ## The look-ahead of the encoder -/

/-- The choice of `lzss_encode` at a cursor after the first, in terms of the
three probes of the match finder. -/
theorem lzss_select_eq (S : Buffer) (mode : LZSS_t) (vram : Bool) (it : Nat) (h0 : 0 < it) :
    lzss_select S mode vram it
      = if 2 < probe_len S mode vram it ∧ probe_len S mode vram it < S.length - it ∧
            probe_len S mode vram it
                + usable_len (probe_len S mode vram (it + probe_len S mode vram it))
              ≤ usable_len (probe_len S mode vram (it + 1)) + 1 then
          ((find_best_match S it (min (S.length - it) (max_len mode)) (max_disp mode) vram).1, 1)
        else
          ((find_best_match S it (min (S.length - it) (max_len mode)) (max_disp mode) vram).1,
            probe_len S mode vram it) := by
  unfold lzss_select probe_len usable_len
  dsimp only
  rw [if_neg (by omega : ¬ it = 0), Nat.sub_sub, Nat.sub_sub]
  by_cases c1 : (find_best_match S it (min (S.length - it) (max_len mode))
      (max_disp mode) vram).2 > 2 ∧
      (find_best_match S it (min (S.length - it) (max_len mode)) (max_disp mode) vram).2
        < S.length - it
  · rw [if_pos c1]
    by_cases c2 : (find_best_match S it (min (S.length - it) (max_len mode))
          (max_disp mode) vram).2
        + (if (find_best_match S (it + (find_best_match S it
              (min (S.length - it) (max_len mode)) (max_disp mode) vram).2)
              (min (S.length - (it + (find_best_match S it
                (min (S.length - it) (max_len mode)) (max_disp mode) vram).2))
                (max_len mode)) (max_disp mode) vram).2 < 3 then 1
            else (find_best_match S (it + (find_best_match S it
              (min (S.length - it) (max_len mode)) (max_disp mode) vram).2)
              (min (S.length - (it + (find_best_match S it
                (min (S.length - it) (max_len mode)) (max_disp mode) vram).2))
                (max_len mode)) (max_disp mode) vram).2)
        ≤ (if (find_best_match S (it + 1) (min (S.length - (it + 1)) (max_len mode))
              (max_disp mode) vram).2 < 3 then 1
            else (find_best_match S (it + 1) (min (S.length - (it + 1)) (max_len mode))
              (max_disp mode) vram).2) + 1
    · rw [if_pos c2, if_pos ⟨c1.1, c1.2, c2⟩]
    · rw [if_neg c2, if_neg (fun h => c2 h.2.2)]
  · rw [if_neg c1, if_neg (fun h => c1 ⟨h.1, h.2.1⟩)]

/-- C28 fails as stated: in `1 2 3 1 2 3 9` at cursor 3 the best match has
length `m = 3`, the match one byte later has length `s = 2`, no match follows
the proposed one (`n = 0`), so `m + n ≤ 1 + s + 1`; yet the encoder commits the
match and advances by 3. -/
theorem lzss_lazy_rule_counterexample :
    probe_len [1, 2, 3, 1, 2, 3, 9] .LZ10 false 3 = 3 ∧
      probe_len [1, 2, 3, 1, 2, 3, 9] .LZ10 false (3 + 1) = 2 ∧
      probe_len [1, 2, 3, 1, 2, 3, 9] .LZ10 false (3 + 3) = 0 ∧
      3 + 0 ≤ 1 + 2 + 1 ∧
      (lzss_iter [1, 2, 3, 1, 2, 3, 9] .LZ10 false
        { it := 3, result := [0x10, 7, 0, 0, 0, 1, 2, 3], code_pos := 4, shift := 5 }).it
          = 3 + 3 ∧
      lzss_units [1, 2, 3, 1, 2, 3, 9] .LZ10 false
        = [.literal 1, .literal 2, .literal 3, .block 3 3, .literal 9] := by
  decide

/-- C28 as amended: the decision rule of the look-ahead.  At every cursor
after the first where the best match has a length `m ≥ 3`: let `s` be the
length of the best match starting one byte later and `n` the length of the
best match starting right after the proposed match, each counted as 1 when it
is below 3.  If `m` is less than the number of bytes left and `m + n ≤ s + 1`,
`lzss_encode` emits the current byte as a literal and advances by one;
otherwise (in particular when the match reaches the end of the source, where
no probe is made) it commits the match and advances by `m`. -/
theorem lzss_lazy_rule (S : Buffer) (mode : LZSS_t) (vram : Bool) (st : EncState)
    (h0 : 0 < st.it) (hm : 3 ≤ probe_len S mode vram st.it) :
    ((probe_len S mode vram st.it < S.length - st.it ∧
        probe_len S mode vram st.it
            + usable_len (probe_len S mode vram (st.it + probe_len S mode vram st.it))
          ≤ usable_len (probe_len S mode vram (st.it + 1)) + 1) →
      (lzss_iter S mode vram st).it = st.it + 1 ∧
        (lzss_iter S mode vram st).result
          = (next_code_bit st).result ++ [S.getD st.it 0]) ∧
    (¬ (probe_len S mode vram st.it < S.length - st.it ∧
        probe_len S mode vram st.it
            + usable_len (probe_len S mode vram (st.it + probe_len S mode vram st.it))
          ≤ usable_len (probe_len S mode vram (st.it + 1)) + 1) →
      (lzss_iter S mode vram st).it = st.it + probe_len S mode vram st.it ∧
        (lzss_iter S mode vram st).result
          = mark_code (next_code_bit st).result (next_code_bit st).code_pos
              (next_code_bit st).shift
            ++ match_payload mode (probe_len S mode vram st.it)
                (st.it - (find_best_match S st.it (min (S.length - st.it) (max_len mode))
                  (max_disp mode) vram).1 - 1)) := by
  have hsel := lzss_select_eq S mode vram st.it h0
  obtain ⟨_, _, s3⟩ := lzss_iter_shape S mode vram st
  constructor
  · intro hc
    rw [if_pos ⟨by omega, hc.1, hc.2⟩] at hsel
    rw [hsel] at s3
    rcases s3 with ⟨_, hi, hr⟩ | ⟨hge, _, _⟩
    · exact ⟨hi, hr⟩
    · simp at hge
  · intro hc
    rw [if_neg (fun h => hc ⟨h.2.1, h.2.2⟩)] at hsel
    rw [hsel] at s3
    rcases s3 with ⟨hlt, _, _⟩ | ⟨_, hi, hr⟩
    · simp only at hlt; omega
    · exact ⟨hi, hr⟩

/-- Instance of C28 as amended: the cursor of the counterexample; the rule
`m + n ≤ s + 1` reads `3 + 1 ≤ 1 + 1` and fails, so the match is committed. -/
theorem lzss_lazy_rule_witness :
    (0 < 3 ∧ 3 ≤ probe_len [1, 2, 3, 1, 2, 3, 9] .LZ10 false 3) ∧
    (lzss_iter [1, 2, 3, 1, 2, 3, 9] .LZ10 false
        { it := 3, result := [0x10, 7, 0, 0, 0, 1, 2, 3], code_pos := 4, shift := 5 }).it
      = 3 + probe_len [1, 2, 3, 1, 2, 3, 9] .LZ10 false 3 :=
  ⟨⟨by decide, by decide⟩,
   ((lzss_lazy_rule [1, 2, 3, 1, 2, 3, 9] .LZ10 false
      { it := 3, result := [0x10, 7, 0, 0, 0, 1, 2, 3], code_pos := 4, shift := 5 }
      (by decide) (by decide)).2 (by decide)).1⟩

/-! ## The size limits -/

/-- C30 (what the code has): the constant `LZSS_MAX_DECODE_LEN` is
`0x01B00003`, while the formula of its comment,
`(LZSS_MAX_ENCODE_LEN+1)*9/8 + 4 - 1`, is `0x01200003`.  A file of
`0x01200004` bytes, longer than the documented maximum, passes the size test of
`read_file` when the tool decodes. -/
theorem max_decode_len_formula_mismatch :
    LZSS_MAX_DECODE_LEN = 0x01B00003 ∧
      (LZSS_MAX_ENCODE_LEN + 1) * 9 / 8 + 4 - 1 = 0x01200003 ∧
      LZSS_MAX_DECODE_LEN ≠ (LZSS_MAX_ENCODE_LEN + 1) * 9 / 8 + 4 - 1 ∧
      read_file (List.replicate 0x01200004 0) LZSS_MAX_DECODE_LEN
        = .ok (List.replicate 0x01200004 0) := by
  refine ⟨rfl, by decide, by decide, ?_⟩
  rw [read_file_spec, List.length_replicate, if_neg (by decide)]

/-! ## The signature search of insgbfs -/

/-- The loop of `find_signature` returns 0 exactly when the rest of the
signature is a subsequence of the unread bytes. -/
theorem find_signature_loop_zero (fp : List Byte) :
    ∀ (off pos : Nat), off ≤ SIG_LEN →
      ((find_signature_loop fp off pos).1 = 0 ↔ (sig.drop off).Sublist fp) := by
  induction fp with
  | nil =>
    intro off pos h
    unfold find_signature_loop
    by_cases c : off < SIG_LEN
    · rw [if_pos c]
      simp only [SIG_LEN] at c h
      constructor
      · intro e; simp [EOF] at e
      · intro e
        have e2 := e.length_le
        simp [sig] at e2
        omega
    · rw [if_neg c]
      have e : off = SIG_LEN := by omega
      subst e
      simp [sig, SIG_LEN]
  | cons c fp ih =>
    intro off pos h
    unfold find_signature_loop
    by_cases c1 : off < SIG_LEN
    · rw [if_pos c1]
      have hd : sig.drop off = sig.getD off 0 :: sig.drop (off + 1) := by
        simp only [SIG_LEN] at c1
        interval_cases off <;> rfl
      by_cases c2 : c = sig.getD off 0
      · rw [if_pos c2, ih (off + 1) (pos + 1) c1, hd, ← c2]
        exact (List.cons_sublist_cons).symm
      · rw [if_neg c2, ih off (pos + 1) h, hd]
        constructor
        · intro e; exact List.Sublist.cons c e
        · intro e
          cases e with
          | cons _ e1 => exact e1
          | cons₂ _ e1 => exact absurd rfl c2
    · rw [if_neg c1]
      have e : off = SIG_LEN := by omega
      subst e
      simp [sig, SIG_LEN]

/-- C27 (what the code does): `find_signature` returns 0 exactly when the
signature is a subsequence of the bytes of the file, contiguous or not, since
`src_offset` is never reset on a mismatch.  On the 19 bytes
`PxinEightGBFSSpace-` it reads all of them and returns 0, although the
signature `PinEightGBFSSpace-` does not occur in them; the bytes read do not
end with the signature. -/
theorem find_signature_accepts_subsequence :
    (∀ fp : List Byte, (find_signature fp).1 = 0 ↔ sig.Sublist fp) ∧
      find_signature
          [0x50, 0x78, 0x69, 0x6E, 0x45, 0x69, 0x67, 0x68, 0x74, 0x47,
           0x42, 0x46, 0x53, 0x53, 0x70, 0x61, 0x63, 0x65, 0x2D] = (0, 19) ∧
      ¬ sig <:+: ([0x50, 0x78, 0x69, 0x6E, 0x45, 0x69, 0x67, 0x68, 0x74, 0x47,
           0x42, 0x46, 0x53, 0x53, 0x70, 0x61, 0x63, 0x65, 0x2D] : List Byte) ∧
      ¬ sig <:+ (([0x50, 0x78, 0x69, 0x6E, 0x45, 0x69, 0x67, 0x68, 0x74, 0x47,
           0x42, 0x46, 0x53, 0x53, 0x70, 0x61, 0x63, 0x65, 0x2D] : List Byte).take 19) := by
  refine ⟨fun fp => ?_, by decide, by decide, by decide⟩
  have h := find_signature_loop_zero fp 0 0 (by decide)
  simpa [find_signature] using h

/-! ## The declared size in the decoder of gbalzss.c -/

theorem put_byte_cur_size (d : Nat) (st : DecodeState) (c : Nat) :
    (put_byte d st c).cur_size = st.cur_size + 1 := rfl

theorem copy_bytes_cur_size (d j : Nat) : ∀ (n : Nat) (st : DecodeState),
    (copy_bytes d j n st).cur_size = st.cur_size + n := by
  intro n
  induction n with
  | zero => intro st; rfl
  | succ n ih =>
    intro st
    rw [copy_bytes, ih, put_byte_cur_size]
    omega

theorem next_flags_cur_size (st st1 : DecodeState) (h : next_flags st = some st1) :
    st1.cur_size = st.cur_size := by
  unfold next_flags at h
  split at h
  · split at h
    · cases h
    · cases h; rfl
  · cases h; rfl

theorem decode_unit_cur_size (d : Nat) (st st1 : DecodeState)
    (h : decode_unit d st = some st1) : st.cur_size ≤ st1.cur_size := by
  unfold decode_unit at h
  split at h
  · split at h
    · cases h
    · cases h
      rw [put_byte_cur_size]
      exact Nat.le_succ _
  · split at h
    · cases h
    · cases h
    · cases h
      rw [copy_bytes_cur_size]
      exact Nat.le_add_right _ _

theorem decode_units_cur_size (d : Nat) : ∀ (fuel : Nat) (st st1 : DecodeState),
    decode_units d fuel st = some st1 → st.cur_size ≤ st1.cur_size := by
  intro fuel
  induction fuel with
  | zero => intro st st1 h; cases h
  | succ n ih =>
    intro st st1 h
    rw [decode_units] at h
    split at h
    · cases h; exact Nat.le_refl _
    · rename_i s1 h1
      have e1 := next_flags_cur_size st s1 h1
      split at h
      · cases h; omega
      · rename_i s2 h2
        have e2 := decode_unit_cur_size d s1 s2 h2
        have e3 := ih s2 st1 h
        omega

/-- While the count of decoded bytes is below the declared size, the value of
the declared size does not matter. -/
theorem put_byte_indep (d d' : Nat) (st : DecodeState) (c : Nat) (h : st.cur_size < d)
    (h' : st.cur_size < d') : put_byte d st c = put_byte d' st c := by
  unfold put_byte
  rw [if_pos h, if_pos h']

theorem copy_bytes_indep (d d' j : Nat) : ∀ (n : Nat) (st : DecodeState),
    st.cur_size + n ≤ d → st.cur_size + n ≤ d' →
    copy_bytes d j n st = copy_bytes d' j n st := by
  intro n
  induction n with
  | zero => intro st _ _; rfl
  | succ n ih =>
    intro st h h'
    rw [copy_bytes, copy_bytes, put_byte_indep d d' st _ (by omega) (by omega)]
    exact ih _ (by rw [put_byte_cur_size]; omega) (by rw [put_byte_cur_size]; omega)

theorem decode_unit_none (d d' : Nat) (st : DecodeState) (h : decode_unit d st = none) :
    decode_unit d' st = none := by
  unfold decode_unit at h ⊢
  by_cases hc : st.flags &&& 0x80 = 0
  · rw [if_pos hc] at h ⊢
    cases hi : st.infile with
    | nil => rfl
    | cons c rest => rw [hi] at h; cases h
  · rw [if_neg hc] at h ⊢
    cases hi : st.infile with
    | nil => rfl
    | cons i rest =>
      cases rest with
      | nil => rfl
      | cons j rest => rw [hi] at h; cases h

theorem decode_unit_indep (d d' : Nat) (st st1 : DecodeState)
    (h : decode_unit d st = some st1) (h1 : st1.cur_size ≤ d) (h2 : st1.cur_size ≤ d') :
    decode_unit d' st = some st1 := by
  unfold decode_unit at h ⊢
  by_cases hc : st.flags &&& 0x80 = 0
  · rw [if_pos hc] at h ⊢
    cases hi : st.infile with
    | nil => rw [hi] at h; cases h
    | cons c rest =>
      rw [hi] at h
      simp only [Option.some.injEq] at h ⊢
      rw [← h, put_byte_cur_size] at h1 h2
      rw [← h]
      exact (put_byte_indep d d' _ _ (by exact h1) (by exact h2)).symm
  · rw [if_neg hc] at h ⊢
    cases hi : st.infile with
    | nil => rw [hi] at h; cases h
    | cons i rest =>
      cases rest with
      | nil => rw [hi] at h; cases h
      | cons j rest =>
        rw [hi] at h
        simp only [Option.some.injEq] at h ⊢
        rw [← h, copy_bytes_cur_size] at h1 h2
        rw [← h]
        exact (copy_bytes_indep d d' _ _ _ h1 h2).symm

/-- A run of the loop of `Decode` that ends with no more bytes decoded than
the declared size is the same for every other declared size that the count of
decoded bytes does not exceed. -/
theorem decode_units_indep (d d' : Nat) : ∀ (fuel : Nat) (st st1 : DecodeState),
    decode_units d fuel st = some st1 → st1.cur_size ≤ d → st1.cur_size ≤ d' →
    decode_units d' fuel st = some st1 := by
  intro fuel
  induction fuel with
  | zero => intro st st1 h; cases h
  | succ n ih =>
    intro st st1 h h1 h2
    rw [decode_units] at h ⊢
    cases hn : next_flags st with
    | none => rw [hn] at h; exact h
    | some s1 =>
      rw [hn] at h
      simp only at h ⊢
      cases hu : decode_unit d s1 with
      | none =>
        rw [hu] at h
        rw [decode_unit_none d d' s1 hu]
        exact h
      | some s2 =>
        rw [hu] at h
        simp only at h
        have e3 := decode_units_cur_size d n s2 st1 h
        rw [decode_unit_indep d d' s1 s2 hu (by omega) (by omega)]
        exact ih s2 st1 h h1 h2

/-- The function `Decode` on a stream with four header bytes, in terms of its
loop. -/
theorem Decode_eq (upper : Nat) (a b c d : Byte) (Fs : List Byte) :
    Decode upper (a :: b :: c :: d :: Fs)
      = (decode_units (b.val + c.val * 2 ^ 8 + d.val * 2 ^ 16 + upper * 2 ^ 24) (Fs.length + 1)
          { text_buf := fun k => if k < N - F then 0xff else Globals.start.text_buf k
            r := N - F, flags := 7, z := 7, cur_size := 0
            infile := Fs, outfile := [] }).map DecodeState.outfile := by
  unfold Decode
  simp only [List.getElem?_cons_succ, List.getElem?_cons_zero, Option.map_some',
    Option.getD_some, List.drop_succ_cons, List.drop_zero]
  cases decode_units (b.val + c.val * 2 ^ 8 + d.val * 2 ^ 16 + upper * 2 ^ 24) (Fs.length + 1)
      { text_buf := fun k => if k < N - F then 0xff else Globals.start.text_buf k
        r := N - F, flags := 7, z := 7, cur_size := 0
        infile := Fs, outfile := [] } with
  | none => rfl
  | some st => rfl

theorem Decode_cons (upper : Nat) (a b c d : Byte) (Fs : List Byte) (st : DecodeState)
    (h : decode_units (b.val + c.val * 2 ^ 8 + d.val * 2 ^ 16 + upper * 2 ^ 24) (Fs.length + 1)
      { text_buf := fun k => if k < N - F then 0xff else Globals.start.text_buf k
        r := N - F, flags := 7, z := 7, cur_size := 0
        infile := Fs, outfile := [] } = some st) :
    Decode upper (a :: b :: c :: d :: Fs) = some st.outfile := by
  rw [Decode_eq, h]
  rfl

/-- The output of `Decode` from a run of its loop with a declared size that
the count of decoded bytes does not exceed: every declared size that is not
smaller gives the same output. -/
theorem Decode_of_run (upper : Nat) (a b c d : Byte) (Fs : List Byte) (n k : Nat)
    (out : List Byte)
    (h : (decode_units n (Fs.length + 1)
      { text_buf := fun k => if k < N - F then 0xff else Globals.start.text_buf k
        r := N - F, flags := 7, z := 7, cur_size := 0
        infile := Fs, outfile := [] }).map (fun st => (st.cur_size, st.outfile))
      = some (k, out))
    (hk : k ≤ n) (hn : k ≤ b.val + c.val * 2 ^ 8 + d.val * 2 ^ 16 + upper * 2 ^ 24) :
    Decode upper (a :: b :: c :: d :: Fs) = some out := by
  cases hr : decode_units n (Fs.length + 1)
      { text_buf := fun k => if k < N - F then 0xff else Globals.start.text_buf k
        r := N - F, flags := 7, z := 7, cur_size := 0
        infile := Fs, outfile := [] } with
  | none => rw [hr] at h; cases h
  | some st =>
    rw [hr] at h
    simp only [Option.map_some', Option.some.injEq, Prod.mk.injEq] at h
    obtain ⟨h1, h2⟩ := h
    have := decode_units_indep n (b.val + c.val * 2 ^ 8 + d.val * 2 ^ 16 + upper * 2 ^ 24)
      _ _ st hr (by omega) (by rw [h1]; exact hn)
    rw [Decode_cons upper a b c d Fs st this, h2]

/-- One decoded byte under two declared sizes `d ≤ d'`: the output under `d`
is the output under `d'` cut off after `d` bytes. -/
theorem put_byte_clip (d d' : Nat) (hd : d ≤ d') (st : DecodeState) (c : Nat)
    (hl : st.outfile.length = min st.cur_size d') :
    put_byte d (st.clip d) c = (put_byte d' st c).clip d ∧
      (put_byte d' st c).outfile.length = min (put_byte d' st c).cur_size d' := by
  unfold put_byte DecodeState.clip
  simp only
  by_cases h1 : st.cur_size < d
  · have h2 : st.cur_size < d' := by omega
    rw [if_pos h1, if_pos h2]
    have e1 : st.outfile.take d = st.outfile := List.take_of_length_le (by omega)
    have e2 : (st.outfile ++ [u8 c]).take d = st.outfile ++ [u8 c] :=
      List.take_of_length_le (by rw [List.length_append, List.length_singleton]; omega)
    refine ⟨by rw [e1, e2], ?_⟩
    rw [List.length_append, List.length_singleton]; omega
  · rw [if_neg h1]
    by_cases h2 : st.cur_size < d'
    · rw [if_pos h2]
      have e2 : (st.outfile ++ [u8 c]).take d = st.outfile.take d :=
        List.take_append_of_le_length (by omega)
      refine ⟨by rw [e2], ?_⟩
      rw [List.length_append, List.length_singleton]; omega
    · rw [if_neg h2]
      exact ⟨rfl, by omega⟩

theorem copy_bytes_clip (d d' : Nat) (hd : d ≤ d') (j : Nat) : ∀ (n : Nat) (st : DecodeState),
    st.outfile.length = min st.cur_size d' →
    copy_bytes d j n (st.clip d) = (copy_bytes d' j n st).clip d ∧
      (copy_bytes d' j n st).outfile.length = min (copy_bytes d' j n st).cur_size d' := by
  intro n
  induction n with
  | zero => intro st hl; exact ⟨rfl, hl⟩
  | succ n ih =>
    intro st hl
    rw [copy_bytes, copy_bytes]
    obtain ⟨p1, p2⟩ := put_byte_clip d d' hd st
      (st.text_buf (Int.toNat (((st.r : Int) - (j : Int) - 1) % (N : Int)))) hl
    have e : put_byte d (st.clip d)
        ((st.clip d).text_buf (Int.toNat ((((st.clip d).r : Int) - (j : Int) - 1) % (N : Int))))
        = put_byte d (st.clip d)
          (st.text_buf (Int.toNat (((st.r : Int) - (j : Int) - 1) % (N : Int)))) := rfl
    rw [e, p1]
    exact ih _ p2

theorem next_flags_clip (d : Nat) (st : DecodeState) :
    next_flags (st.clip d) = (next_flags st).map (DecodeState.clip d) := by
  obtain ⟨tb, r, fl, z, cs, inf, out⟩ := st
  unfold next_flags DecodeState.clip
  simp only
  by_cases hz : z + 1 = 8
  · rw [if_pos hz, if_pos hz]
    cases inf with
    | nil => rfl
    | cons c rest => rfl
  · rw [if_neg hz, if_neg hz]
    rfl

theorem next_flags_length (d' : Nat) (st st1 : DecodeState) (h : next_flags st = some st1)
    (hl : st.outfile.length = min st.cur_size d') :
    st1.outfile.length = min st1.cur_size d' := by
  unfold next_flags at h
  split at h
  · split at h
    · cases h
    · cases h; exact hl
  · cases h; exact hl

theorem decode_unit_clip (d d' : Nat) (hd : d ≤ d') (st : DecodeState)
    (hl : st.outfile.length = min st.cur_size d') :
    decode_unit d (st.clip d) = (decode_unit d' st).map (DecodeState.clip d) ∧
      ∀ st1, decode_unit d' st = some st1 → st1.outfile.length = min st1.cur_size d' := by
  obtain ⟨tb, r, fl, z, cs, inf, out⟩ := st
  unfold decode_unit
  simp only [DecodeState.clip]
  by_cases hc : fl &&& 0x80 = 0
  · rw [if_pos hc, if_pos hc]
    cases inf with
    | nil => exact ⟨rfl, fun st1 h => by cases h⟩
    | cons c rest =>
      obtain ⟨p1, p2⟩ := put_byte_clip d d' hd
        { text_buf := tb, r := r, flags := fl, z := z, cur_size := cs, infile := rest,
          outfile := out } c.val hl
      refine ⟨congrArg some p1, fun st1 h => ?_⟩
      cases h
      exact p2
  · rw [if_neg hc, if_neg hc]
    cases inf with
    | nil => exact ⟨rfl, fun st1 h => by cases h⟩
    | cons i rest =>
      cases rest with
      | nil => exact ⟨rfl, fun st1 h => by cases h⟩
      | cons j rest =>
        obtain ⟨p1, p2⟩ := copy_bytes_clip d d' hd (j.val ||| ((i.val <<< 8) &&& 0xf00))
          (((i.val >>> 4) &&& 0x0f) + THRESHOLD + 1)
          { text_buf := tb, r := r, flags := fl, z := z, cur_size := cs, infile := rest,
            outfile := out } hl
        refine ⟨congrArg some p1, fun st1 h => ?_⟩
        cases h
        exact p2

/-- The loop of `Decode` under two declared sizes `d ≤ d'`: both runs read the
same units, and the output under `d` is the output under `d'` cut off after
`d` bytes. -/
theorem decode_units_clip (d d' : Nat) (hd : d ≤ d') : ∀ (fuel : Nat) (st : DecodeState),
    st.outfile.length = min st.cur_size d' →
    decode_units d fuel (st.clip d) = (decode_units d' fuel st).map (DecodeState.clip d) := by
  intro fuel
  induction fuel with
  | zero => intro st _; rfl
  | succ n ih =>
    intro st hl
    rw [decode_units, decode_units, next_flags_clip]
    cases hn : next_flags st with
    | none => rfl
    | some s1 =>
      have hl1 := next_flags_length d' st s1 hn hl
      obtain ⟨u1, u2⟩ := decode_unit_clip d d' hd s1 hl1
      simp only [Option.map_some']
      rw [u1]
      cases hu : decode_unit d' s1 with
      | none => rfl
      | some s2 =>
        simp only [Option.map_some']
        exact ih s2 (u2 s2 hu)

/-- The output of `Decode` whatever the declared size is increased by: it
starts with the output for the declared size of the header. -/
theorem Decode_take (upper : Nat) (a b c d : Byte) (Fs out0 : List Byte)
    (h : Decode 0 (a :: b :: c :: d :: Fs) = some out0) :
    ∃ out, Decode upper (a :: b :: c :: d :: Fs) = some out ∧
      out.take (b.val + c.val * 2 ^ 8 + d.val * 2 ^ 16) = out0 := by
  rw [Decode_eq] at h ⊢
  rw [Nat.zero_mul, Nat.add_zero] at h
  have hc := decode_units_clip (b.val + c.val * 2 ^ 8 + d.val * 2 ^ 16)
    (b.val + c.val * 2 ^ 8 + d.val * 2 ^ 16 + upper * 2 ^ 24) (Nat.le_add_right _ _)
    (Fs.length + 1)
    { text_buf := fun k => if k < N - F then 0xff else Globals.start.text_buf k
      r := N - F, flags := 7, z := 7, cur_size := 0
      infile := Fs, outfile := [] } (by simp)
  have e : DecodeState.clip (b.val + c.val * 2 ^ 8 + d.val * 2 ^ 16)
      { text_buf := fun k => if k < N - F then 0xff else Globals.start.text_buf k
        r := N - F, flags := 7, z := 7, cur_size := 0
        infile := Fs, outfile := [] }
      = { text_buf := fun k => if k < N - F then 0xff else Globals.start.text_buf k
          r := N - F, flags := 7, z := 7, cur_size := 0
          infile := Fs, outfile := [] } := by
    unfold DecodeState.clip
    simp only [List.take_nil]
  rw [e] at hc
  rw [hc] at h
  cases hr : decode_units (b.val + c.val * 2 ^ 8 + d.val * 2 ^ 16 + upper * 2 ^ 24)
      (Fs.length + 1)
      { text_buf := fun k => if k < N - F then 0xff else Globals.start.text_buf k
        r := N - F, flags := 7, z := 7, cur_size := 0
        infile := Fs, outfile := [] } with
  | none => rw [hr] at h; cases h
  | some st =>
    rw [hr] at h
    simp only [Option.map_some', Option.some.injEq] at h
    refine ⟨st.outfile, rfl, ?_⟩
    rw [← h]
    rfl

/-! ## The tree-based encoder of gbalzss.c on concrete inputs -/

/-- C25 (what the code does): for the four bytes `ff ff ff ff`, `Encode` of
gbalzss.c (with the `VRAMSafe` value of `main`) writes a stream whose second
unit is a match of length 3 with displacement 2 after a single literal: it
refers to the `0xff` bytes that the ring buffer holds before the first byte of
the source.  `lz10_decode` of gbalzss.cpp rejects this stream (the displacement
is larger than the output produced), with either value of its flag, while
`Decode` of gbalzss.c returns the source, whatever the bytes of `gbaheader`
that it does not store hold. -/
theorem Encode_rejected_by_lz10_decode :
    Encode [0xff, 0xff, 0xff, 0xff] VRAMSafe
        = some [0x10, 0x04, 0x00, 0x00, 0x40, 0xff, 0x00, 0x01] ∧
      lz10_decode [0x10, 0x04, 0x00, 0x00, 0x40, 0xff, 0x00, 0x01] false
        = .error .readPriorToStart ∧
      lz10_decode [0x10, 0x04, 0x00, 0x00, 0x40, 0xff, 0x00, 0x01] true
        = .error .readPriorToStart ∧
      ∀ upper, Decode upper [0x10, 0x04, 0x00, 0x00, 0x40, 0xff, 0x00, 0x01]
        = some [0xff, 0xff, 0xff, 0xff] :=
  ⟨by decide!, by decide!, by decide!, fun upper =>
    Decode_of_run upper 0x10 0x04 0x00 0x00 [0x40, 0xff, 0x00, 0x01] 4 4 _ (by decide!)
      (Nat.le_refl _) (by show 4 ≤ 4 + 0 * 2 ^ 8 + 0 * 2 ^ 16 + upper * 2 ^ 24; omega)⟩

/-- C29 (what the code does): for twenty bytes `0xff`, the first unit that
`Encode` of gbalzss.c writes is a match (flag bit `0x80` of the first flag
byte) of length 18 with the stored field `0x011`, that is displacement 18, at
a point where no byte of the source has been encoded: the match refers to the
`0xff` bytes the ring buffer was filled with. -/
theorem Encode_match_before_start :
    Encode (List.replicate 20 0xff) VRAMSafe
        = some [0x10, 0x14, 0x00, 0x00, 0x80, 0xf0, 0x11, 0xff, 0xff, 0x00, 0x00, 0x00] ∧
      lz10_fields [0x10, 0x14, 0x00, 0x00, 0x80, 0xf0, 0x11, 0xff, 0xff, 0x00, 0x00, 0x00] 5
        = .ok (18, 18, 7) ∧
      ¬ (18 ≤ 0) := by
  decide!

/-! ## The search trees of gbalzss.c -/

theorem store_same (a : Nat → Nat) (i v : Nat) : store a i v i = v := by
  simp [store]

theorem store_ne (a : Nat → Nat) (i v k : Nat) (h : k ≠ i) : store a i v k = a k := by
  simp [store, h]

theorem rank_above_lt (rk : Nat → Nat) (x y : Nat) (hy : y < N) (h : rk x < rk y) :
    rank_above rk y < rank_above rk x := by
  unfold rank_above
  apply Finset.card_lt_card
  rw [Finset.ssubset_iff_of_subset]
  · refine ⟨y, ?_, ?_⟩
    · simp [hy, h]
    · simp
  · intro z hz
    simp only [Finset.mem_filter, Finset.mem_range] at hz ⊢
    exact ⟨hz.1, by omega⟩

theorem rank_above_lt_N (rk : Nat → Nat) (y : Nat) (hy : y < N) : rank_above rk y < N := by
  unfold rank_above
  have h : (Finset.range N).filter (fun x => rk y < rk x) ⊂ Finset.range N := by
    rw [Finset.ssubset_iff_of_subset (Finset.filter_subset _ _)]
    exact ⟨y, by simp [hy], by simp⟩
  have := Finset.card_lt_card h
  simpa using this

/-- The comparison loop stops at an index of at most `F`, and the two strings
agree from the start index up to it. -/
theorem compare_loop_spec (tb : Nat → Nat) (r p : Nat) :
    ∀ (fuel i : Nat) (cmp : Int), i ≤ F → F ≤ i + fuel →
      i ≤ (compare_loop tb r p fuel i cmp).1 ∧ (compare_loop tb r p fuel i cmp).1 ≤ F ∧
        ∀ k, i ≤ k → k < (compare_loop tb r p fuel i cmp).1 → tb (p + k) = tb (r + k) := by
  intro fuel
  induction fuel with
  | zero =>
    intro i cmp h1 h2
    simp only [compare_loop]
    exact ⟨le_refl _, h1, fun k hk1 hk2 => by omega⟩
  | succ n ih =>
    intro i cmp h1 h2
    unfold compare_loop
    by_cases c1 : i < F
    · rw [if_pos c1]
      by_cases c2 : (tb (r + i) : Int) - (tb (p + i) : Int) ≠ 0
      · rw [if_pos c2]
        exact ⟨le_refl _, h1, fun k hk1 hk2 => by simp only at hk2; omega⟩
      · rw [if_neg c2]
        obtain ⟨i1, i2, i3⟩ := ih (i + 1) ((tb (r + i) : Int) - (tb (p + i) : Int))
          (by omega) (by omega)
        refine ⟨by omega, i2, fun k hk1 hk2 => ?_⟩
        by_cases e : k = i
        · subst e; omega
        · exact i3 k (by omega) hk2
    · rw [if_neg c1]
      exact ⟨le_refl _, h1, fun k hk1 hk2 => by simp only at hk2; omega⟩

/-- The tree invariant after `rson[p] = r; dad[r] = p;` for a position `r`
that is in no tree and a node or root `p` without right child. -/
theorem TreeInv_leaf_right (tb ls rs dd rk : Nat → Nat) (r p : Nat)
    (h : TreeInv tb ls rs dd rk) (hr : r < N) (hdr : dd r = NIL)
    (hlr : ls r = NIL) (hrr : rs r = NIL)
    (hp : (p < N ∧ dd p ≠ NIL ∧ tb p = tb r) ∨ (p = N + 1 + tb r ∧ tb r < 256))
    (hc : rs p = NIL) :
    TreeInv tb ls (store rs p r) (store dd r p)
      (fun x => if x = r then rk p + 1 else rk x) := by
  have hNIL : NIL = N := rfl
  have hpr : p ≠ r := by
    rcases hp with ⟨_, h2, _⟩ | ⟨h1, _⟩
    · intro e; rw [e] at h2; exact h2 hdr
    · omega
  have hpN : p ≠ NIL := by
    rcases hp with ⟨h1, _, _⟩ | ⟨h1, _⟩ <;> omega
  constructor
  · intro x hx hd
    by_cases e : x = r
    · subst e
      rw [store_same] at hd ⊢
      rcases hp with ⟨h1, h2, h3⟩ | ⟨h1, h2⟩
      · left
        refine ⟨h1, by rw [store_ne _ _ _ _ hpr]; exact h2, by simp [hpr], h3,
          Or.inr (store_same _ _ _)⟩
      · right
        exact ⟨h1, h2, store_same _ _ _⟩
    · rw [store_ne _ _ _ _ e] at hd ⊢
      rcases h.parent x hx hd with ⟨p1, p2, p3, p4, p5⟩ | ⟨p1, p2, p3⟩
      · left
        have e2 : dd x ≠ r := fun e2 => p2 (by rw [e2]; exact hdr)
        refine ⟨p1, by rw [store_ne _ _ _ _ e2]; exact p2, by simp [e, e2, p3], p4, ?_⟩
        by_cases e3 : dd x = p
        · left
          rcases p5 with p5 | p5
          · exact p5
          · rw [e3, hc] at p5; omega
        · rw [store_ne _ _ _ _ e3]; exact p5
      · right
        refine ⟨p1, p2, ?_⟩
        by_cases e3 : dd x = p
        · rw [e3, hc] at p3; omega
        · rw [store_ne _ _ _ _ e3]; exact p3
  · intro x hx hd hl
    by_cases e : x = r
    · subst e; exact absurd hlr hl
    · rw [store_ne _ _ _ _ e] at hd
      obtain ⟨l1, l2⟩ := h.left x hx hd hl
      refine ⟨l1, ?_⟩
      have e2 : ls x ≠ r := fun e2 => by rw [e2, hdr] at l2; omega
      rw [store_ne _ _ _ _ e2]; exact l2
  · intro x hx hd hrs
    by_cases e : x = r
    · subst e
      rw [store_ne _ _ _ _ (Ne.symm hpr)] at hrs
      exact absurd hrr hrs
    · rw [store_ne _ _ _ _ e] at hd
      by_cases e3 : x = p
      · subst e3
        rw [store_same]
        exact ⟨hr, store_same _ _ _⟩
      · rw [store_ne _ _ _ _ e3] at hrs ⊢
        obtain ⟨l1, l2⟩ := h.right x hx hd hrs
        refine ⟨l1, ?_⟩
        have e2 : rs x ≠ r := fun e2 => by rw [e2, hdr] at l2; omega
        rw [store_ne _ _ _ _ e2]; exact l2
  · intro x hx hd hl
    by_cases e : x = r
    · subst e; exact absurd hlr hl
    · rw [store_ne _ _ _ _ e] at hd
      by_cases e3 : x = p
      · subst e3
        rw [store_same]
        intro e4
        have := (h.left x hx hd hl).2
        rw [e4, hdr] at this; omega
      · rw [store_ne _ _ _ _ e3]
        exact h.distinct x hx hd hl
  · intro c hc1 hc2
    by_cases e3 : N + 1 + c = p
    · rw [e3, store_same]
      exact ⟨hr, store_same _ _ _⟩
    · rw [store_ne _ _ _ _ e3] at hc2 ⊢
      obtain ⟨l1, l2⟩ := h.root c hc1 hc2
      refine ⟨l1, ?_⟩
      have e2 : rs (N + 1 + c) ≠ r := fun e2 => by rw [e2, hdr] at l2; omega
      rw [store_ne _ _ _ _ e2]; exact l2

/-- The tree invariant after `lson[p] = r; dad[r] = p;` for a position `r`
that is in no tree and a node `p` without left child. -/
theorem TreeInv_leaf_left (tb ls rs dd rk : Nat → Nat) (r p : Nat)
    (h : TreeInv tb ls rs dd rk) (hr : r < N) (hdr : dd r = NIL)
    (hlr : ls r = NIL) (hrr : rs r = NIL)
    (hp : p < N ∧ dd p ≠ NIL ∧ tb p = tb r)
    (hc : ls p = NIL) :
    TreeInv tb (store ls p r) rs (store dd r p)
      (fun x => if x = r then rk p + 1 else rk x) := by
  have hNIL : NIL = N := rfl
  obtain ⟨h1, h2, h3⟩ := hp
  have hpr : p ≠ r := by
    intro e; rw [e] at h2; exact h2 hdr
  constructor
  · intro x hx hd
    by_cases e : x = r
    · subst e
      rw [store_same] at hd ⊢
      left
      exact ⟨h1, by rw [store_ne _ _ _ _ hpr]; exact h2, by simp [hpr], h3,
        Or.inl (store_same _ _ _)⟩
    · rw [store_ne _ _ _ _ e] at hd ⊢
      rcases h.parent x hx hd with ⟨p1, p2, p3, p4, p5⟩ | ⟨p1, p2, p3⟩
      · left
        have e2 : dd x ≠ r := fun e2 => p2 (by rw [e2]; exact hdr)
        refine ⟨p1, by rw [store_ne _ _ _ _ e2]; exact p2, by simp [e, e2, p3], p4, ?_⟩
        by_cases e3 : dd x = p
        · right
          rcases p5 with p5 | p5
          · rw [e3, hc] at p5; omega
          · exact p5
        · rw [store_ne _ _ _ _ e3]; exact p5
      · right
        exact ⟨p1, p2, p3⟩
  · intro x hx hd hl
    by_cases e : x = r
    · subst e
      rw [store_ne _ _ _ _ (Ne.symm hpr)] at hl
      exact absurd hlr hl
    · rw [store_ne _ _ _ _ e] at hd
      by_cases e3 : x = p
      · subst e3
        rw [store_same]
        exact ⟨hr, store_same _ _ _⟩
      · rw [store_ne _ _ _ _ e3] at hl ⊢
        obtain ⟨l1, l2⟩ := h.left x hx hd hl
        refine ⟨l1, ?_⟩
        have e2 : ls x ≠ r := fun e2 => by rw [e2, hdr] at l2; omega
        rw [store_ne _ _ _ _ e2]; exact l2
  · intro x hx hd hrs
    by_cases e : x = r
    · subst e; exact absurd hrr hrs
    · rw [store_ne _ _ _ _ e] at hd
      obtain ⟨l1, l2⟩ := h.right x hx hd hrs
      refine ⟨l1, ?_⟩
      have e2 : rs x ≠ r := fun e2 => by rw [e2, hdr] at l2; omega
      rw [store_ne _ _ _ _ e2]; exact l2
  · intro x hx hd hl
    by_cases e : x = r
    · subst e
      rw [store_ne _ _ _ _ (Ne.symm hpr)] at hl
      exact absurd hlr hl
    · rw [store_ne _ _ _ _ e] at hd
      by_cases e3 : x = p
      · subst e3
        rw [store_same]
        intro e4
        by_cases e5 : rs x = NIL
        · omega
        · have := (h.right x hx hd e5).2
          rw [← e4, hdr] at this; omega
      · rw [store_ne _ _ _ _ e3] at hl ⊢
        exact h.distinct x hx hd hl
  · intro c hc1 hc2
    obtain ⟨l1, l2⟩ := h.root c hc1 hc2
    refine ⟨l1, ?_⟩
    have e2 : rs (N + 1 + c) ≠ r := fun e2 => by rw [e2, hdr] at l2; omega
    rw [store_ne _ _ _ _ e2]; exact l2

/-- The tree invariant after the node `p` is replaced by the position `r`
(the end of `InsertNode`). -/
theorem TreeInv_replace (tb ls rs dd rk : Nat → Nat) (r p : Nat)
    (h : TreeInv tb ls rs dd rk) (hr : r < N) (hdr : dd r = NIL)
    (hp : p < N) (hdp : dd p ≠ NIL) (htb : tb p = tb r) :
    TreeInv tb
      (if rs (dd p) = p then store ls r (ls p) else store (store ls r (ls p)) (dd p) r)
      (if rs (dd p) = p then store (store rs r (rs p)) (dd p) r else store rs r (rs p))
      (store (store (store (store dd r (dd p)) (ls p) r) (rs p) r) p NIL)
      (fun x => if x = r then rk p else rk x) := by
  have hNIL : NIL = N := rfl
  have f1 : p ≠ r := fun e => hdp (by rw [e]; exact hdr)
  have fA : ls p ≠ NIL → ls p < N ∧ dd (ls p) = p := h.left p hp hdp
  have fB : rs p ≠ NIL → rs p < N ∧ dd (rs p) = p := h.right p hp hdp
  have fAB : ls p ≠ NIL → ls p ≠ rs p := h.distinct p hp hdp
  have fAr : ls p ≠ r := fun e => by
    have := (fA (by omega)).2
    rw [e, hdr] at this; omega
  have fBr : rs p ≠ r := fun e => by
    have := (fB (by omega)).2
    rw [e, hdr] at this; omega
  have fD := h.parent p hp hdp
  have fDp : dd p ≠ p := by
    rcases fD with ⟨_, _, d3, _, _⟩ | ⟨d1, _, _⟩
    · intro e; rw [e] at d3; omega
    · omega
  have fAp : ls p ≠ p := fun e => by
    have := (fA (by omega)).2
    rw [e] at this; exact fDp this
  have fBp : rs p ≠ p := fun e => by
    have := (fB (by omega)).2
    rw [e] at this; exact fDp this
  have fDr : dd p ≠ r := by
    rcases fD with ⟨_, d2, _, _, _⟩ | ⟨d1, _, _⟩
    · intro e; rw [e] at d2; exact d2 hdr
    · omega
  have fDN : dd p ≠ N := by omega
  -- the new arrays, pointwise
  have hdd : ∀ x, store (store (store (store dd r (dd p)) (ls p) r) (rs p) r) p NIL x
      = if x = p then NIL else if x = rs p then r else if x = ls p then r
        else if x = r then dd p else dd x := fun x => rfl
  have hls : ∀ x, (if rs (dd p) = p then store ls r (ls p)
        else store (store ls r (ls p)) (dd p) r) x
      = if rs (dd p) ≠ p ∧ x = dd p then r else if x = r then ls p else ls x := by
    intro x
    by_cases c : rs (dd p) = p
    · simp [c, store]
    · simp only [if_neg c, store]
      by_cases c2 : x = dd p <;> simp [c, c2]
  have hrs : ∀ x, (if rs (dd p) = p then store (store rs r (rs p)) (dd p) r
        else store rs r (rs p)) x
      = if rs (dd p) = p ∧ x = dd p then r else if x = r then rs p else rs x := by
    intro x
    by_cases c : rs (dd p) = p
    · simp only [if_pos c, store]
      by_cases c2 : x = dd p <;> simp [c, c2]
    · simp [c, store]
  -- the new parent of a position outside of `p`, its children and `r`
  have hdd_other : ∀ x, x ≠ p → x ≠ rs p → x ≠ ls p → x ≠ r →
      store (store (store (store dd r (dd p)) (ls p) r) (rs p) r) p NIL x = dd x := by
    intro x e1 e2 e3 e4
    rw [hdd, if_neg e1, if_neg e2, if_neg e3, if_neg e4]
  have hdd_r : store (store (store (store dd r (dd p)) (ls p) r) (rs p) r) p NIL r = dd p := by
    rw [hdd, if_neg (Ne.symm f1), if_neg (Ne.symm fBr), if_neg (Ne.symm fAr), if_pos rfl]
  have hdd_live : ∀ y, y ≠ p → dd y ≠ NIL →
      store (store (store (store dd r (dd p)) (ls p) r) (rs p) r) p NIL y ≠ NIL := by
    intro y e1 e2
    rw [hdd, if_neg e1]
    split_ifs <;> omega
  constructor
  · -- parent
    intro x hx hd
    rw [hdd] at hd ⊢
    by_cases e1 : x = p
    · rw [if_pos e1] at hd; exact absurd rfl hd
    rw [if_neg e1] at hd ⊢
    by_cases e2 : x = rs p
    · rw [if_pos e2]
      left
      have hB := fB (by rw [← e2]; omega)
      have hpB := h.parent (rs p) hB.1 (by rw [hB.2]; omega)
      have hrk : rk p < rk (rs p) := by
        rcases hpB with ⟨_, _, d3, _, _⟩ | ⟨d1, _, _⟩
        · rw [hB.2] at d3; exact d3
        · rw [hB.2] at d1; omega
      have htbB : tb p = tb (rs p) := by
        rcases hpB with ⟨_, _, _, d4, _⟩ | ⟨d1, _, _⟩
        · rw [hB.2] at d4; exact d4
        · rw [hB.2] at d1; omega
      refine ⟨hr, by rw [hdd_r]; exact hdp, ?_, by rw [e2, ← htbB, htb], Or.inr ?_⟩
      · simp only [if_pos, e2, if_neg fBr]; exact hrk
      · rw [hrs, if_neg (fun c => fDr c.2.symm), if_pos rfl, e2]
    rw [if_neg e2] at hd ⊢
    by_cases e3 : x = ls p
    · rw [if_pos e3]
      left
      have hA := fA (by rw [← e3]; omega)
      have hpA := h.parent (ls p) hA.1 (by rw [hA.2]; omega)
      have hrk : rk p < rk (ls p) := by
        rcases hpA with ⟨_, _, d3, _, _⟩ | ⟨d1, _, _⟩
        · rw [hA.2] at d3; exact d3
        · rw [hA.2] at d1; omega
      have htbA : tb p = tb (ls p) := by
        rcases hpA with ⟨_, _, _, d4, _⟩ | ⟨d1, _, _⟩
        · rw [hA.2] at d4; exact d4
        · rw [hA.2] at d1; omega
      refine ⟨hr, by rw [hdd_r]; exact hdp, ?_, by rw [e3, ← htbA, htb], Or.inl ?_⟩
      · simp only [if_pos, e3, if_neg fAr]; exact hrk
      · rw [hls, if_neg (fun c => fDr c.2.symm), if_pos rfl, e3]
    rw [if_neg e3] at hd ⊢
    by_cases e4 : x = r
    · rw [if_pos e4]
      subst e4
      rcases fD with ⟨d1, d2, d3, d4, d5⟩ | ⟨d1, d2, d3⟩
      · left
        refine ⟨d1, hdd_live _ fDp d2, ?_, by rw [d4, htb], ?_⟩
        · simp only [if_pos, if_neg fDr]; exact d3
        · by_cases c : rs (dd p) = p
          · right; rw [hrs, if_pos ⟨c, rfl⟩]
          · left; rw [hls, if_pos ⟨c, rfl⟩]
      · right
        refine ⟨by rw [d1, htb], by rw [← htb]; exact d2, ?_⟩
        rw [hrs, if_pos ⟨d3, rfl⟩]
    rw [if_neg e4] at hd ⊢
    rcases h.parent x hx hd with ⟨p1, p2, p3, p4, p5⟩ | ⟨p1, p2, p3⟩
    · left
      have e5 : dd x ≠ p := by
        intro e5
        rw [e5] at p5
        rcases p5 with p5 | p5
        · exact e3 p5.symm
        · exact e2 p5.symm
      have e6 : dd x ≠ r := fun e6 => p2 (by rw [e6]; exact hdr)
      refine ⟨p1, hdd_live _ e5 p2, ?_, p4, ?_⟩
      · simp only [if_neg e6, if_neg e4]; exact p3
      · rw [hls, hrs, if_neg e6, if_neg e6]
        by_cases c : rs (dd p) = p
        · rw [if_neg (show ¬ (rs (dd p) ≠ p ∧ dd x = dd p) from fun c2 => c2.1 c)]
          by_cases c3 : dd x = dd p
          · left
            rcases p5 with p5 | p5
            · exact p5
            · rw [c3, c] at p5; exact absurd p5.symm e1
          · rw [if_neg (show ¬ (rs (dd p) = p ∧ dd x = dd p) from fun c2 => c3 c2.2)]
            exact p5
        · rw [if_neg (show ¬ (rs (dd p) = p ∧ dd x = dd p) from fun c2 => c c2.1)]
          by_cases c3 : dd x = dd p
          · right
            rcases p5 with p5 | p5
            · rcases fD with ⟨_, _, _, _, d5⟩ | ⟨_, _, d3⟩
              · rcases d5 with d5 | d5
                · rw [c3, d5] at p5; exact absurd p5.symm e1
                · exact absurd d5 c
              · exact absurd d3 c
            · exact p5
          · rw [if_neg (show ¬ (rs (dd p) ≠ p ∧ dd x = dd p) from fun c2 => c3 c2.2)]
            exact p5
    · right
      refine ⟨p1, p2, ?_⟩
      rw [hrs]
      have e6 : dd x ≠ r := by omega
      rw [if_neg e6]
      by_cases c : rs (dd p) = p ∧ dd x = dd p
      · rw [c.2, c.1] at p3; exact absurd p3.symm e1
      · rw [if_neg c]; exact p3
  · -- left
    intro x hx hd hl
    rw [hls] at hl ⊢
    by_cases c1 : rs (dd p) ≠ p ∧ x = dd p
    · rw [if_pos c1]
      exact ⟨hr, by rw [hdd_r]; exact c1.2.symm⟩
    rw [if_neg c1] at hl ⊢
    by_cases e4 : x = r
    · rw [if_pos e4] at hl ⊢
      have hA := fA hl
      refine ⟨hA.1, ?_⟩
      rw [hdd, if_neg fAp, if_neg (fAB hl), if_pos rfl, e4]
    rw [if_neg e4] at hl ⊢
    have e1 : x ≠ p := by
      intro e1; rw [e1, hdd, if_pos rfl] at hd; exact hd rfl
    have hdx : dd x ≠ NIL := by
      rw [hdd, if_neg e1] at hd
      by_cases e2 : x = rs p
      · rw [e2, (fB (by rw [← e2]; omega)).2]; omega
      by_cases e3 : x = ls p
      · rw [e3, (fA (by rw [← e3]; omega)).2]; omega
      rw [if_neg e2, if_neg e3, if_neg e4] at hd; exact hd
    obtain ⟨l1, l2⟩ := h.left x hx hdx hl
    refine ⟨l1, ?_⟩
    have g1 : ls x ≠ p := by
      intro g1
      rw [g1] at l2
      -- then x = dd p and ls (dd p) = p, so rs (dd p) ≠ p
      apply c1
      refine ⟨?_, l2.symm⟩
      have := h.distinct x hx hdx hl
      rw [g1] at this
      rw [l2]; exact fun e => this e.symm
    have g2 : ls x ≠ rs p := by
      intro g2
      have := (fB (by rw [← g2]; exact hl)).2
      rw [← g2, l2] at this; exact e1 this
    have g3 : ls x ≠ ls p := by
      intro g3
      have := (fA (by rw [← g3]; exact hl)).2
      rw [← g3, l2] at this; exact e1 this
    have g4 : ls x ≠ r := fun g4 => by rw [g4, hdr] at l2; omega
    rw [hdd_other _ g1 g2 g3 g4]; exact l2
  · -- right
    intro x hx hd hrx
    rw [hrs] at hrx ⊢
    by_cases c1 : rs (dd p) = p ∧ x = dd p
    · rw [if_pos c1]
      exact ⟨hr, by rw [hdd_r]; exact c1.2.symm⟩
    rw [if_neg c1] at hrx ⊢
    by_cases e4 : x = r
    · rw [if_pos e4] at hrx ⊢
      have hB := fB hrx
      refine ⟨hB.1, ?_⟩
      rw [hdd, if_neg fBp, if_pos rfl, e4]
    rw [if_neg e4] at hrx ⊢
    have e1 : x ≠ p := by
      intro e1; rw [e1, hdd, if_pos rfl] at hd; exact hd rfl
    have hdx : dd x ≠ NIL := by
      rw [hdd, if_neg e1] at hd
      by_cases e2 : x = rs p
      · rw [e2, (fB (by rw [← e2]; omega)).2]; omega
      by_cases e3 : x = ls p
      · rw [e3, (fA (by rw [← e3]; omega)).2]; omega
      rw [if_neg e2, if_neg e3, if_neg e4] at hd; exact hd
    obtain ⟨l1, l2⟩ := h.right x hx hdx hrx
    refine ⟨l1, ?_⟩
    have g1 : rs x ≠ p := by
      intro g1
      rw [g1] at l2
      apply c1
      refine ⟨?_, l2.symm⟩
      rw [l2]; exact g1
    have g2 : rs x ≠ rs p := by
      intro g2
      have := (fB (by rw [← g2]; exact hrx)).2
      rw [← g2, l2] at this; exact e1 this
    have g3 : rs x ≠ ls p := by
      intro g3
      have := (fA (by rw [← g3]; exact hrx)).2
      rw [← g3, l2] at this; exact e1 this
    have g4 : rs x ≠ r := fun g4 => by rw [g4, hdr] at l2; omega
    rw [hdd_other _ g1 g2 g3 g4]; exact l2
  · -- distinct
    intro x hx hd hl
    have e1 : x ≠ p := by
      intro e1; rw [e1, hdd, if_pos rfl] at hd; exact hd rfl
    rw [hls] at hl
    rw [hls, hrs]
    by_cases e4 : x = r
    · rw [e4] at hl ⊢
      have n1 : ¬ (rs (dd p) ≠ p ∧ r = dd p) := fun c => fDr c.2.symm
      have n2 : ¬ (rs (dd p) = p ∧ r = dd p) := fun c => fDr c.2.symm
      simp only [if_neg n1, if_true] at hl
      simp only [if_neg n1, if_neg n2, if_true]
      exact fAB hl
    have hdx : dd x ≠ NIL := by
      rw [hdd, if_neg e1] at hd
      by_cases e2 : x = rs p
      · rw [e2, (fB (by rw [← e2]; omega)).2]; omega
      by_cases e3 : x = ls p
      · rw [e3, (fA (by rw [← e3]; omega)).2]; omega
      rw [if_neg e2, if_neg e3, if_neg e4] at hd; exact hd
    by_cases c : rs (dd p) = p
    · have n1 : ¬ (rs (dd p) ≠ p ∧ x = dd p) := fun c2 => c2.1 c
      simp only [if_neg n1, if_neg e4] at hl ⊢
      by_cases c3 : x = dd p
      · rw [if_pos ⟨c, c3⟩]
        intro g4
        have := (h.left x hx hdx hl).2
        rw [g4, hdr] at this; omega
      · rw [if_neg (show ¬ (rs (dd p) = p ∧ x = dd p) from fun c2 => c3 c2.2)]
        exact h.distinct x hx hdx hl
    · have n2 : ¬ (rs (dd p) = p ∧ x = dd p) := fun c2 => c c2.1
      simp only [if_neg n2, if_neg e4] at hl ⊢
      by_cases c3 : x = dd p
      · rw [if_pos (show rs (dd p) ≠ p ∧ x = dd p from ⟨c, c3⟩)]
        intro g4
        by_cases g5 : rs x = NIL
        · omega
        · have := (h.right x hx hdx g5).2
          rw [← g4, hdr] at this; omega
      · have n3 : ¬ (rs (dd p) ≠ p ∧ x = dd p) := fun c2 => c3 c2.2
        simp only [if_neg n3] at hl ⊢
        exact h.distinct x hx hdx hl
  · -- root
    intro c hc1 hc2
    rw [hrs] at hc2 ⊢
    by_cases c1 : rs (dd p) = p ∧ N + 1 + c = dd p
    · rw [if_pos c1]
      exact ⟨hr, by rw [hdd_r]; exact c1.2.symm⟩
    rw [if_neg c1] at hc2 ⊢
    have e4 : N + 1 + c ≠ r := by omega
    rw [if_neg e4] at hc2 ⊢
    obtain ⟨l1, l2⟩ := h.root c hc1 hc2
    refine ⟨l1, ?_⟩
    have g1 : rs (N + 1 + c) ≠ p := by
      intro g1
      rw [g1] at l2
      exact c1 ⟨by rw [l2]; exact g1, l2.symm⟩
    have g2 : rs (N + 1 + c) ≠ rs p := by
      intro g2
      have := (fB (by rw [← g2]; exact hc2)).2
      rw [← g2, l2] at this; omega
    have g3 : rs (N + 1 + c) ≠ ls p := by
      intro g3
      have := (fA (by rw [← g3]; exact hc2)).2
      rw [← g3, l2] at this; omega
    have g4 : rs (N + 1 + c) ≠ r := fun g4 => by rw [g4, hdr] at l2; omega
    rw [hdd_other _ g1 g2 g3 g4]; exact l2

/-- The tree invariant after a node `p` with at most one child is taken out of
its tree and its child `q` (or `NIL`) is put in its place (the end of
`DeleteNode`). -/
theorem TreeInv_unlink (tb ls rs dd rk : Nat → Nat) (p q : Nat)
    (h : TreeInv tb ls rs dd rk) (hp : p < N) (hdp : dd p ≠ NIL)
    (hq : (rs p = NIL ∧ q = ls p) ∨ (ls p = NIL ∧ q = rs p)) :
    TreeInv tb
      (if rs (dd p) = p then ls else store ls (dd p) q)
      (if rs (dd p) = p then store rs (dd p) q else rs)
      (store (store dd q (dd p)) p NIL) rk := by
  have hNIL : NIL = N := rfl
  have fD := h.parent p hp hdp
  have fDp : dd p ≠ p := by
    rcases fD with ⟨_, _, d3, _, _⟩ | ⟨d1, _, _⟩
    · intro e; rw [e] at d3; omega
    · omega
  -- the child `q`, when it exists
  have fq : q ≠ NIL → q < N ∧ dd q = p := by
    intro hqn
    rcases hq with ⟨_, e⟩ | ⟨_, e⟩
    · rw [e] at hqn ⊢; exact h.left p hp hdp hqn
    · rw [e] at hqn ⊢; exact h.right p hp hdp hqn
  have fq2 : q ≠ NIL → rk p < rk q ∧ tb p = tb q := by
    intro hqn
    obtain ⟨q1, q2⟩ := fq hqn
    rcases h.parent q q1 (by rw [q2]; omega) with ⟨_, _, d3, d4, _⟩ | ⟨d1, _, _⟩
    · rw [q2] at d3 d4; exact ⟨d3, d4⟩
    · rw [q2] at d1; omega
  have fqp : q ≠ p := by
    intro e
    have := fq (by omega)
    rw [e] at this; exact fDp this.2
  have fDq : dd p ≠ q := by
    intro e
    by_cases hqn : q = NIL
    · rw [hqn] at e; exact hdp e
    · have q2 := fq2 hqn
      rcases fD with ⟨_, _, d3, _, _⟩ | ⟨d1, _, _⟩
      · rw [e] at d3; omega
      · have := (fq hqn).1; omega
  -- children of `p` other than `q` do not exist
  have fch : ∀ x, x < N → dd x = p → x = q := by
    intro x hx hdx
    rcases h.parent x hx (by rw [hdx]; omega) with ⟨_, _, _, _, d5⟩ | ⟨d1, _, _⟩
    · rw [hdx] at d5
      rcases hq with ⟨e1, e2⟩ | ⟨e1, e2⟩
      · rcases d5 with d5 | d5
        · rw [e2, d5]
        · rw [e1] at d5; omega
      · rcases d5 with d5 | d5
        · rw [e1] at d5; omega
        · rw [e2, d5]
    · rw [hdx] at d1; omega
  have hdd : ∀ x, store (store dd q (dd p)) p NIL x
      = if x = p then NIL else if x = q then dd p else dd x := fun x => rfl
  have hls : ∀ x, (if rs (dd p) = p then ls else store ls (dd p) q) x
      = if rs (dd p) ≠ p ∧ x = dd p then q else ls x := by
    intro x
    by_cases c : rs (dd p) = p
    · simp [c]
    · simp only [if_neg c, store]
      by_cases c2 : x = dd p <;> simp [c, c2]
  have hrs : ∀ x, (if rs (dd p) = p then store rs (dd p) q else rs) x
      = if rs (dd p) = p ∧ x = dd p then q else rs x := by
    intro x
    by_cases c : rs (dd p) = p
    · simp only [if_pos c, store]
      by_cases c2 : x = dd p <;> simp [c, c2]
    · simp [c]
  -- a position in a tree after the operation was in a tree before
  have hold : ∀ x, x < N → store (store dd q (dd p)) p NIL x ≠ NIL → x ≠ p ∧ dd x ≠ NIL := by
    intro x hx hd
    rw [hdd] at hd
    by_cases e1 : x = p
    · rw [if_pos e1] at hd; exact absurd rfl hd
    refine ⟨e1, ?_⟩
    rw [if_neg e1] at hd
    by_cases e2 : x = q
    · rw [e2, (fq (by omega)).2]; omega
    · rw [if_neg e2] at hd; exact hd
  have hlive : ∀ y, y ≠ p → dd y ≠ NIL → store (store dd q (dd p)) p NIL y ≠ NIL := by
    intro y e1 e2
    rw [hdd, if_neg e1]
    split_ifs <;> omega
  constructor
  · -- parent
    intro x hx hd
    obtain ⟨e1, hdx⟩ := hold x hx hd
    rw [hdd, if_neg e1]
    by_cases e2 : x = q
    · rw [if_pos e2]
      have hqn : q ≠ NIL := by omega
      obtain ⟨q3, q4⟩ := fq2 hqn
      rcases fD with ⟨d1, d2, d3, d4, d5⟩ | ⟨d1, d2, d3⟩
      · left
        refine ⟨d1, hlive _ fDp d2, by rw [e2]; omega, by rw [e2, d4, q4], ?_⟩
        rw [hls, hrs]
        by_cases c : rs (dd p) = p
        · right; rw [if_pos ⟨c, rfl⟩, e2]
        · left; rw [if_pos ⟨c, rfl⟩, e2]
      · right
        refine ⟨by rw [e2, ← q4]; exact d1, by rw [e2, ← q4]; exact d2, ?_⟩
        rw [hrs, if_pos ⟨d3, rfl⟩, e2]
    rw [if_neg e2]
    have e5 : dd x ≠ p := fun e5 => e2 (fch x hx e5)
    rcases h.parent x hx hdx with ⟨p1, p2, p3, p4, p5⟩ | ⟨p1, p2, p3⟩
    · left
      refine ⟨p1, hlive _ e5 p2, p3, p4, ?_⟩
      rw [hls, hrs]
      by_cases c : rs (dd p) = p
      · have n1 : ¬ (rs (dd p) ≠ p ∧ dd x = dd p) := fun c2 => c2.1 c
        rw [if_neg n1]
        by_cases c3 : dd x = dd p
        · left
          rcases p5 with p5 | p5
          · exact p5
          · rw [c3, c] at p5; exact absurd p5.symm e1
        · rw [if_neg (show ¬ (rs (dd p) = p ∧ dd x = dd p) from fun c2 => c3 c2.2)]
          exact p5
      · have n2 : ¬ (rs (dd p) = p ∧ dd x = dd p) := fun c2 => c c2.1
        rw [if_neg n2]
        by_cases c3 : dd x = dd p
        · right
          rcases p5 with p5 | p5
          · rcases fD with ⟨_, _, _, _, d5⟩ | ⟨_, _, d3⟩
            · rcases d5 with d5 | d5
              · rw [c3, d5] at p5; exact absurd p5.symm e1
              · exact absurd d5 c
            · exact absurd d3 c
          · exact p5
        · rw [if_neg (show ¬ (rs (dd p) ≠ p ∧ dd x = dd p) from fun c2 => c3 c2.2)]
          exact p5
    · right
      refine ⟨p1, p2, ?_⟩
      rw [hrs]
      by_cases c : rs (dd p) = p ∧ dd x = dd p
      · rw [c.2, c.1] at p3; exact absurd p3.symm e1
      · rw [if_neg c]; exact p3
  · -- left
    intro x hx hd hl
    obtain ⟨e1, hdx⟩ := hold x hx hd
    rw [hls] at hl ⊢
    by_cases c1 : rs (dd p) ≠ p ∧ x = dd p
    · rw [if_pos c1] at hl ⊢
      refine ⟨(fq hl).1, ?_⟩
      rw [hdd, if_neg fqp, if_pos rfl, c1.2]
    rw [if_neg c1] at hl ⊢
    obtain ⟨l1, l2⟩ := h.left x hx hdx hl
    refine ⟨l1, ?_⟩
    have g1 : ls x ≠ p := by
      intro g1
      rw [g1] at l2
      apply c1
      refine ⟨?_, l2.symm⟩
      have := h.distinct x hx hdx hl
      rw [g1] at this
      rw [l2]; exact fun e => this e.symm
    have g2 : ls x ≠ q := by
      intro g2
      have := (fq (by rw [← g2]; exact hl)).2
      rw [← g2, l2] at this; exact e1 this
    rw [hdd, if_neg g1, if_neg g2]; exact l2
  · -- right
    intro x hx hd hrx
    obtain ⟨e1, hdx⟩ := hold x hx hd
    rw [hrs] at hrx ⊢
    by_cases c1 : rs (dd p) = p ∧ x = dd p
    · rw [if_pos c1] at hrx ⊢
      refine ⟨(fq hrx).1, ?_⟩
      rw [hdd, if_neg fqp, if_pos rfl, c1.2]
    rw [if_neg c1] at hrx ⊢
    obtain ⟨l1, l2⟩ := h.right x hx hdx hrx
    refine ⟨l1, ?_⟩
    have g1 : rs x ≠ p := by
      intro g1
      rw [g1] at l2
      exact c1 ⟨by rw [l2]; exact g1, l2.symm⟩
    have g2 : rs x ≠ q := by
      intro g2
      have := (fq (by rw [← g2]; exact hrx)).2
      rw [← g2, l2] at this; exact e1 this
    rw [hdd, if_neg g1, if_neg g2]; exact l2
  · -- distinct
    intro x hx hd hl
    obtain ⟨e1, hdx⟩ := hold x hx hd
    rw [hls] at hl
    rw [hls, hrs]
    by_cases c : rs (dd p) = p
    · have n1 : ¬ (rs (dd p) ≠ p ∧ x = dd p) := fun c2 => c2.1 c
      simp only [if_neg n1] at hl ⊢
      by_cases c3 : x = dd p
      · rw [if_pos ⟨c, c3⟩]
        intro g4
        have l2 := (h.left x hx hdx hl).2
        have := (fq (by rw [← g4]; exact hl)).2
        rw [← g4, l2] at this; exact e1 this
      · rw [if_neg (show ¬ (rs (dd p) = p ∧ x = dd p) from fun c2 => c3 c2.2)]
        exact h.distinct x hx hdx hl
    · have n2 : ¬ (rs (dd p) = p ∧ x = dd p) := fun c2 => c c2.1
      simp only [if_neg n2] at hl ⊢
      by_cases c3 : x = dd p
      · rw [if_pos (show rs (dd p) ≠ p ∧ x = dd p from ⟨c, c3⟩)] at hl ⊢
        intro g4
        have l2 := (h.right x hx hdx (by rw [← g4]; exact hl)).2
        have := (fq hl).2
        rw [g4, l2] at this; exact e1 this
      · have n3 : ¬ (rs (dd p) ≠ p ∧ x = dd p) := fun c2 => c3 c2.2
        simp only [if_neg n3] at hl ⊢
        exact h.distinct x hx hdx hl
  · -- root
    intro c hc1 hc2
    rw [hrs] at hc2 ⊢
    by_cases c1 : rs (dd p) = p ∧ N + 1 + c = dd p
    · rw [if_pos c1] at hc2 ⊢
      refine ⟨(fq hc2).1, ?_⟩
      rw [hdd, if_neg fqp, if_pos rfl, c1.2]
    rw [if_neg c1] at hc2 ⊢
    obtain ⟨l1, l2⟩ := h.root c hc1 hc2
    refine ⟨l1, ?_⟩
    have g1 : rs (N + 1 + c) ≠ p := by
      intro g1
      rw [g1] at l2
      exact c1 ⟨by rw [l2]; exact g1, l2.symm⟩
    have g2 : rs (N + 1 + c) ≠ q := by
      intro g2
      have := (fq (by rw [← g2]; exact hc2)).2
      rw [← g2, l2] at this; omega
    rw [hdd, if_neg g1, if_neg g2]; exact l2

/-- The search of the rightmost node below `a` ends, at a node without right
child that is the right child of its parent; the parent is `a` or a node whose
own parent lies below `a`. -/
theorem rightmost_spec (tb ls rs dd rk : Nat → Nat) (a : Nat)
    (h : TreeInv tb ls rs dd rk) :
    ∀ (fuel z : Nat), z < N → dd z ≠ NIL → rs z ≠ NIL → rk a ≤ rk z → tb z = tb a →
      (z = a ∨ (dd z < N ∧ rk a ≤ rk (dd z))) → rank_above rk z < fuel →
      ∃ q, rightmost rs fuel z = some q ∧ q < N ∧ dd q ≠ NIL ∧ rs q = NIL ∧
        rk a < rk q ∧ tb q = tb a ∧ dd q < N ∧ dd (dd q) ≠ NIL ∧ rs (dd q) = q ∧
        rk a ≤ rk (dd q) ∧ (dd q = a ∨ (dd (dd q) < N ∧ rk a ≤ rk (dd (dd q)))) := by
  have hNIL : NIL = N := rfl
  intro fuel
  induction fuel with
  | zero => intro z _ _ _ _ _ _ hf; omega
  | succ n ih =>
    intro z hz hdz hrz hrk htb hch hf
    obtain ⟨r1, r2⟩ := h.right z hz hdz hrz
    have hpar := h.parent (rs z) r1 (by rw [r2]; omega)
    have hrk2 : rk z < rk (rs z) ∧ tb z = tb (rs z) := by
      rcases hpar with ⟨_, _, d3, d4, _⟩ | ⟨d1, _, _⟩
      · rw [r2] at d3 d4; exact ⟨d3, d4⟩
      · rw [r2] at d1; omega
    unfold rightmost
    by_cases c : rs (rs z) ≠ NIL
    · rw [if_pos c]
      have hm := rank_above_lt rk z (rs z) r1 hrk2.1
      exact ih (rs z) r1 (by rw [r2]; omega) c (by omega) (by rw [← hrk2.2, htb])
        (Or.inr ⟨by rw [r2]; exact hz, by rw [r2]; exact hrk⟩) (by omega)
    · rw [if_neg c]
      refine ⟨rs z, rfl, r1, by rw [r2]; omega, by simpa using c, by omega,
        by rw [← hrk2.2, htb], by rw [r2]; exact hz, by rw [r2]; exact hdz,
        by rw [r2], by rw [r2]; exact hrk, ?_⟩
      rw [r2]
      exact hch

theorem ne_of_rk_lt (rk : Nat → Nat) (x y : Nat) (h : rk x < rk y) : x ≠ y := by
  intro e; rw [e] at h; omega

/-- The parent of a node in a tree is not `NIL`; a parent below `N` has a
smaller rank and the same first byte. -/
theorem TreeInv_parent_rk (tb ls rs dd rk : Nat → Nat) (h : TreeInv tb ls rs dd rk)
    (x : Nat) (hx : x < N) (hd : dd x ≠ NIL) (hlt : dd x < N) :
    dd (dd x) ≠ NIL ∧ rk (dd x) < rk x ∧ tb (dd x) = tb x := by
  rcases h.parent x hx hd with ⟨_, d2, d3, d4, _⟩ | ⟨d1, _, _⟩
  · exact ⟨d2, d3, d4⟩
  · omega

theorem TreeInv_ext (tb ls rs dd rk ls2 rs2 dd2 : Nat → Nat)
    (h1 : ∀ x, ls x = ls2 x) (h2 : ∀ x, rs x = rs2 x) (h3 : ∀ x, dd x = dd2 x)
    (h : TreeInv tb ls rs dd rk) : TreeInv tb ls2 rs2 dd2 rk := by
  have e1 : ls = ls2 := funext h1
  have e2 : rs = rs2 := funext h2
  have e3 : dd = dd2 := funext h3
  rw [← e1, ← e2, ← e3]; exact h

set_option maxHeartbeats 400000 in
/-- The tree invariant after `DeleteNode` took out a node `p` with two
children and put the rightmost node `q` of its left subtree in its place,
where `q` is not the left child of `p`. -/
theorem TreeInv_delete_inner (g : Globals) (rk : Nat → Nat) (p q : Nat)
    (h : TreeInv g.text_buf g.lson g.rson g.dad rk)
    (hp : p < N) (hdp : g.dad p ≠ NIL) (hA : g.lson p ≠ NIL) (hB : g.rson p ≠ NIL)
    (hq : q < N) (hdq : g.dad q ≠ NIL) (hrq : g.rson q = NIL)
    (hrk : rk (g.lson p) < rk q) (htb : g.text_buf q = g.text_buf (g.lson p))
    (hDq1 : g.dad q < N) (hDq3 : g.rson (g.dad q) = q)
    (hDq4 : rk (g.lson p) ≤ rk (g.dad q))
    (hDq5 : g.dad q = g.lson p ∨ (g.dad (g.dad q) < N ∧ rk (g.lson p) ≤ rk (g.dad (g.dad q)))) :
    TreeInv g.text_buf
      (unlink_node
        { g with
          lson := store g.lson q (g.lson p)
          rson := store (store g.rson (g.dad q) (g.lson q)) q
            (store g.rson (g.dad q) (g.lson q) p)
          dad := store (store (store g.dad (g.lson q) (g.dad q))
              (store g.lson q (g.lson p) p) q)
            (store (store g.rson (g.dad q) (g.lson q)) q
              (store g.rson (g.dad q) (g.lson q) p) p) q } p q).lson
      (unlink_node
        { g with
          lson := store g.lson q (g.lson p)
          rson := store (store g.rson (g.dad q) (g.lson q)) q
            (store g.rson (g.dad q) (g.lson q) p)
          dad := store (store (store g.dad (g.lson q) (g.dad q))
              (store g.lson q (g.lson p) p) q)
            (store (store g.rson (g.dad q) (g.lson q)) q
              (store g.rson (g.dad q) (g.lson q) p) p) q } p q).rson
      (unlink_node
        { g with
          lson := store g.lson q (g.lson p)
          rson := store (store g.rson (g.dad q) (g.lson q)) q
            (store g.rson (g.dad q) (g.lson q) p)
          dad := store (store (store g.dad (g.lson q) (g.dad q))
              (store g.lson q (g.lson p) p) q)
            (store (store g.rson (g.dad q) (g.lson q)) q
              (store g.rson (g.dad q) (g.lson q) p) p) q } p q).dad
      (fun x => if x = q then rk p else rk x) := by
  have hNIL : NIL = N := rfl
  obtain ⟨tb, mp, ml, ls, rs, dd⟩ := g
  simp only at h hdp hA hB hdq hrq hrk htb hDq1 hDq3 hDq4 hDq5 ⊢
  -- facts about the nodes involved
  obtain ⟨A1, A2⟩ := h.left p hp hdp hA
  obtain ⟨B1, B2⟩ := h.right p hp hdp hB
  have AB := h.distinct p hp hdp hA
  obtain ⟨_, rkA, tbA⟩ := TreeInv_parent_rk tb ls rs dd rk h (ls p) A1 (by rw [A2]; omega)
    (by rw [A2]; exact hp)
  rw [A2] at rkA tbA
  obtain ⟨_, rkB, tbB⟩ := TreeInv_parent_rk tb ls rs dd rk h (rs p) B1 (by rw [B2]; omega)
    (by rw [B2]; exact hp)
  rw [B2] at rkB tbB
  obtain ⟨hDq2, rkDq, tbDq⟩ := TreeInv_parent_rk tb ls rs dd rk h q hq hdq hDq1
  have hC : ls q ≠ NIL → ls q < N ∧ dd (ls q) = q := h.left q hq hdq
  have rkC : ls q ≠ NIL → rk q < rk (ls q) := by
    intro c
    obtain ⟨c1, c2⟩ := hC c
    have := (TreeInv_parent_rk tb ls rs dd rk h (ls q) c1 (by rw [c2]; omega)
      (by rw [c2]; exact hq)).2.1
    rw [c2] at this; exact this
  have fD := h.parent p hp hdp
  have pq : p ≠ q := ne_of_rk_lt rk p q (by omega)
  have pA : p ≠ ls p := ne_of_rk_lt rk _ _ rkA
  have pB : p ≠ rs p := ne_of_rk_lt rk _ _ rkB
  have pDq : p ≠ dd q := ne_of_rk_lt rk _ _ (by omega)
  have pC : p ≠ ls q := by
    by_cases c : ls q = NIL
    · omega
    · exact ne_of_rk_lt rk _ _ (by have := rkC c; omega)
  have pDp : p ≠ dd p := by
    rcases fD with ⟨_, _, d3, _, _⟩ | ⟨d1, _, _⟩
    · exact (ne_of_rk_lt rk _ _ d3).symm
    · omega
  have qA : q ≠ ls p := (ne_of_rk_lt rk _ _ hrk).symm
  have qDq : q ≠ dd q := (ne_of_rk_lt rk _ _ rkDq).symm
  have qB : q ≠ rs p := by
    intro e; rw [e, B2] at pDq; exact pDq rfl
  have qC : q ≠ ls q := by
    by_cases c : ls q = NIL
    · omega
    · exact ne_of_rk_lt rk _ _ (rkC c)
  have qDp : q ≠ dd p := by
    rcases fD with ⟨_, _, d3, _, _⟩ | ⟨d1, _, _⟩
    · exact (ne_of_rk_lt rk _ _ (by omega)).symm
    · omega
  have AC : ls p ≠ ls q := by
    intro e
    by_cases c : ls q = NIL
    · exact hA (by rw [e]; exact c)
    · have := (hC c).2
      rw [← e, A2] at this; exact pq this
  have BC : rs p ≠ ls q := by
    intro e
    by_cases c : ls q = NIL
    · exact hB (by rw [e]; exact c)
    · have := (hC c).2
      rw [← e, B2] at this; exact pq this
  have DpDq : dd p ≠ dd q := by
    rcases fD with ⟨_, _, d3, _, _⟩ | ⟨d1, _, _⟩
    · exact ne_of_rk_lt rk _ _ (by omega)
    · omega
  have DpC : dd p ≠ ls q := by
    by_cases c : ls q = NIL
    · rw [c]; exact hdp
    · rcases fD with ⟨_, _, d3, _, _⟩ | ⟨d1, _, _⟩
      · exact ne_of_rk_lt rk _ _ (by have := rkC c; omega)
      · have := (hC c).1; omega
  have DpA : dd p ≠ ls p := by
    rcases fD with ⟨_, _, d3, _, _⟩ | ⟨d1, _, _⟩
    · exact ne_of_rk_lt rk _ _ (by omega)
    · omega
  have DpB : dd p ≠ rs p := by
    rcases fD with ⟨_, _, d3, _, _⟩ | ⟨d1, _, _⟩
    · exact ne_of_rk_lt rk _ _ (by omega)
    · omega
  have DqB : dd q ≠ rs p := by
    intro e
    rcases hDq5 with e5 | ⟨_, e5⟩
    · rw [e5] at e; exact AB e
    · rw [e, B2] at e5; omega
  have DqC : dd q ≠ ls q := by
    by_cases c : ls q = NIL
    · omega
    · exact ne_of_rk_lt rk _ _ (by have := rkC c; omega)
  -- first the node `q` is taken out, then it replaces `p`
  have hS := TreeInv_unlink tb ls rs dd rk q (ls q) h hq hdq (Or.inl ⟨hrq, rfl⟩)
  rw [if_pos hDq3, if_pos hDq3] at hS
  have hR := TreeInv_replace tb ls (store rs (dd q) (ls q))
    (store (store dd (ls q) (dd q)) q NIL) rk q p hS hq (store_same _ _ _) hp
    (by simp only [store, if_neg pq, if_neg pC]; exact hdp)
    (by rw [htb, tbA])
  have e1 : store (store dd (ls q) (dd q)) q NIL p = dd p := by
    simp only [store, if_neg pq, if_neg pC]
  have e2 : store rs (dd q) (ls q) (dd p) = rs (dd p) := by
    simp only [store, if_neg DpDq]
  have e3 : store rs (dd q) (ls q) p = rs p := by
    simp only [store, if_neg pDq]
  rw [e1, e2, e3] at hR
  refine TreeInv_ext _ _ _ _ _ _ _ _ ?_ ?_ ?_ hR
  · intro x
    simp only [unlink_node, store, pq, pC, pA, pB, pDq, DpDq, qDp.symm, if_false]
  · intro x
    simp only [unlink_node, store, pq, pC, pA, pB, pDq, DpDq, qDp.symm, if_false]
  · intro x
    simp only [unlink_node, store, pq, pC, pA, pB, pDq, DpDq, qDp.symm, if_false]
    by_cases c2 : x = q
    · have c1 : x ≠ p := fun e => pq (e.symm.trans c2)
      have c3 : x ≠ rs p := fun e => qB (c2.symm.trans e)
      have c4 : x ≠ ls p := fun e => qA (c2.symm.trans e)
      simp only [if_neg c1, if_neg c3, if_neg c4, if_pos c2]
    · simp only [if_neg c2]

/-- The tree invariant only reads `dad` below `N`, `lson` at the nodes in a
tree, and `rson` at the nodes in a tree and at the roots. -/
theorem TreeInv_congr (tb ls rs dd rk ls2 rs2 dd2 : Nat → Nat)
    (h3 : ∀ x, x < N → dd x = dd2 x)
    (h1 : ∀ x, x < N → dd x ≠ NIL → ls x = ls2 x)
    (h2 : ∀ x, (x < N ∧ dd x ≠ NIL) ∨ N < x → rs x = rs2 x)
    (h : TreeInv tb ls rs dd rk) : TreeInv tb ls2 rs2 dd2 rk := by
  have hNIL : NIL = N := rfl
  constructor
  · intro x hx hd
    rw [← h3 x hx] at hd ⊢
    rcases h.parent x hx hd with ⟨p1, p2, p3, p4, p5⟩ | ⟨p1, p2, p3⟩
    · left
      rw [← h3 _ p1, ← h1 _ p1 p2, ← h2 _ (Or.inl ⟨p1, p2⟩)]
      exact ⟨p1, p2, p3, p4, p5⟩
    · right
      rw [← h2 _ (Or.inr (by omega))]
      exact ⟨p1, p2, p3⟩
  · intro x hx hd hl
    rw [← h3 x hx] at hd
    rw [← h1 x hx hd] at hl ⊢
    obtain ⟨l1, l2⟩ := h.left x hx hd hl
    rw [← h3 _ l1]
    exact ⟨l1, l2⟩
  · intro x hx hd hl
    rw [← h3 x hx] at hd
    rw [← h2 x (Or.inl ⟨hx, hd⟩)] at hl ⊢
    obtain ⟨l1, l2⟩ := h.right x hx hd hl
    rw [← h3 _ l1]
    exact ⟨l1, l2⟩
  · intro x hx hd hl
    rw [← h3 x hx] at hd
    rw [← h1 x hx hd] at hl ⊢
    rw [← h2 x (Or.inl ⟨hx, hd⟩)]
    exact h.distinct x hx hd hl
  · intro c hc hl
    rw [← h2 _ (Or.inr (by omega))] at hl ⊢
    obtain ⟨l1, l2⟩ := h.root c hc hl
    rw [← h3 _ l1]
    exact ⟨l1, l2⟩

set_option maxHeartbeats 400000 in
/-- The tree invariant after `DeleteNode` took out a node `p` with two
children whose left child has no right child: the left child takes the place
of `p`. -/
theorem TreeInv_delete_left (g : Globals) (rk : Nat → Nat) (p : Nat)
    (h : TreeInv g.text_buf g.lson g.rson g.dad rk)
    (hp : p < N) (hdp : g.dad p ≠ NIL) (hA : g.lson p ≠ NIL) (hB : g.rson p ≠ NIL)
    (hrq : g.rson (g.lson p) = NIL) :
    TreeInv g.text_buf
      (unlink_node
        { g with
          rson := store g.rson (g.lson p) (g.rson p)
          dad := store g.dad (store g.rson (g.lson p) (g.rson p) p) (g.lson p) }
        p (g.lson p)).lson
      (unlink_node
        { g with
          rson := store g.rson (g.lson p) (g.rson p)
          dad := store g.dad (store g.rson (g.lson p) (g.rson p) p) (g.lson p) }
        p (g.lson p)).rson
      (unlink_node
        { g with
          rson := store g.rson (g.lson p) (g.rson p)
          dad := store g.dad (store g.rson (g.lson p) (g.rson p) p) (g.lson p) }
        p (g.lson p)).dad
      (fun x => if x = g.lson p then rk p else rk x) := by
  have hNIL : NIL = N := rfl
  obtain ⟨tb, mp, ml, ls, rs, dd⟩ := g
  simp only at h hdp hA hB hrq ⊢
  obtain ⟨A1, A2⟩ := h.left p hp hdp hA
  obtain ⟨B1, B2⟩ := h.right p hp hdp hB
  have AB := h.distinct p hp hdp hA
  have hdA : dd (ls p) ≠ NIL := by rw [A2]; omega
  obtain ⟨_, rkA, tbA⟩ := TreeInv_parent_rk tb ls rs dd rk h (ls p) A1 hdA
    (by rw [A2]; exact hp)
  rw [A2] at rkA tbA
  obtain ⟨_, rkB, tbB⟩ := TreeInv_parent_rk tb ls rs dd rk h (rs p) B1 (by rw [B2]; omega)
    (by rw [B2]; exact hp)
  rw [B2] at rkB tbB
  have hC : ls (ls p) ≠ NIL → ls (ls p) < N ∧ dd (ls (ls p)) = ls p := h.left (ls p) A1 hdA
  have rkC : ls (ls p) ≠ NIL → rk (ls p) < rk (ls (ls p)) := by
    intro c
    obtain ⟨c1, c2⟩ := hC c
    have := (TreeInv_parent_rk tb ls rs dd rk h (ls (ls p)) c1 (by rw [c2]; omega)
      (by rw [c2]; exact A1)).2.1
    rw [c2] at this; exact this
  have fD := h.parent p hp hdp
  have pA : p ≠ ls p := ne_of_rk_lt rk _ _ rkA
  have pB : p ≠ rs p := ne_of_rk_lt rk _ _ rkB
  have pC : p ≠ ls (ls p) := by
    by_cases c : ls (ls p) = NIL
    · omega
    · exact ne_of_rk_lt rk _ _ (by have := rkC c; omega)
  have pDp : p ≠ dd p := by
    rcases fD with ⟨_, _, d3, _, _⟩ | ⟨d1, _, _⟩
    · exact (ne_of_rk_lt rk _ _ d3).symm
    · omega
  have DpA : dd p ≠ ls p := by
    rcases fD with ⟨_, _, d3, _, _⟩ | ⟨d1, _, _⟩
    · exact ne_of_rk_lt rk _ _ (by omega)
    · omega
  have AC : ls p ≠ ls (ls p) := by
    by_cases c : ls (ls p) = NIL
    · omega
    · exact ne_of_rk_lt rk _ _ (rkC c)
  have BC : rs p ≠ ls (ls p) := by
    intro e
    by_cases c : ls (ls p) = NIL
    · exact hB (by rw [e]; exact c)
    · have := (hC c).2
      rw [← e, B2] at this; exact pA this
  have rspA : rs p ≠ ls p := fun e => AB e.symm
  -- first the left child is taken out, then it replaces `p`
  have hS := TreeInv_unlink tb ls rs dd rk (ls p) (ls (ls p)) h A1 hdA (Or.inl ⟨hrq, rfl⟩)
  rw [A2, if_neg rspA, if_neg rspA] at hS
  have hR := TreeInv_replace tb (store ls p (ls (ls p))) rs
    (store (store dd (ls (ls p)) p) (ls p) NIL) rk (ls p) p hS A1 (store_same _ _ _) hp
    (by simp only [store, if_neg pA, if_neg pC]; exact hdp)
    (by rw [tbA])
  refine TreeInv_congr _ _ _ _ _ _ _ _ ?_ ?_ ?_ hR
  · intro x hx
    simp only [unlink_node, store, pA, pB, pC, if_false, if_true]
    by_cases c1 : x = p
    · simp only [if_pos c1]
    simp only [if_neg c1]
    by_cases c2 : x = rs p
    · have c3 : x ≠ ls p := fun e => AB (e.symm.trans c2)
      simp only [if_pos c2, if_neg c3]
    simp only [if_neg c2]
    by_cases c3 : x = ls p
    · have c4 : ls p ≠ rs p := AB
      have c5 : x ≠ ls (ls p) := fun e => AC (c3.symm.trans e)
      simp only [if_pos c3, c4, if_false, if_neg c5]
    simp only [if_neg c3]
    by_cases c4 : x = ls (ls p)
    · have c5 : ls (ls p) ≠ NIL := by omega
      simp only [if_pos c4]
      rw [c4]; exact (hC c5).2.symm
    · simp only [if_neg c4]
  · intro x hx hd
    simp only [unlink_node, store, pA, pB, pC, DpA, if_false, if_true] at hd ⊢
    have c1 : x ≠ p := by
      intro c1; simp only [c1, if_true] at hd; exact hd rfl
    by_cases c : rs (dd p) = p
    · simp only [if_pos c, store, if_neg c1]
      by_cases c3 : x = ls p
      · simp only [if_pos c3]; rw [c3]
      · simp only [if_neg c3]
    · simp only [if_neg c, store, if_neg c1]
      by_cases c3 : x = ls p
      · have c4 : x ≠ dd p := fun e => DpA (e.symm.trans c3)
        simp only [if_pos c3, if_neg c4]; rw [c3]
      · simp only [if_neg c3]
  · intro x _
    simp only [unlink_node, store, pA, pB, pC, DpA, if_false, if_true]

/-- The result of `unlink_node` when `p` has at most one child. -/
theorem unlink_node_spec (g : Globals) (rk : Nat → Nat) (p q : Nat)
    (h : TreeInv g.text_buf g.lson g.rson g.dad rk) (hp : p < N) (hdp : g.dad p ≠ NIL)
    (hq : (g.rson p = NIL ∧ q = g.lson p) ∨ (g.lson p = NIL ∧ q = g.rson p)) :
    TreeInv (unlink_node g p q).text_buf (unlink_node g p q).lson (unlink_node g p q).rson
        (unlink_node g p q).dad rk ∧
      (unlink_node g p q).dad p = NIL ∧
      ∀ y, y < N → (unlink_node g p q).dad y ≠ NIL → g.dad y ≠ NIL := by
  have hNIL : NIL = N := rfl
  have fq : q ≠ NIL → q < N ∧ g.dad q = p := by
    intro hqn
    rcases hq with ⟨_, e⟩ | ⟨_, e⟩
    · rw [e] at hqn ⊢; exact h.left p hp hdp hqn
    · rw [e] at hqn ⊢; exact h.right p hp hdp hqn
  have fDp : g.dad p ≠ p := by
    rcases h.parent p hp hdp with ⟨_, _, d3, _, _⟩ | ⟨d1, _, _⟩
    · exact ne_of_rk_lt rk _ _ d3
    · omega
  have fqp : p ≠ q := by
    intro e
    have := fq (by omega)
    rw [← e] at this; exact fDp this.2
  have e1 : store g.dad q (g.dad p) p = g.dad p := store_ne _ _ _ _ fqp
  have hT := TreeInv_unlink g.text_buf g.lson g.rson g.dad rk p q h hp hdp hq
  refine ⟨?_, ?_, ?_⟩
  · simp only [unlink_node, e1]
    exact hT
  · simp only [unlink_node, store_same]
  · intro y hy hd
    simp only [unlink_node, store] at hd
    by_cases c1 : y = p
    · rw [c1]; exact hdp
    · rw [if_neg c1] at hd
      by_cases c2 : y = q
      · rw [c2, (fq (by omega)).2]; omega
      · rw [if_neg c2] at hd; exact hd

set_option maxHeartbeats 400000 in
/-- `DeleteNode` returns, keeps the tree invariant, takes `p` out of its tree
and puts no position into a tree. -/
theorem DeleteNode_spec (g : Globals) (rk : Nat → Nat) (p : Nat)
    (h : TreeInv g.text_buf g.lson g.rson g.dad rk) (hp : p < N) :
    ∃ g1 rk1, DeleteNode g p = some g1 ∧
      TreeInv g1.text_buf g1.lson g1.rson g1.dad rk1 ∧
      g1.text_buf = g.text_buf ∧ g1.match_position = g.match_position ∧
      g1.match_length = g.match_length ∧ g1.dad p = NIL ∧
      ∀ y, y < N → g1.dad y ≠ NIL → g.dad y ≠ NIL := by
  have hNIL : NIL = N := rfl
  unfold DeleteNode
  by_cases c0 : g.dad p = NIL
  · rw [if_pos c0]
    exact ⟨g, rk, rfl, h, rfl, rfl, rfl, c0, fun y _ hd => hd⟩
  rw [if_neg c0]
  by_cases c1 : g.rson p = NIL
  · rw [if_pos c1]
    obtain ⟨u1, u2, u3⟩ := unlink_node_spec g rk p (g.lson p) h hp c0 (Or.inl ⟨c1, rfl⟩)
    exact ⟨_, rk, rfl, u1, rfl, rfl, rfl, u2, u3⟩
  rw [if_neg c1]
  by_cases c2 : g.lson p = NIL
  · rw [if_pos c2]
    obtain ⟨u1, u2, u3⟩ := unlink_node_spec g rk p (g.rson p) h hp c0 (Or.inr ⟨c2, rfl⟩)
    exact ⟨_, rk, rfl, u1, rfl, rfl, rfl, u2, u3⟩
  rw [if_neg c2]
  obtain ⟨A1, A2⟩ := h.left p hp c0 c2
  obtain ⟨B1, B2⟩ := h.right p hp c0 c1
  have hdA : g.dad (g.lson p) ≠ NIL := by rw [A2]; omega
  have pA : p ≠ g.lson p := by
    have := (TreeInv_parent_rk _ _ _ _ rk h (g.lson p) A1 hdA (by rw [A2]; exact hp)).2.1
    rw [A2] at this
    exact ne_of_rk_lt rk _ _ this
  have pB : p ≠ g.rson p := by
    have := (TreeInv_parent_rk _ _ _ _ rk h (g.rson p) B1 (by rw [B2]; omega)
      (by rw [B2]; exact hp)).2.1
    rw [B2] at this
    exact ne_of_rk_lt rk _ _ this
  by_cases c3 : g.rson (g.lson p) ≠ NIL
  · rw [if_pos c3]
    obtain ⟨q, q0, q1, q2, q3, q4, q5, q6, q7, q8, q9, q10⟩ :=
      rightmost_spec g.text_buf g.lson g.rson g.dad rk (g.lson p) h (N + 1) (g.lson p) A1 hdA
        c3 (le_refl _) rfl (Or.inl rfl)
        (by have := rank_above_lt_N rk (g.lson p) A1; omega)
    rw [q0]
    have hT := TreeInv_delete_inner g rk p q h hp c0 c2 c1 q1 q2 q3 q4 q5 q6 q8 q9 q10
    refine ⟨_, _, rfl, hT, rfl, rfl, rfl, ?_, ?_⟩
    · simp only [unlink_node, store_same]
    · intro y hy hd
      simp only [unlink_node, store] at hd
      by_cases e1 : y = p
      · rw [e1]; exact c0
      rw [if_neg e1] at hd
      by_cases e2 : y = q
      · rw [e2]; exact q2
      rw [if_neg e2] at hd
      have pq : p ≠ q := ne_of_rk_lt rk _ _ (by
        have := (TreeInv_parent_rk _ _ _ _ rk h (g.lson p) A1 hdA (by rw [A2]; exact hp)).2.1
        rw [A2] at this; omega)
      have pDq : p ≠ g.dad q := ne_of_rk_lt rk _ _ (by
        have := (TreeInv_parent_rk _ _ _ _ rk h (g.lson p) A1 hdA (by rw [A2]; exact hp)).2.1
        rw [A2] at this; omega)
      simp only [if_neg pq, if_neg pDq] at hd
      by_cases e3 : y = g.rson p
      · rw [e3, B2]; omega
      rw [if_neg e3] at hd
      by_cases e4 : y = g.lson p
      · rw [e4]; exact hdA
      rw [if_neg e4] at hd
      by_cases e5 : y = g.lson q
      · rw [e5, (h.left q q1 q2 (by omega)).2]; omega
      rw [if_neg e5] at hd
      exact hd
  · rw [if_neg c3]
    have hT := TreeInv_delete_left g rk p h hp c0 c2 c1 (by simpa using c3)
    refine ⟨_, _, rfl, hT, rfl, rfl, rfl, ?_, ?_⟩
    · simp only [unlink_node, store_same]
    · intro y hy hd
      simp only [unlink_node, store] at hd
      by_cases e1 : y = p
      · rw [e1]; exact c0
      rw [if_neg e1] at hd
      by_cases e4 : y = g.lson p
      · rw [e4]; exact hdA
      rw [if_neg e4] at hd
      simp only [if_neg pA] at hd
      by_cases e3 : y = g.rson p
      · rw [e3, B2]; omega
      rw [if_neg e3] at hd
      exact hd

/-- The descent of `InsertNode` from a node or root `p` ends: either the
string `r` is added as a leaf, which keeps the tree invariant, or the descent
stops at a node `p1` of the tree whose string agrees with the string at `r`
on `F` bytes.  The match reported is a node of the tree. -/
theorem InsertNode_loop_spec (v : Bool) (r : Nat) (tb ls rs dd rk : Nat → Nat)
    (h : TreeInv tb ls rs dd rk) (hr : r < N) (hdr : dd r = NIL)
    (hlr : ls r = NIL) (hrr : rs r = NIL) :
    ∀ (fuel mp ml p : Nat) (cmp : Int),
      ((p < N ∧ dd p ≠ NIL ∧ tb p = tb r ∧ rank_above rk p < fuel) ∨
        (p = N + 1 + tb r ∧ tb r < 256 ∧ 0 ≤ cmp ∧ N < fuel)) →
      MatchPost ⟨tb, mp, ml, ls, rs, dd⟩ dd r →
      ∃ g1 o, InsertNode_loop v r fuel ⟨tb, mp, ml, ls, rs, dd⟩ p cmp = some (g1, o) ∧
        g1.text_buf = tb ∧ MatchPost g1 dd r ∧
        ((o = none ∧ (∃ rk1, TreeInv tb g1.lson g1.rson g1.dad rk1) ∧ g1.dad r ≠ NIL ∧
            ∀ y, y ≠ r → g1.dad y = dd y) ∨
          (∃ p1, o = some p1 ∧ g1.lson = ls ∧ g1.rson = rs ∧ g1.dad = dd ∧ p1 < N ∧
            dd p1 ≠ NIL ∧ tb p1 = tb r)) := by
  have hNIL : NIL = N := rfl
  intro fuel
  induction fuel with
  | zero =>
    intro mp ml p cmp hp _
    rcases hp with ⟨_, _, _, h4⟩ | ⟨_, _, _, h4⟩ <;> omega
  | succ n ih =>
    intro mp ml p cmp hp hm
    have hpN : p ≠ NIL := by
      rcases hp with ⟨h1, _, _, _⟩ | ⟨h1, _, _, _⟩ <;> omega
    unfold InsertNode_loop
    simp only
    by_cases c0 : (if cmp ≥ 0 then rs p else ls p) = NIL
    · rw [if_pos c0]
      by_cases c1 : cmp ≥ 0
      · rw [if_pos c1] at c0 ⊢
        have hT := TreeInv_leaf_right tb ls rs dd rk r p h hr hdr hlr hrr
          (by
            rcases hp with ⟨h1, h2, h3, _⟩ | ⟨h1, h2, _, _⟩
            · exact Or.inl ⟨h1, h2, h3⟩
            · exact Or.inr ⟨h1, h2⟩) c0
        refine ⟨_, none, rfl, rfl, hm, Or.inl ⟨rfl, ⟨_, hT⟩, ?_, ?_⟩⟩
        · simp only [store_same]; exact hpN
        · intro y hy; exact store_ne _ _ _ _ hy
      · rw [if_neg c1] at c0 ⊢
        have hp2 : p < N ∧ dd p ≠ NIL ∧ tb p = tb r := by
          rcases hp with ⟨h1, h2, h3, _⟩ | ⟨_, _, h3, _⟩
          · exact ⟨h1, h2, h3⟩
          · exact absurd h3 c1
        have hT := TreeInv_leaf_left tb ls rs dd rk r p h hr hdr hlr hrr hp2 c0
        refine ⟨_, none, rfl, rfl, hm, Or.inl ⟨rfl, ⟨_, hT⟩, ?_, ?_⟩⟩
        · simp only [store_same]; exact hpN
        · intro y hy; exact store_ne _ _ _ _ hy
    · rw [if_neg c0]
      -- the child `p1` of `p` is a node of the tree of the first byte of `r`
      have hchild : (if cmp ≥ 0 then rs p else ls p) < N ∧
          dd (if cmp ≥ 0 then rs p else ls p) = p := by
        rcases hp with ⟨h1, h2, _, _⟩ | ⟨h1, h2, h3, _⟩
        · by_cases c1 : cmp ≥ 0
          · rw [if_pos c1] at c0 ⊢; exact h.right p h1 h2 c0
          · rw [if_neg c1] at c0 ⊢; exact h.left p h1 h2 c0
        · rw [if_pos h3] at c0 ⊢
          rw [h1] at c0 ⊢
          exact h.root (tb r) h2 c0
      generalize (if cmp ≥ 0 then rs p else ls p) = p1 at c0 hchild ⊢
      obtain ⟨c1, c2⟩ := hchild
      have hd1 : dd p1 ≠ NIL := by rw [c2]; exact hpN
      have htb1 : tb p1 = tb r := by
        rcases h.parent p1 c1 hd1 with ⟨d0, _, _, d4, _⟩ | ⟨d1, _, _⟩
        · rcases hp with ⟨_, _, h3, _⟩ | ⟨h1, _, _, _⟩
          · rw [← d4, c2, h3]
          · rw [c2] at d0; omega
        · rcases hp with ⟨h1, _, _, _⟩ | ⟨h1, _, _, _⟩
          · rw [c2] at d1; omega
          · rw [c2, h1] at d1; omega
      have hfuel : rank_above rk p1 < n := by
        rcases hp with ⟨h1, _, _, h4⟩ | ⟨_, _, _, h4⟩
        · have := (TreeInv_parent_rk tb ls rs dd rk h p1 c1 hd1 (by rw [c2]; exact h1)).2.1
          rw [c2] at this
          have := rank_above_lt rk p p1 c1 this
          omega
        · have := rank_above_lt_N rk p1 c1
          omega
      obtain ⟨i1, i2, i3⟩ := compare_loop_spec tb r p1 F 1 cmp (by decide) (by omega)
      generalize compare_loop tb r p1 F 1 cmp = ic at i1 i2 i3 ⊢
      by_cases c3 : ic.1 > ml ∧ vram_near v r p1 = false
      · rw [if_pos c3]
        have hm2 : MatchPost ⟨tb, p1, ic.1, ls, rs, dd⟩ dd r := by
          refine ⟨i2, fun _ => ⟨c1, hd1, fun k hk => ?_⟩⟩
          by_cases e : k = 0
          · rw [e]; exact htb1
          · exact i3 k (by omega) hk
        by_cases c4 : ic.1 ≥ F
        · rw [if_pos c4]
          exact ⟨_, some p1, rfl, rfl, hm2,
            Or.inr ⟨p1, rfl, rfl, rfl, rfl, c1, hd1, htb1⟩⟩
        · rw [if_neg c4]
          exact ih p1 ic.1 p1 ic.2 (Or.inl ⟨c1, hd1, htb1, hfuel⟩) hm2
      · rw [if_neg c3]
        exact ih mp ml p1 ic.2 (Or.inl ⟨c1, hd1, htb1, hfuel⟩) hm

/-- The result of `replace_node` for a position `r` in no tree and a node `p`
with the same first byte. -/
theorem replace_node_spec (g : Globals) (rk : Nat → Nat) (r p : Nat)
    (h : TreeInv g.text_buf g.lson g.rson g.dad rk) (hr : r < N) (hdr : g.dad r = NIL)
    (hp : p < N) (hdp : g.dad p ≠ NIL) (htb : g.text_buf p = g.text_buf r) :
    TreeInv (replace_node g r p).text_buf (replace_node g r p).lson (replace_node g r p).rson
        (replace_node g r p).dad (fun x => if x = r then rk p else rk x) ∧
      ∀ y, y < N → (replace_node g r p).dad y ≠ NIL → y = r ∨ g.dad y ≠ NIL := by
  have hNIL : NIL = N := rfl
  obtain ⟨tb, mp, ml, ls, rs, dd⟩ := g
  simp only at h hdr hdp htb ⊢
  have f1 : p ≠ r := fun e => hdp (by rw [e]; exact hdr)
  have fA : ls p ≠ NIL → ls p < N ∧ dd (ls p) = p := h.left p hp hdp
  have fB : rs p ≠ NIL → rs p < N ∧ dd (rs p) = p := h.right p hp hdp
  have fD := h.parent p hp hdp
  have fDp : dd p ≠ p := by
    rcases fD with ⟨_, _, d3, _, _⟩ | ⟨d1, _, _⟩
    · exact ne_of_rk_lt rk _ _ d3
    · omega
  have fAp : p ≠ ls p := fun e => by
    have := (fA (by omega)).2
    rw [← e] at this; exact fDp this
  have fBp : p ≠ rs p := fun e => by
    have := (fB (by omega)).2
    rw [← e] at this; exact fDp this
  have fDr : dd p ≠ r := by
    rcases fD with ⟨_, d2, _, _, _⟩ | ⟨d1, _, _⟩
    · intro e; rw [e] at d2; exact d2 hdr
    · omega
  have hT := TreeInv_replace tb ls rs dd rk r p h hr hdr hp hdp htb
  have e1 : store ls r (ls p) p = ls p := store_ne _ _ _ _ f1
  have e2 : store rs r (rs p) p = rs p := store_ne _ _ _ _ f1
  have e3 : store (store (store dd r (dd p)) (ls p) r) (rs p) r p = dd p := by
    simp only [store, if_neg f1, if_neg fAp, if_neg fBp]
  have e4 : store rs r (rs p) (dd p) = rs (dd p) := store_ne _ _ _ _ fDr
  refine ⟨?_, ?_⟩
  · simp only [replace_node, e1, e2, e3, e4]
    by_cases c : rs (dd p) = p
    · simp only [if_pos c] at hT ⊢; exact hT
    · simp only [if_neg c] at hT ⊢; exact hT
  · intro y hy hd
    simp only [replace_node, store, if_neg f1] at hd
    by_cases c1 : y = p
    · right; rw [c1]; exact hdp
    rw [if_neg c1] at hd
    by_cases c2 : y = rs p
    · right; rw [c2, (fB (by omega)).2]; omega
    rw [if_neg c2] at hd
    by_cases c3 : y = ls p
    · right; rw [c3, (fA (by omega)).2]; omega
    rw [if_neg c3] at hd
    by_cases c4 : y = r
    · left; exact c4
    · rw [if_neg c4] at hd; right; exact hd

/-- `InsertNode` returns for a position `r` that is in no tree, keeps the tree
invariant, adds no position other than `r` to a tree, and the match that it
reports is a node that was in a tree. -/
theorem InsertNode_spec (g : Globals) (rk : Nat → Nat) (r : Nat) (v : Bool)
    (h : TreeInv g.text_buf g.lson g.rson g.dad rk) (hr : r < N) (hdr : g.dad r = NIL)
    (hb : g.text_buf r < 256) :
    ∃ g1 rk1, InsertNode g r v = some g1 ∧
      TreeInv g1.text_buf g1.lson g1.rson g1.dad rk1 ∧
      g1.text_buf = g.text_buf ∧ MatchPost g1 g.dad r ∧
      ∀ y, y < N → g1.dad y ≠ NIL → y = r ∨ g.dad y ≠ NIL := by
  have hNIL : NIL = N := rfl
  obtain ⟨tb, mp, ml, ls, rs, dd⟩ := g
  simp only at h hdr hb ⊢
  have h0 : TreeInv tb (store ls r NIL) (store rs r NIL) dd rk := by
    refine TreeInv_congr tb ls rs dd rk _ _ _ (fun _ _ => rfl) ?_ ?_ h
    · intro x _ hd
      have : x ≠ r := fun e => hd (by rw [e]; exact hdr)
      rw [store_ne _ _ _ _ this]
    · intro x hx
      have : x ≠ r := by
        rcases hx with ⟨_, hd⟩ | hx
        · exact fun e => hd (by rw [e]; exact hdr)
        · omega
      rw [store_ne _ _ _ _ this]
  obtain ⟨g1, o, s1, s2, s3, s4⟩ := InsertNode_loop_spec v r tb (store ls r NIL)
    (store rs r NIL) dd rk h0 hr hdr (store_same _ _ _) (store_same _ _ _) (N + 1) mp 0
    (N + 1 + tb r) 1 (Or.inr ⟨rfl, hb, by decide, by omega⟩)
    ⟨Nat.zero_le _, fun hpos => absurd hpos (Nat.lt_irrefl 0)⟩
  unfold InsertNode
  simp only
  rw [s1]
  rcases s4 with ⟨o1, ⟨rk1, o2⟩, _, o4⟩ | ⟨p1, o1, o2, o3, o4, o5, o6, o7⟩
  · subst o1
    simp only
    refine ⟨g1, rk1, rfl, by rw [s2]; exact o2, s2, s3, ?_⟩
    intro y _ hd
    by_cases c : y = r
    · left; exact c
    · right; rw [o4 y c] at hd; exact hd
  · subst o1
    simp only
    have hg1 : TreeInv g1.text_buf g1.lson g1.rson g1.dad rk := by
      rw [s2, o2, o3, o4]; exact h0
    obtain ⟨r1, r2⟩ := replace_node_spec g1 rk r p1 hg1 hr (by rw [o4]; exact hdr) o5
      (by rw [o4]; exact o6) (by rw [s2]; exact o7)
    refine ⟨_, _, rfl, r1, ?_, ?_, ?_⟩
    · simp only [replace_node]; exact s2
    · exact s3
    · intro y hy hd
      have := r2 y hy hd
      rw [o4] at this; exact this

/-! ## The ring buffer of the encoder of gbalzss.c -/

theorem ext_lt (S : List Byte) (u : Nat) : ext S u < 256 := by
  unfold ext
  split_ifs
  · decide
  · exact (S.getD _ 0).isLt

theorem ext_source (S : List Byte) (n : Nat) :
    ext S (N - F + n) = (S.getD n 0).val := by
  unfold ext
  rw [if_neg (by omega)]
  have e : N - F + n - (N - F) = n := by omega
  rw [e]

/-- Reading the buffer at an offset `k < F` from the position of the index
`u`. -/
theorem BufInv_read (tb : Nat → Nat) (S : List Byte) (W u k : Nat)
    (h : BufInv tb S W) (h1 : u + k < W) (h2 : W ≤ u + N) (hk : k < F) :
    tb (u % N + k) = ext S (u + k) := by
  by_cases c : u % N + k < N
  · have e : (u + k) % N = u % N + k := by
      simp only [N] at c ⊢; omega
    rw [← e]
    exact h.1 (u + k) h1 (by omega)
  · have e : u % N + k = N + (u + k) % N := by
      simp only [N, F] at c hk ⊢; omega
    rw [e]
    refine h.2 (u + k) ?_ h1 (by omega) ?_
    · have := Nat.mod_le u N
      omega
    · simp only [N, F] at c hk ⊢; omega

/-- The tree invariant reads `text_buf` only at the nodes in a tree. -/
theorem TreeInv_tb_congr (tb tb2 ls rs dd rk : Nat → Nat)
    (h1 : ∀ x, x < N → dd x ≠ NIL → tb x = tb2 x)
    (h : TreeInv tb ls rs dd rk) : TreeInv tb2 ls rs dd rk := by
  refine ⟨?_, h.left, h.right, h.distinct, h.root⟩
  intro x hx hd
  rcases h.parent x hx hd with ⟨p1, p2, p3, p4, p5⟩ | ⟨p1, p2, p3⟩
  · left
    rw [← h1 x hx hd, ← h1 _ p1 p2]
    exact ⟨p1, p2, p3, p4, p5⟩
  · right
    rw [← h1 x hx hd]
    exact ⟨p1, p2, p3⟩

theorem store_list_get (cs : List Byte) :
    ∀ (a : Nat → Nat) (i k : Nat),
      store_list a i cs k
        = if i ≤ k ∧ k < i + cs.length then (cs.getD (k - i) 0).val else a k := by
  induction cs with
  | nil =>
    intro a i k
    simp only [store_list, List.length_nil]
    rw [if_neg (by omega)]
  | cons c cs ih =>
    intro a i k
    simp only [store_list, List.length_cons]
    rw [ih]
    by_cases c1 : k = i
    · subst c1
      rw [if_neg (by omega), if_pos (by omega), store_same]
      simp
    · rw [store_ne _ _ _ _ c1]
      by_cases c2 : i + 1 ≤ k ∧ k < i + 1 + cs.length
      · rw [if_pos c2, if_pos (by omega)]
        have e : k - i = (k - (i + 1)) + 1 := by omega
        rw [e, List.getD_cons_succ]
      · rw [if_neg c2, if_neg (by omega)]

/-- `InsertNode` at the cursor `m`: the position of the cursor index enters the
trees, and the match reported starts at an earlier index that is still in the
buffer and agrees with the source at the cursor inside the look-ahead. -/
theorem insert_step (S : List Byte) (v : Bool) (g1 : Globals) (m len1 : Nat)
    (hT : ∃ rk, TreeInv g1.text_buf g1.lson g1.rson g1.dad rk)
    (hbuf : BufInv g1.text_buf S (N - F + m + len1)) (hlen : 1 ≤ len1) (hlenF : len1 ≤ F)
    (hlive : ∀ x, x < N → g1.dad x ≠ NIL →
      ∃ u, x = u % N ∧ m ≤ u ∧ N - 2 * F ≤ u ∧ u < N - F + m) :
    ∃ g2, InsertNode g1 ((N - F + m) % N) v = some g2 ∧
      (∃ rk, TreeInv g2.text_buf g2.lson g2.rson g2.dad rk) ∧
      g2.text_buf = g1.text_buf ∧
      (∀ x, x < N → g2.dad x ≠ NIL →
        ∃ u, x = u % N ∧ m ≤ u ∧ N - 2 * F ≤ u ∧ u ≤ N - F + m) ∧
      g2.match_length ≤ F ∧
      (0 < g2.match_length →
        ∃ u, g2.match_position = u % N ∧ m ≤ u ∧ N - 2 * F ≤ u ∧ u < N - F + m ∧
          ∀ k, k < g2.match_length → k < len1 →
            ext S (u + k) = ext S (N - F + m + k)) := by
  have hNIL : NIL = N := rfl
  have hN : N = 4096 := rfl
  have hF : F = 18 := rfl
  obtain ⟨rk, hT⟩ := hT
  have hr : (N - F + m) % N < N := Nat.mod_lt _ (by decide)
  have hfresh : g1.dad ((N - F + m) % N) = NIL := by
    by_contra c
    obtain ⟨u, u1, u2, u3, u4⟩ := hlive _ hr c
    simp only [N, F] at u1 u2 u3 u4
    omega
  have hrd : ∀ k, k < len1 → g1.text_buf ((N - F + m) % N + k) = ext S (N - F + m + k) :=
    fun k hk => BufInv_read _ S _ (N - F + m) k hbuf (by omega) (by omega) (by omega)
  have hb : g1.text_buf ((N - F + m) % N) < 256 := by
    have := hrd 0 (by omega)
    rw [Nat.add_zero, Nat.add_zero] at this
    rw [this]; exact ext_lt _ _
  obtain ⟨g2, rk2, i1, i2, i3, i4, i5⟩ := InsertNode_spec g1 rk _ v hT hr hfresh hb
  refine ⟨g2, i1, ⟨rk2, i2⟩, i3, ?_, i4.1, ?_⟩
  · intro x hx hd
    rcases i5 x hx hd with e | e
    · exact ⟨N - F + m, e, by omega, by simp only [N, F]; omega, le_refl _⟩
    · obtain ⟨u, u1, u2, u3, u4⟩ := hlive x hx e
      exact ⟨u, u1, u2, u3, by omega⟩
  · intro hpos
    obtain ⟨m1, m2, m3⟩ := i4.2 hpos
    obtain ⟨u, u1, u2, u3, u4⟩ := hlive _ m1 m2
    refine ⟨u, u1, u2, u3, u4, fun k hk1 hk2 => ?_⟩
    have e1 := m3 k hk1
    rw [i3, u1] at e1
    rw [← hrd k hk2, ← e1]
    exact (BufInv_read _ S _ u k hbuf (by omega) (by omega) (by omega)).symm

theorem drop_eq_cons (S : List Byte) (k : Nat) (c : Byte) (rest : List Byte)
    (h : S.drop k = c :: rest) :
    k < S.length ∧ S.getD k 0 = c ∧ S.drop (k + 1) = rest := by
  have hk : k < S.length := by
    by_contra hc
    rw [List.drop_eq_nil_of_le (by omega)] at h
    exact absurd h (by simp)
  rw [List.drop_eq_getElem_cons hk] at h
  injection h with h1 h2
  refine ⟨hk, ?_, h2⟩
  rw [List.getD_eq_getElem?_getD, List.getElem?_eq_getElem hk]
  exact h1

/-- The buffer after the reading loop stored the byte of index `W`. -/
theorem BufInv_write (tb : Nat → Nat) (S : List Byte) (W c s : Nat)
    (h : BufInv tb S W) (hs : s = W % N) (hc : c = ext S W) :
    BufInv (if s < F - 1 then store (store tb s c) (s + N) c else store tb s c) S (W + 1) := by
  have hN : N = 4096 := rfl
  have hF : F = 18 := rfl
  have hsN : s < N := by rw [hs]; exact Nat.mod_lt _ (by decide)
  constructor
  · intro u h1 h2
    have e0 : (if s < F - 1 then store (store tb s c) (s + N) c else store tb s c) (u % N)
        = store tb s c (u % N) := by
      split_ifs
      · exact store_ne _ _ _ _ (by have := Nat.mod_lt u (show 0 < N by decide); omega)
      · rfl
    rw [e0]
    by_cases c1 : u = W
    · rw [c1, ← hs, store_same, hc]
    · have : u % N ≠ s := by
        rw [hs]; simp only [N] at h2 ⊢; omega
      rw [store_ne _ _ _ _ this]
      exact h.1 u (by omega) (by omega)
  · intro u h0 h1 h2 h3
    by_cases c1 : u = W
    · rw [c1, ← hs] at h3 ⊢
      rw [if_pos h3, Nat.add_comm N s, store_same, hc]
    · have e1 : u % N ≠ s := by
        rw [hs]; simp only [N] at h2 ⊢; omega
      have e0 : (if s < F - 1 then store (store tb s c) (s + N) c else store tb s c)
          (N + u % N) = tb (N + u % N) := by
        split_ifs
        · rw [store_ne _ _ _ _ (by omega), store_ne _ _ _ _ (by omega)]
        · rw [store_ne _ _ _ _ (by omega)]
      rw [e0]
      exact h.2 u h0 (by omega) (by omega) h3

/-- One pass of the reading loop of `Encode`. -/
theorem read_step (S : List Byte) (v : Bool) (E : EncodeState) (n : Nat) (c : Byte)
    (rest : List Byte) (h : StepInv S E n) (hin : E.infile = c :: rest) :
    ∃ g1 g2, DeleteNode E.g E.s = some g1 ∧
      InsertNode
        { g1 with
          text_buf := if E.s < F - 1 then store (store g1.text_buf E.s c.val) (E.s + N) c.val
            else store g1.text_buf E.s c.val }
        ((E.r + 1) % N) v = some g2 ∧
      StepInv S { E with g := g2, s := (E.s + 1) % N, r := (E.r + 1) % N, infile := rest }
        (n + 1) ∧
      MatchOK S { E with g := g2, s := (E.s + 1) % N, r := (E.r + 1) % N, infile := rest }
        (n + 1) := by
  have hNIL : NIL = N := rfl
  have hN : N = 4096 := rfl
  have hF : F = 18 := rfl
  obtain ⟨rk, hT⟩ := h.tree
  have hsN : E.s < N := by rw [h.s_eq]; exact Nat.mod_lt _ (by decide)
  have hdrop := h.infile_eq
  rw [hin] at hdrop
  obtain ⟨k1, k2, k3⟩ := drop_eq_cons S _ c rest hdrop.symm
  have hlen : E.len = F := by
    have := h.len_eq
    omega
  obtain ⟨g1, rk1, d1, d2, d3, d4, d5, d6, d7⟩ := DeleteNode_spec E.g rk E.s hT hsN
  have hbuf := BufInv_write E.g.text_buf S (N - F + n + E.len) c.val E.s h.buf
    (by rw [h.s_eq, hlen]; simp only [N, F]; omega)
    (by
      unfold ext
      rw [if_neg (by omega)]
      have e : N - F + n + E.len - (N - F) = n + E.len := by omega
      rw [e, k2])
  rw [← d3] at hbuf
  have hT2 : TreeInv (if E.s < F - 1 then store (store g1.text_buf E.s c.val) (E.s + N) c.val
      else store g1.text_buf E.s c.val) g1.lson g1.rson g1.dad rk1 := by
    refine TreeInv_tb_congr _ _ _ _ _ _ ?_ d2
    intro x hx hd
    have e : x ≠ E.s := fun e => hd (by rw [e]; exact d6)
    split_ifs
    · rw [store_ne _ _ _ _ (by omega), store_ne _ _ _ _ e]
    · rw [store_ne _ _ _ _ e]
  have hlive1 : ∀ x, x < N → g1.dad x ≠ NIL →
      ∃ u, x = u % N ∧ n + 1 ≤ u ∧ N - 2 * F ≤ u ∧ u < N - F + (n + 1) := by
    intro x hx hd
    obtain ⟨u, u1, u2, u3, u4⟩ := h.live x hx (d7 x hx hd)
    refine ⟨u, u1, ?_, u3, by omega⟩
    by_contra hc
    have e : u = n := by omega
    rw [e, ← h.s_eq] at u1
    rw [u1] at hd; exact hd d6
  obtain ⟨g2, j1, j2, j3, j4, j5, j6⟩ := insert_step S v
    { g1 with
      text_buf := if E.s < F - 1 then store (store g1.text_buf E.s c.val) (E.s + N) c.val
        else store g1.text_buf E.s c.val } (n + 1) E.len ⟨rk1, hT2⟩
    (by
      have e : N - F + (n + 1) + E.len = N - F + n + E.len + 1 := by omega
      rw [e]; exact hbuf)
    (by omega) (by omega) hlive1
  have er : (E.r + 1) % N = (N - F + (n + 1)) % N := by
    rw [h.r_eq]; simp only [N, F]; omega
  refine ⟨g1, g2, d1, by rw [er]; exact j1, ?_, ?_⟩
  · refine ⟨j2, by omega, er, ?_, ?_, ?_, ?_, j4⟩
    · show (E.s + 1) % N = (n + 1) % N
      rw [h.s_eq]; simp only [N]; omega
    · show E.len = min F (S.length - (n + 1))
      omega
    · show rest = S.drop (n + 1 + E.len)
      rw [← k3]; congr 1; omega
    · show BufInv g2.text_buf S (N - F + (n + 1) + E.len)
      rw [j3]
      have e : N - F + (n + 1) + E.len = N - F + n + E.len + 1 := by omega
      rw [e]; exact hbuf
  · exact ⟨j5, j6⟩

/-- One pass of the loop of `Encode` that runs after the end of the input. -/
theorem drain_step (S : List Byte) (v : Bool) (E : EncodeState) (n : Nat)
    (h : StepInv S E n) (hin : E.infile = []) (hlen : 1 ≤ E.len) :
    ∃ g1, DeleteNode E.g E.s = some g1 ∧
      (E.len - 1 ≠ 0 →
        ∃ g2, InsertNode g1 ((E.r + 1) % N) v = some g2 ∧
          StepInv S
            { E with g := g2, s := (E.s + 1) % N, r := (E.r + 1) % N, len := E.len - 1 }
            (n + 1) ∧
          MatchOK S
            { E with g := g2, s := (E.s + 1) % N, r := (E.r + 1) % N, len := E.len - 1 }
            (n + 1)) ∧
      (E.len - 1 = 0 →
        StepInv S
          { E with g := g1, s := (E.s + 1) % N, r := (E.r + 1) % N, len := E.len - 1 }
          (n + 1)) := by
  have hNIL : NIL = N := rfl
  have hN : N = 4096 := rfl
  have hF : F = 18 := rfl
  obtain ⟨rk, hT⟩ := h.tree
  have hsN : E.s < N := by rw [h.s_eq]; exact Nat.mod_lt _ (by decide)
  have hdrop := h.infile_eq
  rw [hin] at hdrop
  have hend : S.length ≤ n + E.len := by
    by_contra hc
    have := List.drop_eq_nil_iff.mp hdrop.symm
    omega
  have hlen2 := h.len_eq
  have hnle := h.n_le
  have elen : E.len - 1 = min F (S.length - (n + 1)) := by omega
  have edrop : S.drop (n + 1 + (E.len - 1)) = [] := List.drop_eq_nil_of_le (by omega)
  obtain ⟨g1, rk1, d1, d2, d3, d4, d5, d6, d7⟩ := DeleteNode_spec E.g rk E.s hT hsN
  have hlive1 : ∀ x, x < N → g1.dad x ≠ NIL →
      ∃ u, x = u % N ∧ n + 1 ≤ u ∧ N - 2 * F ≤ u ∧ u < N - F + (n + 1) := by
    intro x hx hd
    obtain ⟨u, u1, u2, u3, u4⟩ := h.live x hx (d7 x hx hd)
    refine ⟨u, u1, ?_, u3, by omega⟩
    by_contra hc
    have e : u = n := by omega
    rw [e, ← h.s_eq] at u1
    rw [u1] at hd; exact hd d6
  have er : (E.r + 1) % N = (N - F + (n + 1)) % N := by
    rw [h.r_eq]; simp only [N, F]; omega
  have es : (E.s + 1) % N = (n + 1) % N := by
    rw [h.s_eq]; simp only [N]; omega
  have ew : N - F + (n + 1) + (E.len - 1) = N - F + n + E.len := by omega
  have hbuf : BufInv g1.text_buf S (N - F + (n + 1) + (E.len - 1)) := by
    rw [ew, d3]; exact h.buf
  refine ⟨g1, d1, ?_, ?_⟩
  · intro hne
    obtain ⟨g2, j1, j2, j3, j4, j5, j6⟩ := insert_step S v g1 (n + 1) (E.len - 1) ⟨rk1, d2⟩
      hbuf (by omega) (by omega) hlive1
    refine ⟨g2, by rw [er]; exact j1, ?_, ⟨j5, j6⟩⟩
    refine ⟨j2, by omega, er, es, ?_, ?_, ?_, j4⟩
    · exact elen
    · show E.infile = S.drop (n + 1 + (E.len - 1))
      rw [hin, edrop]
    · show BufInv g2.text_buf S (N - F + (n + 1) + (E.len - 1))
      rw [j3]; exact hbuf
  · intro he
    refine ⟨⟨rk1, d2⟩, by omega, er, es, ?_, ?_, hbuf, ?_⟩
    · exact elen
    · show E.infile = S.drop (n + 1 + (E.len - 1))
      rw [hin, edrop]
    · intro x hx hd
      obtain ⟨u, u1, u2, u3, u4⟩ := hlive1 x hx hd
      exact ⟨u, u1, u2, u3, by omega⟩

/-- The reading loop of `Encode`: it advances the cursor by the number of
bytes read, which is the count asked for unless the input ends. -/
theorem read_loop_spec (S : List Byte) (v : Bool) :
    ∀ (k i : Nat) (E : EncodeState) (n : Nat), StepInv S E n →
      ∃ E1 j, read_loop v k i E = some (E1, i + j) ∧ j ≤ k ∧ StepInv S E1 (n + j) ∧
        (j < k → E1.infile = []) ∧ (0 < j → MatchOK S E1 (n + j)) ∧ (j = 0 → E1 = E) ∧
        E1.code_buf = E.code_buf ∧ E1.mask = E.mask ∧ E1.outfile = E.outfile ∧
        E1.codesize = E.codesize := by
  intro k
  induction k with
  | zero =>
    intro i E n h
    exact ⟨E, 0, rfl, le_refl _, h, fun hj => absurd hj (Nat.lt_irrefl 0),
      fun hj => absurd hj (Nat.lt_irrefl 0), fun _ => rfl, rfl, rfl, rfl, rfl⟩
  | succ k ih =>
    intro i E n h
    cases hin : E.infile with
    | nil =>
      refine ⟨E, 0, ?_, Nat.zero_le _, h, fun _ => hin,
        fun hj => absurd hj (Nat.lt_irrefl 0), fun _ => rfl, rfl, rfl, rfl, rfl⟩
      unfold read_loop
      rw [hin]
      simp only [Nat.add_zero]
    | cons c rest =>
      obtain ⟨g1, g2, s1, s2, s3, s4⟩ := read_step S v E n c rest h hin
      obtain ⟨E1, j, r1, r2, r3, r4, r5, r6, r7, r8, r9, r10⟩ := ih (i + 1)
        { E with g := g2, s := (E.s + 1) % N, r := (E.r + 1) % N, infile := rest } (n + 1) s3
      refine ⟨E1, j + 1, ?_, by omega, ?_, fun hj => r4 (by omega), ?_,
        fun hj => absurd hj (by omega), r7, r8, r9, r10⟩
      · unfold read_loop
        rw [hin]
        simp only [s1, s2]
        have e : i + 1 + j = i + (j + 1) := by omega
        rw [r1, e]
      · have e : n + (j + 1) = n + 1 + j := by omega
        rw [e]; exact r3
      · intro _
        have e : n + (j + 1) = n + 1 + j := by omega
        rw [e]
        by_cases hj : 0 < j
        · exact r5 hj
        · have hj0 : j = 0 := by omega
          rw [r6 hj0, hj0]
          exact s4

/-- The loop of `Encode` after the end of the input: it advances the cursor by
the count asked for. -/
theorem drain_loop_spec (S : List Byte) (v : Bool) :
    ∀ (k : Nat) (E : EncodeState) (n : Nat), StepInv S E n → E.infile = [] → k ≤ E.len →
      ∃ E1, drain_loop v k E = some E1 ∧ StepInv S E1 (n + k) ∧
        (0 < k → 0 < E1.len → MatchOK S E1 (n + k)) ∧ (k = 0 → E1 = E) ∧
        E1.code_buf = E.code_buf ∧ E1.mask = E.mask ∧ E1.outfile = E.outfile ∧
        E1.codesize = E.codesize := by
  intro k
  induction k with
  | zero =>
    intro E n h _ _
    exact ⟨E, rfl, h, fun hj => absurd hj (Nat.lt_irrefl 0), fun _ => rfl, rfl, rfl, rfl, rfl⟩
  | succ k ih =>
    intro E n h hin hk
    obtain ⟨g1, d1, d2, d3⟩ := drain_step S v E n h hin (by omega)
    unfold drain_loop
    simp only [d1]
    by_cases c : E.len - 1 ≠ 0
    · rw [if_pos c]
      obtain ⟨g2, i1, i2, i3⟩ := d2 c
      simp only [i1]
      obtain ⟨E1, r1, r2, r3, r4, r5, r6, r7, r8⟩ := ih
        { E with g := g2, s := (E.s + 1) % N, r := (E.r + 1) % N, len := E.len - 1 } (n + 1)
        i2 hin (by show k ≤ E.len - 1; omega)
      have e : n + (k + 1) = n + 1 + k := by omega
      refine ⟨E1, r1, by rw [e]; exact r2, ?_, fun hj => absurd hj (by omega), r5, r6, r7, r8⟩
      intro _ hl
      rw [e]
      by_cases hj : 0 < k
      · exact r3 hj hl
      · have hj0 : k = 0 := by omega
        rw [r4 hj0, hj0]
        exact i3
    · rw [if_neg c]
      have c2 : E.len - 1 = 0 := by omega
      have hk0 : k = 0 := by omega
      subst hk0
      refine ⟨_, rfl, d3 c2, ?_, fun hj => absurd hj (by omega), rfl, rfl, rfl, rfl⟩
      intro _ hl
      exfalso
      simp only [drain_loop] at hl
      omega

theorem StepInv_emit (S : List Byte) (E : EncodeState) (n L0 : Nat) (h : StepInv S E n) :
    StepInv S (shift_mask (emit_unit E L0)) n := by
  unfold emit_unit shift_mask
  split_ifs <;>
    exact ⟨h.tree, h.n_le, h.r_eq, h.s_eq, h.len_eq, h.infile_eq, h.buf, h.live⟩

theorem emit_match_length (E : EncodeState) (L0 : Nat) :
    (shift_mask (emit_unit E L0)).g.match_length = if L0 ≤ THRESHOLD then 1 else L0 := by
  unfold emit_unit shift_mask
  split_ifs <;> rfl

theorem emit_len (E : EncodeState) (L0 : Nat) :
    (shift_mask (emit_unit E L0)).len = E.len := by
  unfold emit_unit shift_mask
  split_ifs <;> rfl

/-- One pass of the loop of `Encode` returns and advances the cursor by the
length of the unit that it emitted. -/
theorem encode_pass_spec (S : List Byte) (v : Bool) (E : EncodeState) (n : Nat)
    (h : StepInv S E n) (hlen : 0 < E.len) :
    ∃ E2, encode_pass v E = some E2 ∧
      StepInv S E2 (n + (shift_mask (emit_unit E (min E.g.match_length E.len))).g.match_length) ∧
      (0 < E2.len →
        MatchOK S E2
          (n + (shift_mask (emit_unit E (min E.g.match_length E.len))).g.match_length)) ∧
      E2.code_buf = (shift_mask (emit_unit E (min E.g.match_length E.len))).code_buf ∧
      E2.mask = (shift_mask (emit_unit E (min E.g.match_length E.len))).mask ∧
      E2.outfile = (shift_mask (emit_unit E (min E.g.match_length E.len))).outfile ∧
      E2.codesize = (shift_mask (emit_unit E (min E.g.match_length E.len))).codesize := by
  have hTH : THRESHOLD = 2 := rfl
  unfold encode_pass
  simp only
  have h1 := StepInv_emit S E n (min E.g.match_length E.len) h
  have hL := emit_match_length E (min E.g.match_length E.len)
  have hl := emit_len E (min E.g.match_length E.len)
  generalize shift_mask (emit_unit E (min E.g.match_length E.len)) = st1 at h1 hL hl ⊢
  have hL1 : 1 ≤ st1.g.match_length ∧ st1.g.match_length ≤ st1.len := by
    rw [hL, hl]
    split_ifs <;> omega
  obtain ⟨E1, j, r1, r2, r3, r4, r5, r6, r7, r8, r9, r10⟩ :=
    read_loop_spec S v st1.g.match_length 0 st1 n h1
  rw [r1]
  simp only [Nat.zero_add]
  by_cases c : j < st1.g.match_length
  · have hlen1 : st1.g.match_length - j ≤ E1.len := by
      have e1 := r3.len_eq
      have e2 := h1.len_eq
      have e3 := r3.n_le
      omega
    obtain ⟨E2, d1, d2, d3, d4, d5, d6, d7, d8⟩ :=
      drain_loop_spec S v (st1.g.match_length - j) E1 (n + j) r3 (r4 c) hlen1
    have e : n + j + (st1.g.match_length - j) = n + st1.g.match_length := by omega
    rw [e] at d2 d3
    exact ⟨E2, d1, d2, d3 (by omega), by rw [d5, r7], by rw [d6, r8], by rw [d7, r9],
      by rw [d8, r10]⟩
  · have e : st1.g.match_length - j = 0 := by omega
    have e2 : j = st1.g.match_length := by omega
    rw [e]
    refine ⟨E1, rfl, by rw [← e2]; exact r3, fun _ => ?_, r7, r8, r9, r10⟩
    rw [← e2]; exact r5 (by omega)

/-! ## The units written by the encoder of gbalzss.c -/

set_option maxRecDepth 100000 in
theorem flag_mark : ∀ c : Fin 256, ∀ j : Fin 8, c.val % 2 ^ (8 - j.val) = 0 →
    ((c.val ||| 2 ^ (7 - j.val)) % 256) / 2 ^ (8 - j.val) = c.val / 2 ^ (8 - j.val) ∧
    ((c.val ||| 2 ^ (7 - j.val)) % 256) % 2 ^ (7 - j.val) = 0 ∧
    (((c.val ||| 2 ^ (7 - j.val)) % 256) / 2 ^ (7 - j.val)) % 2 = 1 ∧
    (c.val / 2 ^ (7 - j.val)) % 2 = 0 ∧ c.val % 2 ^ (7 - j.val) = 0 := by
  decide

set_option maxRecDepth 100000 in
theorem flag_test : ∀ f : Fin 256, ∀ j : Fin 8,
    ((f.val * 2 ^ j.val) &&& 0x80 = 0) ↔ (f.val / 2 ^ (7 - j.val)) % 2 = 0 := by
  decide

set_option maxRecDepth 100000 in
theorem pair_fields : ∀ b : Fin 256,
    (b.val <<< 8) &&& 0xf00 = (b.val % 16) * 256 ∧ (b.val >>> 4) &&& 0x0f = b.val / 16 := by
  decide

theorem getD_append_left (l x : List Byte) (t : Nat) (h : t < l.length) :
    (l ++ x).getD t 0 = l.getD t 0 := by
  rw [List.getD_eq_getElem?_getD, List.getD_eq_getElem?_getD, List.getElem?_append_left h]

theorem getD_append_right (l x : List Byte) (t : Nat) :
    (l ++ x).getD (l.length + t) 0 = x.getD t 0 := by
  rw [List.getD_eq_getElem?_getD, List.getD_eq_getElem?_getD,
    List.getElem?_append_right (by omega)]
  congr 2
  omega

theorem getD_set_zero_ne (l : List Byte) (x : Byte) (t : Nat) (h : 1 ≤ t) :
    (l.set 0 x).getD t 0 = l.getD t 0 := by
  rw [List.getD_eq_getElem?_getD, List.getD_eq_getElem?_getD,
    List.getElem?_set_ne (by omega)]

theorem getD_set_zero (l : List Byte) (x : Byte) (h : 1 ≤ l.length) :
    (l.set 0 x).getD 0 0 = x := by
  rw [List.getD_eq_getElem?_getD, List.getElem?_set_self (by omega)]
  rfl

/-- The unit that one pass of `Encode` adds, and the state of the group after
the mask shift: `cbm` is `code_buf` with the unit added. -/
theorem emit_desc (S : List Byte) (E : EncodeState) (L0 j : Nat) (hO : OutInv S E j) :
    ∃ cbm : List Byte,
      (∀ t, 1 ≤ t → t < E.code_buf.length → cbm.getD t 0 = E.code_buf.getD t 0) ∧
      ((L0 ≤ THRESHOLD ∧ cbm.length = E.code_buf.length + 1 ∧
          cbm.getD 0 0 = E.code_buf.getD 0 0 ∧
          cbm.getD E.code_buf.length 0 = u8 (E.g.text_buf E.r)) ∨
        (THRESHOLD < L0 ∧ cbm.length = E.code_buf.length + 2 ∧
          cbm.getD 0 0 = u8 ((E.code_buf.getD 0 0).val ||| E.mask) ∧
          cbm.getD E.code_buf.length 0 = pair_byte1 E.r E.g.match_position L0 ∧
          cbm.getD (E.code_buf.length + 1) 0 = pair_byte2 E.r E.g.match_position)) ∧
      ((E.mask / 2 = 0 ∧
          (shift_mask (emit_unit E L0)).outfile = E.outfile ++ cbm ∧
          (shift_mask (emit_unit E L0)).code_buf = [0] ∧
          (shift_mask (emit_unit E L0)).mask = 0x80 ∧
          (shift_mask (emit_unit E L0)).codesize = E.codesize + cbm.length) ∨
        (E.mask / 2 ≠ 0 ∧
          (shift_mask (emit_unit E L0)).outfile = E.outfile ∧
          (shift_mask (emit_unit E L0)).code_buf = cbm ∧
          (shift_mask (emit_unit E L0)).mask = E.mask / 2 ∧
          (shift_mask (emit_unit E L0)).codesize = E.codesize)) := by
  have hcb : 1 ≤ E.code_buf.length := by
    by_cases c : j = 0
    · rw [hO.cb_zero c]
    · have := hO.cb_more (by omega); omega
  by_cases c1 : L0 ≤ THRESHOLD
  · refine ⟨E.code_buf ++ [u8 (E.g.text_buf E.r)],
      fun t _ ht => getD_append_left _ _ t ht,
      Or.inl ⟨c1, by simp, getD_append_left _ _ 0 (by omega), ?_⟩, ?_⟩
    · have := getD_append_right E.code_buf [u8 (E.g.text_buf E.r)] 0
      rw [Nat.add_zero] at this
      rw [this]; rfl
    · unfold emit_unit shift_mask
      rw [if_pos c1]
      by_cases c2 : E.mask / 2 = 0
      · left
        simp only [c2, if_true]
        exact ⟨trivial, trivial, trivial, trivial, trivial⟩
      · right
        simp only [c2, if_false]
        exact ⟨c2, trivial, trivial, trivial, trivial⟩
  · refine ⟨(E.code_buf.set 0 (u8 ((E.code_buf.getD 0 0).val ||| E.mask)))
        ++ [pair_byte1 E.r E.g.match_position L0, pair_byte2 E.r E.g.match_position],
      ?_, Or.inr ⟨by omega, by simp, ?_, ?_, ?_⟩, ?_⟩
    · intro t h1 h2
      rw [getD_append_left _ _ t (by simpa using h2), getD_set_zero_ne _ _ t h1]
    · rw [getD_append_left _ _ 0 (by simpa using hcb), getD_set_zero _ _ hcb]
    · have := getD_append_right (E.code_buf.set 0 (u8 ((E.code_buf.getD 0 0).val ||| E.mask)))
        [pair_byte1 E.r E.g.match_position L0, pair_byte2 E.r E.g.match_position] 0
      rw [Nat.add_zero, List.length_set] at this
      rw [this]; rfl
    · have := getD_append_right (E.code_buf.set 0 (u8 ((E.code_buf.getD 0 0).val ||| E.mask)))
        [pair_byte1 E.r E.g.match_position L0, pair_byte2 E.r E.g.match_position] 1
      rw [List.length_set] at this
      rw [this]; rfl
    · unfold emit_unit shift_mask
      rw [if_neg c1]
      by_cases c2 : E.mask / 2 = 0
      · left
        simp only [c2, if_true]
        exact ⟨trivial, rfl, trivial, trivial, rfl⟩
      · right
        simp only [c2, if_false]
        exact ⟨c2, trivial, rfl, trivial, trivial⟩

theorem mask_half (j : Nat) (hj : j < 8) :
    (2 ^ (7 - j) / 2 = 0 ↔ j = 7) ∧ (j < 7 → 2 ^ (7 - j) / 2 = 2 ^ (7 - (j + 1))) ∧
      2 ^ (8 - j) = 2 ^ (7 - j) * 2 := by
  interval_cases j <;> simp

theorem OutInv_cb_pos (S : List Byte) (E : EncodeState) (j : Nat) (hO : OutInv S E j) :
    1 ≤ E.code_buf.length := by
  by_cases c : j = 0
  · rw [hO.cb_zero c]
  · have := hO.cb_more (by omega); omega

/-- The output side of the state after one unit was added. -/
theorem OutInv_emit (S : List Byte) (E : EncodeState) (L0 j : Nat) (hO : OutInv S E j) :
    OutInv S (shift_mask (emit_unit E L0)) ((j + 1) % 8) := by
  obtain ⟨m1, m2, m3⟩ := mask_half j hO.j_lt
  have hcb := OutInv_cb_pos S E j hO
  obtain ⟨cbm, e1, e2, e3⟩ := emit_desc S E L0 j hO
  have hlen : E.code_buf.length + 1 ≤ cbm.length := by
    rcases e2 with ⟨_, h, _⟩ | ⟨_, h, _⟩ <;> omega
  have hfm := flag_mark (E.code_buf.getD 0 0) ⟨j, hO.j_lt⟩ hO.low
  simp only at hfm
  have hlow : (cbm.getD 0 0).val % 2 ^ (7 - j) = 0 := by
    rcases e2 with ⟨_, _, h, _⟩ | ⟨_, _, h, _⟩
    · rw [h]; exact hfm.2.2.2.2
    · rw [h, u8_val, hO.mask_eq]; exact hfm.2.1
  rw [hO.mask_eq] at e3
  rcases e3 with ⟨f1, f2, f3, f4, f5⟩ | ⟨f1, f2, f3, f4, f5⟩
  · have hj : j = 7 := m1.mp f1
    subst hj
    refine ⟨by decide, by rw [f4]; rfl, ?_, ?_, by rw [f3]; rfl, fun _ => by rw [f3]; rfl,
      fun h => absurd h (by decide), ?_⟩
    · rw [f2, List.length_append]; have := hO.hdr_len; omega
    · rw [f2, List.take_append_of_le_length hO.hdr_len]; exact hO.hdr
    · rw [f2, f5, List.length_append]; have := hO.size; omega
  · have hj : j < 7 := by
      have := hO.j_lt
      by_contra c
      exact f1 (m1.mpr (by omega))
    have ej : (j + 1) % 8 = j + 1 := Nat.mod_eq_of_lt (by omega)
    rw [ej]
    refine ⟨by omega, by rw [f4]; exact m2 hj, by rw [f2]; exact hO.hdr_len,
      by rw [f2]; exact hO.hdr, ?_,
      fun h => absurd h (by omega), fun _ => by rw [f3]; omega, by rw [f2, f5]; exact hO.size⟩
    rw [f3]
    have e : 8 - (j + 1) = 7 - j := by omega
    rw [e]; exact hlow

/-- A stream that extends the state after a unit was added extends the state
before. -/
theorem Extends_back (S Fs : List Byte) (E : EncodeState) (L0 j : Nat) (hO : OutInv S E j)
    (hx : Extends Fs (shift_mask (emit_unit E L0)) ((j + 1) % 8)) : Extends Fs E j := by
  obtain ⟨m1, m2, m3⟩ := mask_half j hO.j_lt
  have hcb := OutInv_cb_pos S E j hO
  have h4 := hO.hdr_len
  obtain ⟨cbm, e1, e2, e3⟩ := emit_desc S E L0 j hO
  have hlen : E.code_buf.length + 1 ≤ cbm.length := by
    rcases e2 with ⟨_, h, _⟩ | ⟨_, h, _⟩ <;> omega
  have hfm := flag_mark (E.code_buf.getD 0 0) ⟨j, hO.j_lt⟩ hO.low
  simp only at hfm
  have htop : (cbm.getD 0 0).val / 2 ^ (8 - j) = (E.code_buf.getD 0 0).val / 2 ^ (8 - j) := by
    rcases e2 with ⟨_, _, h, _⟩ | ⟨_, _, h, _⟩
    · rw [h]
    · rw [h, u8_val, hO.mask_eq]; exact hfm.1
  rw [hO.mask_eq] at e3
  obtain ⟨x1, x2, x3⟩ := hx
  rcases e3 with ⟨f1, f2, f3, f4, f5⟩ | ⟨f1, f2, f3, f4, f5⟩
  · have hj : j = 7 := m1.mp f1
    subst hj
    rw [f2, List.length_append] at x1 x2
    simp only [Nat.reduceAdd, Nat.reduceMod, if_true, Nat.add_zero] at x1
    have hget : ∀ t, t < cbm.length →
        Fs.getD (E.outfile.length - 4 + t) 0 = cbm.getD t 0 := by
      intro t ht
      have := x2 (E.outfile.length - 4 + t) (by omega)
      rw [this]
      have e : 4 + (E.outfile.length - 4 + t) = E.outfile.length + t := by omega
      rw [e, getD_append_right]
    refine ⟨by simp only [if_neg (show ¬ (7 = 0) by decide)]; omega, ?_, fun _ => ⟨?_, ?_⟩⟩
    · intro t ht
      rw [x2 t (by omega), getD_append_left _ _ _ (by omega)]
    · intro t h1 h2
      rw [hget t (by omega), e1 t h1 h2]
    · have := hget 0 (by omega)
      rw [Nat.add_zero] at this
      rw [this]; exact htop
  · have hj : j < 7 := by
      have := hO.j_lt
      by_contra c
      exact f1 (m1.mpr (by omega))
    have ej : (j + 1) % 8 = j + 1 := Nat.mod_eq_of_lt (by omega)
    simp only [ej, f2, f3] at x1 x2 x3
    rw [if_neg (by omega)] at x1
    obtain ⟨y1, y2⟩ := x3 (by omega)
    refine ⟨by split_ifs <;> omega, x2, fun _ => ⟨?_, ?_⟩⟩
    · intro t h1 h2
      rw [y1 t h1 (by omega), e1 t h1 h2]
    · have e : 8 - (j + 1) = 7 - j := by omega
      rw [e] at y2
      rw [m3, ← Nat.div_div_eq_div_mul, ← Nat.div_div_eq_div_mul, y2,
        Nat.div_div_eq_div_mul, Nat.div_div_eq_div_mul, ← m3]
      exact htop

/-! ## The decoder of gbalzss.c on the units of the encoder -/

theorem u8_byte (x : Byte) : u8 x.val = x := by
  apply Fin.ext
  rw [u8_val]
  exact Nat.mod_eq_of_lt x.isLt

/-- The decoder stores and writes the next byte of the source. -/
theorem DecInv_put (S : List Byte) (D : DecodeState) (n c : Nat) (h : DecInv S D n)
    (hn : n < S.length) (hc : c = ext S (N - F + n)) :
    DecInv S (put_byte S.length D c) (n + 1) ∧
      (put_byte S.length D c).infile = D.infile ∧
      (put_byte S.length D c).flags = D.flags ∧ (put_byte S.length D c).z = D.z := by
  have hN : N = 4096 := rfl
  have hF : F = 18 := rfl
  refine ⟨⟨?_, ?_, ?_, ?_⟩, rfl, rfl, rfl⟩
  · show (D.r + 1) % N = (N - F + (n + 1)) % N
    rw [h.r_eq]; simp only [N, F]; omega
  · show D.cur_size + 1 = n + 1
    rw [h.cur]
  · show (if D.cur_size < S.length then D.outfile ++ [u8 c] else D.outfile) = S.take (n + 1)
    rw [h.cur, if_pos hn, h.out, hc, ext_source, u8_byte]
    exact take_snoc S n hn
  · intro u h1 h2
    show store D.text_buf D.r c (u % N) = ext S u
    by_cases e : u = N - F + n
    · rw [e, ← h.r_eq, store_same, hc]
    · have : u % N ≠ D.r := by
        rw [h.r_eq]; simp only [N, F] at h1 h2 e ⊢; omega
      rw [store_ne _ _ _ _ this]
      exact h.buf u (by omega) (by omega)

/-- The copy loop of the decoder on a match of the encoder: `delta` is the
distance of the match, `jj = delta - 1` the field read from the stream. -/
theorem copy_bytes_spec (S : List Byte) (jj delta : Nat) (hj : jj + 1 = delta)
    (hd : delta ≤ N) :
    ∀ (k : Nat) (D : DecodeState) (n : Nat), DecInv S D n → n + k ≤ S.length →
      delta ≤ N - F + n →
      (∀ t, t < k → ext S (N - F + n + t - delta) = ext S (N - F + n + t)) →
      DecInv S (copy_bytes S.length jj k D) (n + k) ∧
        (copy_bytes S.length jj k D).infile = D.infile ∧
        (copy_bytes S.length jj k D).flags = D.flags ∧
        (copy_bytes S.length jj k D).z = D.z := by
  have hN : N = 4096 := rfl
  have hF : F = 18 := rfl
  intro k
  induction k with
  | zero =>
    intro D n h _ _ _
    exact ⟨h, rfl, rfl, rfl⟩
  | succ k ih =>
    intro D n h h1 h2 h3
    unfold copy_bytes
    have epos : Int.toNat (((D.r : Int) - (jj : Int) - 1) % (N : Int))
        = (N - F + n - delta) % N := by
      rw [h.r_eq]; simp only [N, F] at hd h2 ⊢; omega
    rw [epos]
    have eb : D.text_buf ((N - F + n - delta) % N) = ext S (N - F + n) := by
      rw [h.buf (N - F + n - delta) (by omega) (by omega)]
      have := h3 0 (by omega)
      rw [Nat.add_zero] at this
      exact this
    obtain ⟨p1, p2, p3, p4⟩ := DecInv_put S D n _ h (by omega) eb
    obtain ⟨q1, q2, q3, q4⟩ := ih (put_byte S.length D (D.text_buf ((N - F + n - delta) % N)))
      (n + 1) p1 (by omega) (by omega)
      (fun t ht => by
        have := h3 (t + 1) (by omega)
        have e1 : N - F + (n + 1) + t = N - F + n + (t + 1) := by omega
        rw [e1]; exact this)
    have e : n + (k + 1) = n + 1 + k := by omega
    rw [e]
    exact ⟨q1, by rw [q2, p2], by rw [q3, p3], by rw [q4, p4]⟩

/-- The two bytes of a pair, as the decoder reads them back. -/
theorem pair_bytes_decode (r mp L0 : Nat) (h3 : 3 ≤ L0) (h18 : L0 ≤ 18) :
    (pair_byte2 r mp).val ||| (((pair_byte1 r mp L0).val <<< 8) &&& 0xf00)
        = Int.toNat (((r : Int) - (mp : Int) - 1) % (N : Int)) ∧
      (((pair_byte1 r mp L0).val >>> 4) &&& 0x0f) + THRESHOLD + 1 = L0 := by
  have hN : N = 4096 := rfl
  have hTH : THRESHOLD = 2 := rfl
  have hhi : Int.toNat ((((r : Int) - (mp : Int) - 1) >>> (8 : Nat)) % 16)
      = Int.toNat (((r : Int) - (mp : Int) - 1) % 4096) / 256 := by
    rw [Int.shiftRight_eq_div_pow]
    omega
  have hlo : Int.toNat (((r : Int) - (mp : Int) - 1) % 256)
      = Int.toNat (((r : Int) - (mp : Int) - 1) % 4096) % 256 := by
    omega
  have hd : Int.toNat (((r : Int) - (mp : Int) - 1) % 4096) < 4096 := by omega
  have eN : ((N : Nat) : Int) = 4096 := rfl
  rw [eN]
  generalize Int.toNat (((r : Int) - (mp : Int) - 1) % 4096) = d at hhi hlo hd ⊢
  have hb1 : (pair_byte1 r mp L0).val = 16 * (L0 - 3) + d / 256 := by
    unfold pair_byte1
    rw [u8_val, hhi, hTH, Nat.lor_comm, or_shift4 _ _ (by omega)]
    omega
  have hb2 : (pair_byte2 r mp).val = d % 256 := by
    unfold pair_byte2
    rw [u8_val, hlo]
    omega
  obtain ⟨f1, f2⟩ := pair_fields (pair_byte1 r mp L0)
  rw [f1, f2, hb1, hb2]
  constructor
  · have e : (16 * (L0 - 3) + d / 256) % 16 * 256 = (d / 256) <<< 8 := by
      rw [Nat.shiftLeft_eq]
      omega
    rw [e, Nat.lor_comm, or_shift8 _ _ (Nat.mod_lt _ (by decide))]
    omega
  · omega

theorem drop_getD_cons (Fs : List Byte) (k : Nat) (h : k < Fs.length) :
    Fs.drop k = Fs.getD k 0 :: Fs.drop (k + 1) := by
  rw [List.drop_eq_getElem_cons h, List.getD_eq_getElem?_getD, List.getElem?_eq_getElem h]
  rfl

/-- What a stream that extends the state after a unit was added holds at the
place of that unit and of the flag byte of its group. -/
theorem Extends_unit (S Fs : List Byte) (E : EncodeState) (L0 j : Nat) (hO : OutInv S E j)
    (hx : Extends Fs (shift_mask (emit_unit E L0)) ((j + 1) % 8)) :
    ∃ cbm : List Byte,
      ((L0 ≤ THRESHOLD ∧ cbm.length = E.code_buf.length + 1 ∧
          cbm.getD 0 0 = E.code_buf.getD 0 0 ∧
          cbm.getD E.code_buf.length 0 = u8 (E.g.text_buf E.r)) ∨
        (THRESHOLD < L0 ∧ cbm.length = E.code_buf.length + 2 ∧
          cbm.getD 0 0 = u8 ((E.code_buf.getD 0 0).val ||| E.mask) ∧
          cbm.getD E.code_buf.length 0 = pair_byte1 E.r E.g.match_position L0 ∧
          cbm.getD (E.code_buf.length + 1) 0 = pair_byte2 E.r E.g.match_position)) ∧
      E.outfile.length - 4 + cbm.length ≤ Fs.length ∧
      (∀ t, 1 ≤ t → t < cbm.length → Fs.getD (E.outfile.length - 4 + t) 0 = cbm.getD t 0) ∧
      (Fs.getD (E.outfile.length - 4) 0).val / 2 ^ (7 - j) = (cbm.getD 0 0).val / 2 ^ (7 - j) ∧
      ((j = 7 ∧
          (shift_mask (emit_unit E L0)).outfile.length = E.outfile.length + cbm.length) ∨
        (j < 7 ∧ (shift_mask (emit_unit E L0)).outfile.length = E.outfile.length ∧
          (shift_mask (emit_unit E L0)).code_buf.length = cbm.length)) := by
  obtain ⟨m1, m2, m3⟩ := mask_half j hO.j_lt
  have hcb := OutInv_cb_pos S E j hO
  have h4 := hO.hdr_len
  obtain ⟨cbm, e1, e2, e3⟩ := emit_desc S E L0 j hO
  have hlen : E.code_buf.length + 1 ≤ cbm.length := by
    rcases e2 with ⟨_, h, _⟩ | ⟨_, h, _⟩ <;> omega
  rw [hO.mask_eq] at e3
  obtain ⟨x1, x2, x3⟩ := hx
  refine ⟨cbm, e2, ?_⟩
  rcases e3 with ⟨f1, f2, f3, f4, f5⟩ | ⟨f1, f2, f3, f4, f5⟩
  · have hj : j = 7 := m1.mp f1
    subst hj
    rw [f2, List.length_append] at x1 x2
    simp only [Nat.reduceAdd, Nat.reduceMod, if_true, Nat.add_zero] at x1
    have hget : ∀ t, t < cbm.length →
        Fs.getD (E.outfile.length - 4 + t) 0 = cbm.getD t 0 := by
      intro t ht
      have := x2 (E.outfile.length - 4 + t) (by omega)
      rw [this]
      have e : 4 + (E.outfile.length - 4 + t) = E.outfile.length + t := by omega
      rw [e, getD_append_right]
    refine ⟨by omega, fun t _ ht => hget t ht, ?_, Or.inl ⟨rfl, ?_⟩⟩
    · have := hget 0 (by omega)
      rw [Nat.add_zero] at this
      rw [this]
    · rw [f2, List.length_append]
  · have hj : j < 7 := by
      have := hO.j_lt
      by_contra c
      exact f1 (m1.mpr (by omega))
    have ej : (j + 1) % 8 = j + 1 := Nat.mod_eq_of_lt (by omega)
    simp only [ej, f2, f3] at x1 x2 x3
    rw [if_neg (by omega)] at x1
    obtain ⟨y1, y2⟩ := x3 (by omega)
    have e : 8 - (j + 1) = 7 - j := by omega
    rw [e] at y2
    exact ⟨x1, y1, y2, Or.inr ⟨hj, by rw [f2], by rw [f3]⟩⟩

/-- The start of a pass of the decoder: it holds the flag byte of the group,
shifted by the units read, and is about to read the next unit. -/
theorem next_flags_sync (S Fs : List Byte) (E : EncodeState) (D : DecodeState) (j : Nat)
    (hO : OutInv S E j) (hY : Sync Fs E D j)
    (hlen : E.outfile.length - 4 + E.code_buf.length ≤ Fs.length) :
    ∃ D1, next_flags D = some D1 ∧
      D1.flags = (Fs.getD (E.outfile.length - 4) 0).val * 2 ^ j ∧ D1.z = j ∧
      D1.infile = Fs.drop (E.outfile.length - 4 + E.code_buf.length) ∧
      D1.text_buf = D.text_buf ∧ D1.r = D.r ∧ D1.cur_size = D.cur_size ∧
      D1.outfile = D.outfile ∧ D1.infile.length ≤ D.infile.length := by
  have hj := hO.j_lt
  unfold next_flags
  by_cases c : j = 0
  · subst c
    have hz : D.z + 1 = 8 := by rw [hY.z]
    have hcb := hO.cb_zero rfl
    rw [if_pos hz]
    have hin := hY.infile
    rw [if_pos rfl, Nat.add_zero, drop_getD_cons Fs _ (by omega)] at hin
    rw [hin]
    refine ⟨_, rfl, by simp, rfl, by simp only; rw [hcb], rfl, rfl, rfl, rfl, ?_⟩
    simp
  · have hz : ¬ (D.z + 1 = 8) := by rw [hY.z]; omega
    rw [if_neg hz]
    have hin := hY.infile
    rw [if_neg c] at hin
    refine ⟨_, rfl, ?_, ?_, hin, rfl, rfl, rfl, rfl, le_refl _⟩
    · show D.flags * 2 = _
      rw [hY.flags (by omega), Nat.mul_assoc]
      congr 1
      have e : j = (j - 1) + 1 := by omega
      rw [e, pow_succ]
      simp
    · show D.z + 1 = j
      rw [hY.z]; omega

set_option maxHeartbeats 800000 in
/-- One pass of the encoder is mirrored by one pass of the decoder, which
decodes the bytes of the source that the unit covers. -/
theorem pass_sim (S Fs : List Byte) (E : EncodeState) (n j : Nat) (D : DecodeState)
    (hS : StepInv S E n) (hM : MatchOK S E n) (hlen : 0 < E.len) (hO : OutInv S E j)
    (hx : Extends Fs (shift_mask (emit_unit E (min E.g.match_length E.len))) ((j + 1) % 8))
    (hD : DecInv S D n) (hY : Sync Fs E D j) :
    ∃ D2, (∀ fuel, decode_units S.length (fuel + 1) D = decode_units S.length fuel D2) ∧
      D2.infile.length + 1 ≤ D.infile.length ∧
      DecInv S D2
        (n + (shift_mask (emit_unit E (min E.g.match_length E.len))).g.match_length) ∧
      Sync Fs (shift_mask (emit_unit E (min E.g.match_length E.len))) D2 ((j + 1) % 8) := by
  have hN : N = 4096 := rfl
  have hF : F = 18 := rfl
  have hTH : THRESHOLD = 2 := rfl
  have hj := hO.j_lt
  have h4 := hO.hdr_len
  have hcb := OutInv_cb_pos S E j hO
  have hL := emit_match_length E (min E.g.match_length E.len)
  obtain ⟨cbm, e2, x1, x2, x3, x4⟩ :=
    Extends_unit S Fs E (min E.g.match_length E.len) j hO hx
  have hcl : E.code_buf.length + 1 ≤ cbm.length := by
    rcases e2 with ⟨_, h, _⟩ | ⟨_, h, _⟩ <;> omega
  obtain ⟨D1, n1, n2, n3, n4, n5, n6, n7, n8, n9⟩ :=
    next_flags_sync S Fs E D j hO hY (by omega)
  have hfm := flag_mark (E.code_buf.getD 0 0) ⟨j, hj⟩ hO.low
  have hft := flag_test (Fs.getD (E.outfile.length - 4) 0) ⟨j, hj⟩
  simp only at hfm hft
  rw [← n2, x3] at hft
  have hlenS := hS.len_eq
  have hnle := hS.n_le
  -- the state of the stream after the unit
  have hsync : ∀ D2 : DecodeState,
      D2.infile = Fs.drop (E.outfile.length - 4 + cbm.length) → D2.z = j →
      D2.flags = (Fs.getD (E.outfile.length - 4) 0).val * 2 ^ j →
      Sync Fs (shift_mask (emit_unit E (min E.g.match_length E.len))) D2 ((j + 1) % 8) := by
    intro D2 s1 s2 s3
    rcases x4 with ⟨y1, y2⟩ | ⟨y1, y2, y3⟩
    · subst y1
      refine ⟨?_, s2, fun h => absurd h (by decide)⟩
      rw [s1, y2]
      simp only [Nat.reduceAdd, Nat.reduceMod, if_true, Nat.add_zero]
      congr 1
      omega
    · have ej : (j + 1) % 8 = j + 1 := Nat.mod_eq_of_lt (by omega)
      rw [ej]
      refine ⟨?_, by rw [s2]; omega, fun _ => ?_⟩
      · rw [s1, y2, y3, if_neg (by omega)]
      · rw [s3, y2]; rfl
  have hinlen : ∀ D2 : DecodeState,
      D2.infile = Fs.drop (E.outfile.length - 4 + cbm.length) →
      D2.infile.length + 1 ≤ D.infile.length := by
    intro D2 s1
    rw [s1, hY.infile, List.length_drop, List.length_drop]
    split_ifs <;> omega
  have hr : E.g.text_buf E.r = ext S (N - F + n) := by
    have := BufInv_read _ S _ (N - F + n) 0 hS.buf (by omega) (by omega) (by omega)
    rw [Nat.add_zero, Nat.add_zero, ← hS.r_eq] at this
    exact this
  rcases e2 with ⟨l1, l2, l3, l4⟩ | ⟨l1, l2, l3, l4, l5⟩
  · -- a byte of the source
    rw [if_pos l1] at hL
    rw [hL]
    have htest : D1.flags &&& 0x80 = 0 := by
      rw [hft, l3]; exact hfm.2.2.2.1
    have hin : D1.infile = cbm.getD E.code_buf.length 0
        :: Fs.drop (E.outfile.length - 4 + cbm.length) := by
      rw [n4, drop_getD_cons Fs _ (by omega), x2 _ hcb (by omega)]
      congr 2
      omega
    have hc : (cbm.getD E.code_buf.length 0).val = ext S (N - F + n) := by
      rw [l4, u8_val, hr]
      exact Nat.mod_eq_of_lt (ext_lt _ _)
    have hD1 : DecInv S { D1 with infile := Fs.drop (E.outfile.length - 4 + cbm.length) } n :=
      ⟨by show D1.r = _; rw [n6]; exact hD.r_eq, by show D1.cur_size = _; rw [n7]; exact hD.cur,
        by show D1.outfile = _; rw [n8]; exact hD.out,
        by show ∀ u, _ → _ → D1.text_buf (u % N) = _; rw [n5]; exact hD.buf⟩
    obtain ⟨p1, p2, p3, p4⟩ := DecInv_put S
      { D1 with infile := Fs.drop (E.outfile.length - 4 + cbm.length) } n _ hD1
      (by omega) hc
    refine ⟨_, ?_, hinlen _ p2, p1, hsync _ p2 (by rw [p4]; exact n3) (by rw [p3]; exact n2)⟩
    intro fuel
    show decode_units S.length (fuel + 1) D = _
    rw [decode_units, n1]
    simp only [decode_unit, htest, if_true, hin]
  · -- a position and length pair
    rw [if_neg (by omega)] at hL
    rw [hL]
    have hml : 0 < E.g.match_length := by omega
    obtain ⟨u, u1, u2, u3, u4, u5⟩ := hM.2 hml
    have htest : ¬ (D1.flags &&& 0x80 = 0) := by
      rw [hft, l3, u8_val, hO.mask_eq, hfm.2.2.1]; decide
    have hin : D1.infile = pair_byte1 E.r E.g.match_position (min E.g.match_length E.len)
        :: pair_byte2 E.r E.g.match_position
        :: Fs.drop (E.outfile.length - 4 + cbm.length) := by
      rw [n4, drop_getD_cons Fs _ (by omega), x2 _ hcb (by omega), l4,
        drop_getD_cons Fs _ (by omega)]
      have e : E.outfile.length - 4 + E.code_buf.length + 1
          = E.outfile.length - 4 + (E.code_buf.length + 1) := by omega
      rw [e, x2 _ (by omega) (by omega), l5]
      congr 3
      omega
    obtain ⟨b1, b2⟩ := pair_bytes_decode E.r E.g.match_position (min E.g.match_length E.len)
      (by omega) (by have := hM.1; omega)
    have hD1 : DecInv S { D1 with infile := Fs.drop (E.outfile.length - 4 + cbm.length) } n :=
      ⟨by show D1.r = _; rw [n6]; exact hD.r_eq, by show D1.cur_size = _; rw [n7]; exact hD.cur,
        by show D1.outfile = _; rw [n8]; exact hD.out,
        by show ∀ u, _ → _ → D1.text_buf (u % N) = _; rw [n5]; exact hD.buf⟩
    have hjj : Int.toNat (((E.r : Int) - (E.g.match_position : Int) - 1) % (N : Int)) + 1
        = N - F + n - u := by
      rw [hS.r_eq, u1]
      simp only [N, F] at u2 u3 u4 ⊢
      omega
    obtain ⟨q1, q2, q3, q4⟩ := copy_bytes_spec S
      (Int.toNat (((E.r : Int) - (E.g.match_position : Int) - 1) % (N : Int)))
      (N - F + n - u) hjj (by omega) (min E.g.match_length E.len)
      { D1 with infile := Fs.drop (E.outfile.length - 4 + cbm.length) } n hD1
      (by omega) (by omega)
      (fun t ht => by
        have := u5 t (by omega) (by omega)
        have e : N - F + n + t - (N - F + n - u) = u + t := by omega
        rw [e]; exact this)
    refine ⟨_, ?_, hinlen _ q2, q1, hsync _ q2 (by rw [q4]; exact n3) (by rw [q3]; exact n2)⟩
    intro fuel
    show decode_units S.length (fuel + 1) D = _
    rw [decode_units, n1]
    simp only [decode_unit, htest, if_false, hin, b1, b2]

theorem OutInv_congr (S : List Byte) (E E2 : EncodeState) (j : Nat)
    (h1 : E2.code_buf = E.code_buf) (h2 : E2.mask = E.mask) (h3 : E2.outfile = E.outfile)
    (h4 : E2.codesize = E.codesize) (h : OutInv S E j) : OutInv S E2 j := by
  refine ⟨h.j_lt, ?_, ?_, ?_, ?_, ?_, ?_, ?_⟩
  · rw [h2]; exact h.mask_eq
  · rw [h3]; exact h.hdr_len
  · rw [h3]; exact h.hdr
  · rw [h1]; exact h.low
  · rw [h1]; exact h.cb_zero
  · rw [h1]; exact h.cb_more
  · rw [h3, h4]; exact h.size

theorem Extends_congr (Fs : List Byte) (E E2 : EncodeState) (j : Nat)
    (h1 : E2.code_buf = E.code_buf) (h3 : E2.outfile = E.outfile)
    (h : Extends Fs E2 j) : Extends Fs E j := by
  unfold Extends at h ⊢
  rw [h1, h3] at h
  exact h

theorem Sync_congr (Fs : List Byte) (E E2 : EncodeState) (D : DecodeState) (j : Nat)
    (h1 : E2.code_buf = E.code_buf) (h3 : E2.outfile = E.outfile)
    (h : Sync Fs E D j) : Sync Fs E2 D j := by
  refine ⟨?_, h.z, ?_⟩
  · rw [h1, h3]; exact h.infile
  · rw [h3]; exact h.flags

/-- Once the declared size is reached, the decoder writes nothing more, and
its loop ends when the input is used up. -/
theorem decode_units_tail (dsz : Nat) :
    ∀ (fuel : Nat) (D : DecodeState), dsz ≤ D.cur_size → D.infile.length < fuel →
      ∃ D2, decode_units dsz fuel D = some D2 ∧ D2.outfile = D.outfile := by
  have hput : ∀ (D : DecodeState) (c : Nat), dsz ≤ D.cur_size →
      (put_byte dsz D c).outfile = D.outfile ∧ dsz ≤ (put_byte dsz D c).cur_size ∧
        (put_byte dsz D c).infile = D.infile := by
    intro D c h
    refine ⟨?_, ?_, rfl⟩
    · show (if D.cur_size < dsz then D.outfile ++ [u8 c] else D.outfile) = D.outfile
      rw [if_neg (by omega)]
    · show dsz ≤ D.cur_size + 1
      omega
  have hcopy : ∀ (jj k : Nat) (D : DecodeState), dsz ≤ D.cur_size →
      (copy_bytes dsz jj k D).outfile = D.outfile ∧ dsz ≤ (copy_bytes dsz jj k D).cur_size ∧
        (copy_bytes dsz jj k D).infile = D.infile := by
    intro jj k
    induction k with
    | zero => intro D h; exact ⟨rfl, h, rfl⟩
    | succ k ih =>
      intro D h
      unfold copy_bytes
      obtain ⟨p1, p2, p3⟩ := hput D
        (D.text_buf (Int.toNat (((D.r : Int) - (jj : Int) - 1) % (N : Int)))) h
      obtain ⟨q1, q2, q3⟩ := ih _ p2
      exact ⟨by rw [q1, p1], q2, by rw [q3, p3]⟩
  intro fuel
  induction fuel with
  | zero => intro D _ h; omega
  | succ fuel ih =>
    intro D h1 h2
    unfold decode_units
    cases hn : next_flags D with
    | none => exact ⟨D, rfl, rfl⟩
    | some D1 =>
      simp only
      have hD1 : D1.outfile = D.outfile ∧ D1.cur_size = D.cur_size ∧
          D1.infile.length ≤ D.infile.length := by
        unfold next_flags at hn
        split_ifs at hn
        · cases hi : D.infile with
          | nil => rw [hi] at hn; simp at hn
          | cons c rest =>
            rw [hi] at hn
            simp only [Option.some.injEq] at hn
            rw [← hn]
            exact ⟨rfl, rfl, by simp⟩
        · simp only [Option.some.injEq] at hn
          rw [← hn]
          exact ⟨rfl, rfl, le_refl _⟩
      cases hu : decode_unit dsz D1 with
      | none => exact ⟨D1, rfl, hD1.1⟩
      | some D2 =>
        simp only
        have hD2 : D2.outfile = D1.outfile ∧ dsz ≤ D2.cur_size ∧
            D2.infile.length + 1 ≤ D1.infile.length := by
          unfold decode_unit at hu
          split_ifs at hu
          · cases hi : D1.infile with
            | nil => rw [hi] at hu; simp at hu
            | cons c rest =>
              rw [hi] at hu
              simp only [Option.some.injEq] at hu
              obtain ⟨p1, p2, p3⟩ := hput { D1 with infile := rest } c.val
                (by show dsz ≤ D1.cur_size; omega)
              rw [← hu]
              exact ⟨p1, p2, by rw [p3]; simp⟩
          · cases hi : D1.infile with
            | nil => rw [hi] at hu; simp at hu
            | cons c rest =>
              cases rest with
              | nil => rw [hi] at hu; simp at hu
              | cons c2 rest2 =>
                rw [hi] at hu
                simp only [Option.some.injEq] at hu
                obtain ⟨p1, p2, p3⟩ := hcopy (c2.val ||| ((c.val <<< 8) &&& 0xf00))
                  (((c.val >>> 4) &&& 0x0f) + THRESHOLD + 1) { D1 with infile := rest2 }
                  (by show dsz ≤ D1.cur_size; omega)
                rw [← hu]
                exact ⟨p1, p2, by rw [p3]; simp⟩
        obtain ⟨D3, t1, t2⟩ := ih D2 hD2.2.1 (by omega)
        exact ⟨D3, t1, by rw [t2, hD2.1, hD1.1]⟩

/-- The loop of `Encode` returns, and every stream that extends its final
state extends the state at the start and is decoded, by the loop of `Decode`,
to the rest of the source. -/
theorem encode_loop_sim (S : List Byte) (v : Bool) :
    ∀ (fuel : Nat) (E : EncodeState) (n j : Nat), StepInv S E n → MatchOK S E n →
      0 < E.len → OutInv S E j → S.length - n < fuel →
      ∃ E3 j3, encode_loop v fuel E = some E3 ∧ OutInv S E3 j3 ∧
        ∀ Fs, Extends Fs E3 j3 →
          Extends Fs E j ∧
          ∀ D, DecInv S D n → Sync Fs E D j →
            ∃ D3 k, (∀ fuel2, decode_units S.length (fuel2 + k) D
                = decode_units S.length fuel2 D3) ∧
              D3.infile.length + k ≤ D.infile.length ∧ DecInv S D3 S.length := by
  intro fuel
  induction fuel with
  | zero => intro E n j _ _ _ _ h; omega
  | succ fuel ih =>
    intro E n j hS hM hlen hO hf
    have hlen0 := hS.len_eq
    obtain ⟨E2, p1, p2, p3, p4, p5, p6, p7⟩ := encode_pass_spec S v E n hS hlen
    have hO1 := OutInv_emit S E (min E.g.match_length E.len) j hO
    have hO2 := OutInv_congr S _ E2 _ p4 p5 p6 p7 hO1
    have hL := emit_match_length E (min E.g.match_length E.len)
    have hL1 : 1 ≤ (shift_mask (emit_unit E (min E.g.match_length E.len))).g.match_length := by
      rw [hL]
      have hTH : THRESHOLD = 2 := rfl
      split_ifs <;> omega
    generalize hLdef :
      (shift_mask (emit_unit E (min E.g.match_length E.len))).g.match_length = L
      at p2 p3 hL1
    have hsim : ∀ Fs, Extends Fs E2 ((j + 1) % 8) →
        Extends Fs E j ∧
          ∀ D, DecInv S D n → Sync Fs E D j →
            ∃ D2, (∀ fuel2, decode_units S.length (fuel2 + 1) D
                = decode_units S.length fuel2 D2) ∧
              D2.infile.length + 1 ≤ D.infile.length ∧ DecInv S D2 (n + L) ∧
              Sync Fs E2 D2 ((j + 1) % 8) := by
      intro Fs x1
      have hx1 : Extends Fs (shift_mask (emit_unit E (min E.g.match_length E.len)))
          ((j + 1) % 8) := Extends_congr Fs _ E2 _ p4 p6 x1
      refine ⟨Extends_back S Fs E _ j hO hx1, fun D hD hY => ?_⟩
      obtain ⟨D2, s1, s2, s3, s4⟩ := pass_sim S Fs E n j D hS hM hlen hO hx1 hD hY
      rw [hLdef] at s3
      exact ⟨D2, s1, s2, s3, Sync_congr Fs _ E2 D2 _ p4 p6 s4⟩
    unfold encode_loop
    simp only [p1]
    by_cases c : E2.len > 0
    · rw [if_pos c]
      obtain ⟨E3, j3, q1, q2, q3⟩ := ih E2 (n + L) ((j + 1) % 8) p2 (p3 c) c hO2 (by omega)
      refine ⟨E3, j3, q1, q2, fun Fs hx => ?_⟩
      obtain ⟨x1, x2⟩ := q3 Fs hx
      obtain ⟨y1, y2⟩ := hsim Fs x1
      refine ⟨y1, fun D hD hY => ?_⟩
      obtain ⟨D2, s1, s2, s3, s4⟩ := y2 D hD hY
      obtain ⟨D3, k, t1, t2, t3⟩ := x2 D2 s3 s4
      refine ⟨D3, k + 1, fun fuel2 => ?_, by omega, t3⟩
      rw [← Nat.add_assoc, s1, t1]
    · rw [if_neg c]
      refine ⟨E2, (j + 1) % 8, rfl, hO2, fun Fs hx => ?_⟩
      obtain ⟨y1, y2⟩ := hsim Fs hx
      refine ⟨y1, fun D hD hY => ?_⟩
      obtain ⟨D2, s1, s2, s3, s4⟩ := y2 D hD hY
      have e : n + L = S.length := by
        have e1 := p2.len_eq
        have e2 := p2.n_le
        have hF : F = 18 := rfl
        omega
      rw [e] at s3
      exact ⟨D2, 1, s1, s2, s3⟩

/-! ## The start of the encoder of gbalzss.c -/

theorem TreeInv_init (tb rk : Nat → Nat) (g : Globals) :
    TreeInv tb (InitTree g).lson (InitTree g).rson (InitTree g).dad rk := by
  have hNIL : NIL = N := rfl
  have hd : ∀ x, x < N → (InitTree g).dad x = NIL := by
    intro x hx
    show (if x < N then NIL else g.dad x) = NIL
    rw [if_pos hx]
  refine ⟨fun x hx h => absurd (hd x hx) h, fun x hx h => absurd (hd x hx) h,
    fun x hx h => absurd (hd x hx) h, fun x hx h => absurd (hd x hx) h, ?_⟩
  intro c hc h
  exfalso
  apply h
  show (if N + 1 ≤ N + 1 + c ∧ N + 1 + c ≤ N + 256 then NIL else g.rson (N + 1 + c)) = NIL
  rw [if_pos (by omega)]

/-- The loop that inserts the `F` strings that start in the `0xff` bytes
before the first byte of the source. -/
theorem insert_initial_spec (v : Bool) :
    ∀ (cnt i : Nat) (g : Globals), i + cnt = F + 1 → 1 ≤ i →
      (∃ rk, TreeInv g.text_buf g.lson g.rson g.dad rk) →
      (∀ x, x < N - F → g.text_buf x = 0xff) →
      (∀ x, x < N → g.dad x ≠ NIL → N - F - i < x ∧ x < N - F) →
      ∃ g1, insert_initial v (N - F) cnt i g = some g1 ∧
        (∃ rk, TreeInv g1.text_buf g1.lson g1.rson g1.dad rk) ∧
        g1.text_buf = g.text_buf ∧
        (∀ x, x < N → g1.dad x ≠ NIL → N - 2 * F ≤ x ∧ x < N - F) := by
  have hN : N = 4096 := rfl
  have hF : F = 18 := rfl
  intro cnt
  induction cnt with
  | zero =>
    intro i g h1 _ hT _ hl
    refine ⟨g, rfl, hT, rfl, fun x hx hd => ?_⟩
    have := hl x hx hd
    omega
  | succ cnt ih =>
    intro i g h1 h2 hT htb hl
    obtain ⟨rk, hT⟩ := hT
    have hfresh : g.dad (N - F - i) = NIL := by
      by_contra c
      have := hl (N - F - i) (by omega) c
      omega
    obtain ⟨g1, rk1, i1, i2, i3, _, i5⟩ := InsertNode_spec g rk (N - F - i) v hT (by omega)
      hfresh (by rw [htb _ (by omega)]; decide)
    obtain ⟨g2, j1, j2, j3, j4⟩ := ih (i + 1) g1 (by omega) (by omega) ⟨rk1, i2⟩
      (by rw [i3]; exact htb)
      (fun x hx hd => by
        rcases i5 x hx hd with e | e
        · omega
        · have := hl x hx e; omega)
    refine ⟨g2, ?_, j2, by rw [j3, i3], j4⟩
    unfold insert_initial
    simp only [i1]
    exact j1

theorem getD_take (S : List Byte) (k i : Nat) (h : i < k) :
    (S.take k).getD i 0 = S.getD i 0 := by
  rw [List.getD_eq_getElem?_getD, List.getD_eq_getElem?_getD, List.getElem?_take, if_pos h]

/-- The state in which `Encode` enters its loop, for a source that is not
empty. -/
theorem encode_start_spec (S : List Byte) (v : Bool) (hS : S ≠ []) :
    ∃ g1 g2, insert_initial v (N - F) F 1 (encode_start S).g = some g1 ∧
      InsertNode g1 (N - F) v = some g2 ∧
      StepInv S { encode_start S with g := g2 } 0 ∧
      MatchOK S { encode_start S with g := g2 } 0 ∧
      OutInv S { encode_start S with g := g2 } 0 ∧
      0 < (encode_start S).len := by
  have hN : N = 4096 := rfl
  have hF : F = 18 := rfl
  have hpos : 0 < S.length := List.length_pos.mpr hS
  have hlen : (encode_start S).len = min F S.length := by
    show (S.take F).length = _
    rw [List.length_take]
  have htb : ∀ x, (encode_start S).g.text_buf x
      = if N - F ≤ x ∧ x < N - F + (S.take F).length then ((S.take F).getD (x - (N - F)) 0).val
        else (if x < N - F then 0xff else 0) := by
    intro x
    show store_list _ (N - F) (S.take F) x = _
    rw [store_list_get]
    rfl
  have hbuf : BufInv (encode_start S).g.text_buf S (N - F + 0 + (encode_start S).len) := by
    rw [hlen]
    constructor
    · intro u h1 h2
      have e : u % N = u := Nat.mod_eq_of_lt (by omega)
      rw [e, htb, List.length_take]
      unfold ext
      by_cases c : u < N - F
      · rw [if_neg (by omega), if_pos c, if_pos c]
      · rw [if_pos (by omega), if_neg c, getD_take _ _ _ (by omega)]
    · intro u h0 h1 _ _
      omega
  obtain ⟨g1, a1, a2, a3, a4⟩ := insert_initial_spec v F 1 (encode_start S).g (by omega)
    (le_refl _) ⟨fun _ => 0, TreeInv_init _ (fun _ => 0) Globals.start⟩
    (fun x hx => by rw [htb, if_neg (by omega), if_pos hx])
    (fun x hx hd => by
      exfalso
      apply hd
      show (if x < N then NIL else _) = NIL
      rw [if_pos hx])
  obtain ⟨g2, b1, b2, b3, b4, b5, b6⟩ := insert_step S v g1 0 (encode_start S).len a2
    (by rw [a3]; exact hbuf) (by rw [hlen]; omega) (by rw [hlen]; omega)
    (fun x hx hd => by
      have := a4 x hx hd
      exact ⟨x, (Nat.mod_eq_of_lt hx).symm, Nat.zero_le _, this.1, by omega⟩)
  have e0 : (N - F + 0) % N = N - F := by simp only [N, F]
  rw [e0] at b1
  refine ⟨g1, g2, a1, b1, ?_, ⟨b5, b6⟩, ?_, by rw [hlen]; omega⟩
  · refine ⟨b2, Nat.zero_le _, by show N - F = _; rw [e0], rfl, hlen, ?_, ?_, b4⟩
    · show S.drop F = S.drop (0 + (S.take F).length)
      rw [List.length_take, Nat.zero_add]
      by_cases c : F ≤ S.length
      · rw [Nat.min_eq_left c]
      · rw [Nat.min_eq_right (by omega), List.drop_eq_nil_of_le (by omega),
          List.drop_eq_nil_of_le (le_refl _)]
    · show BufInv g2.text_buf S _
      rw [b3, a3]; exact hbuf
  · refine ⟨by decide, rfl, ?_, ?_, ?_, fun _ => rfl, fun h => absurd h (by decide), rfl⟩
    · show 4 ≤ (gba_header S.length).length
      exact le_refl _
    · show (gba_header S.length).take 4 = gba_header S.length
      rfl
    · show (([0] : List Byte).getD 0 0).val % 2 ^ (8 - 0) = 0
      rfl

/-! ## The round trip of gbalzss.c -/

theorem getD_drop (l : List Byte) (k t : Nat) : (l.drop k).getD t 0 = l.getD (k + t) 0 := by
  rw [List.getD_eq_getElem?_getD, List.getD_eq_getElem?_getD, List.getElem?_drop]

/-- What `Encode` writes in the end is the header followed by a stream that
extends the final state of its loop. -/
theorem Extends_finish (S : List Byte) (E : EncodeState) (j : Nat) (hO : OutInv S E j) :
    ∃ Fs, encode_finish E = gba_header S.length ++ Fs ∧ Extends Fs E j := by
  have h4 := hO.hdr_len
  have hpad : ∃ pad, encode_finish E
      = E.outfile ++ ((if 1 < E.code_buf.length then E.code_buf else []) ++ pad) := by
    unfold encode_finish
    simp only
    by_cases c : E.code_buf.length > 1
    · simp only [if_pos c]
      split_ifs
      · exact ⟨List.replicate (4 - (E.codesize + E.code_buf.length) % 4) 0,
          by rw [List.append_assoc]⟩
      · exact ⟨[], by simp⟩
    · simp only [if_neg c]
      split_ifs
      · exact ⟨List.replicate (4 - E.codesize % 4) 0, by simp⟩
      · exact ⟨[], by simp⟩
  obtain ⟨pad, hp⟩ := hpad
  have hout : E.outfile = gba_header S.length ++ E.outfile.drop 4 := by
    rw [← hO.hdr, List.take_append_drop]
  refine ⟨E.outfile.drop 4 ++ ((if 1 < E.code_buf.length then E.code_buf else []) ++ pad),
    ?_, ?_, ?_, ?_⟩
  · rw [hp]
    conv_lhs => rw [hout]
    rw [List.append_assoc]
  · rw [List.length_append, List.length_append, List.length_drop]
    by_cases c : j = 0
    · rw [if_pos c]; omega
    · have := hO.cb_more (by omega)
      rw [if_neg c, if_pos this]; omega
  · intro t ht
    rw [getD_append_left _ _ _ (by rw [List.length_drop]; exact ht), getD_drop]
  · intro hj
    have hc := hO.cb_more hj
    rw [if_pos hc]
    have hget : ∀ t, t < E.code_buf.length →
        (E.outfile.drop 4 ++ (E.code_buf ++ pad)).getD (E.outfile.length - 4 + t) 0
          = E.code_buf.getD t 0 := by
      intro t ht
      have := getD_append_right (E.outfile.drop 4) (E.code_buf ++ pad) t
      rw [List.length_drop] at this
      rw [this, getD_append_left _ _ _ ht]
    refine ⟨fun t _ ht => hget t ht, ?_⟩
    have := hget 0 (by omega)
    rw [Nat.add_zero] at this
    rw [this]

/-- The declared size that `Decode` reads from the header of `Encode`. -/
theorem gba_header_size (n : Nat) (h : n < 2 ^ 24) (Fs : List Byte) :
    ∃ a b c d : Byte, gba_header n ++ Fs = a :: b :: c :: d :: Fs ∧
      b.val + c.val * 2 ^ 8 + d.val * 2 ^ 16 = n := by
  refine ⟨u8 ((0x10 + n * 2 ^ 8) % 2 ^ 32), u8 ((0x10 + n * 2 ^ 8) % 2 ^ 32 / 2 ^ 8),
    u8 ((0x10 + n * 2 ^ 8) % 2 ^ 32 / 2 ^ 16), u8 ((0x10 + n * 2 ^ 8) % 2 ^ 32 / 2 ^ 24),
    rfl, ?_⟩
  simp only [u8_val, Nat.reducePow] at h ⊢
  omega

/-- The round trip of gbalzss.c where `Decode` finds zero in the bytes of
`gbaheader` that it does not store (as where `unsigned long` has 32 bits): for
every source `S` of fewer than `2 ^ 24` bytes and either value of the flag
`VRAMSafe`, `Encode` returns an output, whose header declares the length of
`S`, and `Decode` of that output returns exactly `S`. -/
theorem Encode_Decode_exact (S : List Byte) (v : Bool) (h : S.length < 2 ^ 24) :
    ∃ X, Encode S v = some X ∧ Decode 0 X = some S ∧
      ∃ (a b c d : Byte) (Fs : List Byte), X = a :: b :: c :: d :: Fs ∧
        b.val + c.val * 2 ^ 8 + d.val * 2 ^ 16 = S.length := by
  have hN : N = 4096 := rfl
  have hF : F = 18 := rfl
  by_cases hS : S = []
  · subst hS
    exact ⟨gba_header 0, rfl, by decide!, 0x10, 0, 0, 0, [], rfl, rfl⟩
  obtain ⟨g1, g2, s1, s2, s3, s4, s5, s6⟩ := encode_start_spec S v hS
  obtain ⟨E3, j3, l1, l2, l3⟩ := encode_loop_sim S v (S.length + 1)
    { encode_start S with g := g2 } 0 0 s3 s4 s6 s5 (by omega)
  obtain ⟨Fs, f1, f2⟩ := Extends_finish S E3 j3 l2
  obtain ⟨a, b, c, d, h1, h2⟩ := gba_header_size S.length h Fs
  refine ⟨encode_finish E3, ?_, ?_, a, b, c, d, Fs, by rw [f1, h1], h2⟩
  · unfold Encode
    rw [if_neg (by omega)]
    simp only [s1, s2, l1]
  · rw [f1, h1]
    obtain ⟨_, x2⟩ := l3 Fs f2
    obtain ⟨D3, k, t1, t2, t3⟩ := x2
      { text_buf := fun k => if k < N - F then 0xff else Globals.start.text_buf k
        r := N - F, flags := 7, z := 7, cur_size := 0
        infile := Fs, outfile := [] }
      ⟨by show N - F = (N - F + 0) % N; simp only [N, F], rfl, rfl,
        fun u hu _ => by
          show (if u % N < N - F then 0xff else _) = ext S u
          have e : u % N = u := Nat.mod_eq_of_lt (by omega)
          rw [e, if_pos (by omega)]
          unfold ext
          rw [if_pos (by omega)]⟩
      ⟨rfl, rfl, fun hj => absurd hj (Nat.lt_irrefl 0)⟩
    have hk : D3.infile.length + k ≤ Fs.length := t2
    have e : Fs.length + 1 = (Fs.length + 1 - k) + k := by omega
    obtain ⟨D4, u1, u2⟩ := decode_units_tail S.length (Fs.length + 1 - k) D3
      (by rw [t3.cur]) (by omega)
    have hrun := Decode_cons 0 a b c d Fs D4
      (by rw [Nat.zero_mul, Nat.add_zero, h2, e, t1]; exact u1)
    rw [hrun, u2, t3.out, List.take_length]

/-- C26 (what the code does): `Decode` stores the four header bytes into the
first four bytes of its local `u32 gbaheader`, an `unsigned long` without
initialiser, and takes `decomp_size = gbaheader>>8`.  Where `unsigned long` is
wider than 32 bits, the bytes not stored are part of `decomp_size`, and the
test `cur_size<decomp_size` lets the padding through when they are not zero:
for the one byte `41`, `Encode` writes `10 01 00 00 00 41 00 00`, and `Decode`
of these bytes writes `41 00 00` for every non-zero value `upper` of the bytes
not stored, and `41` when they are zero.  In general, for every source `S` of
fewer than `2 ^ 24` bytes, either value of `VRAMSafe` and every value of
`upper`, `Encode` returns an output and `Decode` returns one that starts with
`S`; it is exactly `S` when `upper` is zero. -/
theorem Decode_writes_padding :
    (Encode [0x41] VRAMSafe = some [0x10, 0x01, 0x00, 0x00, 0x00, 0x41, 0x00, 0x00] ∧
      Decode 0 [0x10, 0x01, 0x00, 0x00, 0x00, 0x41, 0x00, 0x00] = some [0x41] ∧
      ∀ upper, 0 < upper →
        Decode upper [0x10, 0x01, 0x00, 0x00, 0x00, 0x41, 0x00, 0x00]
          = some [0x41, 0x00, 0x00]) ∧
    (∀ (S : List Byte) (v : Bool) (upper : Nat), S.length < 2 ^ 24 →
      ∃ X out, Encode S v = some X ∧ Decode upper X = some out ∧
        out.take S.length = S ∧ (upper = 0 → out = S)) := by
  refine ⟨⟨by decide!, by decide!, fun upper hu => ?_⟩, fun S v upper h => ?_⟩
  · exact Decode_of_run upper 0x10 0x01 0x00 0x00 [0x00, 0x41, 0x00, 0x00] 3 3 _
      (by decide!) (Nat.le_refl _)
      (by show 3 ≤ 1 + 0 * 2 ^ 8 + 0 * 2 ^ 16 + upper * 2 ^ 24; omega)
  · obtain ⟨X, hX, hD, a, b, c, d, Fs, hc, hn⟩ := Encode_Decode_exact S v h
    rw [hc] at hD
    obtain ⟨out, ho, ht⟩ := Decode_take upper a b c d Fs S hD
    rw [hn] at ht
    refine ⟨X, out, hX, by rw [hc]; exact ho, ht, fun hu => ?_⟩
    rw [hu, hD] at ho
    exact (Option.some.inj ho).symm

/-! ## The size of the encoder output -/

/-- The payload of a compressed chunk is not longer than the chunk. -/
theorem match_payload_length_le (mode : LZSS_t) (tmplen disp : Nat) (h : 3 ≤ tmplen) :
    (match_payload mode tmplen disp).length ≤ tmplen := by
  unfold match_payload
  split
  · simp; omega
  · split
    · simp; omega
    · split
      · simp; omega
      · simp; omega

/-- An iteration of the loop of `lzss_encode` inside the source leaves the
cursor inside the source or at its end. -/
theorem lzss_iter_it_le (source : Buffer) (mode : LZSS_t) (vram : Bool) (E : EncState)
    (hit : E.it < source.length) : (lzss_iter source mode vram E).it ≤ source.length := by
  obtain ⟨_, _, s3⟩ := lzss_iter_shape source mode vram E
  rcases s3 with ⟨_, h, _⟩ | ⟨h3, h, _⟩
  · omega
  · have hg := lzss_select_spec source mode vram E.it hit h3
    have := hg.2.2.1
    rw [Nat.le_min] at this
    omega

theorem next_code_bit_size (E : EncState) (c : Nat) (hc : 8 * c ≤ E.it + E.shift)
    (hs : E.shift ≤ 8) :
    ∃ c1, (next_code_bit E).result.length + c = E.result.length + c1 ∧
      8 * c1 ≤ E.it + 1 + (next_code_bit E).shift ∧ (next_code_bit E).shift ≤ 7 := by
  unfold next_code_bit
  by_cases h0 : E.shift = 0
  · refine ⟨c + 1, ?_, ?_, ?_⟩
    · simp [h0]; omega
    · simp [h0]; omega
    · simp [h0]
  · refine ⟨c, ?_, ?_, ?_⟩
    · simp [h0]
    · simp [h0]; omega
    · simp [h0]; omega

/-- Size accounting of one iteration of the loop of `lzss_encode`: with `c`
code bytes for the units so far, the buffer holds at most the header, one
byte per source byte consumed, and the code bytes. -/
theorem lzss_iter_size (source : Buffer) (mode : LZSS_t) (vram : Bool) (E : EncState)
    (c : Nat) (hl : E.result.length ≤ 4 + E.it + c) (hc : 8 * c ≤ E.it + E.shift)
    (hs : E.shift ≤ 8) :
    ∃ c1, (lzss_iter source mode vram E).result.length
        ≤ 4 + (lzss_iter source mode vram E).it + c1 ∧
      8 * c1 ≤ (lzss_iter source mode vram E).it + (lzss_iter source mode vram E).shift ∧
      (lzss_iter source mode vram E).shift ≤ 7 := by
  obtain ⟨c1, n1, n2, n3⟩ := next_code_bit_size E c hc hs
  obtain ⟨_, s2, s3⟩ := lzss_iter_shape source mode vram E
  refine ⟨c1, ?_, ?_, by rw [s2]; exact n3⟩
  · rcases s3 with ⟨_, h, hr⟩ | ⟨h3, h, hr⟩
    · rw [hr, h, List.length_append, List.length_singleton]; omega
    · have := match_payload_length_le mode _
        (E.it - (lzss_select source mode vram E.it).1 - 1) h3
      rw [hr, h, List.length_append, mark_code_length]; omega
  · rw [s2]
    rcases s3 with ⟨_, h, _⟩ | ⟨h3, h, _⟩ <;> omega

theorem lzss_loop_size (source : Buffer) (mode : LZSS_t) (vram : Bool) (fuel : Nat) :
    ∀ (E : EncState) (c : Nat), E.it ≤ source.length → E.result.length ≤ 4 + E.it + c →
      8 * c ≤ E.it + E.shift → E.shift ≤ 8 → (E.shift = 8 → c ≤ 1) →
      ∃ c1, (lzss_loop source mode vram fuel E).result.length ≤ 4 + source.length + c1 ∧
        c1 ≤ max 1 ((source.length + 7) / 8) := by
  induction fuel with
  | zero =>
    intro E c hit hl hc hs h8
    rw [lzss_loop]
    refine ⟨c, by omega, ?_⟩
    rw [le_max_iff]
    by_cases e : E.shift = 8
    · left; exact h8 e
    · right; omega
  | succ n ih =>
    intro E c hit hl hc hs h8
    rw [lzss_loop]
    by_cases hlt : E.it < source.length
    · rw [if_pos hlt]
      obtain ⟨c1, i1, i2, i3⟩ := lzss_iter_size source mode vram E c hl hc hs
      exact ih _ c1 (lzss_iter_it_le source mode vram E hlt) i1 i2 (by omega) (by omega)
    · rw [if_neg hlt]
      refine ⟨c, by omega, ?_⟩
      rw [le_max_iff]
      by_cases e : E.shift = 8
      · left; exact h8 e
      · right; omega

/-- C31: compressed size bound.  For every source `S` of `n` bytes, each mode
and vram flag, the length of `lzss_encode S mode vram` is at most
`4 + n + max(1, ceil(n / 8))` rounded up to a multiple of 4; for
`n ≤ 0x00FFFFFF` (`LZSS_MAX_ENCODE_LEN`) it is therefore at most
`LZSS_MAX_DECODE_LEN`, the limit of `read_file` for a file to decode, so that
`read_file` accepts the encoder's output. -/
theorem lzss_encode_size_bound (S : Buffer) (mode : LZSS_t) (vram : Bool) :
    (lzss_encode S mode vram).length
        ≤ (4 + S.length + max 1 ((S.length + 7) / 8) + 3) / 4 * 4 ∧
      (S.length ≤ LZSS_MAX_ENCODE_LEN →
        (lzss_encode S mode vram).length ≤ LZSS_MAX_DECODE_LEN ∧
        read_file (lzss_encode S mode vram) LZSS_MAX_DECODE_LEN
          = .ok (lzss_encode S mode vram)) := by
  obtain ⟨c1, h1, h2⟩ := lzss_loop_size S mode vram S.length (lzss_init S mode) 1
    (Nat.zero_le _) (by simp [lzss_init, header]) (by simp [lzss_init])
    (by simp [lzss_init]) (fun _ => Nat.le_refl _)
  obtain ⟨k, hk, hp, hm⟩ := pad4_eq (lzss_body S mode vram)
  have hlen : (lzss_encode S mode vram).length = (lzss_body S mode vram).length + k := by
    unfold lzss_encode
    rw [hp, List.length_append, List.length_replicate]
  have hb : (lzss_body S mode vram).length ≤ 4 + S.length + max 1 ((S.length + 7) / 8) := by
    unfold lzss_body
    omega
  have hbound : (lzss_encode S mode vram).length
      ≤ (4 + S.length + max 1 ((S.length + 7) / 8) + 3) / 4 * 4 := by
    rw [hlen]; omega
  refine ⟨hbound, fun hn => ?_⟩
  have hmax : max 1 ((S.length + 7) / 8) ≤ 1 + (S.length + 7) / 8 := by
    rw [Nat.max_le]; omega
  have hd : (lzss_encode S mode vram).length ≤ LZSS_MAX_DECODE_LEN := by
    unfold LZSS_MAX_ENCODE_LEN at hn
    unfold LZSS_MAX_DECODE_LEN
    omega
  refine ⟨hd, ?_⟩
  unfold read_file
  rw [read_file_loop_spec _ _ _ _ (Nat.lt_succ_self _) (Nat.zero_le _), if_neg (by
    simp only [List.length_nil, Nat.zero_add]; omega)]
  rfl

/-- Instance of C31: a source of three bytes, LZ11, VRAM-safe. -/
theorem lzss_encode_size_bound_witness :
    ([1, 2, 3] : Buffer).length ≤ LZSS_MAX_ENCODE_LEN ∧
      (lzss_encode [1, 2, 3] .LZ11 true).length ≤ 8 ∧
      (lzss_encode [1, 2, 3] .LZ11 true).length ≤ LZSS_MAX_DECODE_LEN :=
  ⟨by decide, (lzss_encode_size_bound [1, 2, 3] .LZ11 true).1,
   ((lzss_encode_size_bound [1, 2, 3] .LZ11 true).2 (by decide)).1⟩

/-! ## Decoding the output of the encoder raises no warning -/

/-- The unit emitted at the cursor stands for the bytes the iteration
consumes. -/
theorem lzss_unit_len (source : Buffer) (mode : LZSS_t) (vram : Bool) (E : EncState) :
    (lzss_iter source mode vram E).it = E.it + (lzss_unit source mode vram E.it).len := by
  obtain ⟨_, _, s3⟩ := lzss_iter_shape source mode vram E
  unfold lzss_unit
  rcases s3 with ⟨h3, h, _⟩ | ⟨h3, h, _⟩
  · rw [h]
    simp only [if_pos h3]
    rfl
  · rw [h]
    simp only [if_neg (show ¬ (lzss_select source mode vram E.it).2 < 3 by omega)]
    rfl

theorem lzss_units_loop_sum (source : Buffer) (mode : LZSS_t) (vram : Bool) (fuel : Nat) :
    ∀ E : EncState, E.it ≤ source.length → source.length - E.it ≤ fuel →
      E.it + ((lzss_units_loop source mode vram fuel E).map LzUnit.len).sum
        = source.length := by
  induction fuel with
  | zero =>
    intro E h1 h2
    rw [lzss_units_loop]
    simp only [List.map_nil, List.sum_nil]
    omega
  | succ n ih =>
    intro E h1 h2
    rw [lzss_units_loop]
    by_cases hit : E.it < source.length
    · rw [if_pos hit, List.map_cons, List.sum_cons]
      have hlt := lzss_iter_it_lt source mode vram E
      have hle := lzss_iter_it_le source mode vram E hit
      have hu := lzss_unit_len source mode vram E
      have := ih (lzss_iter source mode vram E) hle (by omega)
      omega
    · rw [if_neg hit]
      simp only [List.map_nil, List.sum_nil]
      omega

/-- C32: decoding the encoder's own output raises no warning.  For every
source `S` of fewer than `2^24` bytes, each mode and each vram flag, the run of
the decoder of the mode on `lzss_encode S mode vram` with the same flag
returns `S` and has printed nothing on `stderr`: neither the warning
`compressed block exceeds output length` nor the warning `not vram safe`.  The
lengths of the units the encoder emits (1 for a literal) sum to exactly the
length of `S`. -/
theorem lzss_encode_decodes_without_warning (S : Buffer) (mode : LZSS_t) (vram : Bool)
    (h : S.length < 2 ^ 24) :
    (∃ D, decode_run mode (lzss_encode S mode vram) vram = .ok D ∧ D.result = S ∧
      D.stderr = [] ∧ Warning.exceedsOutputLength ∉ D.stderr ∧
      Warning.notVramSafe ∉ D.stderr) ∧
    ((lzss_units S mode vram).map LzUnit.len).sum = S.length := by
  constructor
  · obtain ⟨D, hD, hr, _, he⟩ := decode_run_encode S mode vram h
    refine ⟨D, hD, hr, he, ?_, ?_⟩
    · rw [he]; exact List.not_mem_nil _
    · rw [he]; exact List.not_mem_nil _
  · have := lzss_units_loop_sum S mode vram S.length (lzss_init S mode)
      (Nat.zero_le _) (by show S.length - 0 ≤ S.length; omega)
    unfold lzss_units
    have e : (lzss_init S mode).it = 0 := rfl
    omega

/-- Instance of C32: a source with a repeated pattern, LZ10, VRAM-safe. -/
theorem lzss_encode_decodes_without_warning_witness :
    ([1, 2, 3, 1, 2, 3, 1, 2, 3, 1, 2, 3] : Buffer).length < 2 ^ 24 ∧
    (∃ D, decode_run .LZ10 (lzss_encode [1, 2, 3, 1, 2, 3, 1, 2, 3, 1, 2, 3] .LZ10 true) true
        = .ok D ∧ D.result = [1, 2, 3, 1, 2, 3, 1, 2, 3, 1, 2, 3] ∧
      D.stderr = [] ∧ Warning.exceedsOutputLength ∉ D.stderr ∧
      Warning.notVramSafe ∉ D.stderr) ∧
    ((lzss_units [1, 2, 3, 1, 2, 3, 1, 2, 3, 1, 2, 3] .LZ10 true).map LzUnit.len).sum = 12 :=
  ⟨by decide,
   lzss_encode_decodes_without_warning [1, 2, 3, 1, 2, 3, 1, 2, 3, 1, 2, 3] .LZ10 true
     (by decide)⟩

/-! ## The declared size and the output of the decoders -/

/-- Streams that agree after the header give the same byte at every position
after the header. -/
theorem deref_congr (s s' : Buffer) (hb : s.drop 4 = s'.drop 4) (src : Nat) (h4 : 4 ≤ src) :
    deref s src = deref s' src := by
  have e : s[src]? = s'[src]? := by
    have h1 : (s.drop 4)[src - 4]? = s[src]? := by
      rw [List.getElem?_drop]; congr 1; omega
    have h2 : (s'.drop 4)[src - 4]? = s'[src]? := by
      rw [List.getElem?_drop]; congr 1; omega
    rw [← h1, ← h2, hb]
  unfold deref
  rw [e]

theorem match_fields_congr (mode : LZSS_t) (s s' : Buffer) (hb : s.drop 4 = s'.drop 4)
    (src : Nat) (h4 : 4 ≤ src) : match_fields mode s src = match_fields mode s' src := by
  have e0 := deref_congr s s' hb src h4
  have e1 := deref_congr s s' hb (src + 1) (by omega)
  have e2 := deref_congr s s' hb (src + 2) (by omega)
  have e3 := deref_congr s s' hb (src + 3) (by omega)
  cases mode with
  | LZ10 => simp only [match_fields, lz10_fields, e0, e1]
  | LZ11 => simp only [match_fields, lz11_fields, e0, e1, e2, e3]

theorem load_flags_congr (s s' : Buffer) (hb : s.drop 4 = s'.drop 4) (D : DecState)
    (h4 : 4 ≤ D.src) : load_flags s D = load_flags s' D := by
  simp only [load_flags, deref_congr s s' hb D.src h4]

theorem load_flags_src (F : Buffer) (D D1 : DecState) (h : load_flags F D = .ok D1) :
    D.src ≤ D1.src := by
  unfold load_flags at h
  split at h
  · split at h
    · cases h
    · cases h; exact Nat.le_succ _
  · cases h; exact Nat.le_refl _

theorem decode_iter_congr (mode : LZSS_t) (s s' : Buffer) (vram : Bool)
    (hb : s.drop 4 = s'.drop 4) (D : DecState) (h4 : 4 ≤ D.src) :
    decode_iter mode s vram D = decode_iter mode s' vram D := by
  unfold decode_iter
  rw [load_flags_congr s s' hb D h4]
  cases hl : load_flags s' D with
  | error e => rfl
  | ok D1 =>
    have h1 := load_flags_src s' D D1 hl
    simp only [match_fields_congr mode s s' hb D1.src (by omega),
      deref_congr s s' hb D1.src (by omega)]

/-- The input iterator never moves backwards. -/
theorem decode_iter_src (mode : LZSS_t) (F : Buffer) (vram : Bool) (D D' : DecState)
    (h : decode_iter mode F vram D = .ok D') : D.src ≤ D'.src := by
  unfold decode_iter at h
  split at h
  · cases h
  · rename_i D1 hD1
    have h1 := load_flags_src F D D1 hD1
    split at h
    · split at h
      · cases h
      · rename_i len disp src hm
        obtain ⟨_, _, _, hsrc⟩ := match_fields_bounds mode F D1.src len disp src hm
        split at h
        · cases h
        · rename_i D2 hcb
          obtain ⟨_, _, _, c4, _, _⟩ := copy_block_ok vram D1 D2 src len disp hcb
          cases h
          show D.src ≤ D2.src
          omega
    · split at h
      · cases h
      · cases h
        show D.src ≤ D1.src + 1
        omega

theorem decode_loop_congr (mode : LZSS_t) (s s' : Buffer) (vram : Bool)
    (hb : s.drop 4 = s'.drop 4) (fuel : Nat) :
    ∀ D : DecState, 4 ≤ D.src →
      decode_loop mode s vram fuel D = decode_loop mode s' vram fuel D := by
  induction fuel with
  | zero => intro D _; rfl
  | succ n ih =>
    intro D h4
    rw [decode_loop, decode_loop, decode_iter_congr mode s s' vram hb D h4]
    by_cases hs : D.size > 0
    · rw [if_pos hs, if_pos hs]
      cases hi : decode_iter mode s' vram D with
      | error e => rfl
      | ok D1 =>
        have := decode_iter_src mode s' vram D D1 hi
        exact ih D1 (by omega)
    · rw [if_neg hs, if_neg hs]

theorem copy_loop_add (disp : Nat) : ∀ (a b : Nat) (r : Buffer),
    copy_loop disp (a + b) r = copy_loop disp b (copy_loop disp a r) := by
  intro a
  induction a with
  | zero => intro b r; rw [Nat.zero_add]; rfl
  | succ n ih =>
    intro b r
    rw [show n + 1 + b = (n + b) + 1 by omega, copy_loop, copy_loop, ih]

theorem copy_loop_grows (disp : Nat) : ∀ (len : Nat) (r : Buffer),
    r <+: copy_loop disp len r := by
  intro len
  induction len with
  | zero => intro r; exact List.prefix_refl r
  | succ n ih =>
    intro r
    rw [copy_loop]
    exact (List.prefix_append r _).trans (ih _)

/-- A truncated copy gives a prefix of the full copy. -/
theorem copy_loop_truncated (disp a b : Nat) (r : Buffer) (h : a ≤ b) :
    copy_loop disp a r <+: copy_loop disp b r := by
  obtain ⟨k, rfl⟩ := Nat.exists_eq_add_of_le h
  rw [copy_loop_add]
  exact copy_loop_grows disp k _

/-- The output of the decoders only grows during an iteration. -/
theorem decode_iter_result_grows (mode : LZSS_t) (F : Buffer) (vram : Bool) (D D' : DecState)
    (h : decode_iter mode F vram D = .ok D') : D.result <+: D'.result := by
  obtain ⟨D1, hl, hcase⟩ := decode_iter_ok mode F vram D D' h
  obtain ⟨_, l2, _, _, _⟩ := load_flags_ok F D D1 hl
  rcases hcase with ⟨_, b, _, hr, _⟩ | ⟨_, len, disp, src, D2, _, hcb, hr, _⟩
  · rw [hr, l2]; exact List.prefix_append _ _
  · obtain ⟨_, _, c3, _⟩ := copy_block_ok vram D1 D2 src len disp hcb
    rw [hr, c3, l2]; exact copy_loop_grows _ _ _

theorem decode_loop_result_grows (mode : LZSS_t) (F : Buffer) (vram : Bool) (fuel : Nat) :
    ∀ (D D' : DecState), decode_loop mode F vram fuel D = .ok D' →
      D.result <+: D'.result := by
  induction fuel with
  | zero =>
    intro D D' h
    rw [decode_loop] at h
    cases h
    exact List.prefix_refl _
  | succ n ih =>
    intro D D' h
    rw [decode_loop] at h
    split at h
    · split at h
      · cases h
      · rename_i D1 h1
        exact (decode_iter_result_grows mode F vram D D1 h1).trans (ih D1 D' h)
    · cases h
      exact List.prefix_refl _

theorem load_flags_sim (F : Buffer) (D D' L' : DecState) (hs : SameUnits D D')
    (h : load_flags F D' = .ok L') :
    ∃ L, load_flags F D = .ok L ∧ SameUnits L L' ∧ L.size = D.size := by
  unfold load_flags at h ⊢
  rw [hs.mask, hs.src]
  split at h
  · rename_i hm
    rw [if_pos hm]
    split at h
    · cases h
    · cases h
      exact ⟨_, rfl, ⟨rfl, rfl, rfl, hs.result, hs.size⟩, rfl⟩
  · rename_i hm
    rw [if_neg hm]
    cases h
    exact ⟨D, rfl, hs, rfl⟩

theorem copy_block_sim (vram : Bool) (L L' C' : DecState) (src len disp : Nat)
    (hs : SameUnits L L') (h : copy_block vram L' src len disp = .ok C') :
    ∃ C, copy_block vram L src len disp = .ok C ∧ C.src = C'.src ∧ C.flags = C'.flags ∧
      C.mask = C'.mask ∧ C.result <+: C'.result ∧
      (0 < C.size → C.result = C'.result ∧ C.size ≤ C'.size) := by
  obtain ⟨c1, c2, c3, c4, c5, c6⟩ := copy_block_ok vram L' C' src len disp h
  have hex : ∃ C, copy_block vram L src len disp = .ok C := by
    unfold copy_block
    rw [if_neg (by rw [hs.result]; omega)]
    exact ⟨_, rfl⟩
  obtain ⟨C, hC⟩ := hex
  obtain ⟨_, d2, d3, d4, d5, d6⟩ := copy_block_ok vram L C src len disp hC
  have hz := hs.size
  refine ⟨C, hC, by rw [d4, c4], by rw [d5, c5, hs.flags], by rw [d6, c6, hs.mask], ?_, ?_⟩
  · rw [d3, c3, hs.result]
    exact copy_loop_truncated disp _ _ _ (by omega)
  · intro hpos
    have e : min len L.size = min len L'.size := by omega
    refine ⟨by rw [d3, c3, hs.result, e], by omega⟩

/-- One iteration of the decoder loop from two states at the same point of the
stream, the first with less left to produce: when the second does not fail,
neither does the first, and it produces a prefix of what the second
produces. -/
theorem decode_iter_sim (mode : LZSS_t) (F : Buffer) (vram : Bool) (D D' D1' : DecState)
    (hs : SameUnits D D') (h : decode_iter mode F vram D' = .ok D1') :
    ∃ D1, decode_iter mode F vram D = .ok D1 ∧ D1.result <+: D1'.result ∧
      (0 < D1.size → SameUnits D1 D1') := by
  unfold decode_iter at h ⊢
  split at h
  · cases h
  · rename_i L' hL'
    obtain ⟨L, hL, hsL, hz⟩ := load_flags_sim F D D' L' hs hL'
    rw [hL]
    simp only []
    rw [hsL.flags, hsL.mask, hsL.src]
    split at h
    · rename_i hf
      rw [if_pos hf]
      split at h
      · cases h
      · rename_i len disp src hm
        split at h
        · cases h
        · rename_i C' hcb
          obtain ⟨C, hC, k1, k2, k3, k4, k5⟩ := copy_block_sim vram L L' C' src len disp hsL hcb
          rw [hC]
          cases h
          refine ⟨_, rfl, k4, fun hpos => ?_⟩
          obtain ⟨k6, k7⟩ := k5 hpos
          exact ⟨k1, k2, by show C.mask >>> 1 = C'.mask >>> 1; rw [k3], k6, k7⟩
    · rename_i hf
      rw [if_neg hf]
      split at h
      · cases h
      · rename_i b hb
        cases h
        refine ⟨_, rfl, ?_, fun _ => ?_⟩
        · show L.result ++ [b] <+: L'.result ++ [b]
          rw [hsL.result]
        · exact ⟨rfl, rfl, rfl,
            by show L.result ++ [b] = L'.result ++ [b]; rw [hsL.result],
            by show L.size - 1 ≤ L'.size - 1; have := hsL.size; omega⟩

theorem decode_loop_sim (mode : LZSS_t) (F : Buffer) (vram : Bool) (fuel : Nat) :
    ∀ (D D' Df' : DecState) (fuel' : Nat), D.result <+: D'.result →
      (0 < D.size → SameUnits D D') → D.size ≤ fuel → D'.size ≤ fuel' →
      decode_loop mode F vram fuel' D' = .ok Df' →
      ∃ Df, decode_loop mode F vram fuel D = .ok Df ∧ Df.size = 0 ∧
        Df.result <+: Df'.result := by
  induction fuel with
  | zero =>
    intro D D' Df' fuel' hp _ hz _ h
    exact ⟨D, rfl, by omega, hp.trans (decode_loop_result_grows mode F vram fuel' D' Df' h)⟩
  | succ n ih =>
    intro D D' Df' fuel' hp hS hz hz' h
    by_cases hpos : 0 < D.size
    · have hsu := hS hpos
      have := hsu.size
      cases fuel' with
      | zero => omega
      | succ m =>
        rw [decode_loop, if_pos (by omega)] at h
        split at h
        · cases h
        · rename_i D1' hi'
          obtain ⟨D1, hi, hp1, hS1⟩ := decode_iter_sim mode F vram D D' D1' hsu hi'
          rw [decode_loop, if_pos hpos, hi]
          have s1 := (decode_iter_size mode F vram D D1 hi hpos).1
          have s2 := (decode_iter_size mode F vram D' D1' hi' (by omega)).1
          exact ih D1 D1' Df' m hp1 hS1 (by omega) (by omega) h
    · exact ⟨D, decode_loop_done mode F vram _ D (by omega), by omega,
        hp.trans (decode_loop_result_grows mode F vram fuel' D' Df' h)⟩

/-- A run of a decoder on a stream whose header declares a smaller size. -/
theorem decode_run_mono (mode : LZSS_t) (s s' : Buffer) (vram : Bool) (D' : DecState)
    (hlen : s.length = s'.length) (htag : s.getD 0 0 = s'.getD 0 0)
    (hb : s.drop 4 = s'.drop 4) (hN : declared_size s ≤ declared_size s')
    (h : decode_run mode s' vram = .ok D') :
    ∃ D, decode_run mode s vram = .ok D ∧
      D.result = D'.result.take (declared_size s) := by
  unfold decode_run at h ⊢
  by_cases hbad : bad_header mode s'
  · rw [if_pos hbad] at h
    cases h
  · have hbad2 : ¬ bad_header mode s := by
      unfold bad_header at hbad ⊢
      rw [hlen, htag]
      exact hbad
    rw [if_neg hbad] at h
    rw [if_neg hbad2, decode_loop_congr mode s s' vram hb _ (decode_init s) (Nat.le_refl 4)]
    obtain ⟨Df, h1, _, h3⟩ := decode_loop_sim mode s' vram (declared_size s)
      (decode_init s) (decode_init s') D' (declared_size s') (List.prefix_refl _)
      (fun _ => ⟨rfl, rfl, rfl, rfl, hN⟩) (Nat.le_refl _) (Nat.le_refl _) h
    refine ⟨Df, h1, ?_⟩
    have hl := (decode_loop_ok mode s' vram _ _ Df h1 (Nat.le_refl _)).2
    have hl2 : Df.result.length = declared_size s := by
      rw [hl]
      show 0 + declared_size s = declared_size s
      omega
    have := List.prefix_iff_eq_take.mp h3
    rw [hl2] at this
    exact this

/-- C33: decoding is prefix-monotone in the declared size.  For two streams
`s` and `s'` that are identical except for the 24-bit size in the header,
`s` declaring `N`, `s'` declaring `N'` and `N ≤ N'`, and each vram flag: when
`lz10_decode` returns a buffer on `s'` it returns one on `s`, and that buffer
is exactly the first `N` bytes of the other; likewise `lz11_decode`. -/
theorem decode_prefix_monotone (s s' : Buffer) (vram : Bool) (out' : Buffer)
    (hlen : s.length = s'.length) (htag : s.getD 0 0 = s'.getD 0 0)
    (hb : s.drop 4 = s'.drop 4) (hN : declared_size s ≤ declared_size s') :
    (lz10_decode s' vram = .ok out' →
      lz10_decode s vram = .ok (out'.take (declared_size s))) ∧
    (lz11_decode s' vram = .ok out' →
      lz11_decode s vram = .ok (out'.take (declared_size s))) := by
  constructor
  · intro h
    unfold lz10_decode at h ⊢
    split at h
    · cases h
    · rename_i D' hD'
      cases h
      obtain ⟨D, hD, hr⟩ := decode_run_mono .LZ10 s s' vram D' hlen htag hb hN hD'
      rw [hD]
      exact congrArg Except.ok hr
  · intro h
    unfold lz11_decode at h ⊢
    split at h
    · cases h
    · rename_i D' hD'
      cases h
      obtain ⟨D, hD, hr⟩ := decode_run_mono .LZ11 s s' vram D' hlen htag hb hN hD'
      rw [hD]
      exact congrArg Except.ok hr

/-- Instance of C33: a literal 7 followed by a block of length 4 and
displacement 1; the header of the second stream declares 5 bytes, that of the
first 3, so that the block is truncated. -/
theorem decode_prefix_monotone_witness :
    ([0x10, 3, 0, 0, 0x40, 7, 0x10, 0x00] : Buffer).length
        = ([0x10, 5, 0, 0, 0x40, 7, 0x10, 0x00] : Buffer).length ∧
      declared_size [0x10, 3, 0, 0, 0x40, 7, 0x10, 0x00]
        ≤ declared_size [0x10, 5, 0, 0, 0x40, 7, 0x10, 0x00] ∧
      lz10_decode [0x10, 5, 0, 0, 0x40, 7, 0x10, 0x00] false = .ok [7, 7, 7, 7, 7] ∧
      lz10_decode [0x10, 3, 0, 0, 0x40, 7, 0x10, 0x00] false = .ok [7, 7, 7] :=
  ⟨rfl, by decide, by decide,
   (decode_prefix_monotone [0x10, 3, 0, 0, 0x40, 7, 0x10, 0x00]
      [0x10, 5, 0, 0, 0x40, 7, 0x10, 0x00] false [7, 7, 7, 7, 7] rfl rfl rfl
      (by decide)).1 (by decide)⟩

/-! ## Termination of the loops -/

/-- The loop of the decoders gives the same result with every fuel that is at
least the remaining size. -/
theorem decode_loop_fuel (mode : LZSS_t) (F : Buffer) (vram : Bool) (fuel1 : Nat) :
    ∀ (fuel2 : Nat) (D : DecState), D.size ≤ fuel1 → D.size ≤ fuel2 →
      decode_loop mode F vram fuel1 D = decode_loop mode F vram fuel2 D := by
  induction fuel1 with
  | zero =>
    intro fuel2 D h1 _
    rw [decode_loop_done mode F vram 0 D (by omega),
      decode_loop_done mode F vram fuel2 D (by omega)]
  | succ n ih =>
    intro fuel2 D h1 h2
    cases fuel2 with
    | zero =>
      rw [decode_loop_done mode F vram (n + 1) D (by omega),
        decode_loop_done mode F vram 0 D (by omega)]
    | succ m =>
      rw [decode_loop, decode_loop]
      by_cases hs : D.size > 0
      · rw [if_pos hs, if_pos hs]
        cases hi : decode_iter mode F vram D with
        | error e => rfl
        | ok D1 =>
          have := (decode_iter_size mode F vram D D1 hi hs).1
          exact ih m D1 (by omega) (by omega)
      · rw [if_neg hs, if_neg hs]

/-- What an iteration of the decoder loop that does not fail does to the
remaining size. -/
theorem decode_iter_decrease (mode : LZSS_t) (F : Buffer) (vram : Bool) (D D' : DecState)
    (h : decode_iter mode F vram D = .ok D') (hs : 0 < D.size) :
    ∃ D1, load_flags F D = .ok D1 ∧
      ((D1.flags &&& D1.mask = 0 ∧ D'.size = D.size - 1) ∨
       (D1.flags &&& D1.mask ≠ 0 ∧ ∃ len disp src,
          match_fields mode F D1.src = .ok (len, disp, src) ∧
          1 ≤ min len D.size ∧ D'.size = D.size - min len D.size)) := by
  obtain ⟨D1, hl, hcase⟩ := decode_iter_ok mode F vram D D' h
  obtain ⟨l1, _, _, _, _⟩ := load_flags_ok F D D1 hl
  refine ⟨D1, hl, ?_⟩
  rcases hcase with ⟨hf, b, _, _, hz⟩ | ⟨hf, len, disp, src, D2, hm, hcb, _, hz⟩
  · left
    exact ⟨hf, by rw [hz, l1]⟩
  · right
    obtain ⟨hlen, _, _, _⟩ := match_fields_bounds mode F D1.src len disp src hm
    obtain ⟨_, c2, _, _⟩ := copy_block_ok vram D1 D2 src len disp hcb
    refine ⟨hf, len, disp, src, hm, ?_, ?_⟩
    · rw [Nat.le_min]; omega
    · rw [hz, c2, l1]

/-- The loop of `lzss_encode` gives the same result with every fuel that is at
least the number of source bytes after the cursor. -/
theorem lzss_loop_fuel (source : Buffer) (mode : LZSS_t) (vram : Bool) (fuel1 : Nat) :
    ∀ (fuel2 : Nat) (E : EncState), source.length - E.it ≤ fuel1 →
      source.length - E.it ≤ fuel2 →
      lzss_loop source mode vram fuel1 E = lzss_loop source mode vram fuel2 E := by
  induction fuel1 with
  | zero =>
    intro fuel2 E h1 _
    cases fuel2 with
    | zero => rfl
    | succ m => rw [lzss_loop, lzss_loop, if_neg (by omega)]
  | succ n ih =>
    intro fuel2 E h1 h2
    cases fuel2 with
    | zero => rw [lzss_loop, lzss_loop, if_neg (by omega)]
    | succ m =>
      rw [lzss_loop, lzss_loop]
      by_cases hit : E.it < source.length
      · rw [if_pos hit, if_pos hit]
        have := lzss_iter_it_lt source mode vram E
        exact ih m _ (by omega) (by omega)
      · rw [if_neg hit, if_neg hit]

/-- C34: termination of the decoders and of the encoder.  For every input
(well-formed or corrupt; a read at or past the end of the input is the failure
`srcPastEnd`), each mode and vram flag: an iteration of the loop of
`lz10_decode` / `lz11_decode` that does not fail strictly decreases the
remaining size, a literal by 1 and a compressed block by its length after
truncation, which is at least 1; so the relation between the states of
consecutive iterations is well-founded, the loop ends within `size`
iterations (more fuel does not change its result) and returns only with
`size = 0`.  Every iteration of the loop of `lzss_encode` advances the cursor
by at least 1; the relation between consecutive states is well-founded, the
loop ends within `source.length - it` iterations with the cursor at or past
the end, and so do the loops of `find_best_match`. -/
theorem decoders_and_encoder_terminate (mode : LZSS_t) (source : Buffer) (vram : Bool) :
    (∀ D D' : DecState, 0 < D.size → decode_iter mode source vram D = .ok D' →
      D'.size < D.size ∧
      ∃ D1, load_flags source D = .ok D1 ∧
        ((D1.flags &&& D1.mask = 0 ∧ D'.size = D.size - 1) ∨
         (D1.flags &&& D1.mask ≠ 0 ∧ ∃ len disp src,
            match_fields mode source D1.src = .ok (len, disp, src) ∧
            1 ≤ min len D.size ∧ D'.size = D.size - min len D.size))) ∧
    WellFounded (fun D' D : DecState =>
      0 < D.size ∧ decode_iter mode source vram D = .ok D') ∧
    (∀ (D : DecState) (fuel : Nat), D.size ≤ fuel →
      decode_loop mode source vram fuel D = decode_loop mode source vram D.size D ∧
      ∀ D', decode_loop mode source vram fuel D = .ok D' → D'.size = 0) ∧
    (∀ E : EncState, E.it + 1 ≤ (lzss_iter source mode vram E).it) ∧
    WellFounded (fun E' E : EncState =>
      E.it < source.length ∧ E' = lzss_iter source mode vram E) ∧
    (∀ (E : EncState) (fuel : Nat), source.length - E.it ≤ fuel →
      lzss_loop source mode vram fuel E
        = lzss_loop source mode vram (source.length - E.it) E ∧
      source.length ≤ (lzss_loop source mode vram fuel E).it) ∧
    (∀ (it len max_disp k : Nat),
      fbm_loop source (if it > max_disp then it - max_disp else 0) it len vram (it + k)
          (rfind source (if it > max_disp then it - max_disp else 0) it (source.getD it 0))
          it it 0
        = fbm_loop source (if it > max_disp then it - max_disp else 0) it len vram it
          (rfind source (if it > max_disp then it - max_disp else 0) it (source.getD it 0))
          it it 0) ∧
    (∀ (p it len k : Nat),
      test_len_loop source p it len (len + k) 1 1 = test_len_loop source p it len len 1 1) := by
  refine ⟨?_, ?_, ?_, ?_, ?_, ?_, ?_, ?_⟩
  · intro D D' hs h
    exact ⟨(decode_iter_size mode source vram D D' h hs).1,
      decode_iter_decrease mode source vram D D' h hs⟩
  · exact Subrelation.wf
      (fun {a b} h => (decode_iter_size mode source vram b a h.2 h.1).1)
      (measure DecState.size).wf
  · intro D fuel hf
    refine ⟨decode_loop_fuel mode source vram fuel D.size D hf (Nat.le_refl _), ?_⟩
    intro D' h
    exact (decode_loop_ok mode source vram fuel D D' h hf).1
  · intro E
    exact lzss_iter_it_lt source mode vram E
  · refine Subrelation.wf (fun {a b} h => ?_) (measure (fun E : EncState => source.length - E.it)).wf
    show source.length - a.it < source.length - b.it
    have := lzss_iter_it_lt source mode vram b
    rw [h.2]
    have := h.1
    omega
  · intro E fuel hf
    exact ⟨lzss_loop_fuel source mode vram fuel _ E hf (Nat.le_refl _),
      lzss_loop_done source mode vram fuel E hf⟩
  · intro it len max_disp k
    have hr : ∀ f, it ≤ f →
        (rfind source (if it > max_disp then it - max_disp else 0) it (source.getD it 0) = it ∨
          rfind source (if it > max_disp then it - max_disp else 0) it (source.getD it 0) < f) := by
      intro f hf
      rcases rfind_spec source (if it > max_disp then it - max_disp else 0) it
        (source.getD it 0) with h | ⟨_, h, _⟩
      · left; exact h
      · right; omega
    exact fbm_loop_fuel source _ it len vram (it + k) it _ it it 0
      (hr _ (by omega)) (hr _ (Nat.le_refl _))
  · intro p it len k
    exact test_len_loop_fuel source p it len (len + k) len 1 1 (by omega) (by omega)

/-- Instance of C34: the first iteration of `lz10_decode` on a stream of two
literals reads the flags byte and the literal 5, and leaves one byte to
produce. -/
theorem decoders_and_encoder_terminate_witness :
    0 < (decode_init [0x10, 2, 0, 0, 0x00, 5, 6]).size ∧
      decode_iter .LZ10 [0x10, 2, 0, 0, 0x00, 5, 6] false
          (decode_init [0x10, 2, 0, 0, 0x00, 5, 6])
        = .ok { src := 6, flags := 0, mask := 0x40, size := 1, result := [5],
                printed_error := false, printed_vram_error := false, stderr := [] } ∧
      (1 : Nat) < (decode_init [0x10, 2, 0, 0, 0x00, 5, 6]).size :=
  ⟨by decide, by decide,
   ((decoders_and_encoder_terminate .LZ10 [0x10, 2, 0, 0, 0x00, 5, 6] false).1 _
      { src := 6, flags := 0, mask := 0x40, size := 1, result := [5],
        printed_error := false, printed_vram_error := false, stderr := [] }
      (by decide) (by decide)).1⟩

end GbaLzss
